import Mathlib

/-! # sLSM: a skiplist-based LSM tree

A shallow embedding of `run.hpp`, `bloom.hpp`, `skipList.hpp`, `diskRun.hpp`,
`diskLevel.hpp` and `lsm.hpp`, instantiated at `K = V = int`.

Conventions of the embedding

* Keys and values are `Int`; the C++ `int` range is `[INT_MIN, INT_MAX]`.
* Sizes and indices are `Nat`; unsigned arithmetic that can wrap is written
  with an explicit `% 2 ^ 32` or `% 2 ^ 64`.
* A function returns `none` when the C++ code leaves defined behaviour or ends
  the process: an access outside a vector or outside the mapped file, a
  division by zero, a failed `assert`, a call to `exit`, a read of a variable
  that was never written, an overflowing `int` counter.
* Loops are structural recursions on a fuel argument fixed by the caller from
  the sizes involved.
* The merge thread is run to completion inside `do_merge`: the foreground
  joins it before every access to the disk levels, and the thread touches
  nothing but the disk levels and the runs it was handed.
-/

set_option linter.unusedVariables false

namespace SLSM

/-! ## run.hpp -/

/-- The smallest `int`. -/
def INT_MIN : Int := -2147483648

/-- The largest `int`. -/
def INT_MAX : Int := 2147483647

/-- The global `TOMBSTONE` of `diskLevel.hpp`. -/
def TOMBSTONE : Int := INT_MIN

/-- The member `V_TOMBSTONE = (V) TOMBSTONE` of `LSM` and `DiskLevel`. -/
def V_TOMBSTONE : Int := TOMBSTONE

/-- The struct `KVPair<K,V>`. -/
structure KVPair where
  key : Int
  value : Int
  deriving DecidableEq, Repr, Inhabited

/-! ## bloom.hpp -/

/-- What the sources leave outside `src/`: the hash of `MurmurHash.h` and the
floating-point sizing done by the constructor of `BloomFilter`.
`hash k` is the pair of 64-bit words `MurmurHash3_x64_128` yields for the bytes of `k`;
`bfBits n` is `(int) size` and `bfHashes n` is `m_numHashes` for a filter
built for `n` elements at the false-positive rate of the store. -/
structure Env where
  hash : Int → Nat × Nat
  bfBits : Nat → Nat
  bfHashes : Nat → Nat

/-- The class `BloomFilter<Key>`. -/
structure BloomFilter where
  m_numHashes : Nat
  m_bits : List Bool
  deriving DecidableEq, Repr

namespace BloomFilter

/-- The constructor `BloomFilter(n, fp)`; the two numbers it computes in
floating point come from the environment. -/
def new (E : Env) (n : Nat) : BloomFilter :=
  { m_numHashes := E.bfHashes n, m_bits := List.replicate (E.bfBits n) false }

/-- The member `nthHash`: `(hashA + n * hashB) % filterSize` on `uint64_t`. -/
def nthHash (n hashA hashB filterSize : Nat) : Option Nat :=
  if filterSize = 0 then none
  else some (((hashA + (n * hashB) % 2 ^ 64) % 2 ^ 64) % filterSize)

/-- The loop of `add`, for the rounds `n, n + 1, ..., n + fuel - 1`. -/
def addLoop (hashA hashB : Nat) : Nat → Nat → List Bool → Option (List Bool)
  | 0, _, bits => some bits
  | fuel + 1, n, bits =>
    match nthHash n hashA hashB bits.length with
    | none => none
    | some i => addLoop hashA hashB fuel (n + 1) (bits.set i true)

/-- The member `add`. -/
def add (E : Env) (bf : BloomFilter) (key : Int) : Option BloomFilter :=
  match addLoop (E.hash key).1 (E.hash key).2 bf.m_numHashes 0 bf.m_bits with
  | none => none
  | some bits => some { bf with m_bits := bits }

/-- The loop of `mayContain`, for the rounds `n, n + 1, ..., n + fuel - 1`. -/
def mayContainLoop (hashA hashB : Nat) (bits : List Bool) : Nat → Nat → Option Bool
  | 0, _ => some true
  | fuel + 1, n =>
    match nthHash n hashA hashB bits.length with
    | none => none
    | some i =>
      match bits[i]? with
      | none => none
      | some b => if b then mayContainLoop hashA hashB bits fuel (n + 1) else some false

/-- The member `mayContain`. -/
def mayContain (E : Env) (bf : BloomFilter) (key : Int) : Option Bool :=
  mayContainLoop (E.hash key).1 (E.hash key).2 bf.m_bits bf.m_numHashes 0

end BloomFilter

/-! ## diskRun.hpp -/

/-- The class `DiskRun<K,V>`. `map` is the whole mapped file, `_capacity` the
number of pairs in use. The file descriptor and the file name are left out. -/
structure DiskRun where
  map : List KVPair
  pageSize : Nat
  bf : BloomFilter
  minKey : Int
  maxKey : Int
  _capacity : Nat
  _level : Int
  _fencePointers : List Int
  _iMaxFP : Nat
  _runID : Nat
  deriving DecidableEq, Repr

namespace DiskRun

/-- The constructor: a file of `capacity` pairs, stretched with `lseek` and one
written byte (so it reads as zeros) and mapped. With `capacity = 0` the
`lseek` to offset `-1` fails and the process exits. -/
def new (E : Env) (capacity pageSize : Nat) (level : Int) (runID : Nat) : Option DiskRun :=
  if capacity = 0 then none
  else some
    { map := List.replicate capacity ⟨0, 0⟩
      pageSize := pageSize
      bf := BloomFilter.new E capacity
      minKey := INT_MIN
      maxKey := INT_MIN
      _capacity := capacity
      _level := level
      _fencePointers := []
      _iMaxFP := 0
      _runID := runID }

/-- The member `setCapacity`. -/
def setCapacity (r : DiskRun) (newCap : Nat) : DiskRun :=
  { r with _capacity := newCap }

/-- The member `getCapacity`. -/
def getCapacity (r : DiskRun) : Nat := r._capacity

/-- The member `writeData`: `memcpy` of `len` pairs to `map + offset`. -/
def writeData (r : DiskRun) (run : List KVPair) (offset len : Nat) : Option DiskRun :=
  if run.length < len ∨ r.map.length < offset + len then none
  else some
    { r with
      map := r.map.take offset ++ run.take len ++ r.map.drop (offset + len)
      _capacity := len }

/-- The `for` loop of `constructIndex`, from `j` on, for `fuel` rounds;
the state is the filter, the fence pointers and `_iMaxFP`. -/
def constructIndexLoop (E : Env) (map : List KVPair) (pageSize : Nat) :
    Nat → Nat → BloomFilter → List Int → Nat → Option (BloomFilter × List Int × Nat)
  | 0, _, bf, fps, iMax => some (bf, fps, iMax)
  | fuel + 1, j, bf, fps, iMax =>
    match map[j]? with
    | none => none
    | some kv =>
      match bf.add E kv.key with
      | none => none
      | some bf1 =>
        if pageSize = 0 then none
        else if j % pageSize = 0 then
          constructIndexLoop E map pageSize fuel (j + 1) bf1 (fps ++ [kv.key]) ((iMax + 1) % 2 ^ 32)
        else constructIndexLoop E map pageSize fuel (j + 1) bf1 fps iMax

/-- The call `v.resize(n)` on a vector of keys. -/
def resizeKeys (v : List Int) (n : Nat) : List Int :=
  v.take n ++ List.replicate (n - v.length) 0

/-- The member `constructIndex`. The counter `j` is an `int`, so a capacity
above `INT_MAX` overflows it; `map[_capacity - 1]` is read at index
`2 ^ 64 - 1` when the capacity is zero. -/
def constructIndex (E : Env) (r : DiskRun) : Option DiskRun :=
  if 2147483647 < r._capacity then none
  else
    match constructIndexLoop E r.map r.pageSize r._capacity 0 r.bf r._fencePointers (2 ^ 32 - 1) with
    | none => none
    | some (bf, fps, iMax) =>
      match r.map[0]?, r.map[(r._capacity + (2 ^ 64 - 1)) % 2 ^ 64]? with
      | some kv0, some kvLast =>
        some
          { r with
            bf := bf
            _fencePointers := resizeKeys fps ((iMax + 1) % 2 ^ 32)
            _iMaxFP := iMax
            minKey := kv0.key
            maxKey := kvLast.key }
      | _, _ => none

/-- The `while` loop of `binary_search`. Every round shrinks `max - min`, so
`n + 1` rounds are enough for a bracket of `n` pairs; when `max = middle - 1`
wraps below zero the next `middle` is outside every mapping. -/
def binarySearchLoop (map : List KVPair) (key : Int) :
    Nat → Nat → Nat → Bool → Option (Nat × Bool)
  | 0, _, _, _ => none
  | fuel + 1, min, max, found =>
    if min ≤ max then
      match map[((min + max) % 2 ^ 64) / 2]? with
      | none => none
      | some kv =>
        if key > kv.key then
          binarySearchLoop map key fuel ((((min + max) % 2 ^ 64) / 2 + 1) % 2 ^ 64) max found
        else if key = kv.key then some (((min + max) % 2 ^ 64) / 2, true)
        else
          binarySearchLoop map key fuel min ((((min + max) % 2 ^ 64) / 2 + (2 ^ 64 - 1)) % 2 ^ 64) found
    else some (min, found)

/-- The member `binary_search`; the result is the returned index and `found`. -/
def binary_search (r : DiskRun) (offset n : Nat) (key : Int) (found : Bool) : Option (Nat × Bool) :=
  if n = 0 then some (offset, true)
  else binarySearchLoop r.map key (n + 1) offset ((offset + n + (2 ^ 64 - 1)) % 2 ^ 64) found

/-- The `while (min < max)` loop of `get_flanking_FP`, on `unsigned`. Leaving
the loop without a `return` leaves `start` and `end` unwritten. -/
def flankingLoop (fps : List Int) (pageSize : Nat) (key : Int) :
    Nat → Nat → Nat → Option (Nat × Nat)
  | 0, _, _ => none
  | fuel + 1, min, max =>
    if min < max then
      let middle := ((min + max) % 2 ^ 32) / 2
      match fps[middle]? with
      | none => none
      | some fm =>
        if key > fm then
          match fps[(middle + 1) % 2 ^ 32]? with
          | none => none
          | some fnext =>
            if key < fnext then
              some ((middle * pageSize) % 2 ^ 32, (((middle + 1) % 2 ^ 32) * pageSize) % 2 ^ 32)
            else flankingLoop fps pageSize key fuel ((middle + 1) % 2 ^ 32) max
        else if key < fm then
          match fps[(middle + (2 ^ 32 - 1)) % 2 ^ 32]? with
          | none => none
          | some fprev =>
            if key ≥ fprev then
              some ((((middle + (2 ^ 32 - 1)) % 2 ^ 32) * pageSize) % 2 ^ 32,
                (middle * pageSize) % 2 ^ 32)
            else flankingLoop fps pageSize key fuel min ((middle + (2 ^ 32 - 1)) % 2 ^ 32)
        else some ((middle * pageSize) % 2 ^ 32, (middle * pageSize) % 2 ^ 32)
    else none

/-- The member `get_flanking_FP`; the result is `(start, end)`. -/
def get_flanking_FP (r : DiskRun) (key : Int) : Option (Nat × Nat) :=
  if r._iMaxFP = 0 then some (0, r._capacity)
  else
    match r._fencePointers[1]? with
    | none => none
    | some f1 =>
      if key < f1 then some (0, r.pageSize)
      else
        match r._fencePointers[r._iMaxFP]? with
        | none => none
        | some fl =>
          if key ≥ fl then some ((r._iMaxFP * r.pageSize) % 2 ^ 32, r._capacity)
          else flankingLoop r._fencePointers r.pageSize key (r._iMaxFP + 1) 0 r._iMaxFP

/-- The member `get_index`. -/
def get_index (r : DiskRun) (key : Int) (found : Bool) : Option (Nat × Bool) :=
  match r.get_flanking_FP key with
  | none => none
  | some (start, stop) => r.binary_search start ((stop + (2 ^ 64 - start)) % 2 ^ 64) key found

/-- The member `lookup`; the result is the returned value and `found`. -/
def lookup (r : DiskRun) (key : Int) (found : Bool) : Option (Int × Bool) :=
  match r.get_index key found with
  | none => none
  | some (idx, found1) =>
    match r.map[idx]? with
    | none => none
    | some kv => some (if found1 then kv.value else 0, found1)

/-- The member `range`; the result is `(i1, i2)`. -/
def range (r : DiskRun) (key1 key2 : Int) : Option (Nat × Nat) :=
  if key1 > r.maxKey ∨ key2 < r.minKey then some (0, 0)
  else
    match (if key1 ≥ r.minKey then (r.get_index key1 false).map Prod.fst else some 0) with
    | none => none
    | some i1 =>
      if key2 > r.maxKey then some (i1, r._capacity)
      else
        match r.get_index key2 false with
        | none => none
        | some (i2, _) => some (i1, i2)

end DiskRun

/-! ## diskLevel.hpp -/

/-- The type `KVIntPair_t = pair<KVPair<K,V>, int>`: a pair and the index of its source run. -/
abbrev KVIntPair := KVPair × Int

/-- The member `KVPAIRMAX`. -/
def KVPAIRMAX : KVPair := ⟨INT_MAX, 0⟩

/-- The member `KVINTPAIRMAX`. -/
def KVINTPAIRMAX : KVIntPair := (KVPAIRMAX, -1)

/-- The comparison `operator<` of `std::pair` over `KVPair::operator<`, which compares keys only. -/
def KVIntPair.lt (a b : KVIntPair) : Bool :=
  decide (a.1.key < b.1.key) || (!decide (b.1.key < a.1.key) && decide (a.2 < b.2))

/-- The conversion of an `int` to `unsigned`. -/
def toUnsigned (x : Int) : Nat := (x % 2 ^ 32).toNat

/-- The struct `DiskLevel::StaticHeap`. -/
structure StaticHeap where
  size : Nat
  arr : List KVIntPair
  max : KVIntPair
  deriving DecidableEq, Repr

namespace StaticHeap

/-- The constructor `StaticHeap(sz, mx)`. -/
def new (sz : Nat) (mx : KVIntPair) : StaticHeap :=
  { size := 0, arr := List.replicate sz mx, max := mx }

/-- The assignment `arr[i] = x` on a vector, without a bounds check in C++. -/
def store (arr : List KVIntPair) (i : Nat) (x : KVIntPair) : Option (List KVIntPair) :=
  if i < arr.length then some (arr.set i x) else none

/-- The `while` loop of `push` and the final `arr[i] = blob`. -/
def pushLoop (blob : KVIntPair) : Nat → Nat → List KVIntPair → Option (List KVIntPair)
  | 0, _, _ => none
  | fuel + 1, i, arr =>
    if i = 0 then store arr i blob
    else
      match arr[(i - 1) / 2]? with
      | none => none
      | some p =>
        if blob.lt p then
          match store arr i p with
          | none => none
          | some arr1 => pushLoop blob fuel ((i - 1) / 2) arr1
        else store arr i blob

/-- The member `push`. -/
def push (h : StaticHeap) (blob : KVIntPair) : Option StaticHeap :=
  match pushLoop blob (h.size + 1) h.size h.arr with
  | none => none
  | some arr => some { h with size := h.size + 1, arr := arr }

/-- The member `heapify`, a recursion that goes down one level of the heap per call. -/
def heapify (size : Nat) : Nat → Nat → List KVIntPair → Option (List KVIntPair)
  | 0, _, _ => none
  | fuel + 1, i, arr =>
    match arr[i]? with
    | none => none
    | some ai =>
      match (if 2 * i + 1 < size then
              (match arr[2 * i + 1]? with
               | none => none
               | some al => some (if al.lt ai then 2 * i + 1 else i))
            else some i) with
      | none => none
      | some s1 =>
        match (if 2 * i + 2 < size then
                (match arr[2 * i + 2]?, arr[s1]? with
                 | some ar, some as1 => some (if ar.lt as1 then 2 * i + 2 else s1)
                 | _, _ => none)
              else some s1) with
        | none => none
        | some smallest =>
          if smallest ≠ i then
            match arr[smallest]? with
            | none => none
            | some asm => heapify size fuel smallest ((arr.set i asm).set smallest ai)
          else some arr

/-- The member `pop`; the result is the returned pair and the heap left. -/
def pop (h : StaticHeap) : Option (KVIntPair × StaticHeap) :=
  if h.size = 0 then none
  else
    match h.arr[0]?, h.arr[h.size - 1]? with
    | some ret, some last =>
      match heapify (h.size - 1) (h.size + 1) 0 (h.arr.set 0 last) with
      | none => none
      | some arr => some (ret, { h with size := h.size - 1, arr := arr })
    | _, _ => none

end StaticHeap

/-- The class `DiskLevel<K,V>`. -/
structure DiskLevel where
  _level : Int
  _pageSize : Nat
  _runSize : Nat
  _numRuns : Nat
  _activeRun : Nat
  _mergeSize : Nat
  runs : List DiskRun
  deriving DecidableEq, Repr

namespace DiskLevel

/-- The runs `DiskRun(runSize, pageSize, level, i, bf_fp)` for `i = first, ..., first + n - 1`. -/
def newRuns (E : Env) (runSize pageSize : Nat) (level : Int) : Nat → Nat → Option (List DiskRun)
  | 0, _ => some []
  | n + 1, first =>
    match DiskRun.new E runSize pageSize level first, newRuns E runSize pageSize level n (first + 1) with
    | some r, some rs => some (r :: rs)
    | _, _ => none

/-- The constructor `DiskLevel(pageSize, level, runSize, numRuns, mergeSize, bf_fp)`. -/
def new (E : Env) (pageSize : Nat) (level : Int) (runSize numRuns mergeSize : Nat) : Option DiskLevel :=
  match newRuns E runSize pageSize level numRuns 0 with
  | none => none
  | some rs =>
    some
      { _level := level
        _pageSize := pageSize
        _runSize := runSize
        _numRuns := numRuns
        _activeRun := 0
        _mergeSize := mergeSize
        runs := rs }

/-- The first `for` loop of `addRuns`: push `(runList[i]->map[0], i)` for every source from `i` on. -/
def pushHeads : List DiskRun → Int → StaticHeap → Option StaticHeap
  | [], _, h => some h
  | r :: rest, i, h =>
    match r.map[0]? with
    | none => none
    | some kvp =>
      match h.push (kvp, i) with
      | none => none
      | some h1 => pushHeads rest (i + 1) h1

/-- The assignment `map[j] = kv` on the mapped file, `j` an `int`. -/
def storeKV (map : List KVPair) (j : Int) (kv : KVPair) : Option (List KVPair) :=
  if 0 ≤ j ∧ j.toNat < map.length then some (map.set j.toNat kv) else none

/-- The read `map[j]` on the mapped file, `j` an `int`. -/
def loadKV (map : List KVPair) (j : Int) : Option KVPair :=
  if 0 ≤ j then map[j.toNat]? else none

/-- The part of the state of the `while` loop of `addRuns` that the writes to
the destination use: the destination file, `j`, `lastKey` and `lastk`. -/
structure EmitState where
  map : List KVPair
  j : Int
  lastKey : Int
  lastk : Nat
  deriving DecidableEq, Repr

/-- The state of the `while` loop of `addRuns`: the heap, the cursors `heads`
and what the writes to the destination use. -/
structure MergeState where
  h : StaticHeap
  heads : List Nat
  out : EmitState
  deriving DecidableEq, Repr

/-- The body of the loop of `addRuns` from the test `lastKey == val_run_pair.first.key`
to the assignments of `lastKey` and `lastk`. -/
def emitPair (lastLevel : Bool) (e : EmitState) (val_run_pair : KVIntPair) : Option EmitState :=
  if e.lastKey = val_run_pair.1.key then
    if e.lastk < toUnsigned val_run_pair.2 then
      match storeKV e.map e.j val_run_pair.1 with
      | none => none
      | some m =>
        some { map := m, j := e.j, lastKey := val_run_pair.1.key,
               lastk := toUnsigned val_run_pair.2 }
    else
      some { map := e.map, j := e.j, lastKey := val_run_pair.1.key,
             lastk := toUnsigned val_run_pair.2 }
  else
    match (if e.j + 1 ≠ -1 ∧ lastLevel = true then
            (loadKV e.map (e.j + 1)).map (fun kv => decide (kv.value = V_TOMBSTONE))
          else some false) with
    | none => none
    | some back =>
      match storeKV e.map (if back then e.j else e.j + 1) val_run_pair.1 with
      | none => none
      | some m =>
        some { map := m, j := if back then e.j else e.j + 1, lastKey := val_run_pair.1.key,
               lastk := toUnsigned val_run_pair.2 }

/-- The end of the body of the loop of `addRuns`: the cursor of the source `k`
the popped pair came from moves on, and the next pair of that source, if there
is one, is pushed. -/
def advanceHead (runList : List DiskRun) (h : StaticHeap) (heads : List Nat) (k : Nat) :
    Option (StaticHeap × List Nat) :=
  match heads[k]?, runList[k]? with
  | some hd, some src =>
    if hd + 1 < src.getCapacity then
      match src.map[hd + 1]? with
      | none => none
      | some kvp =>
        match h.push (kvp, (k : Int)) with
        | none => none
        | some h2 => some (h2, heads.set k (hd + 1))
    else some (h, heads.set k (hd + 1))
  | _, _ => none

/-- One round of the `while (h.size != 0)` loop of `addRuns`. -/
def addRunsStep (runList : List DiskRun) (lastLevel : Bool) (s : MergeState) : Option MergeState :=
  match s.h.pop with
  | none => none
  | some (val_run_pair, h1) =>
    if val_run_pair = KVINTPAIRMAX then none
    else
      match emitPair lastLevel s.out val_run_pair with
      | none => none
      | some e =>
        match advanceHead runList h1 s.heads (toUnsigned val_run_pair.2) with
        | none => none
        | some (h2, heads2) => some { h := h2, heads := heads2, out := e }

/-- The `while (h.size != 0)` loop of `addRuns`. -/
def addRunsLoop (runList : List DiskRun) (lastLevel : Bool) : Nat → MergeState → Option MergeState
  | 0, _ => none
  | fuel + 1, s =>
    if s.h.size ≠ 0 then
      match addRunsStep runList lastLevel s with
      | none => none
      | some s1 => addRunsLoop runList lastLevel fuel s1
    else some s

/-- The number of pops the loop of `addRuns` can make: one per pair of a source,
and one for a source whose capacity is zero. -/
def mergeFuel (runList : List DiskRun) : Nat :=
  (runList.map (fun r => r.getCapacity + 1)).sum + 1

/-- The statements of `addRuns` after the loop: in the terminal level a
tombstone in the last slot written is dropped (`map[j]` with `j = -1` lies
before the file), then `setCapacity(j + 1)`, `constructIndex` and the step of
`_activeRun`. -/
def closeRun (E : Env) (lvl : DiskLevel) (dst : DiskRun) (lastLevel : Bool) (out : EmitState) :
    Option DiskLevel :=
  match (if lastLevel then
          (loadKV out.map out.j).map
            (fun kv => if kv.value = V_TOMBSTONE then out.j - 1 else out.j)
        else some out.j) with
  | none => none
  | some j =>
    match DiskRun.constructIndex E { dst with map := out.map, _capacity := (j + 1).toNat } with
    | none => none
    | some dst1 =>
      some
        { lvl with
          runs := lvl.runs.set lvl._activeRun dst1
          _activeRun := if j + 1 > 0 then lvl._activeRun + 1 else lvl._activeRun }

/-- The member `addRuns`. The counters over `runList` are of type `int`, so a
list of more than `INT_MAX` runs overflows them. -/
def addRuns (E : Env) (lvl : DiskLevel) (runList : List DiskRun) (runLen : Nat) (lastLevel : Bool) :
    Option DiskLevel :=
  if 2147483647 < runList.length then none
  else
    match pushHeads runList 0 (StaticHeap.new runList.length KVINTPAIRMAX), lvl.runs[lvl._activeRun]? with
    | some h, some dst =>
      match addRunsLoop runList lastLevel (mergeFuel runList)
          { h := h, heads := List.replicate runList.length 0,
            out := { map := dst.map, j := -1, lastKey := INT_MAX, lastk := toUnsigned INT_MIN } } with
      | none => none
      | some s => closeRun E lvl dst lastLevel s.out
    | _, _ => none

/-- The member `addRunByArray`. -/
def addRunByArray (E : Env) (lvl : DiskLevel) (runToAdd : List KVPair) (runLen : Nat) : Option DiskLevel :=
  if ¬ lvl._activeRun < lvl._numRuns then none
  else if ¬ runLen = lvl._runSize then none
  else
    match lvl.runs[lvl._activeRun]? with
    | none => none
    | some dst =>
      match dst.writeData runToAdd 0 runLen with
      | none => none
      | some dst1 =>
        match DiskRun.constructIndex E dst1 with
        | none => none
        | some dst2 =>
          some { lvl with runs := lvl.runs.set lvl._activeRun dst2, _activeRun := lvl._activeRun + 1 }

/-- The member `getRunsToMerge`. -/
def getRunsToMerge (lvl : DiskLevel) : Option (List DiskRun) :=
  if lvl.runs.length < lvl._mergeSize then none else some (lvl.runs.take lvl._mergeSize)

/-- The renaming loop of `freeMergedRuns`: `runs[i]->_runID = i` for `i < activeRun`. -/
def renumber : List DiskRun → Nat → Nat → Option (List DiskRun)
  | rs, 0, _ => some rs
  | [], _ + 1, _ => none
  | r :: rs, n + 1, i =>
    match renumber rs n (i + 1) with
    | none => none
    | some rs1 => some ({ r with _runID := i } :: rs1)

/-- The member `freeMergedRuns`. -/
def freeMergedRuns (E : Env) (lvl : DiskLevel) (toFree : List DiskRun) : Option DiskLevel :=
  if ¬ toFree.length = lvl._mergeSize then none
  else if ¬ toFree.all (fun r => decide (r._level = lvl._level)) then none
  else if lvl.runs.length < lvl._mergeSize then none
  else
    match renumber (lvl.runs.drop lvl._mergeSize)
        ((lvl._activeRun + (2 ^ 32 - lvl._mergeSize % 2 ^ 32)) % 2 ^ 32) 0 with
    | none => none
    | some kept =>
      match newRuns E lvl._runSize lvl._pageSize lvl._level
          (lvl._numRuns - (lvl._activeRun + (2 ^ 32 - lvl._mergeSize % 2 ^ 32)) % 2 ^ 32)
          ((lvl._activeRun + (2 ^ 32 - lvl._mergeSize % 2 ^ 32)) % 2 ^ 32) with
      | none => none
      | some fresh =>
        some
          { lvl with
            runs := kept ++ fresh
            _activeRun := (lvl._activeRun + (2 ^ 32 - lvl._mergeSize % 2 ^ 32)) % 2 ^ 32 }

/-- The member `levelFull`. -/
def levelFull (lvl : DiskLevel) : Bool := decide (lvl._activeRun = lvl._numRuns)

/-- The member `levelEmpty`. -/
def levelEmpty (lvl : DiskLevel) : Bool := decide (lvl._activeRun = 0)

/-- The `for` loop of `lookup`, over the runs `n - 1, n - 2, ..., 0`. -/
def lookupLoop (E : Env) (runs : List DiskRun) (key : Int) : Nat → Bool → Option (Int × Bool)
  | 0, found => some (0, found)
  | n + 1, found =>
    match runs[n]? with
    | none => none
    | some r =>
      if r.maxKey = INT_MIN ∨ key < r.minKey ∨ key > r.maxKey then lookupLoop E runs key n found
      else
        match r.bf.mayContain E key with
        | none => none
        | some false => lookupLoop E runs key n found
        | some true =>
          match r.lookup key found with
          | none => none
          | some (lookupRes, found1) =>
            if found1 then some (lookupRes, found1) else lookupLoop E runs key n found1

/-- The member `lookup`; the result is the returned value and `found`. -/
def lookup (E : Env) (lvl : DiskLevel) (key : Int) (found : Bool) : Option (Int × Bool) :=
  lookupLoop E lvl.runs key (if lvl.levelFull then lvl._numRuns else lvl._activeRun) found

/-- The loop of `num_elements`. -/
def num_elements (lvl : DiskLevel) : Nat :=
  ((lvl.runs.take lvl._activeRun).map DiskRun.getCapacity).sum

end DiskLevel

/-! ## skipList.hpp -/

/-- The template argument `MAXLEVEL = 12` of `SkipList`. -/
def MAXLEVEL : Nat := 12

/-- A node `SkipList_Node` that `insert_key` has linked between the head and
the tail. `top` is the highest level whose list holds the node: `insert_key`
links a new node on every level `1, ..., cur_max_level`, so the pointer
`_forward[l]` of a node is set exactly for `l ≤ top`. -/
structure SkipList_Node where
  key : Int
  value : Int
  top : Nat
  deriving DecidableEq, Repr

/-- The class `SkipList<K,V,12>`. `nodes` are the nodes between `p_listHead`
and `p_listTail` in the order of `_forward[1]`; on level `l` the pointer
`_forward[l]` of the head or of a node leads to the next node with `l ≤ top`,
and to the tail when there is none. `tailValue` is the `value` member of the
tail, which the constructor does not write. -/
structure SkipList where
  nodes : List SkipList_Node
  tailValue : Option Int
  min : Int
  max : Int
  _minKey : Int
  _maxKey : Int
  _n : Nat
  _maxSize : Nat
  cur_max_level : Nat
  deriving DecidableEq, Repr

namespace SkipList

/-- The constructor `SkipList(minKey, maxKey)`; `min` and `max` start as `(K) NULL`. -/
def new (minKey maxKey : Int) : SkipList :=
  { nodes := [], tailValue := none, min := 0, max := 0, _minKey := minKey, _maxKey := maxKey,
    _n := 0, _maxSize := 0, cur_max_level := 1 }

/-- The member `set_size`. -/
def set_size (s : SkipList) (size : Nat) : SkipList := { s with _maxSize := size }

/-- The loop `while (currNode->_forward[level]->key < key) currNode = currNode->_forward[level];`
where `rest` are the nodes after `currNode`. The result is the number of nodes
of `rest` up to and including the node on which the loop stops (`0` when it
does not move). A walk that steps on the tail reads its null pointer next. -/
def walkLevel (level : Nat) (key tailKey : Int) : List SkipList_Node → Option Nat
  | [] => if tailKey < key then none else some 0
  | nd :: rest =>
    if level ≤ nd.top then
      if nd.key < key then (walkLevel level key tailKey rest).map (fun r => r + 1) else some 0
    else (walkLevel level key tailKey rest).map (fun r => if r = 0 then 0 else r + 1)

/-- The loop `for (level = cur_max_level; level > 0; level--)` shared by
`insert_key` and `lookup`; `pos` counts the nodes before and including
`currNode` (`0` at the head). The result is the position of `update[1]`. -/
def findPred (key tailKey : Int) (nodes : List SkipList_Node) : Nat → Nat → Option Nat
  | 0, pos => some pos
  | level + 1, pos =>
    match walkLevel (level + 1) key tailKey (nodes.drop pos) with
    | none => none
    | some r => findPred key tailKey nodes level (pos + r)

/-- The first statement of `insert_key`: `if (key > max) max = key; else if (key < min) min = key;`. -/
def noteKey (s : SkipList) (key : Int) : SkipList :=
  if key > s.max then { s with max := key }
  else if key < s.min then { s with min := key }
  else s

/-- The level `cur_max_level` has after the test
`insertLevel > cur_max_level && insertLevel < MAXLEVEL - 1` of `insert_key`. -/
def raisedLevel (s : SkipList) (insertLevel : Int) : Nat :=
  if insertLevel > s.cur_max_level ∧ insertLevel < (MAXLEVEL : Int) - 1 then insertLevel.toNat
  else s.cur_max_level

/-- The `else` branch of `insert_key`: a new node, linked after `update[level]`
on every level up to the new `cur_max_level`. -/
def linkNew (s : SkipList) (pos : Nat) (key value : Int) (insertLevel : Int) : SkipList :=
  { s with
    cur_max_level := s.raisedLevel insertLevel
    nodes := s.nodes.take pos ++
      [{ key := key, value := value, top := s.raisedLevel insertLevel }] ++ s.nodes.drop pos
    _n := s._n + 1 }

/-- The member `insert_key`; `insertLevel` is what `generateNodeLevel()` returns
if it is called. -/
def insert_key (s : SkipList) (key value : Int) (insertLevel : Int) : Option SkipList :=
  match findPred key s._maxKey s.nodes s.cur_max_level 0 with
  | none => none
  | some pos =>
    match s.nodes[pos]? with
    | some nd =>
      if nd.key = key then
        some { s.noteKey key with nodes := s.nodes.set pos { nd with value := value } }
      else some ((s.noteKey key).linkNew pos key value insertLevel)
    | none =>
      if s._maxKey = key then some { s.noteKey key with tailValue := some value }
      else some ((s.noteKey key).linkNew pos key value insertLevel)

/-- The member `lookup`; the result is the returned value and `found`. -/
def lookup (s : SkipList) (searchKey : Int) (found : Bool) : Option (Int × Bool) :=
  match findPred searchKey s._maxKey s.nodes s.cur_max_level 0 with
  | none => none
  | some pos =>
    match s.nodes[pos]? with
    | some nd => if nd.key = searchKey then some (nd.value, true) else some (0, found)
    | none =>
      if s._maxKey = searchKey then s.tailValue.map (fun v => (v, true)) else some (0, found)

/-- The member `get_all`. -/
def get_all (s : SkipList) : List KVPair :=
  s.nodes.map (fun nd => ⟨nd.key, nd.value⟩)

/-- The first loop of `get_all_in_range`: `while (node->key < key1) node = node->_forward[1];`.
The result is the list of nodes from `node` on. -/
def skipBelow (key1 tailKey : Int) : List SkipList_Node → Option (List SkipList_Node)
  | [] => if tailKey < key1 then none else some []
  | nd :: rest => if nd.key < key1 then skipBelow key1 tailKey rest else some (nd :: rest)

/-- The second loop of `get_all_in_range`: `while (node->key < key2)` push the pair and advance. -/
def takeBelow (key2 tailKey : Int) : List SkipList_Node → Option (List KVPair)
  | [] => if tailKey < key2 then none else some []
  | nd :: rest =>
    if nd.key < key2 then (takeBelow key2 tailKey rest).map (fun l => ⟨nd.key, nd.value⟩ :: l)
    else some []

/-- The member `get_all_in_range`. -/
def get_all_in_range (s : SkipList) (key1 key2 : Int) : Option (List KVPair) :=
  if key1 > s.max ∨ key2 < s.min then some []
  else
    match skipBelow key1 s._maxKey s.nodes with
    | none => none
    | some rest => takeBelow key2 s._maxKey rest

/-- The member `num_elements`. -/
def num_elements (s : SkipList) : Nat := s._n

/-- The member `get_min`. -/
def get_min (s : SkipList) : Int := s.min

/-- The member `get_max`. -/
def get_max (s : SkipList) : Int := s.max

end SkipList

/-! ## lsm.hpp -/

/-- Modelled from the spec: the class `HashTable<K,V>` that `LSM::range` uses is
not among the sources. The specification describes it as an auxiliary set of
keys in which every visited pair attempts to claim its key; the table is the
list of the keys claimed so far. -/
structure HashTable where
  claimed : List Int
  deriving DecidableEq, Repr

/-- Modelled from the spec: the member `putIfEmpty` of the missing `HashTable`.
The result is the returned value, zero exactly when the key was not yet
claimed, and the table afterwards. -/
def HashTable.putIfEmpty (ht : HashTable) (key value : Int) : Int × HashTable :=
  if key ∈ ht.claimed then (1, ht) else (0, { claimed := key :: ht.claimed })

/-- The class `LSM<K,V>`. The `double` members are left out; `_num_to_merge` is
`ceil(_frac_runs_merged * _num_runs)` and `diskMergeSize` is
`ceil(_diskRunsPerLevel * _frac_runs_merged)`, both given to the constructor. -/
structure LSM where
  C_0 : List SkipList
  filters : List BloomFilter
  diskLevels : List DiskLevel
  _activeRun : Nat
  _eltsPerRun : Nat
  _num_runs : Nat
  _numDiskLevels : Nat
  _diskRunsPerLevel : Nat
  _num_to_merge : Nat
  _pageSize : Nat
  diskMergeSize : Nat
  deriving DecidableEq, Repr

namespace LSM

/-- A new in-memory run as the constructor and `do_merge` make it. -/
def newRun (eltsPerRun : Nat) : SkipList :=
  (SkipList.new INT_MIN INT_MAX).set_size eltsPerRun

/-- The constructor `LSM(eltsPerRun, numRuns, merged_frac, bf_fp, pageSize, diskRunsPerLevel)`. -/
def new (E : Env) (eltsPerRun numRuns numToMerge pageSize diskRunsPerLevel diskMergeSize : Nat) :
    Option LSM :=
  match DiskLevel.new E pageSize 1 (numToMerge * eltsPerRun) diskRunsPerLevel diskMergeSize with
  | none => none
  | some diskLevel =>
    some
      { C_0 := List.replicate numRuns (newRun eltsPerRun)
        filters := List.replicate numRuns (BloomFilter.new E eltsPerRun)
        diskLevels := [diskLevel]
        _activeRun := 0
        _eltsPerRun := eltsPerRun
        _num_runs := numRuns
        _numDiskLevels := 1
        _diskRunsPerLevel := diskRunsPerLevel
        _num_to_merge := numToMerge
        _pageSize := pageSize
        diskMergeSize := diskMergeSize }

/-- The member `mergeRunsToLevel`; the fuel bounds the depth of the recursion. -/
def mergeRunsToLevel (E : Env) : Nat → LSM → Nat → Option LSM
  | 0, _, _ => none
  | fuel + 1, s, level =>
    match (if level = s._numDiskLevels then
            (match s.diskLevels[level - 1]? with
             | none => none
             | some prev =>
               if level = 0 then none
               else
                 match DiskLevel.new E s._pageSize ((level : Int) + 1) (prev._runSize * prev._mergeSize)
                     s._diskRunsPerLevel s.diskMergeSize with
                 | none => none
                 | some newLevel =>
                   some { s with diskLevels := s.diskLevels ++ [newLevel],
                                 _numDiskLevels := s._numDiskLevels + 1 })
          else some s) with
    | none => none
    | some s1 =>
      match s1.diskLevels[level]? with
      | none => none
      | some target =>
        match (if target.levelFull then mergeRunsToLevel E fuel s1 (level + 1) else some s1) with
        | none => none
        | some s2 =>
          if level = 0 then none
          else
            match s2.diskLevels[level]?, s2.diskLevels[level - 1]? with
            | some dst, some src =>
              match src.getRunsToMerge with
              | none => none
              | some runsToMerge =>
                match dst.addRuns E runsToMerge src._runSize
                    (decide (level + 1 = s2._numDiskLevels) && dst.levelEmpty) with
                | none => none
                | some dst1 =>
                  match src.freeMergedRuns E runsToMerge with
                  | none => none
                  | some src1 =>
                    some { s2 with
                      diskLevels := (s2.diskLevels.set level dst1).set (level - 1) src1 }
            | _, _ => none

/-- The `for` loop of `merge_runs`: every run's `get_all()` is inserted at the
beginning of `to_merge`. -/
def gatherRuns : List SkipList → List KVPair → List KVPair
  | [], to_merge => to_merge
  | r :: rest, to_merge => gatherRuns rest (r.get_all ++ to_merge)

/-- The call `sort(to_merge.begin(), to_merge.end())`, which orders by
`KVPair::operator<`, that is by key. The standard leaves the order of pairs with
equal keys open; this is the insertion sort that keeps them in their order. -/
def sortKV (l : List KVPair) : List KVPair :=
  l.insertionSort (fun a b => a.key ≤ b.key)

/-- The member `merge_runs`, the body of the merge thread. -/
def merge_runs (E : Env) (s : LSM) (runs_to_merge : List SkipList) : Option LSM :=
  match s.diskLevels[0]? with
  | none => none
  | some l0 =>
    match (if l0.levelFull then mergeRunsToLevel E (s._numDiskLevels + 1) s 1 else some s) with
    | none => none
    | some s1 =>
      match s1.diskLevels[0]? with
      | none => none
      | some d0 =>
        match d0.addRunByArray E (sortKV (gatherRuns runs_to_merge []))
            (sortKV (gatherRuns runs_to_merge [])).length with
        | none => none
        | some d1 => some { s1 with diskLevels := s1.diskLevels.set 0 d1 }

/-- The member `do_merge`, with the merge thread run to its end at the place
where it is started. -/
def do_merge (E : Env) (s : LSM) : Option LSM :=
  if s._num_to_merge = 0 then some s
  else if s.C_0.length < s._num_to_merge ∨ s.filters.length < s._num_to_merge then none
  else
    match merge_runs E s (s.C_0.take s._num_to_merge) with
    | none => none
    | some s1 =>
      some
        { s1 with
          C_0 := s1.C_0.drop s1._num_to_merge ++
            List.replicate
              (s1._num_runs - (s1._activeRun + (2 ^ 32 - s1._num_to_merge % 2 ^ 32)) % 2 ^ 32)
              (newRun s1._eltsPerRun)
          filters := s1.filters.drop s1._num_to_merge ++
            List.replicate
              (s1._num_runs - (s1._activeRun + (2 ^ 32 - s1._num_to_merge % 2 ^ 32)) % 2 ^ 32)
              (BloomFilter.new E s1._eltsPerRun)
          _activeRun := (s1._activeRun + (2 ^ 32 - s1._num_to_merge % 2 ^ 32)) % 2 ^ 32 }

/-- The first statement of `insert_key`:
`if (C_0[_activeRun]->num_elements() >= _eltsPerRun) ++_activeRun;`. -/
def advanceRun (s : LSM) : Option LSM :=
  match s.C_0[s._activeRun]? with
  | none => none
  | some cur =>
    if cur.num_elements ≥ s._eltsPerRun then some { s with _activeRun := s._activeRun + 1 }
    else some s

/-- The last two statements of `insert_key`: the pair goes into
`C_0[_activeRun]` and the key into `filters[_activeRun]`. -/
def putActive (E : Env) (s : LSM) (key value : Int) (insertLevel : Int) : Option LSM :=
  match s.C_0[s._activeRun]?, s.filters[s._activeRun]? with
  | some run, some bf =>
    match run.insert_key key value insertLevel, bf.add E key with
    | some run1, some bf1 =>
      some { s with C_0 := s.C_0.set s._activeRun run1, filters := s.filters.set s._activeRun bf1 }
    | _, _ => none
  | _, _ => none

/-- The member `insert_key`; `insertLevel` is the level the skip list draws if
it makes a new node. -/
def insert_key (E : Env) (s : LSM) (key value : Int) (insertLevel : Int) : Option LSM :=
  match advanceRun s with
  | none => none
  | some s0 =>
    match (if s0._activeRun ≥ s0._num_runs then do_merge E s0 else some s0) with
    | none => none
    | some s1 => putActive E s1 key value insertLevel

/-- The first `for` loop of `lookup`, over the in-memory runs `n - 1, ..., 0`.
The result is the boolean the loop returns, if it returns, and the `value`
the caller holds afterwards. -/
def lookupBuffer (E : Env) (s : LSM) (key : Int) : Nat → Int → Option (Option Bool × Int)
  | 0, value => some (none, value)
  | n + 1, value =>
    match s.C_0[n]?, s.filters[n]? with
    | some run, some bf =>
      if key < run.get_min ∨ key > run.get_max then lookupBuffer E s key n value
      else
        match bf.mayContain E key with
        | none => none
        | some false => lookupBuffer E s key n value
        | some true =>
          match run.lookup key false with
          | none => none
          | some (v, found) =>
            if found then some (some (decide (v ≠ V_TOMBSTONE)), v)
            else lookupBuffer E s key n v
    | _, _ => none

/-- The second `for` loop of `lookup`, over the disk levels from `i` on. -/
def lookupDisk (E : Env) (key : Int) : List DiskLevel → Int → Option (Bool × Int)
  | [], value => some (false, value)
  | lvl :: rest, _ =>
    match lvl.lookup E key false with
    | none => none
    | some (v, found) =>
      if found then some (decide (v ≠ V_TOMBSTONE), v) else lookupDisk E key rest v

/-- The member `lookup`; the result is the returned boolean and the `value`
the caller holds afterwards (`value` is what it held before). -/
def lookup (E : Env) (s : LSM) (key : Int) (value : Int) : Option (Bool × Int) :=
  match lookupBuffer E s key (s._activeRun + 1) value with
  | none => none
  | some (some res, value1) => some (res, value1)
  | some (none, value1) =>
    if s.diskLevels.length < s._numDiskLevels then none
    else lookupDisk E key (s.diskLevels.take s._numDiskLevels) value1

/-- The member `delete_key`. -/
def delete_key (E : Env) (s : LSM) (key : Int) (insertLevel : Int) : Option LSM :=
  insert_key E s key V_TOMBSTONE insertLevel

/-- The inner loop of `range` over the pairs of one source: claim the key, and
keep the pair when the claim succeeds and the value is not the tombstone. -/
def claimPairs : List KVPair → HashTable → List KVPair → HashTable × List KVPair
  | [], ht, eltsInRange => (ht, eltsInRange)
  | kv :: rest, ht, eltsInRange =>
    if (ht.putIfEmpty kv.key kv.value).1 = 0 ∧ kv.value ≠ V_TOMBSTONE then
      claimPairs rest (ht.putIfEmpty kv.key kv.value).2 (eltsInRange ++ [kv])
    else claimPairs rest (ht.putIfEmpty kv.key kv.value).2 eltsInRange

/-- The first `for` loop of `range`, over the in-memory runs `n - 1, ..., 0`. -/
def rangeBuffer (s : LSM) (key1 key2 : Int) :
    Nat → HashTable → List KVPair → Option (HashTable × List KVPair)
  | 0, ht, eltsInRange => some (ht, eltsInRange)
  | n + 1, ht, eltsInRange =>
    match s.C_0[n]? with
    | none => none
    | some run =>
      match run.get_all_in_range key1 key2 with
      | none => none
      | some cur_elts =>
        rangeBuffer s key1 key2 n (claimPairs cur_elts ht eltsInRange).1
          (claimPairs cur_elts ht eltsInRange).2

/-- The loop of `range` over the runs `n - 1, ..., 0` of one disk level. With
`i2 < i1` the call `reserve(oldSize + (i2 - i1))` asks for more than a vector
can hold and throws. -/
def rangeRuns (runs : List DiskRun) (key1 key2 : Int) :
    Nat → HashTable → List KVPair → Option (HashTable × List KVPair)
  | 0, ht, eltsInRange => some (ht, eltsInRange)
  | n + 1, ht, eltsInRange =>
    match runs[n]? with
    | none => none
    | some run =>
      match run.range key1 key2 with
      | none => none
      | some (i1, i2) =>
        if i2 < i1 ∨ run.map.length < i2 then none
        else
          rangeRuns runs key1 key2 n
            (claimPairs ((run.map.take i2).drop i1) ht eltsInRange).1
            (claimPairs ((run.map.take i2).drop i1) ht eltsInRange).2

/-- The loop of `range` over the disk levels. -/
def rangeDisk (key1 key2 : Int) :
    List DiskLevel → HashTable → List KVPair → Option (HashTable × List KVPair)
  | [], ht, eltsInRange => some (ht, eltsInRange)
  | lvl :: rest, ht, eltsInRange =>
    match rangeRuns lvl.runs key1 key2 lvl._activeRun ht eltsInRange with
    | none => none
    | some (ht1, elts1) => rangeDisk key1 key2 rest ht1 elts1

/-- The member `range`. -/
def range (s : LSM) (key1 key2 : Int) : Option (List KVPair) :=
  if key2 ≤ key1 then some []
  else
    match rangeBuffer s key1 key2 (s._activeRun + 1) { claimed := [] } [] with
    | none => none
    | some (ht, elts) =>
      if s.diskLevels.length < s._numDiskLevels then none
      else (rangeDisk key1 key2 (s.diskLevels.take s._numDiskLevels) ht elts).map Prod.snd

end LSM

/-! ## Sequences of calls and sample data -/

/-- A sequence of `insert_key` calls on a store; an entry gives the key, the
value and the level the skip list draws if it makes a new node. -/
def LSM.insertAll (E : Env) : LSM → List (Int × Int × Int) → Option LSM
  | s, [] => some s
  | s, (k, v, l) :: rest =>
    match s.insert_key E k v l with
    | none => none
    | some s1 => LSM.insertAll E s1 rest

/-- The pairs in use of a run: `map[0 .. _capacity)`. -/
def DiskRun.entries (r : DiskRun) : List KVPair := r.map.take r._capacity

/-- The occupied runs of every disk level of a store, each as its pairs in use. -/
def LSM.diskContents (s : LSM) : List (List (List KVPair)) :=
  s.diskLevels.map (fun l => (l.runs.take l._activeRun).map DiskRun.entries)

/-- A run holding `pairs`, built the way `addRunByArray` fills a slot:
constructor, `writeData`, `constructIndex`. -/
def DiskRun.ofPairs (E : Env) (pairs : List KVPair) (pageSize : Nat) (level : Int) (runID : Nat) :
    Option DiskRun :=
  match DiskRun.new E pairs.length pageSize level runID with
  | none => none
  | some r =>
    match r.writeData pairs 0 pairs.length with
    | none => none
    | some r1 => r1.constructIndex E

/-- An environment for the worked examples: filters of ten bits per element
with seven hash rounds, and a stand-in for the hash. The examples do not
depend on the choice: a filter never rejects a key that was added to it. -/
def sampleEnv : Env :=
  { hash := fun k => ((k % 2 ^ 64).toNat, 1), bfBits := fun n => 10 * n, bfHashes := fun _ => 7 }

/-- The store of the worked examples: one pair per in-memory run, two runs,
both drained in one merge, one pair per page, two disk runs per level. -/
def sampleStore : Option LSM := LSM.new sampleEnv 1 2 2 1 2 2

/-- A run of three pairs, two per page, as the constructor and `writeData` leave it. -/
def sampleRun : DiskRun :=
  { map := [⟨1, 10⟩, ⟨3, 30⟩, ⟨5, 50⟩], pageSize := 2, bf := BloomFilter.new sampleEnv 3,
    minKey := INT_MIN, maxKey := INT_MIN, _capacity := 3, _level := 1, _fencePointers := [],
    _iMaxFP := 0, _runID := 0 }

/-- Two sources of a merge, the older first; both hold key `3`. -/
def sampleSources : List DiskRun :=
  [{ sampleRun with map := [⟨1, 10⟩, ⟨3, 30⟩], _capacity := 2 },
   { sampleRun with map := [⟨3, 31⟩, ⟨4, 40⟩], _capacity := 2, _runID := 1 }]

/-- A run of four slots as the constructor leaves it. -/
def sampleDest : DiskRun :=
  { map := List.replicate 4 ⟨0, 0⟩, pageSize := 2, bf := BloomFilter.new sampleEnv 4,
    minKey := INT_MIN, maxKey := INT_MIN, _capacity := 4, _level := 2, _fencePointers := [],
    _iMaxFP := 0, _runID := 0 }

/-- A level of two such runs, none of them in use. -/
def sampleLevel : DiskLevel :=
  { _level := 2, _pageSize := 2, _runSize := 4, _numRuns := 2, _activeRun := 0, _mergeSize := 2,
    runs := [sampleDest, { sampleDest with _runID := 1 }] }

/-- A source whose only key is `INT_MAX`. -/
def maxKeySource : DiskRun := { sampleRun with map := [⟨INT_MAX, 5⟩], _capacity := 1 }

/-- A sequence of `add` calls on a filter. -/
def BloomFilter.addAll (E : Env) : BloomFilter → List Int → Option BloomFilter
  | bf, [] => some bf
  | bf, key :: rest =>
    match bf.add E key with
    | none => none
    | some bf1 => BloomFilter.addAll E bf1 rest

/-- A sequence of `insert_key` calls on a skip list; an entry gives the key,
the value and what `generateNodeLevel()` returns if the call makes a new node. -/
def SkipList.insertAll : SkipList → List (Int × Int × Int) → Option SkipList
  | s, [] => some s
  | s, (k, v, l) :: rest =>
    match s.insert_key k v l with
    | none => none
    | some s1 => SkipList.insertAll s1 rest

/-- The two sources above after `constructIndex`. -/
def sampleIndexed : List DiskRun :=
  sampleSources.filterMap (fun r => r.constructIndex sampleEnv)

/-- A level whose two runs are in use and hold the indexed sources. -/
def sampleFullLevel : DiskLevel :=
  { sampleLevel with _runSize := 2, runs := sampleIndexed, _activeRun := 2 }

/-- The store of scenario S4 (one pair per in-memory run, two runs, both
drained in one merge, two disk runs per level, both merged at once) after the
inserts `(1,1), ..., (6,6)`: the two runs of disk level 0 are in use. -/
def cascadeStore : Option LSM :=
  (LSM.new sampleEnv 1 2 2 1 2 2).bind
    (fun s => s.insertAll sampleEnv
      [(1, 1, 0), (2, 2, 0), (3, 3, 0), (4, 4, 0), (5, 5, 0), (6, 6, 0)])

/-- The run `[(1,1), ..., (5,5)]` with one pair per page after the constructor
and `writeData`, before `constructIndex`. -/
def sampleWritten : DiskRun :=
  { map := [⟨1, 1⟩, ⟨2, 2⟩, ⟨3, 3⟩, ⟨4, 4⟩, ⟨5, 5⟩], pageSize := 1,
    bf := BloomFilter.new sampleEnv 5, minKey := INT_MIN, maxKey := INT_MIN, _capacity := 5,
    _level := 1, _fencePointers := [], _iMaxFP := 0, _runID := 0 }

/-- The same run after `constructIndex`: every key is a fence pointer. -/
def sampleFenced : Option DiskRun := sampleWritten.constructIndex sampleEnv

/-- A level of three runs of one pair, two of them merged at a time, after three
calls of `addRunByArray`: all three slots are in use. -/
def sampleThree : Option DiskLevel :=
  (DiskLevel.new sampleEnv 1 1 1 3 2).bind (fun l0 =>
    (l0.addRunByArray sampleEnv [⟨1, 1⟩] 1).bind (fun l1 =>
      (l1.addRunByArray sampleEnv [⟨2, 2⟩] 1).bind (fun l2 =>
        l2.addRunByArray sampleEnv [⟨3, 3⟩] 1)))

/-- A level of one slot for a run of two pairs whose file holds `leftover`: the
state of the slot after a merge that wrote pairs and did not advance `_activeRun`. -/
def DiskLevel.withLeftover (leftover : List KVPair) : Option DiskLevel :=
  (DiskLevel.new sampleEnv 1 2 2 1 1).map (fun lvl =>
    { lvl with runs := lvl.runs.map (fun r => { r with map := leftover }) })

/-! ## Predicates of the statements -/

/-- A filter holds a key when every bit `mayContain` tests for it is set. -/
def BloomFilter.Holds (E : Env) (bf : BloomFilter) (key : Int) : Prop :=
  ∀ t, t < bf.m_numHashes →
    ∃ i, BloomFilter.nthHash t (E.hash key).1 (E.hash key).2 bf.m_bits.length = some i ∧
      bf.m_bits[i]? = some true

namespace SkipList

/-- The number of leading nodes whose key is below `key`. -/
def rank (key : Int) : List SkipList_Node → Nat
  | [] => 0
  | nd :: rest => if nd.key < key then rank key rest + 1 else 0

/-- The keys of the nodes increase strictly along `_forward[1]`. -/
def SortedNodes (nodes : List SkipList_Node) : Prop :=
  nodes.Pairwise (fun a b => a.key < b.key)

/-- The shape `insert_key` keeps: keys increase strictly and lie below the key
of the tail, every node is linked on level 1 and on no level above
`cur_max_level`, the keys lie between `min` and `max`, and `_n` counts the nodes. -/
structure WF (s : SkipList) : Prop where
  sorted : SortedNodes s.nodes
  below : ∀ nd ∈ s.nodes, nd.key < s._maxKey
  tops : ∀ nd ∈ s.nodes, 1 ≤ nd.top ∧ nd.top ≤ s.cur_max_level
  level : 1 ≤ s.cur_max_level
  bracket : s.min ≤ s.max
  within : ∀ nd ∈ s.nodes, s.min ≤ nd.key ∧ nd.key ≤ s.max
  count : s._n = s.nodes.length

end SkipList

namespace LSM

/-- Every in-memory run of the store is a well-formed skip list. -/
def BufOK (s : LSM) : Prop := ∀ run ∈ s.C_0, run.WF

/-- Two stores agree on everything but the disk levels. -/
def SameBuffer (s s' : LSM) : Prop :=
  s'.C_0 = s.C_0 ∧ s'.filters = s.filters ∧ s'._activeRun = s._activeRun ∧
    s'._eltsPerRun = s._eltsPerRun ∧ s'._num_runs = s._num_runs ∧ s'._num_to_merge = s._num_to_merge

end LSM

namespace DiskRun

/-- The key of `map[i]`; zero outside the file. -/
def keyAt (map : List KVPair) (i : Nat) : Int := (map[i]?.getD ⟨0, 0⟩).key

/-- The keys of the pairs in use increase strictly: the run is sorted and holds no key twice. -/
def StrictKeys (r : DiskRun) : Prop := r.entries.Pairwise (fun a b => a.key < b.key)

/-- The fence pointers `fps` cover the first `j` pairs of `map`: there is one
for every started page, and each is the key of the first pair of its page. -/
def Fenced (map : List KVPair) (pageSize j : Nat) (fps : List Int) : Prop :=
  j ≤ fps.length * pageSize ∧ fps.length * pageSize < j + pageSize ∧
    ∀ i, i < fps.length → ∃ kv, map[i * pageSize]? = some kv ∧ fps[i]? = some kv.key

/-- What `constructIndex` leaves on a run that had no fence pointers before. -/
structure Indexed (r : DiskRun) : Prop where
  cap_pos : 0 < r._capacity
  cap_le : r._capacity ≤ r.map.length
  cap_small : r._capacity ≤ 2147483647
  page_pos : 0 < r.pageSize
  fenced : Fenced r.map r.pageSize r._capacity r._fencePointers
  imax : r._iMaxFP + 1 = r._fencePointers.length
  minKey : ∃ kv, r.map[0]? = some kv ∧ r.minKey = kv.key
  maxKey : ∃ kv, r.map[r._capacity - 1]? = some kv ∧ r.maxKey = kv.key

end DiskRun

/-- The order of the heap of `addRuns`: `a` does not come after `b`, by key and
then by the index of the source. -/
def KVIntPair.le (a b : KVIntPair) : Prop := b.lt a = false

namespace StaticHeap

/-- The element `arr[i]` of the heap array (the filler `KVINTPAIRMAX` outside it). -/
def elemAt (arr : List KVIntPair) (i : Nat) : KVIntPair := arr[i]?.getD KVINTPAIRMAX

/-- The first `n` slots of `arr` form a binary min-heap: no element comes before its parent. -/
def HeapOK (arr : List KVIntPair) (n : Nat) : Prop :=
  n ≤ arr.length ∧ ∀ c, 0 < c → c < n → KVIntPair.le (elemAt arr ((c - 1) / 2)) (elemAt arr c)

end StaticHeap

namespace DiskLevel

/-- The pairs of the sources that the cursors `heads` have not passed, each
with the index of its source; the sources are numbered from `k` on. -/
def restFrom : Nat → List DiskRun → List Nat → List KVIntPair
  | k, r :: rs, hd :: hds =>
    (r.entries.drop hd).map (fun kv => (kv, (k : Int))) ++ restFrom (k + 1) rs hds
  | _, _, _ => []

/-- The pair under the cursor of every source that has one, with the index of the source. -/
def frontsFrom : Nat → List DiskRun → List Nat → List KVIntPair
  | k, r :: rs, hd :: hds =>
    ((r.entries.drop hd).take 1).map (fun kv => (kv, (k : Int))) ++ frontsFrom (k + 1) rs hds
  | _, _, _ => []

/-- The writes of the loop of `addRuns` for the pairs `xs`, popped in this order. -/
def emitAll (lastLevel : Bool) : EmitState → List KVIntPair → Option EmitState
  | e, [] => some e
  | e, x :: xs =>
    match emitPair lastLevel e x with
    | none => none
    | some e1 => emitAll lastLevel e1 xs

/-- What the loop of `addRuns` keeps between rounds: the heap has a slot per
source and holds the pair under the cursor of every source not yet used up. -/
def MergeInv (runList : List DiskRun) (h : StaticHeap) (heads : List Nat) : Prop :=
  h.arr.length = runList.length ∧ heads.length = runList.length ∧
    StaticHeap.HeapOK h.arr h.size ∧ (h.arr.take h.size).Perm (frontsFrom 0 runList heads)

/-- The sources of a merge: at most `INT_MAX` runs, none of them empty, each
within its file and sorted by key. -/
structure Sources (runList : List DiskRun) : Prop where
  count : runList.length ≤ 2147483647
  caps : ∀ src ∈ runList, 1 ≤ src._capacity ∧ src._capacity ≤ src.map.length
  sorted : ∀ src ∈ runList, src.entries.Pairwise (fun a b => a.key ≤ b.key)

/-- What the writes of the loop of `addRuns` keep: `j` is `-1` or a slot of the
destination, the keys of the slots up to `j` increase strictly, and the key
of slot `j` is `lastKey`. -/
structure EmitState.OK (e : EmitState) : Prop where
  lo : -1 ≤ e.j
  hi : e.j < e.map.length
  sorted : ∀ a b : Nat, a < b → (b : Int) ≤ e.j → DiskRun.keyAt e.map a < DiskRun.keyAt e.map b
  last : 0 ≤ e.j → DiskRun.keyAt e.map e.j.toNat = e.lastKey

/-- What the writes of the loop of `addRuns` have made of the pairs `D` popped
so far, outside the terminal level: every slot up to `j` holds a pair of `D`,
every key of `D` has a slot, and no key of `D` is above `lastKey`. When the
pairs come in strictly increasing order of key and source (`strict`), every
slot holds the pair of its key that came from the source of highest index. -/
structure EmitState.Holds (e : EmitState) (D : List KVIntPair) (strict : Prop) : Prop where
  ok : e.OK
  pos : 0 ≤ e.j
  fromD : ∀ i : Nat, (i : Int) ≤ e.j → ∃ kv t, e.map[i]? = some kv ∧ (kv, t) ∈ D
  slot : ∀ d ∈ D, ∃ i : Nat, (i : Int) ≤ e.j ∧ DiskRun.keyAt e.map i = d.1.key
  below : ∀ d ∈ D, d.1.key ≤ e.lastKey
  newest : strict → ∀ i : Nat, (i : Int) ≤ e.j →
    ∃ kv t, e.map[i]? = some kv ∧ (kv, t) ∈ D ∧ ∀ d ∈ D, d.1.key = kv.key → d.2 ≤ t
  lastTag : strict → ∀ d ∈ D, d.1.key = e.lastKey → d.2 ≤ (e.lastk : Int)

/-- The destination `dst` can take the merge of the sources: some key is below
`INT_MAX`, the value `lastKey` starts from; the file has a slot for every pair
of the sources and at most `INT_MAX` slots; the page size is not zero and the
filter has a bit or makes no hash round. For the terminal level the file holds
no tombstone yet, and the sources hold two different keys or no tombstone, so
that a pair is left when the last one written is dropped. -/
structure Receives (runList : List DiskRun) (dst : DiskRun) (lastLevel : Bool) : Prop where
  key : ∃ src ∈ runList, ∃ kv ∈ src.entries, kv.key < INT_MAX
  room : (runList.map (fun r => r._capacity)).sum ≤ dst.map.length
  small : dst.map.length ≤ 2147483647
  page : 0 < dst.pageSize
  bits : 0 < dst.bf.m_bits.length ∨ dst.bf.m_numHashes = 0
  fresh : lastLevel = true → ∀ kv ∈ dst.map, kv.value ≠ V_TOMBSTONE
  kept : lastLevel = true →
    (∃ src1 ∈ runList, ∃ src2 ∈ runList, ∃ a ∈ src1.entries, ∃ b ∈ src2.entries, a.key ≠ b.key) ∨
      ∀ src ∈ runList, ∀ kv ∈ src.entries, kv.value ≠ V_TOMBSTONE

end DiskLevel

/-- The value of the last call with key `k` in a sequence of `insert_key`
calls, if there is one. -/
def lastValue (k : Int) : List (Int × Int × Int) → Option Int
  | [] => none
  | (k1, v, _) :: rest =>
    match lastValue k rest with
    | some w => some w
    | none => if k1 = k then some v else none

/-- A run as `constructIndex` leaves it when called on a run that is not empty
and had no fence pointers, which is how `addRunByArray` and `addRuns` finish
the run they write on a new file. -/
def DiskRun.Built (E : Env) (r : DiskRun) : Prop :=
  ∃ r0 : DiskRun, r0._fencePointers = [] ∧ 1 ≤ r0._capacity ∧ r0.constructIndex E = some r

/-- The pair that an `insert_key` call of a sequence writes. -/
def toKV (op : Int × Int × Int) : KVPair := ⟨op.1, op.2.1⟩

/-- A store that has taken the calls `done`, none of which started a merge:
`r` in-memory runs of room `e`, the runs before the active one full, the runs
after it empty, the calls counted by the runs up to the active one, every
filter usable, and the runs together holding the pairs of the calls. -/
structure LSM.Filling (e r : Nat) (s : LSM) (done : List (Int × Int × Int)) : Prop where
  runs : s.C_0.length = r
  filters : s.filters.length = r
  elts : s._eltsPerRun = e
  numRuns : s._num_runs = r
  toMerge : s._num_to_merge = r
  active : s._activeRun < r
  wf : s.BufOK
  tail : ∀ run ∈ s.C_0, run._maxKey = INT_MAX
  bits : ∀ bf ∈ s.filters, 0 < bf.m_bits.length ∨ bf.m_numHashes = 0
  full : ∀ i run, i < s._activeRun → s.C_0[i]? = some run → run.nodes.length = e
  cur : ∀ run, s.C_0[s._activeRun]? = some run →
    run.nodes.length ≤ e ∧ done.length = s._activeRun * e + run.nodes.length
  rest : ∀ i run, s._activeRun < i → s.C_0[i]? = some run → run.nodes = []
  content : (s.C_0.map SkipList.get_all).flatten.Perm (done.map toKV)

namespace DiskRun

/-- A slot of a level that holds no run: as the constructor of `DiskRun` leaves it. -/
def Blank (E : Env) (cap ps : Nat) (level : Int) (r : DiskRun) : Prop :=
  DiskRun.new E cap ps level r._runID = some r

/-- An occupied run of a level: not empty, within its file, keys strictly
increasing and below `INT_MAX`. -/
structure Live (r : DiskRun) : Prop where
  cap_pos : 1 ≤ r._capacity
  cap_le : r._capacity ≤ r.map.length
  strict : r.StrictKeys
  keys : ∀ kv ∈ r.entries, kv.key < INT_MAX

end DiskRun

namespace DiskLevel

/-- The pair `(k, v)` is the pair of key `k` in the source of highest index
that holds the key; the sources `rl` are listed oldest first. -/
def Wins (rl : List DiskRun) (k v : Int) : Prop :=
  ∃ (i : Nat) (src : DiskRun), rl[i]? = some src ∧ (⟨k, v⟩ : KVPair) ∈ src.entries ∧
    ∀ (i2 : Nat) (src2 : DiskRun), i < i2 → rl[i2]? = some src2 →
      ∀ v2, (⟨k, v2⟩ : KVPair) ∉ src2.entries

/-- The pairs `out` are the merge of the sources `rl`: every pair of `out` is
the newest pair of its key in the sources, and the newest pair of every key
is in `out`, unless it is a tombstone and the merge is `terminal`. -/
def MergedOf (rl : List DiskRun) (out : List KVPair) (terminal : Prop) : Prop :=
  (∀ k v, (⟨k, v⟩ : KVPair) ∈ out → Wins rl k v) ∧
    ∀ k v, Wins rl k v → (⟨k, v⟩ : KVPair) ∈ out ∨ (terminal ∧ v = V_TOMBSTONE)

/-- The sources leave a pair when a merge drops a tombstone: they hold two
different keys, or no tombstone. -/
@[reducible] def Keeps (rl : List DiskRun) : Prop :=
  (∃ src1 ∈ rl, ∃ src2 ∈ rl, ∃ a ∈ src1.entries, ∃ b ∈ src2.entries, a.key ≠ b.key) ∨
    ∀ src ∈ rl, ∀ kv ∈ src.entries, kv.value ≠ V_TOMBSTONE

/-- The shape of the level of index `idx` of a store with page size `ps`, `D`
runs per level and `M` runs per merge: the first `_activeRun` slots hold runs,
each of at most `_runSize` pairs, and the other slots are as the constructor
left them. -/
structure LevelOK (E : Env) (ps D M idx : Nat) (lvl : DiskLevel) : Prop where
  level : lvl._level = (idx : Int) + 1
  page : lvl._pageSize = ps
  numRuns : lvl._numRuns = D
  mergeSize : lvl._mergeSize = M
  size_pos : 1 ≤ lvl._runSize
  size_le : lvl._runSize ≤ 2147483647
  len : lvl.runs.length = D
  active : lvl._activeRun ≤ D
  used : ∀ r ∈ lvl.runs.take lvl._activeRun,
    r.Live ∧ r._capacity ≤ lvl._runSize ∧ r._level = lvl._level
  free : ∀ r ∈ lvl.runs.drop lvl._activeRun, r.Blank E lvl._runSize ps lvl._level

/-- The occupied runs of a level, each as its pairs, the newest run first. -/
def order (lvl : DiskLevel) : List (List KVPair) :=
  ((lvl.runs.take lvl._activeRun).map DiskRun.entries).reverse

end DiskLevel

/-- The value of key `k` in the first of the runs that holds the key. -/
def newest : List (List KVPair) → Int → Option Int
  | [], _ => none
  | run :: rest, k =>
    match run.find? (fun kv => decide (kv.key = k)) with
    | some kv => some kv.value
    | none => newest rest k

/-- The value of key `k` that a search of the runs in this order reports: the
value in the first run that holds the key, unless it is the tombstone. -/
def visible (runs : List (List KVPair)) (k : Int) : Option Int :=
  (newest runs k).filter (fun v => decide (v ≠ V_TOMBSTONE))

namespace LSM

/-- The runs on disk in the order in which `lookup` visits them: level by
level, and within a level the newest run first. -/
def diskOrder (s : LSM) : List (List KVPair) :=
  (s.diskLevels.map DiskLevel.order).flatten

/-- The shape of the disk levels of a store. -/
structure DiskOK (E : Env) (s : LSM) : Prop where
  count : s.diskLevels.length = s._numDiskLevels
  page : 1 ≤ s._pageSize
  merge_pos : 1 ≤ s.diskMergeSize
  merge_le : s.diskMergeSize ≤ s._diskRunsPerLevel
  merge_small : s.diskMergeSize ≤ 2147483647
  runs_lt : s._diskRunsPerLevel < 2 ^ 32
  levels : ∀ (i : Nat) (lvl : DiskLevel), s.diskLevels[i]? = some lvl →
    lvl.LevelOK E s._pageSize s._diskRunsPerLevel s.diskMergeSize i
  sizes : ∀ (i : Nat) (a b : DiskLevel), s.diskLevels[i]? = some a →
    s.diskLevels[i + 1]? = some b →
    b._runSize = a._runSize * a._mergeSize

/-- The first statement of `mergeRunsToLevel`: the level `level` is made if
the store does not have it. -/
def growLevels (E : Env) (s : LSM) (level : Nat) : Option LSM :=
  if level = s._numDiskLevels then
    (match s.diskLevels[level - 1]? with
     | none => none
     | some prev =>
       if level = 0 then none
       else
         match DiskLevel.new E s._pageSize ((level : Int) + 1) (prev._runSize * prev._mergeSize)
             s._diskRunsPerLevel s.diskMergeSize with
         | none => none
         | some newLevel =>
           some { s with diskLevels := s.diskLevels ++ [newLevel],
                         _numDiskLevels := s._numDiskLevels + 1 })
  else some s

/-- The statements of `mergeRunsToLevel` after the recursive call: the runs
that `getRunsToMerge` names at the level before `level` are merged into
`level` by `addRuns` and freed by `freeMergedRuns`. -/
def moveRuns (E : Env) (s2 : LSM) (level : Nat) : Option LSM :=
  if level = 0 then none
  else
    match s2.diskLevels[level]?, s2.diskLevels[level - 1]? with
    | some dst, some src =>
      match src.getRunsToMerge with
      | none => none
      | some runsToMerge =>
        match dst.addRuns E runsToMerge src._runSize
            (decide (level + 1 = s2._numDiskLevels) && dst.levelEmpty) with
        | none => none
        | some dst1 =>
          match src.freeMergedRuns E runsToMerge with
          | none => none
          | some src1 =>
            some { s2 with
              diskLevels := (s2.diskLevels.set level dst1).set (level - 1) src1 }
    | _, _ => none

end LSM

/-- What the call `mergeRunsToLevel(i + 1)` makes of a store `s` whose level
`i` is the full level `src`: the store `s2` has the levels before `i` as they
were, its level `i` is `src2`, which is `src` without its `M` oldest runs, the
newest run of its level `i + 1` is `merged`, the merge of these runs, which
may lack a tombstone only if it is the one run of the last level; no level
after `i` is empty, and for every key the value that a search of the disk
reports is the same as before. -/
structure LSM.Cascaded (E : Env) (s s2 : LSM) (i : Nat) (src src2 dst2 : DiskLevel)
    (merged : DiskRun) : Prop where
  ok : s2.DiskOK E
  page : s2._pageSize = s._pageSize
  perLevel : s2._diskRunsPerLevel = s._diskRunsPerLevel
  mergeSize : s2.diskMergeSize = s.diskMergeSize
  grown : s._numDiskLevels ≤ s2._numDiskLevels
  before : s2.diskLevels.take i = s.diskLevels.take i
  source : s2.diskLevels[i]? = some src2
  target : s2.diskLevels[i + 1]? = some dst2
  freed : src2._activeRun + s.diskMergeSize = s._diskRunsPerLevel
  size : src2._runSize = src._runSize
  kept : src.order = src2.order ++ ((src.runs.take s.diskMergeSize).map DiskRun.entries).reverse
  head : dst2.order.head? = some merged.entries
  strict : merged.StrictKeys
  merge : DiskLevel.MergedOf (src.runs.take s.diskMergeSize) merged.entries
    (dst2._activeRun = 1 ∧ i + 2 = s2._numDiskLevels)
  busy : ∀ lvl ∈ s2.diskLevels.drop (i + 1), 1 ≤ lvl._activeRun
  same : ∀ k, visible s2.diskOrder k = visible s.diskOrder k

/-! ## The shape of a store, and the calls a merge makes -/

namespace LSM

/-- The shape of the memory buffer of a store with `r` in-memory runs of `e`
elements, `m` of them drained at a time: `C_0` and `filters` have `r` entries,
the active run is one of them, no run counts more than `e` elements, the runs
before the active one count `e`, and the runs after it count none. -/
structure BufShape (e r m : Nat) (s : LSM) : Prop where
  runs : s.C_0.length = r
  filters : s.filters.length = r
  elts : s._eltsPerRun = e
  numRuns : s._num_runs = r
  toMerge : s._num_to_merge = m
  active : s._activeRun < r
  atMost : ∀ run ∈ s.C_0, run.num_elements ≤ e
  below : ∀ (i : Nat) (run : SkipList), i < s._activeRun → s.C_0[i]? = some run →
    run.num_elements = e
  above : ∀ (i : Nat) (run : SkipList), s._activeRun < i → s.C_0[i]? = some run →
    run.num_elements = 0

end LSM

/-- The counters of a disk level of a store with `D` runs per level, `M` of
them merged at a time: `D` slots, at most `D` of them in use, and every run
carries the number of the level. -/
structure DiskLevel.Shaped (D M : Nat) (lvl : DiskLevel) : Prop where
  numRuns : lvl._numRuns = D
  mergeSize : lvl._mergeSize = M
  size_pos : 1 ≤ lvl._runSize
  len : lvl.runs.length = D
  active : lvl._activeRun ≤ D
  tagged : ∀ r ∈ lvl.runs, r._level = lvl._level

namespace LSM

/-- The counters of the disk levels of a store: `_numDiskLevels` levels, the
merge size between one and the number of runs per level, which is in the
range of `unsigned`, and every level with the counters of the store. -/
structure DiskShape (s : LSM) : Prop where
  count : s.diskLevels.length = s._numDiskLevels
  merge_pos : 1 ≤ s.diskMergeSize
  merge_le : s.diskMergeSize ≤ s._diskRunsPerLevel
  runs_lt : s._diskRunsPerLevel < 2 ^ 32
  levels : ∀ lvl ∈ s.diskLevels, lvl.Shaped s._diskRunsPerLevel s.diskMergeSize

/-- A call made while `mergeRunsToLevel` runs: the entry of
`mergeRunsToLevel(level)`; the call `diskLevels[level]->addRuns(runList, runLen, lastLevel)`
in the store `s`; the call `src.freeMergedRuns(toFree)`. -/
inductive MergeCall where
  | enter (level : Nat)
  | addRuns (level : Nat) (s : LSM) (runList : List DiskRun) (runLen : Nat) (lastLevel : Bool)
  | freeMergedRuns (src : DiskLevel) (toFree : List DiskRun)
  deriving DecidableEq, Repr

/-- The calls of the statements of `mergeRunsToLevel` after the recursive
call, in the store `s2` that the recursive call leaves: `addRuns`, and
`freeMergedRuns` if `addRuns` returns. -/
def moveRunsCalls (E : Env) (s2 : LSM) (level : Nat) : List MergeCall :=
  if level = 0 then []
  else
    match s2.diskLevels[level]?, s2.diskLevels[level - 1]? with
    | some dst, some src =>
      match src.getRunsToMerge with
      | none => []
      | some runsToMerge =>
        MergeCall.addRuns level s2 runsToMerge src._runSize
            (decide (level + 1 = s2._numDiskLevels) && dst.levelEmpty) ::
          (match dst.addRuns E runsToMerge src._runSize
              (decide (level + 1 = s2._numDiskLevels) && dst.levelEmpty) with
           | none => []
           | some _ => [MergeCall.freeMergedRuns src runsToMerge])
    | _, _ => []

/-- The calls that `mergeRunsToLevel(level)` makes, in the order in which it
makes them, up to the depth `fuel` of the recursion. -/
def mergeCalls (E : Env) : Nat → LSM → Nat → List MergeCall
  | 0, _, _ => []
  | fuel + 1, s, level =>
    MergeCall.enter level ::
      (match growLevels E s level with
       | none => []
       | some s1 =>
         match s1.diskLevels[level]? with
         | none => []
         | some target =>
           if target.levelFull then
             mergeCalls E fuel s1 (level + 1) ++
               (match mergeRunsToLevel E fuel s1 (level + 1) with
                | none => []
                | some s2 => moveRunsCalls E s2 level)
           else moveRunsCalls E s1 level)

/-- The number of entries of `mergeRunsToLevel` among the calls. -/
def MergeCall.entries (calls : List MergeCall) : Nat :=
  (calls.filter (fun c => match c with
    | MergeCall.enter _ => true
    | _ => false)).length

/-- The call `diskLevels[0]->addRunByArray(&to_merge[0], to_merge.size())` of
`merge_runs`, if `merge_runs` gets to it: the level and the two arguments. -/
def drainCall (E : Env) (s : LSM) (runs_to_merge : List SkipList) :
    Option (DiskLevel × List KVPair × Nat) :=
  match s.diskLevels[0]? with
  | none => none
  | some l0 =>
    match (if l0.levelFull then mergeRunsToLevel E (s._numDiskLevels + 1) s 1 else some s) with
    | none => none
    | some s1 =>
      match s1.diskLevels[0]? with
      | none => none
      | some d0 =>
        some (d0, sortKV (gatherRuns runs_to_merge []),
          (sortKV (gatherRuns runs_to_merge [])).length)

end LSM

/-- A call in short: `0` and the level for an entry of `mergeRunsToLevel`,
`1` and the level for `addRuns`, `2` and the number of runs in use of the
receiver for `freeMergedRuns`. -/
def LSM.MergeCall.code : LSM.MergeCall → Nat × Nat
  | LSM.MergeCall.enter level => (0, level)
  | LSM.MergeCall.addRuns level _ _ _ _ => (1, level)
  | LSM.MergeCall.freeMergedRuns src _ => (2, src._activeRun)

/-- Whether a call of `addRuns` made while `mergeRunsToLevel` runs returns:
the member is run on the level `level` of the store of the call. The entries
of `mergeRunsToLevel` and the calls of `freeMergedRuns` are not looked at. -/
def LSM.MergeCall.addRunsReturns (E : Env) : LSM.MergeCall → Bool
  | LSM.MergeCall.addRuns level s runList runLen lastLevel =>
    match s.diskLevels[level]? with
    | some dst => (dst.addRuns E runList runLen lastLevel).isSome
    | none => true
  | _ => true

/-- The store of one pair per in-memory run, two runs, both drained in one
merge, two disk runs per level, both merged at once, after the calls
`insert(1,1)`, `insert(2,2)`, `insert(3,3)`, `delete(4)`, `insert(5,5)`,
`insert(6,6)`: the runs of disk level 0 are in use, and the newest of them
ends in the tombstone of key `4`. -/
def tombstoneStore : Option LSM :=
  (LSM.new sampleEnv 1 2 2 1 2 2).bind
    (fun s => s.insertAll sampleEnv
      [(1, 1, 0), (2, 2, 0), (3, 3, 0), (4, V_TOMBSTONE, 0), (5, 5, 0), (6, 6, 0)])

/-! ## The merge thread -/

/-- What the calling thread does with the member `mergeThread` and with the
disk levels: `mergeThread.join()`, the assignment
`mergeThread = thread(&LSM::merge_runs, ...)`, and an access to `diskLevels[i]`. -/
inductive ThreadEvent where
  | join
  | spawn
  | readLevel (i : Nat)
  deriving DecidableEq, Repr

namespace ThreadEvent

/-- The statement `if (mergeThread.joinable()) mergeThread.join();`; afterwards
`mergeThread` is not joinable. -/
def joinIfJoinable (joinable : Bool) : List ThreadEvent :=
  if joinable then [ThreadEvent.join] else []

/-- The number of merge threads started and not joined after the events, when
there were `live` of them before. -/
def liveAfter : Nat → List ThreadEvent → Nat
  | live, [] => live
  | live, ThreadEvent.spawn :: rest => liveAfter (live + 1) rest
  | live, ThreadEvent.join :: rest => liveAfter (live - 1) rest
  | live, ThreadEvent.readLevel _ :: rest => liveAfter live rest

/-- The discipline of the merge thread, checked on a list of events with
`live` merge threads before it: a thread is started only when none is live, a
join finds one live thread, and a disk level is read only when none is live. -/
def orderly : Nat → List ThreadEvent → Bool
  | _, [] => true
  | live, ThreadEvent.spawn :: rest => decide (live = 0) && orderly 1 rest
  | live, ThreadEvent.join :: rest => decide (live = 1) && orderly 0 rest
  | live, ThreadEvent.readLevel _ :: rest => decide (live = 0) && orderly live rest

/-- The number of live merge threads when `mergeThread` is joinable or not. -/
def ofJoinable (joinable : Bool) : Nat := if joinable then 1 else 0

/-- The events `r.1` keep the discipline from a state in which `mergeThread` is
joinable or not, and leave it joinable or not, as `r.2` says. -/
def Good (joinable : Bool) (r : List ThreadEvent × Bool) : Prop :=
  orderly (ofJoinable joinable) r.1 = true ∧ liveAfter (ofJoinable joinable) r.1 = ofJoinable r.2

end ThreadEvent

namespace LSM

/-- The events of `do_merge` and `mergeThread.joinable()` after it: the join
of the merge thread before, if there is one, and the start of the next. -/
def do_mergeEvents (s : LSM) (joinable : Bool) : List ThreadEvent × Bool :=
  if s._num_to_merge = 0 then ([], joinable)
  else if s.C_0.length < s._num_to_merge ∨ s.filters.length < s._num_to_merge then ([], joinable)
  else (ThreadEvent.joinIfJoinable joinable ++ [ThreadEvent.spawn], true)

/-- The events of `insert_key`: those of `do_merge`, when it is called. -/
def insert_keyEvents (s : LSM) (joinable : Bool) : List ThreadEvent × Bool :=
  match advanceRun s with
  | none => ([], joinable)
  | some s0 => if s0._activeRun ≥ s0._num_runs then do_mergeEvents s0 joinable else ([], joinable)

/-- The accesses of the second `for` loop of `lookup`, over the disk levels from `i` on. -/
def lookupDiskEvents (E : Env) (key : Int) : List DiskLevel → Nat → List ThreadEvent
  | [], _ => []
  | lvl :: rest, i =>
    ThreadEvent.readLevel i ::
      (match lvl.lookup E key false with
       | some (_, false) => lookupDiskEvents E key rest (i + 1)
       | _ => [])

/-- The events of `lookup`: none when the loop over the in-memory runs
returns; otherwise the join and the accesses of the loop over the disk levels. -/
def lookupEvents (E : Env) (s : LSM) (joinable : Bool) (key value : Int) :
    List ThreadEvent × Bool :=
  match lookupBuffer E s key (s._activeRun + 1) value with
  | none => ([], joinable)
  | some (some _, _) => ([], joinable)
  | some (none, _) =>
    (ThreadEvent.joinIfJoinable joinable ++
      lookupDiskEvents E key (s.diskLevels.take s._numDiskLevels) 0, false)

/-- The accesses of the loop of `range` over the disk levels from `j` on. -/
def rangeDiskEvents (key1 key2 : Int) :
    List DiskLevel → HashTable → List KVPair → Nat → List ThreadEvent
  | [], _, _, _ => []
  | lvl :: rest, ht, eltsInRange, j =>
    ThreadEvent.readLevel j ::
      (match rangeRuns lvl.runs key1 key2 lvl._activeRun ht eltsInRange with
       | none => []
       | some (ht1, elts1) => rangeDiskEvents key1 key2 rest ht1 elts1 (j + 1))

/-- The events of `range`: none when `key2 <= key1`; otherwise, after the loop
over the in-memory runs, the join and the accesses of the loop over the disk
levels. -/
def rangeEvents (s : LSM) (joinable : Bool) (key1 key2 : Int) : List ThreadEvent × Bool :=
  if key2 ≤ key1 then ([], joinable)
  else
    match rangeBuffer s key1 key2 (s._activeRun + 1) { claimed := [] } [] with
    | none => ([], joinable)
    | some (ht, elts) =>
      (ThreadEvent.joinIfJoinable joinable ++
        rangeDiskEvents key1 key2 (s.diskLevels.take s._numDiskLevels) ht elts 0, false)

/-- The events of `printElts`: the join, then every disk level is printed. -/
def printEltsEvents (s : LSM) (joinable : Bool) : List ThreadEvent × Bool :=
  (ThreadEvent.joinIfJoinable joinable ++
    (List.range s._numDiskLevels).map ThreadEvent.readLevel, false)

/-- The events of `printStats`: those of `size()`, which is
`range(INT_MIN, INT_MAX)`; the join of `num_buffer()`; `num_elements()` of
every disk level, read without a join of its own; and those of `printElts()`. -/
def printStatsEvents (s : LSM) (joinable : Bool) : List ThreadEvent × Bool :=
  match s.range INT_MIN INT_MAX with
  | none => rangeEvents s joinable INT_MIN INT_MAX
  | some _ =>
    ((rangeEvents s joinable INT_MIN INT_MAX).1 ++
      ThreadEvent.joinIfJoinable (rangeEvents s joinable INT_MIN INT_MAX).2 ++
      (List.range s.diskLevels.length).map ThreadEvent.readLevel ++
      (printEltsEvents s false).1, false)

end LSM

/-- A call of a public member of the store by the calling thread. -/
inductive Op where
  | insert_key (key value insertLevel : Int)
  | delete_key (key insertLevel : Int)
  | lookup (key value : Int)
  | range (key1 key2 : Int)
  | num_buffer
  | size
  | printElts
  | printStats
  deriving DecidableEq, Repr

namespace Op

/-- The events of one call on the store `s`, `mergeThread.joinable()` after
it, and the store after it, if the call returns. -/
def step (E : Env) (s : LSM) (joinable : Bool) : Op → (List ThreadEvent × Bool) × Option LSM
  | Op.insert_key key value insertLevel =>
    (s.insert_keyEvents joinable, s.insert_key E key value insertLevel)
  | Op.delete_key key insertLevel => (s.insert_keyEvents joinable, s.delete_key E key insertLevel)
  | Op.lookup key value => (s.lookupEvents E joinable key value, (s.lookup E key value).map (fun _ => s))
  | Op.range key1 key2 => (s.rangeEvents joinable key1 key2, (s.range key1 key2).map (fun _ => s))
  | Op.num_buffer => ((ThreadEvent.joinIfJoinable joinable, false), some s)
  | Op.size => (s.rangeEvents joinable INT_MIN INT_MAX, (s.range INT_MIN INT_MAX).map (fun _ => s))
  | Op.printElts => (s.printEltsEvents joinable, some s)
  | Op.printStats => (s.printStatsEvents joinable, (s.range INT_MIN INT_MAX).map (fun _ => s))

/-- The events of a sequence of calls, up to the first call that does not return. -/
def events (E : Env) : LSM → Bool → List Op → List ThreadEvent
  | _, _, [] => []
  | s, joinable, op :: rest =>
    (step E s joinable op).1.1 ++
      (match (step E s joinable op).2 with
       | none => []
       | some s1 => events E s1 (step E s joinable op).1.2 rest)

end Op

/-! ## The rounds of a binary search -/

namespace DiskRun

/-- The rounds of the `while` loop of `binary_search`: the pair `(min, max)` at
the start of every round, in which `map[(min + max) >> 1]` is read. -/
def binarySearchRounds (map : List KVPair) (key : Int) : Nat → Nat → Nat → List (Nat × Nat)
  | 0, _, _ => []
  | fuel + 1, min, max =>
    if min ≤ max then
      (min, max) ::
        (match map[((min + max) % 2 ^ 64) / 2]? with
         | none => []
         | some kv =>
           if key > kv.key then
             binarySearchRounds map key fuel ((((min + max) % 2 ^ 64) / 2 + 1) % 2 ^ 64) max
           else if key = kv.key then []
           else
             binarySearchRounds map key fuel min
               ((((min + max) % 2 ^ 64) / 2 + (2 ^ 64 - 1)) % 2 ^ 64))
    else []

/-- The rounds of the member `binary_search`. -/
def searchRounds (r : DiskRun) (offset n : Nat) (key : Int) : List (Nat × Nat) :=
  if n = 0 then []
  else binarySearchRounds r.map key (n + 1) offset ((offset + n + (2 ^ 64 - 1)) % 2 ^ 64)

/-- The pairs `map[offset .. offset + n)`, the bracket of a binary search. -/
def bracket (r : DiskRun) (offset n : Nat) : List KVPair := (r.map.drop offset).take n

end DiskRun

namespace SkipList

/-- The bracket `[min, max]` holds the key of the tail when the tail holds a value. -/
def TailOK (s : SkipList) : Prop :=
  ∀ v ∈ s.tailValue, s.min ≤ s._maxKey ∧ s._maxKey ≤ s.max

/-- Two lists hold the same pairs: the same nodes along `_forward[1]` but for
their heights, the same value in the tail, the same key of the tail. -/
def SameContent (s1 s2 : SkipList) : Prop :=
  s1.get_all = s2.get_all ∧ s1.tailValue = s2.tailValue ∧ s1._maxKey = s2._maxKey

/-- The key `k` is stored with the value `v`: in a node, or in the tail. -/
def Stores (s : SkipList) (k v : Int) : Prop :=
  (⟨k, v⟩ : KVPair) ∈ s.get_all ∨ (k = s._maxKey ∧ s.tailValue = some v)

end SkipList

/-! # Properties -/

/-! ## The Bloom filter -/

namespace BloomFilter

theorem addLoop_length (hA hB : Nat) : ∀ (fuel n : Nat) (bits bits' : List Bool),
    addLoop hA hB fuel n bits = some bits' → bits'.length = bits.length := by
  intro fuel
  induction fuel with
  | zero => intro n bits bits' h; simp [addLoop] at h; subst h; rfl
  | succ f ih =>
    intro n bits bits' h
    simp only [addLoop] at h
    split at h
    · exact absurd h (by simp)
    · rename_i i hi
      have := ih _ _ _ h
      simpa using this

theorem addLoop_mono (hA hB : Nat) : ∀ (fuel n : Nat) (bits bits' : List Bool) (i : Nat),
    addLoop hA hB fuel n bits = some bits' → bits[i]? = some true → bits'[i]? = some true := by
  intro fuel
  induction fuel with
  | zero => intro n bits bits' i h hb; simp [addLoop] at h; subst h; exact hb
  | succ f ih =>
    intro n bits bits' i h hb
    simp only [addLoop] at h
    split at h
    · exact absurd h (by simp)
    · rename_i j hj
      apply ih _ _ _ i h
      by_cases hij : j = i
      · subst hij
        have hlt : j < bits.length := by
          rcases Nat.lt_or_ge j bits.length with h1 | h1
          · exact h1
          · rw [List.getElem?_eq_none h1] at hb; exact absurd hb (by simp)
        simp [List.getElem?_set_self, hlt]
      · rw [List.getElem?_set_ne hij]; exact hb

theorem nthHash_lt {t hA hB m i : Nat} (h : nthHash t hA hB m = some i) : i < m := by
  unfold nthHash at h
  split at h
  · exact absurd h (by simp)
  · rename_i hm
    simp at h
    subst h
    exact Nat.mod_lt _ (Nat.pos_of_ne_zero hm)

theorem addLoop_sets (hA hB : Nat) : ∀ (fuel n : Nat) (bits bits' : List Bool),
    addLoop hA hB fuel n bits = some bits' →
    ∀ t, n ≤ t → t < n + fuel →
      ∃ i, nthHash t hA hB bits.length = some i ∧ bits'[i]? = some true := by
  intro fuel
  induction fuel with
  | zero => intro n bits bits' _ t h1 h2; omega
  | succ f ih =>
    intro n bits bits' h t h1 h2
    simp only [addLoop] at h
    split at h
    · exact absurd h (by simp)
    · rename_i j hj
      by_cases hnt : t = n
      · subst hnt
        refine ⟨j, hj, ?_⟩
        apply addLoop_mono hA hB _ _ _ _ j h
        simp [List.getElem?_set_self, nthHash_lt hj]
      · have := ih (n + 1) _ _ h t (by omega) (by omega)
        simpa using this

theorem mayContainLoop_true (hA hB : Nat) (bits : List Bool) : ∀ (fuel n : Nat),
    (∀ t, n ≤ t → t < n + fuel → ∃ i, nthHash t hA hB bits.length = some i ∧ bits[i]? = some true) →
    mayContainLoop hA hB bits fuel n = some true := by
  intro fuel
  induction fuel with
  | zero => intro n _; rfl
  | succ f ih =>
    intro n h
    obtain ⟨i, hi, hb⟩ := h n (le_refl _) (by omega)
    simp only [mayContainLoop, hi, hb]
    simp
    exact ih (n + 1) (fun t h1 h2 => h t (by omega) (by omega))

theorem mayContain_of_holds (E : Env) (bf : BloomFilter) (key : Int) (h : bf.Holds E key) :
    bf.mayContain E key = some true := by
  unfold mayContain
  apply mayContainLoop_true
  intro t _ h2
  exact h t (by omega)

theorem add_holds (E : Env) (bf bf' : BloomFilter) (key : Int) (h : bf.add E key = some bf') :
    bf'.Holds E key := by
  unfold add at h
  split at h
  · exact absurd h (by simp)
  · rename_i bits hb
    simp at h
    subst h
    intro t ht
    have hl := addLoop_length _ _ _ _ _ _ hb
    obtain ⟨i, hi, hbi⟩ := addLoop_sets _ _ _ _ _ _ hb t (Nat.zero_le _) (by simpa using ht)
    exact ⟨i, by simpa [hl] using hi, hbi⟩

theorem add_keeps (E : Env) (bf bf' : BloomFilter) (key other : Int) (h : bf.add E other = some bf')
    (hk : bf.Holds E key) : bf'.Holds E key := by
  unfold add at h
  split at h
  · exact absurd h (by simp)
  · rename_i bits hb
    simp at h
    subst h
    intro t ht
    have hl := addLoop_length _ _ _ _ _ _ hb
    obtain ⟨i, hi, hbi⟩ := hk t ht
    exact ⟨i, by simpa [hl] using hi, addLoop_mono _ _ _ _ _ _ i hb hbi⟩

theorem addLoop_total (hA hB : Nat) : ∀ (fuel n : Nat) (bits : List Bool), 0 < bits.length →
    ∃ bits', addLoop hA hB fuel n bits = some bits' := by
  intro fuel
  induction fuel with
  | zero => intro n bits _; exact ⟨bits, rfl⟩
  | succ f ih =>
    intro n bits hb
    simp only [addLoop, nthHash, if_neg (Nat.pos_iff_ne_zero.mp hb)]
    exact ih _ _ (by simpa using hb)

/-- The member `add` returns on a filter that has a bit or makes no hash round. -/
theorem add_total (E : Env) (bf : BloomFilter) (key : Int)
    (h : 0 < bf.m_bits.length ∨ bf.m_numHashes = 0) :
    ∃ bf', bf.add E key = some bf' ∧ bf'.m_bits.length = bf.m_bits.length ∧
      bf'.m_numHashes = bf.m_numHashes := by
  have hex : ∃ bits', addLoop (E.hash key).1 (E.hash key).2 bf.m_numHashes 0 bf.m_bits
      = some bits' := by
    rcases h with h | h
    · exact addLoop_total _ _ _ _ _ h
    · rw [h]; exact ⟨_, rfl⟩
  obtain ⟨bits', hb⟩ := hex
  refine ⟨{ bf with m_bits := bits' }, by simp only [add, hb], ?_, rfl⟩
  exact addLoop_length _ _ _ _ _ _ hb

end BloomFilter

/-! ## The claim on the Bloom filter -/

namespace BloomFilter

theorem add_length (E : Env) (bf bf' : BloomFilter) (key : Int) (h : bf.add E key = some bf') :
    bf'.m_bits.length = bf.m_bits.length ∧ bf'.m_numHashes = bf.m_numHashes := by
  unfold add at h
  split at h
  · exact absurd h (by simp)
  · rename_i bits hb
    simp only [Option.some.injEq] at h
    subst h
    exact ⟨addLoop_length _ _ _ _ _ _ hb, rfl⟩

/-- A sequence of `add` calls on a filter with a bit returns, and the filter
it leaves holds every key of the sequence. -/
theorem addAll_holds (E : Env) : ∀ (keys : List Int) (bf : BloomFilter), 0 < bf.m_bits.length →
    ∃ bf', bf.addAll E keys = some bf' ∧ bf'.m_bits.length = bf.m_bits.length ∧
      (∀ x, bf.Holds E x → bf'.Holds E x) ∧ ∀ x ∈ keys, bf'.Holds E x := by
  intro keys
  induction keys with
  | nil =>
    intro bf _
    exact ⟨bf, rfl, rfl, fun _ h => h, fun x hx => absurd hx (List.not_mem_nil _)⟩
  | cons key rest ih =>
    intro bf hb
    obtain ⟨bits, hbits⟩ := addLoop_total (E.hash key).1 (E.hash key).2 bf.m_numHashes 0 _ hb
    have hadd : bf.add E key = some { bf with m_bits := bits } := by
      simp only [add, hbits]
    obtain ⟨l1, -⟩ := add_length E bf _ key hadd
    obtain ⟨bf', r1, r2, r3, r4⟩ := ih { bf with m_bits := bits } (by rw [l1]; exact hb)
    refine ⟨bf', by simp only [addAll, hadd]; exact r1, by rw [r2, l1], ?_, ?_⟩
    · intro x hx
      exact r3 x (add_keeps E bf _ x key hadd hx)
    · intro x hx
      rcases List.mem_cons.mp hx with h | h
      · rw [h]
        exact r3 key (add_holds E bf _ key hadd)
      · exact r4 x h

/-- Claim C12, no false negatives. On a filter with at least one bit, for any
hash function: the bit that round `i` uses for hashes `h1`, `h2` is
`(h1 + i * h2) mod 2 ^ 64 mod m`; every sequence of `add` calls returns, and
afterwards `mayContain(x)` returns true for every `x` of the sequence. -/
theorem bloom_no_false_negatives (E : Env) (bf : BloomFilter) (hbits : 0 < bf.m_bits.length)
    (keys : List Int) :
    (∀ i h1 h2 : Nat,
        nthHash i h1 h2 bf.m_bits.length = some ((h1 + i * h2) % 2 ^ 64 % bf.m_bits.length)) ∧
      ∃ bf', bf.addAll E keys = some bf' ∧ ∀ x ∈ keys, bf'.mayContain E x = some true := by
  constructor
  · intro i h1 h2
    unfold nthHash
    rw [if_neg (Nat.pos_iff_ne_zero.mp hbits), Nat.add_mod_mod]
  · obtain ⟨bf', r1, -, -, r4⟩ := addAll_holds E keys bf hbits
    exact ⟨bf', r1, fun x hx => mayContain_of_holds E bf' x (r4 x hx)⟩

set_option maxRecDepth 100000 in
/-- Claim C12 at a filter of ten bits and seven rounds, after `add(3)` and `add(5)`. -/
theorem bloom_no_false_negatives_witness :
    0 < (BloomFilter.new sampleEnv 1).m_bits.length ∧
      ((∀ i h1 h2 : Nat,
          nthHash i h1 h2 (BloomFilter.new sampleEnv 1).m_bits.length =
            some ((h1 + i * h2) % 2 ^ 64 % (BloomFilter.new sampleEnv 1).m_bits.length)) ∧
        ∃ bf', (BloomFilter.new sampleEnv 1).addAll sampleEnv [3, 5] = some bf' ∧
          ∀ x ∈ [3, 5], bf'.mayContain sampleEnv x = some true) :=
  ⟨by decide, bloom_no_false_negatives sampleEnv (BloomFilter.new sampleEnv 1) (by decide) [3, 5]⟩

end BloomFilter

/-! ## The skip list -/

namespace SkipList

theorem rank_le_length (key : Int) : ∀ nodes : List SkipList_Node, rank key nodes ≤ nodes.length := by
  intro nodes
  induction nodes with
  | nil => simp [rank]
  | cons nd rest ih =>
    simp only [rank]
    split
    · simp; omega
    · simp

theorem rank_drop (key : Int) : ∀ (nodes : List SkipList_Node) (pos : Nat),
    pos ≤ rank key nodes → rank key (nodes.drop pos) = rank key nodes - pos := by
  intro nodes
  induction nodes with
  | nil => intro pos _; simp [rank]
  | cons nd rest ih =>
    intro pos h
    cases pos with
    | zero => simp
    | succ p =>
      simp only [rank] at h ⊢
      split at h
      · rename_i hlt
        simp only [List.drop_succ_cons, if_pos hlt]
        rw [ih p (by omega)]
        omega
      · omega

theorem rank_pos_head {key : Int} {nd : SkipList_Node} {rest : List SkipList_Node}
    (h : 0 < rank key (nd :: rest)) : nd.key < key := by
  simp only [rank] at h
  split at h
  · assumption
  · omega

theorem walkLevel_le (level : Nat) (key tailKey : Int) : ∀ (rest : List SkipList_Node) (r : Nat),
    SortedNodes rest → walkLevel level key tailKey rest = some r → r ≤ rank key rest := by
  intro rest
  induction rest with
  | nil =>
    intro r _ h
    simp only [walkLevel] at h
    split at h <;> simp at h
    omega
  | cons nd rest ih =>
    intro r hs h
    have hs' : SortedNodes rest := (List.pairwise_cons.mp hs).2
    simp only [walkLevel] at h
    split at h
    · split at h
      · rename_i hlt
        cases hw : walkLevel level key tailKey rest with
        | none => simp [hw] at h
        | some r0 =>
          simp [hw] at h
          subst h
          have := ih r0 hs' hw
          simp [rank, hlt]
          exact this
      · simp at h; omega
    · cases hw : walkLevel level key tailKey rest with
      | none => simp [hw] at h
      | some r0 =>
        simp [hw] at h
        have h0 := ih r0 hs' hw
        by_cases hr : r0 = 0
        · simp [hr] at h; omega
        · simp [hr] at h
          subst h
          have hpos : 0 < rank key rest := by omega
          cases rest with
          | nil => simp [rank] at hpos
          | cons nd2 rest2 =>
            have h2 : nd2.key < key := rank_pos_head hpos
            have h1 : nd.key < nd2.key := (List.pairwise_cons.mp hs).1 nd2 (by simp)
            have : nd.key < key := lt_trans h1 h2
            simp only [rank, if_pos this, if_pos h2] at h0 ⊢
            omega

theorem walkLevel_one (key tailKey : Int) : ∀ (rest : List SkipList_Node) (r : Nat),
    (∀ nd ∈ rest, 1 ≤ nd.top) → walkLevel 1 key tailKey rest = some r → r = rank key rest := by
  intro rest
  induction rest with
  | nil =>
    intro r _ h
    simp only [walkLevel] at h
    split at h <;> simp at h
    simp [rank, h]
  | cons nd rest ih =>
    intro r ht h
    have h1 : 1 ≤ nd.top := ht nd (by simp)
    simp only [walkLevel, if_pos h1] at h
    split at h
    · rename_i hlt
      cases hw : walkLevel 1 key tailKey rest with
      | none => simp [hw] at h
      | some r0 =>
        simp [hw] at h
        subst h
        have := ih r0 (fun n hn => ht n (by simp [hn])) hw
        simp [rank, hlt, this]
    · rename_i hlt
      simp at h
      simp [rank, hlt, h]

theorem walkLevel_some (level : Nat) (key tailKey : Int) (hk : key ≤ tailKey) :
    ∀ rest : List SkipList_Node, ∃ r, walkLevel level key tailKey rest = some r := by
  intro rest
  induction rest with
  | nil => exact ⟨0, by simp [walkLevel, not_lt.mpr hk]⟩
  | cons nd rest ih =>
    obtain ⟨r0, hr0⟩ := ih
    simp only [walkLevel, hr0]
    split
    · split
      · exact ⟨_, rfl⟩
      · exact ⟨_, rfl⟩
    · exact ⟨_, rfl⟩

theorem walkLevel_key_le (level : Nat) (key tailKey : Int) : ∀ (rest : List SkipList_Node) (r : Nat),
    (∀ nd ∈ rest, nd.key < tailKey) → walkLevel level key tailKey rest = some r → level ≤ 1 →
    (∀ nd ∈ rest, 1 ≤ nd.top) → key ≤ tailKey := by
  intro rest
  induction rest with
  | nil =>
    intro r _ h _ _
    simp only [walkLevel] at h
    split at h
    · simp at h
    · rename_i hlt; exact not_lt.mp hlt
  | cons nd rest ih =>
    intro r hb h hl ht
    have h1 : level ≤ nd.top := le_trans hl (ht nd (by simp))
    simp only [walkLevel, if_pos h1] at h
    split at h
    · cases hw : walkLevel level key tailKey rest with
      | none => simp [hw] at h
      | some r0 =>
        exact ih r0 (fun n hn => hb n (by simp [hn])) hw hl (fun n hn => ht n (by simp [hn]))
    · rename_i hlt
      exact le_of_lt (lt_of_le_of_lt (not_lt.mp hlt) (hb nd (by simp)))

theorem findPred_eq (key tailKey : Int) (nodes : List SkipList_Node) (hs : SortedNodes nodes)
    (ht : ∀ nd ∈ nodes, 1 ≤ nd.top) : ∀ (level pos p : Nat), 1 ≤ level → pos ≤ rank key nodes →
    findPred key tailKey nodes level pos = some p → p = rank key nodes := by
  intro level
  induction level with
  | zero => intro pos p h; omega
  | succ l ih =>
    intro pos p _ hpos h
    simp only [findPred] at h
    cases hw : walkLevel (l + 1) key tailKey (nodes.drop pos) with
    | none => simp [hw] at h
    | some r =>
      simp only [hw] at h
      have hsd : SortedNodes (nodes.drop pos) := List.Pairwise.sublist (List.drop_sublist _ _) hs
      have hle := walkLevel_le _ _ _ _ _ hsd hw
      rw [rank_drop key nodes pos hpos] at hle
      cases l with
      | zero =>
        have := walkLevel_one key tailKey _ r
          (fun n hn => ht n (List.mem_of_mem_drop hn)) hw
        rw [rank_drop key nodes pos hpos] at this
        simp only [findPred] at h
        simp at h
        omega
      | succ l2 => exact ih (pos + r) p (by omega) (by omega) h

theorem findPred_some (key tailKey : Int) (nodes : List SkipList_Node) (hk : key ≤ tailKey) :
    ∀ (level pos : Nat), ∃ p, findPred key tailKey nodes level pos = some p := by
  intro level
  induction level with
  | zero => intro pos; exact ⟨pos, rfl⟩
  | succ l ih =>
    intro pos
    obtain ⟨r, hr⟩ := walkLevel_some (l + 1) key tailKey hk (nodes.drop pos)
    simp only [findPred, hr]
    exact ih (pos + r)

theorem findPred_key_le (key tailKey : Int) (nodes : List SkipList_Node)
    (hb : ∀ nd ∈ nodes, nd.key < tailKey) (ht : ∀ nd ∈ nodes, 1 ≤ nd.top) :
    ∀ (level pos p : Nat), 1 ≤ level →
    findPred key tailKey nodes level pos = some p → key ≤ tailKey := by
  intro level
  induction level with
  | zero => intro pos p h; omega
  | succ l ih =>
    intro pos p _ h
    simp only [findPred] at h
    cases hw : walkLevel (l + 1) key tailKey (nodes.drop pos) with
    | none => simp [hw] at h
    | some r =>
      simp only [hw] at h
      cases l with
      | zero =>
        exact walkLevel_key_le 1 key tailKey _ r (fun n hn => hb n (List.mem_of_mem_drop hn)) hw
          (le_refl _) (fun n hn => ht n (List.mem_of_mem_drop hn))
      | succ l2 => exact ih (pos + r) p (by omega) h


theorem rank_take_lt (key : Int) : ∀ (nodes : List SkipList_Node),
    ∀ a ∈ nodes.take (rank key nodes), a.key < key := by
  intro nodes
  induction nodes with
  | nil => intro a ha; simp [rank] at ha
  | cons nd rest ih =>
    intro a ha
    simp only [rank] at ha
    split at ha
    · rename_i hlt
      simp only [List.take_succ_cons, List.mem_cons] at ha
      rcases ha with h | h
      · subst h; exact hlt
      · exact ih a h
    · simp at ha

theorem rank_drop_head (key : Int) : ∀ (nodes : List SkipList_Node) (b : SkipList_Node),
    nodes[rank key nodes]? = some b → ¬ b.key < key := by
  intro nodes
  induction nodes with
  | nil => intro b h; simp at h
  | cons nd rest ih =>
    intro b h
    simp only [rank] at h
    split at h
    · simp only [List.getElem?_cons_succ] at h
      exact ih b h
    · simp at h; subst h; assumption

theorem rank_append (key : Int) : ∀ (l1 l2 : List SkipList_Node), (∀ a ∈ l1, a.key < key) →
    rank key (l1 ++ l2) = l1.length + rank key l2 := by
  intro l1
  induction l1 with
  | nil => intro l2 _; simp
  | cons a l1 ih =>
    intro l2 h
    have ha : a.key < key := h a (by simp)
    have := ih l2 (fun x hx => h x (by simp [hx]))
    show rank key (a :: (l1 ++ l2)) = (a :: l1).length + rank key l2
    simp only [rank, if_pos ha, List.length_cons, this]
    omega

theorem noteKey_nodes (s : SkipList) (key : Int) : (s.noteKey key).nodes = s.nodes := by
  unfold noteKey; split; · rfl
  split <;> rfl

theorem noteKey_maxKey (s : SkipList) (key : Int) : (s.noteKey key)._maxKey = s._maxKey := by
  unfold noteKey; split; · rfl
  split <;> rfl

theorem noteKey_level (s : SkipList) (key : Int) : (s.noteKey key).cur_max_level = s.cur_max_level := by
  unfold noteKey; split; · rfl
  split <;> rfl

theorem noteKey_tailValue (s : SkipList) (key : Int) : (s.noteKey key).tailValue = s.tailValue := by
  unfold noteKey; split; · rfl
  split <;> rfl

theorem noteKey_n (s : SkipList) (key : Int) : (s.noteKey key)._n = s._n := by
  unfold noteKey; split; · rfl
  split <;> rfl

theorem noteKey_bracket (s : SkipList) (key : Int) (h : s.min ≤ s.max) :
    (s.noteKey key).min ≤ key ∧ key ≤ (s.noteKey key).max ∧ (s.noteKey key).min ≤ (s.noteKey key).max ∧
      (s.noteKey key).min ≤ s.min ∧ s.max ≤ (s.noteKey key).max := by
  unfold noteKey
  split
  · simp; omega
  · split
    · simp; omega
    · simp; omega

theorem raisedLevel_ge (s : SkipList) (l : Int) : s.cur_max_level ≤ s.raisedLevel l := by
  unfold raisedLevel
  split
  · rename_i h; omega
  · exact le_refl _

/-- The nodes of a list split at the rank of a key: the keys before are below
it, the keys from there on are not. -/
theorem rank_split (key : Int) (nodes : List SkipList_Node) (hs : SortedNodes nodes) :
    (∀ a ∈ nodes.take (rank key nodes), a.key < key) ∧
      (∀ b ∈ nodes.drop (rank key nodes), key ≤ b.key) := by
  refine ⟨rank_take_lt key nodes, ?_⟩
  intro b hb
  have hsd : SortedNodes (nodes.drop (rank key nodes)) :=
    List.Pairwise.sublist (List.drop_sublist _ _) hs
  cases hd : nodes.drop (rank key nodes) with
  | nil => rw [hd] at hb; simp at hb
  | cons c rest =>
    have hc : nodes[rank key nodes]? = some c := by
      have := List.getElem?_drop nodes (rank key nodes) 0
      rw [hd] at this
      simpa using this.symm
    have hck : key ≤ c.key := not_lt.mp (rank_drop_head key nodes c hc)
    rw [hd] at hb hsd
    rcases List.mem_cons.mp hb with h | h
    · subst h; exact hck
    · exact le_trans hck (le_of_lt ((List.pairwise_cons.mp hsd).1 b h))


theorem findPred_rank (s : SkipList) (hwf : s.WF) (key : Int) (hk : key ≤ s._maxKey) :
    findPred key s._maxKey s.nodes s.cur_max_level 0 = some (rank key s.nodes) := by
  obtain ⟨p, hp⟩ := findPred_some key s._maxKey s.nodes hk s.cur_max_level 0
  rw [hp, findPred_eq key s._maxKey s.nodes hwf.sorted (fun nd hnd => (hwf.tops nd hnd).1)
    s.cur_max_level 0 p hwf.level (Nat.zero_le _) hp]

theorem drop_rank_gt (key : Int) (nodes : List SkipList_Node) (hs : SortedNodes nodes)
    (hne : ∀ c, nodes[rank key nodes]? = some c → c.key ≠ key) :
    ∀ b ∈ nodes.drop (rank key nodes), key < b.key := by
  intro b hb
  have hsd : SortedNodes (nodes.drop (rank key nodes)) :=
    List.Pairwise.sublist (List.drop_sublist _ _) hs
  cases hd : nodes.drop (rank key nodes) with
  | nil => rw [hd] at hb; simp at hb
  | cons c rest =>
    have hc : nodes[rank key nodes]? = some c := by
      have := List.getElem?_drop nodes (rank key nodes) 0
      rw [hd] at this
      simpa using this.symm
    have hck : key ≤ c.key := not_lt.mp (rank_drop_head key nodes c hc)
    have hck2 : key < c.key := lt_of_le_of_ne hck (fun h => hne c hc h.symm)
    rw [hd] at hb hsd
    rcases List.mem_cons.mp hb with h | h
    · subst h; exact hck2
    · exact lt_trans hck2 ((List.pairwise_cons.mp hsd).1 b h)

/-- Splicing a node with key `key` between the nodes below and the nodes above keeps the order. -/
theorem sorted_splice (key : Int) (l1 l2 : List SkipList_Node) (nd : SkipList_Node)
    (hk : nd.key = key) (h1 : SortedNodes l1) (h2 : SortedNodes l2)
    (ha : ∀ a ∈ l1, a.key < key) (hb : ∀ b ∈ l2, key < b.key) :
    SortedNodes (l1 ++ nd :: l2) := by
  unfold SortedNodes at *
  rw [List.pairwise_append]
  refine ⟨h1, ?_, ?_⟩
  · rw [List.pairwise_cons]
    exact ⟨fun b hb2 => by rw [hk]; exact hb b hb2, h2⟩
  · intro a ha1 b hb1
    rcases List.mem_cons.mp hb1 with h | h
    · subst h; rw [hk]; exact ha a ha1
    · exact lt_trans (ha a ha1) (hb b h)

theorem rank_splice (key : Int) (l1 l2 : List SkipList_Node) (nd : SkipList_Node)
    (hk : nd.key = key) (ha : ∀ a ∈ l1, a.key < key) :
    rank key (l1 ++ nd :: l2) = l1.length := by
  rw [rank_append key l1 _ ha]
  simp [rank, hk]

theorem getElem?_splice (l1 l2 : List SkipList_Node) (nd : SkipList_Node) (n : Nat)
    (hn : l1.length = n) : (l1 ++ nd :: l2)[n]? = some nd := by
  subst hn
  rw [List.getElem?_append_right (le_refl _)]
  simp


/-- A list of nodes made of nodes below `key`, one node with that key and nodes
above it is again the node list of a well-formed skip list. -/
theorem WF_of_splice (s s2 : SkipList) (key : Int) (l1 l2 : List SkipList_Node) (nd : SkipList_Node)
    (hwf : s.WF) (hn : s2.nodes = l1 ++ nd :: l2) (hk : nd.key = key)
    (h1 : ∀ a ∈ l1, a ∈ s.nodes) (h2 : ∀ b ∈ l2, b ∈ s.nodes)
    (hs1 : SortedNodes l1) (hs2 : SortedNodes l2)
    (ha : ∀ a ∈ l1, a.key < key) (hb : ∀ b ∈ l2, key < b.key)
    (hmax : s2._maxKey = s._maxKey) (hkm : key < s._maxKey)
    (hlv : s.cur_max_level ≤ s2.cur_max_level) (htop : 1 ≤ nd.top ∧ nd.top ≤ s2.cur_max_level)
    (hmin : s2.min ≤ key) (hmx : key ≤ s2.max) (hmin2 : s2.min ≤ s.min) (hmx2 : s.max ≤ s2.max)
    (hcount : s2._n = s2.nodes.length) : s2.WF := by
  have hmem : ∀ x ∈ s2.nodes, x = nd ∨ x ∈ s.nodes := by
    intro x hx
    rw [hn] at hx
    rcases List.mem_append.mp hx with h | h
    · exact Or.inr (h1 x h)
    · rcases List.mem_cons.mp h with h | h
      · exact Or.inl h
      · exact Or.inr (h2 x h)
  refine ⟨?_, ?_, ?_, ?_, ?_, ?_, hcount⟩
  · rw [hn]; exact sorted_splice key l1 l2 nd hk hs1 hs2 ha hb
  · intro x hx
    rcases hmem x hx with h | h
    · subst h; rw [hmax, hk]; exact hkm
    · rw [hmax]; exact hwf.below x h
  · intro x hx
    rcases hmem x hx with h | h
    · subst h; exact htop
    · exact ⟨(hwf.tops x h).1, le_trans (hwf.tops x h).2 hlv⟩
  · exact le_trans hwf.level hlv
  · exact le_trans hmin hmx
  · intro x hx
    rcases hmem x hx with h | h
    · subst h; rw [hk]; exact ⟨hmin, hmx⟩
    · exact ⟨le_trans hmin2 (hwf.within x h).1, le_trans (hwf.within x h).2 hmx2⟩

theorem lookup_at (s : SkipList) (hwf : s.WF) (key : Int) (hk : key ≤ s._maxKey) (nd : SkipList_Node)
    (hn : s.nodes[rank key s.nodes]? = some nd) (hkey : nd.key = key) (found : Bool) :
    s.lookup key found = some (nd.value, true) := by
  unfold lookup
  rw [findPred_rank s hwf key hk]
  simp [hn, hkey]

/-- What `insert_key` establishes: the skip list stays well formed, a lookup of
the key finds the value, and the key lies between `min` and `max`. -/
theorem insert_key_spec (s s' : SkipList) (key value lvl : Int) (hwf : s.WF)
    (h : s.insert_key key value lvl = some s') :
    s'.WF ∧ s'.lookup key false = some (value, true) ∧ s'.min ≤ key ∧ key ≤ s'.max := by
  unfold insert_key at h
  cases hf : findPred key s._maxKey s.nodes s.cur_max_level 0 with
  | none => simp [hf] at h
  | some pos =>
    have htop1 : ∀ nd ∈ s.nodes, 1 ≤ nd.top := fun nd hnd => (hwf.tops nd hnd).1
    have hk : key ≤ s._maxKey :=
      findPred_key_le key s._maxKey s.nodes hwf.below htop1 s.cur_max_level 0 pos hwf.level hf
    have hpos : pos = rank key s.nodes :=
      findPred_eq key s._maxKey s.nodes hwf.sorted htop1 s.cur_max_level 0 pos hwf.level
        (Nat.zero_le _) hf
    subst hpos
    simp only [hf] at h
    obtain ⟨hA, hB⟩ := rank_split key s.nodes hwf.sorted
    obtain ⟨hb1, hb2, hb3, hb4, hb5⟩ := noteKey_bracket s key hwf.bracket
    have hst : SortedNodes (s.nodes.take (rank key s.nodes)) :=
      List.Pairwise.sublist (List.take_sublist _ _) hwf.sorted
    have hlen : (s.nodes.take (rank key s.nodes)).length = rank key s.nodes := by
      rw [List.length_take]; exact Nat.min_eq_left (rank_le_length key s.nodes)
    -- the `else` branch, shared by the two places where it occurs
    have hlink : (∀ c, s.nodes[rank key s.nodes]? = some c → c.key ≠ key) → key < s._maxKey →
        ((s.noteKey key).linkNew (rank key s.nodes) key value lvl).WF ∧
        ((s.noteKey key).linkNew (rank key s.nodes) key value lvl).lookup key false
          = some (value, true) ∧
        ((s.noteKey key).linkNew (rank key s.nodes) key value lvl).min ≤ key ∧
        key ≤ ((s.noteKey key).linkNew (rank key s.nodes) key value lvl).max := by
      intro hne hkm
      have hgt := drop_rank_gt key s.nodes hwf.sorted hne
      have hnodes : ((s.noteKey key).linkNew (rank key s.nodes) key value lvl).nodes =
          s.nodes.take (rank key s.nodes) ++
            { key := key, value := value, top := (s.noteKey key).raisedLevel lvl } ::
              s.nodes.drop (rank key s.nodes) := by
        simp [linkNew, noteKey_nodes]
      have hrl : (s.noteKey key).cur_max_level ≤ (s.noteKey key).raisedLevel lvl :=
        raisedLevel_ge _ _
      rw [noteKey_level] at hrl
      have hw : ((s.noteKey key).linkNew (rank key s.nodes) key value lvl).WF := by
        apply WF_of_splice s _ key _ _ _ hwf hnodes rfl
          (fun a ha => List.mem_of_mem_take ha) (fun b hb => List.mem_of_mem_drop hb) hst
          (List.Pairwise.sublist (List.drop_sublist _ _) hwf.sorted) hA hgt
        · simp [linkNew, noteKey_maxKey]
        · exact hkm
        · simpa [linkNew] using hrl
        · simp only [linkNew]
          exact ⟨le_trans hwf.level hrl, le_refl _⟩
        · simpa [linkNew] using hb1
        · simpa [linkNew] using hb2
        · simpa [linkNew] using hb4
        · simpa [linkNew] using hb5
        · simp [linkNew, noteKey_n, noteKey_nodes, hwf.count]
          have := rank_le_length key s.nodes
          omega
      refine ⟨hw, ?_, by simpa [linkNew] using hb1, by simpa [linkNew] using hb2⟩
      have hmk : key ≤ ((s.noteKey key).linkNew (rank key s.nodes) key value lvl)._maxKey := by
        simp [linkNew, noteKey_maxKey]; exact hk
      have hr : rank key ((s.noteKey key).linkNew (rank key s.nodes) key value lvl).nodes
          = rank key s.nodes := by
        rw [hnodes, rank_splice key _ _ _ rfl hA, hlen]
      have := lookup_at _ hw key hmk
        { key := key, value := value, top := (s.noteKey key).raisedLevel lvl }
        (by rw [hr, hnodes]; exact getElem?_splice _ _ _ _ hlen) rfl false
      exact this
    cases hn : s.nodes[rank key s.nodes]? with
    | some nd =>
      simp only [hn] at h
      have hlt : rank key s.nodes < s.nodes.length := by
        rcases Nat.lt_or_ge (rank key s.nodes) s.nodes.length with h1 | h1
        · exact h1
        · rw [List.getElem?_eq_none h1] at hn; exact absurd hn (by simp)
      have hnd_mem : nd ∈ s.nodes := List.getElem?_mem hn
      by_cases hkey : nd.key = key
      · rw [if_pos hkey] at h
        simp only [Option.some.injEq] at h
        subst h
        have hdrop : s.nodes.drop (rank key s.nodes) = nd :: s.nodes.drop (rank key s.nodes + 1) := by
          rw [List.drop_eq_getElem_cons hlt]
          congr 1
          rw [List.getElem?_eq_getElem hlt] at hn
          exact Option.some.inj hn
        have hsd : SortedNodes (nd :: s.nodes.drop (rank key s.nodes + 1)) := by
          rw [← hdrop]; exact List.Pairwise.sublist (List.drop_sublist _ _) hwf.sorted
        have hnodes : ({ s.noteKey key with
            nodes := s.nodes.set (rank key s.nodes) { nd with value := value } } : SkipList).nodes =
            s.nodes.take (rank key s.nodes) ++ { nd with value := value } ::
              s.nodes.drop (rank key s.nodes + 1) := by
          show s.nodes.set (rank key s.nodes) { nd with value := value } = _
          rw [List.set_eq_take_append_cons_drop, if_pos hlt]
        have hw : ({ s.noteKey key with
            nodes := s.nodes.set (rank key s.nodes) { nd with value := value } } : SkipList).WF := by
          apply WF_of_splice s _ key _ _ _ hwf hnodes hkey
            (fun a ha => List.mem_of_mem_take ha) (fun b hb => List.mem_of_mem_drop hb) hst
            (List.pairwise_cons.mp hsd).2 hA
            (fun b hb => by rw [← hkey]; exact (List.pairwise_cons.mp hsd).1 b hb)
          · exact noteKey_maxKey s key
          · rw [← hkey]; exact hwf.below nd hnd_mem
          · exact le_of_eq (noteKey_level s key).symm
          · show 1 ≤ nd.top ∧ nd.top ≤ (s.noteKey key).cur_max_level
            rw [noteKey_level]; exact hwf.tops nd hnd_mem
          · exact hb1
          · exact hb2
          · exact hb4
          · exact hb5
          · show (s.noteKey key)._n = (s.nodes.set (rank key s.nodes) { nd with value := value }).length
            rw [noteKey_n, List.length_set]; exact hwf.count
        refine ⟨hw, ?_, hb1, hb2⟩
        have hr : rank key ({ s.noteKey key with
            nodes := s.nodes.set (rank key s.nodes) { nd with value := value } } : SkipList).nodes
            = rank key s.nodes := by
          rw [hnodes, rank_splice key _ _ { nd with value := value } hkey hA, hlen]
        exact lookup_at _ hw key (by show key ≤ (s.noteKey key)._maxKey; rw [noteKey_maxKey]; exact hk)
          { nd with value := value }
          (by rw [hr, hnodes]; exact getElem?_splice _ _ _ _ hlen) hkey false
      · rw [if_neg hkey] at h
        simp only [Option.some.injEq] at h
        subst h
        apply hlink
        · intro c hc
          rw [hn] at hc
          cases hc
          exact hkey
        · have hmd : nd ∈ s.nodes.drop (rank key s.nodes) := by
            apply List.getElem?_mem (n := 0)
            rw [List.getElem?_drop]
            simpa using hn
          exact lt_of_le_of_lt (hB nd hmd) (hwf.below nd hnd_mem)
    | none =>
      simp only [hn] at h
      by_cases hkey : s._maxKey = key
      · rw [if_pos hkey] at h
        simp only [Option.some.injEq] at h
        subst h
        have hw : ({ s.noteKey key with tailValue := some value } : SkipList).WF := by
          refine ⟨?_, ?_, ?_, ?_, hb3, ?_, ?_⟩
          · show SortedNodes (s.noteKey key).nodes
            rw [noteKey_nodes]; exact hwf.sorted
          · intro x hx
            have hx' : x ∈ s.nodes := by rw [← noteKey_nodes s key]; exact hx
            show x.key < (s.noteKey key)._maxKey
            rw [noteKey_maxKey]; exact hwf.below x hx'
          · intro x hx
            have hx' : x ∈ s.nodes := by rw [← noteKey_nodes s key]; exact hx
            show 1 ≤ x.top ∧ x.top ≤ (s.noteKey key).cur_max_level
            rw [noteKey_level]; exact hwf.tops x hx'
          · show 1 ≤ (s.noteKey key).cur_max_level
            rw [noteKey_level]; exact hwf.level
          · intro x hx
            have hx' : x ∈ s.nodes := by rw [← noteKey_nodes s key]; exact hx
            exact ⟨le_trans hb4 (hwf.within x hx').1, le_trans (hwf.within x hx').2 hb5⟩
          · show (s.noteKey key)._n = (s.noteKey key).nodes.length
            rw [noteKey_n, noteKey_nodes]; exact hwf.count
        refine ⟨hw, ?_, hb1, hb2⟩
        unfold lookup
        have hmk : key ≤ ({ s.noteKey key with tailValue := some value } : SkipList)._maxKey := by
          show key ≤ (s.noteKey key)._maxKey
          rw [noteKey_maxKey]; exact hk
        rw [findPred_rank _ hw key hmk]
        have hnn : ({ s.noteKey key with tailValue := some value } : SkipList).nodes = s.nodes :=
          noteKey_nodes s key
        have hmm : ({ s.noteKey key with tailValue := some value } : SkipList)._maxKey = key := by
          show (s.noteKey key)._maxKey = key
          rw [noteKey_maxKey]; exact hkey
        simp only [noteKey_nodes, noteKey_maxKey, hn, hkey]
        simp
      · rw [if_neg hkey] at h
        simp only [Option.some.injEq] at h
        subst h
        apply hlink
        · intro c hc
          rw [hn] at hc
          cases hc
        · exact lt_of_le_of_ne hk (fun h => hkey h.symm)

end SkipList

/-! ## Sequences of calls on a skip list -/

namespace SkipList

theorem filter_lt_take (key : Int) : ∀ nodes : List SkipList_Node, SortedNodes nodes →
    nodes.filter (fun a => decide (a.key < key)) = nodes.take (rank key nodes) := by
  intro nodes
  induction nodes with
  | nil => intro _; rfl
  | cons nd rest ih =>
    intro hs
    obtain ⟨h1, h2⟩ := List.pairwise_cons.mp hs
    by_cases hlt : nd.key < key
    · simp only [rank, if_pos hlt, List.take_succ_cons, List.filter_cons, decide_eq_true hlt,
        if_true]
      rw [ih h2]
    · simp only [rank, if_neg hlt, List.take_zero, List.filter_cons, decide_eq_false hlt]
      simp only [Bool.false_eq_true, if_false, List.filter_eq_nil_iff, decide_eq_true_eq]
      intro a ha
      have := h1 a ha
      omega

theorem filter_gt_drop (key : Int) : ∀ nodes : List SkipList_Node, SortedNodes nodes →
    (∀ c, nodes[rank key nodes]? = some c → c.key ≠ key) →
    nodes.filter (fun a => decide (key < a.key)) = nodes.drop (rank key nodes) := by
  intro nodes
  induction nodes with
  | nil => intro _ _; rfl
  | cons nd rest ih =>
    intro hs hne
    obtain ⟨h1, h2⟩ := List.pairwise_cons.mp hs
    by_cases hlt : nd.key < key
    · simp only [rank, if_pos hlt, List.drop_succ_cons, List.filter_cons]
      rw [decide_eq_false (by omega : ¬ key < nd.key)]
      simp only [Bool.false_eq_true, if_false]
      apply ih h2
      intro c hc
      apply hne c
      simpa [rank, if_pos hlt] using hc
    · have hnk : nd.key ≠ key := hne nd (by simp [rank, if_neg hlt])
      have hgt : key < nd.key := by omega
      simp only [rank, if_neg hlt, List.drop_zero, List.filter_cons, decide_eq_true hgt, if_true]
      congr 1
      rw [List.filter_eq_self]
      intro a ha
      have := h1 a ha
      simp only [decide_eq_true_eq]
      omega

theorem filter_gt_drop_succ (key : Int) : ∀ nodes : List SkipList_Node, SortedNodes nodes →
    ∀ c, nodes[rank key nodes]? = some c → c.key = key →
    nodes.filter (fun a => decide (key < a.key)) = nodes.drop (rank key nodes + 1) := by
  intro nodes
  induction nodes with
  | nil => intro _ c hc; simp at hc
  | cons nd rest ih =>
    intro hs c hc hck
    obtain ⟨h1, h2⟩ := List.pairwise_cons.mp hs
    by_cases hlt : nd.key < key
    · simp only [rank, if_pos hlt, List.drop_succ_cons, List.filter_cons]
      rw [decide_eq_false (by omega : ¬ key < nd.key)]
      simp only [Bool.false_eq_true, if_false]
      apply ih h2 c _ hck
      simpa [rank, if_pos hlt] using hc
    · simp only [rank, if_neg hlt, List.getElem?_cons_zero, Option.some.injEq] at hc
      subst hc
      simp only [rank, if_neg hlt, Nat.zero_add, List.drop_succ_cons, List.drop_zero,
        List.filter_cons]
      rw [decide_eq_false (by omega : ¬ key < nd.key)]
      simp only [Bool.false_eq_true, if_false]
      rw [List.filter_eq_self]
      intro a ha
      have := h1 a ha
      simp only [decide_eq_true_eq]
      omega

/-- The call `insert_key(key, value)` with a key below the key of the tail
returns, and leaves the nodes below the key, a node with the key and the
value, and the nodes above the key. -/
theorem insert_key_nodes (s : SkipList) (hwf : s.WF) (key value lvl : Int)
    (hk : key < s._maxKey) :
    ∃ s' nd, s.insert_key key value lvl = some s' ∧ nd.key = key ∧ nd.value = value ∧
      s'.nodes = s.nodes.filter (fun a => decide (a.key < key)) ++
        nd :: s.nodes.filter (fun a => decide (key < a.key)) ∧
      s'._maxKey = s._maxKey := by
  have hf := findPred_rank s hwf key (le_of_lt hk)
  rw [filter_lt_take key s.nodes hwf.sorted]
  unfold insert_key
  rw [hf]
  simp only
  have hlink : (∀ c, s.nodes[rank key s.nodes]? = some c → c.key ≠ key) →
      ∃ nd : SkipList_Node, nd.key = key ∧ nd.value = value ∧
        ((s.noteKey key).linkNew (rank key s.nodes) key value lvl).nodes =
          s.nodes.take (rank key s.nodes) ++
            nd :: s.nodes.filter (fun a => decide (key < a.key)) ∧
        ((s.noteKey key).linkNew (rank key s.nodes) key value lvl)._maxKey = s._maxKey := by
    intro hne
    refine ⟨{ key := key, value := value, top := (s.noteKey key).raisedLevel lvl }, rfl, rfl,
      ?_, by simp [linkNew, noteKey_maxKey]⟩
    rw [filter_gt_drop key s.nodes hwf.sorted hne]
    simp [linkNew, noteKey_nodes]
  cases hn : s.nodes[rank key s.nodes]? with
  | some c =>
    simp only
    by_cases hkey : c.key = key
    · rw [if_pos hkey]
      have hlt : rank key s.nodes < s.nodes.length := (List.getElem?_eq_some.mp hn).1
      refine ⟨_, { c with value := value }, rfl, hkey, rfl, ?_, noteKey_maxKey s key⟩
      show s.nodes.set (rank key s.nodes) { c with value := value } = _
      rw [filter_gt_drop_succ key s.nodes hwf.sorted c hn hkey,
        List.set_eq_take_append_cons_drop, if_pos hlt]
    · rw [if_neg hkey]
      obtain ⟨nd, g1, g2, g3, g4⟩ := hlink (fun c2 hc2 => by
        rw [hn] at hc2
        rw [← Option.some.inj hc2]
        exact hkey)
      exact ⟨_, nd, rfl, g1, g2, g3, g4⟩
  | none =>
    simp only
    rw [if_neg (by omega)]
    obtain ⟨nd, g1, g2, g3, g4⟩ := hlink (fun c2 hc2 => by
      rw [hn] at hc2
      exact absurd hc2 (by simp))
    exact ⟨_, nd, rfl, g1, g2, g3, g4⟩

theorem new_WF (lo hi : Int) : (SkipList.new lo hi).WF :=
  ⟨List.Pairwise.nil, fun _ h => absurd h (List.not_mem_nil _),
    fun _ h => absurd h (List.not_mem_nil _), le_refl _, le_refl _,
    fun _ h => absurd h (List.not_mem_nil _), rfl⟩

theorem getElem?_rank_of_mem : ∀ (nodes : List SkipList_Node), SortedNodes nodes →
    ∀ nd ∈ nodes, nodes[rank nd.key nodes]? = some nd := by
  intro nodes
  induction nodes with
  | nil => intro _ nd h; exact absurd h (List.not_mem_nil _)
  | cons a rest ih =>
    intro hs nd hnd
    obtain ⟨h1, h2⟩ := List.pairwise_cons.mp hs
    rcases List.mem_cons.mp hnd with h | h
    · subst h
      simp [rank]
    · have := h1 nd h
      simp only [rank, if_pos this, List.getElem?_cons_succ]
      exact ih h2 nd h

/-- The member `lookup` finds the value of a node of the list. -/
theorem lookup_of_mem (s : SkipList) (hwf : s.WF) (nd : SkipList_Node) (hnd : nd ∈ s.nodes)
    (found : Bool) : s.lookup nd.key found = some (nd.value, true) :=
  lookup_at s hwf nd.key (le_of_lt (hwf.below nd hnd)) nd
    (getElem?_rank_of_mem s.nodes hwf.sorted nd hnd) rfl found

/-- The member `lookup` leaves `found` as it was for a key below the key of
the tail that no node of the list has. -/
theorem lookup_absent (s : SkipList) (hwf : s.WF) (key : Int) (hk : key < s._maxKey)
    (hno : ∀ nd ∈ s.nodes, nd.key ≠ key) (found : Bool) : s.lookup key found = some (0, found) := by
  unfold lookup
  rw [findPred_rank s hwf key (le_of_lt hk)]
  simp only
  cases hn : s.nodes[rank key s.nodes]? with
  | some nd =>
    simp only
    rw [if_neg (hno nd (List.getElem?_mem hn))]
  | none =>
    simp only
    rw [if_neg (by omega)]

theorem lastValue_isSome (k : Int) : ∀ ops : List (Int × Int × Int),
    (∃ v, lastValue k ops = some v) ↔ k ∈ ops.map (fun op => op.1) := by
  intro ops
  induction ops with
  | nil => simp [lastValue]
  | cons op rest ih =>
    obtain ⟨k1, v1, l1⟩ := op
    simp only [lastValue, List.map_cons, List.mem_cons]
    cases hr : lastValue k rest with
    | some w =>
      simp only
      have : k ∈ rest.map (fun op => op.1) := ih.mp ⟨w, hr⟩
      exact ⟨fun _ => Or.inr this, fun _ => ⟨w, rfl⟩⟩
    | none =>
      simp only
      have hnot : k ∉ rest.map (fun op => op.1) := fun h => by
        obtain ⟨v, hv⟩ := ih.mpr h
        rw [hr] at hv
        exact absurd hv (by simp)
      by_cases hk : k1 = k
      · rw [if_pos hk]
        exact ⟨fun _ => Or.inl hk.symm, fun _ => ⟨v1, rfl⟩⟩
      · rw [if_neg hk]
        constructor
        · rintro ⟨v, hv⟩
          exact absurd hv (by simp)
        · rintro (h | h)
          · exact absurd h.symm hk
          · exact absurd h hnot

/-- A sequence of `insert_key` calls with keys below the key of the tail
returns; afterwards the list holds, for every key, the value of the last call
with that key, or the value it held before when there was no such call. -/
theorem insertAll_content : ∀ (ops : List (Int × Int × Int)) (s : SkipList), s.WF →
    (∀ op ∈ ops, op.1 < s._maxKey) →
    ∃ s', s.insertAll ops = some s' ∧ s'.WF ∧ s'._maxKey = s._maxKey ∧
      ∀ k v, (∃ nd ∈ s'.nodes, nd.key = k ∧ nd.value = v) ↔
        (lastValue k ops = some v ∨
          (lastValue k ops = none ∧ ∃ nd ∈ s.nodes, nd.key = k ∧ nd.value = v)) := by
  intro ops
  induction ops with
  | nil =>
    intro s hwf _
    refine ⟨s, rfl, hwf, rfl, fun k v => ?_⟩
    simp [lastValue]
  | cons op rest ih =>
    intro s hwf hkeys
    obtain ⟨k1, v1, l1⟩ := op
    have hk1 : k1 < s._maxKey := hkeys (k1, v1, l1) (List.mem_cons_self _ _)
    obtain ⟨s1, nd1, e1, e2, e3, e4, e5⟩ := insert_key_nodes s hwf k1 v1 l1 hk1
    have hwf1 : s1.WF := (insert_key_spec s s1 k1 v1 l1 hwf e1).1
    obtain ⟨s', r1, r2, r3, r4⟩ := ih s1 hwf1 (fun op hop => by
      rw [e5]
      exact hkeys op (List.mem_cons_of_mem _ hop))
    refine ⟨s', by simp only [insertAll, e1]; exact r1, r2, by rw [r3, e5], ?_⟩
    intro k v
    rw [r4 k v]
    have hs1 : (∃ nd ∈ s1.nodes, nd.key = k ∧ nd.value = v) ↔
        ((k1 = k ∧ v1 = v) ∨ (k1 ≠ k ∧ ∃ nd ∈ s.nodes, nd.key = k ∧ nd.value = v)) := by
      rw [e4]
      constructor
      · rintro ⟨nd, hnd, g1, g2⟩
        rcases List.mem_append.mp hnd with h | h
        · obtain ⟨h1, h2⟩ := List.mem_filter.mp h
          simp only [decide_eq_true_eq] at h2
          exact Or.inr ⟨by omega, nd, h1, g1, g2⟩
        · rcases List.mem_cons.mp h with h | h
          · subst h
            exact Or.inl ⟨by rw [← e2, g1], by rw [← e3, g2]⟩
          · obtain ⟨h1, h2⟩ := List.mem_filter.mp h
            simp only [decide_eq_true_eq] at h2
            exact Or.inr ⟨by omega, nd, h1, g1, g2⟩
      · rintro (⟨g1, g2⟩ | ⟨g1, nd, hnd, g2, g3⟩)
        · exact ⟨nd1, List.mem_append_right _ (List.mem_cons_self _ _), by rw [e2, g1],
            by rw [e3, g2]⟩
        · refine ⟨nd, ?_, g2, g3⟩
          rcases lt_or_gt_of_ne (show nd.key ≠ k1 by omega) with h | h
          · exact List.mem_append_left _ (List.mem_filter.mpr ⟨hnd, by simpa using h⟩)
          · exact List.mem_append_right _
              (List.mem_cons_of_mem _ (List.mem_filter.mpr ⟨hnd, by simpa using h⟩))
    rw [hs1]
    simp only [lastValue]
    cases hr : lastValue k rest with
    | some w => simp
    | none =>
      by_cases hk : k1 = k
      · simp [hk]
      · simp [hk]

theorem mem_get_all (s : SkipList) (k v : Int) :
    (⟨k, v⟩ : KVPair) ∈ s.get_all ↔ ∃ nd ∈ s.nodes, nd.key = k ∧ nd.value = v := by
  unfold get_all
  rw [List.mem_map]
  constructor
  · rintro ⟨nd, h1, h2⟩
    simp only [KVPair.mk.injEq] at h2
    exact ⟨nd, h1, h2.1, h2.2⟩
  · rintro ⟨nd, h1, h2, h3⟩
    exact ⟨nd, h1, by rw [h2, h3]⟩

theorem get_all_sorted (s : SkipList) (hwf : s.WF) :
    s.get_all.Pairwise (fun a b => a.key < b.key) := by
  unfold get_all
  rw [List.pairwise_map]
  exact hwf.sorted

/-- The number of nodes of a list built by `insert_key` calls from a new list
is the number of different keys of the calls. -/
theorem length_nodes_eq (ops : List (Int × Int × Int)) (s : SkipList) (hwf : s.WF)
    (hc : ∀ k, (∃ nd ∈ s.nodes, nd.key = k) ↔ k ∈ ops.map (fun op => op.1)) :
    s.nodes.length = ((ops.map (fun op => op.1)).dedup).length := by
  have hnd : (s.nodes.map (fun nd => nd.key)).Nodup := by
    unfold List.Nodup
    rw [List.pairwise_map]
    exact List.Pairwise.imp (fun h => ne_of_lt h) hwf.sorted
  have hperm : (s.nodes.map (fun nd => nd.key)).Perm ((ops.map (fun op => op.1)).dedup) := by
    rw [List.perm_ext_iff_of_nodup hnd (List.nodup_dedup _)]
    intro k
    rw [List.mem_dedup, ← hc k, List.mem_map]
  have := hperm.length_eq
  simpa using this

theorem filter_ge_drop (key : Int) : ∀ nodes : List SkipList_Node, SortedNodes nodes →
    nodes.filter (fun a => decide (key ≤ a.key)) = nodes.drop (rank key nodes) := by
  intro nodes
  induction nodes with
  | nil => intro _; rfl
  | cons nd rest ih =>
    intro hs
    obtain ⟨h1, h2⟩ := List.pairwise_cons.mp hs
    by_cases hlt : nd.key < key
    · simp only [rank, if_pos hlt, List.drop_succ_cons, List.filter_cons]
      rw [decide_eq_false (by omega : ¬ key ≤ nd.key)]
      simp only [Bool.false_eq_true, if_false]
      exact ih h2
    · simp only [rank, if_neg hlt, List.drop_zero, List.filter_cons]
      rw [decide_eq_true (by omega : key ≤ nd.key)]
      simp only [if_true]
      congr 1
      rw [List.filter_eq_self]
      intro a ha
      have := h1 a ha
      simp only [decide_eq_true_eq]
      omega

theorem skipBelow_eq (key1 tailKey : Int) (hk : key1 ≤ tailKey) :
    ∀ nodes : List SkipList_Node,
      skipBelow key1 tailKey nodes = some (nodes.drop (rank key1 nodes)) := by
  intro nodes
  induction nodes with
  | nil => simp only [skipBelow, if_neg (by omega : ¬ tailKey < key1)]; rfl
  | cons nd rest ih =>
    by_cases hlt : nd.key < key1
    · simp only [skipBelow, rank, if_pos hlt, List.drop_succ_cons]
      exact ih
    · simp only [skipBelow, rank, if_neg hlt, List.drop_zero]

theorem takeBelow_eq (key2 tailKey : Int) (hk : key2 ≤ tailKey) :
    ∀ nodes : List SkipList_Node,
      takeBelow key2 tailKey nodes =
        some ((nodes.take (rank key2 nodes)).map (fun nd => (⟨nd.key, nd.value⟩ : KVPair))) := by
  intro nodes
  induction nodes with
  | nil => simp only [takeBelow, if_neg (by omega : ¬ tailKey < key2)]; rfl
  | cons nd rest ih =>
    by_cases hlt : nd.key < key2
    · simp only [takeBelow, rank, if_pos hlt, List.take_succ_cons, List.map_cons, ih,
        Option.map_some']
    · simp only [takeBelow, rank, if_neg hlt, List.take_zero, List.map_nil]

/-- The member `get_all_in_range` on a well-formed list, for bounds not above
the key of the tail: the pairs of `get_all` with `key1 ≤ key < key2`, in the
order of `get_all`. -/
theorem get_all_in_range_eq (s : SkipList) (hwf : s.WF) (key1 key2 : Int)
    (h1 : key1 ≤ s._maxKey) (h2 : key2 ≤ s._maxKey) :
    s.get_all_in_range key1 key2 =
      some (s.get_all.filter (fun kv => decide (key1 ≤ kv.key) && decide (kv.key < key2))) := by
  have hmap : s.get_all.filter (fun kv => decide (key1 ≤ kv.key) && decide (kv.key < key2)) =
      (s.nodes.filter (fun nd => decide (key1 ≤ nd.key) && decide (nd.key < key2))).map
        (fun nd => (⟨nd.key, nd.value⟩ : KVPair)) := by
    unfold get_all
    rw [List.filter_map]
    rfl
  rw [hmap]
  unfold get_all_in_range
  by_cases hexit : key1 > s.max ∨ key2 < s.min
  · rw [if_pos hexit]
    have : s.nodes.filter (fun nd => decide (key1 ≤ nd.key) && decide (nd.key < key2)) = [] := by
      rw [List.filter_eq_nil_iff]
      intro nd hnd
      have := hwf.within nd hnd
      simp only [Bool.and_eq_true, decide_eq_true_eq]
      omega
    rw [this]
    rfl
  · rw [if_neg hexit, skipBelow_eq key1 s._maxKey h1]
    simp only
    rw [takeBelow_eq key2 s._maxKey h2]
    have hsd : SortedNodes (s.nodes.drop (rank key1 s.nodes)) :=
      List.Pairwise.sublist (List.drop_sublist _ _) hwf.sorted
    rw [← filter_lt_take key2 _ hsd, ← filter_ge_drop key1 s.nodes hwf.sorted,
      List.filter_filter]
    congr 3
    funext nd
    exact Bool.and_comm _ _

end SkipList

/-! ## The claims on the skip list -/

namespace SkipList

/-- Claim C17 (amended), the in-memory run is an overwrite-on-duplicate map.
For every sequence of `insert_key` calls on a new list with keys strictly
between the keys of the head and of the tail, whatever `generateNodeLevel()`
returns in each call: the calls return; `lookup(k, found)` sets `found` and
returns the value of the last call with key `k` when there is one; when there
is none and `k` is below the key of the tail, it leaves `found` as it was;
`num_elements()` is the number of different keys of the calls. -/
theorem skipList_last_write_wins (lo hi : Int) (ops : List (Int × Int × Int))
    (hkeys : ∀ op ∈ ops, lo < op.1 ∧ op.1 < hi) :
    ∃ s, (SkipList.new lo hi).insertAll ops = some s ∧
      (∀ k v found, lastValue k ops = some v → s.lookup k found = some (v, true)) ∧
      (∀ k found, lastValue k ops = none → k < hi → s.lookup k found = some (0, found)) ∧
      s.num_elements = ((ops.map (fun op => op.1)).dedup).length := by
  obtain ⟨s, r1, r2, r3, r4⟩ :=
    insertAll_content ops (SkipList.new lo hi) (new_WF lo hi) (fun op hop => (hkeys op hop).2)
  have hempty : ∀ k v, ¬ ∃ nd ∈ (SkipList.new lo hi).nodes, nd.key = k ∧ nd.value = v := by
    rintro k v ⟨nd, hnd, -⟩
    exact absurd hnd (List.not_mem_nil _)
  refine ⟨s, r1, ?_, ?_, ?_⟩
  · intro k v found hl
    obtain ⟨nd, hnd, g1, g2⟩ := (r4 k v).mpr (Or.inl hl)
    rw [← g1, ← g2]
    exact lookup_of_mem s r2 nd hnd found
  · intro k found hl hk
    apply lookup_absent s r2 k (by rw [r3]; exact hk)
    intro nd hnd hkey
    rcases (r4 k nd.value).mp ⟨nd, hnd, hkey, rfl⟩ with h | ⟨-, h⟩
    · rw [hl] at h
      exact absurd h (by simp)
    · exact hempty k nd.value h
  · show s._n = _
    rw [r2.count]
    apply length_nodes_eq ops s r2
    intro k
    rw [← lastValue_isSome]
    constructor
    · rintro ⟨nd, hnd, hkey⟩
      rcases (r4 k nd.value).mp ⟨nd, hnd, hkey, rfl⟩ with h | ⟨-, h⟩
      · exact ⟨_, h⟩
      · exact absurd h (hempty k nd.value)
    · rintro ⟨v, hv⟩
      obtain ⟨nd, hnd, g1, -⟩ := (r4 k v).mpr (Or.inl hv)
      exact ⟨nd, hnd, g1⟩

set_option maxRecDepth 100000 in
/-- Claim C17, amended, at the calls `(3, 30)`, `(1, 10)`, `(3, 31)`, `(7, 70)` with the
drawn levels `0`, `2`, `5`, `-1`. -/
theorem skipList_last_write_wins_witness :
    (∀ op ∈ [((3 : Int), (30 : Int), (0 : Int)), (1, 10, 2), (3, 31, 5), (7, 70, -1)],
        INT_MIN < op.1 ∧ op.1 < INT_MAX) ∧
      ∃ s, (SkipList.new INT_MIN INT_MAX).insertAll [(3, 30, 0), (1, 10, 2), (3, 31, 5), (7, 70, -1)]
          = some s ∧
        (∀ k v found, lastValue k [(3, 30, 0), (1, 10, 2), (3, 31, 5), (7, 70, -1)] = some v →
          s.lookup k found = some (v, true)) ∧
        (∀ k found, lastValue k [(3, 30, 0), (1, 10, 2), (3, 31, 5), (7, 70, -1)] = none →
          k < INT_MAX → s.lookup k found = some (0, found)) ∧
        s.num_elements =
          (([((3 : Int), (30 : Int), (0 : Int)), (1, 10, 2), (3, 31, 5), (7, 70, -1)].map
            (fun op => op.1)).dedup).length :=
  ⟨by decide, skipList_last_write_wins INT_MIN INT_MAX _ (by decide)⟩

/-- Claim C18, the in-memory run enumerates in key order. For every sequence
of `insert_key` calls on a new list with keys strictly between the keys of the
head and of the tail: the calls return, and `get_all()` returns pairs of
strictly increasing keys, one for every different key of the calls and no
other, each with the value of the last call with its key. -/
theorem skipList_get_all_in_key_order (lo hi : Int) (ops : List (Int × Int × Int))
    (hkeys : ∀ op ∈ ops, lo < op.1 ∧ op.1 < hi) :
    ∃ s, (SkipList.new lo hi).insertAll ops = some s ∧
      s.get_all.Pairwise (fun a b => a.key < b.key) ∧
      (∀ k v, (⟨k, v⟩ : KVPair) ∈ s.get_all ↔ lastValue k ops = some v) ∧
      s.get_all.length = ((ops.map (fun op => op.1)).dedup).length := by
  obtain ⟨s, r1, r2, r3, r4⟩ :=
    insertAll_content ops (SkipList.new lo hi) (new_WF lo hi) (fun op hop => (hkeys op hop).2)
  have hempty : ∀ k v, ¬ ∃ nd ∈ (SkipList.new lo hi).nodes, nd.key = k ∧ nd.value = v := by
    rintro k v ⟨nd, hnd, -⟩
    exact absurd hnd (List.not_mem_nil _)
  have hiff : ∀ k v, (⟨k, v⟩ : KVPair) ∈ s.get_all ↔ lastValue k ops = some v := by
    intro k v
    rw [mem_get_all, r4 k v]
    constructor
    · rintro (h | ⟨-, h⟩)
      · exact h
      · exact absurd h (hempty k v)
    · exact fun h => Or.inl h
  refine ⟨s, r1, get_all_sorted s r2, hiff, ?_⟩
  have hlen : s.get_all.length = s.nodes.length := by simp [get_all]
  rw [hlen]
  apply length_nodes_eq ops s r2
  intro k
  rw [← lastValue_isSome]
  constructor
  · rintro ⟨nd, hnd, hkey⟩
    exact ⟨nd.value, (hiff k nd.value).mp ((mem_get_all s k nd.value).mpr ⟨nd, hnd, hkey, rfl⟩)⟩
  · rintro ⟨v, hv⟩
    obtain ⟨nd, hnd, g1, -⟩ := (mem_get_all s k v).mp ((hiff k v).mpr hv)
    exact ⟨nd, hnd, g1⟩

set_option maxRecDepth 100000 in
/-- Claim C18 at the calls `(3, 30)`, `(1, 10)`, `(3, 31)`, `(7, 70)`: `get_all()`
returns `(1, 10)`, `(3, 31)`, `(7, 70)`. -/
theorem skipList_get_all_in_key_order_witness :
    (∀ op ∈ [((3 : Int), (30 : Int), (0 : Int)), (1, 10, 2), (3, 31, 5), (7, 70, -1)],
        INT_MIN < op.1 ∧ op.1 < INT_MAX) ∧
      (((SkipList.new INT_MIN INT_MAX).insertAll
          [(3, 30, 0), (1, 10, 2), (3, 31, 5), (7, 70, -1)]).map SkipList.get_all
        = some [⟨1, 10⟩, ⟨3, 31⟩, ⟨7, 70⟩]) ∧
      ∃ s, (SkipList.new INT_MIN INT_MAX).insertAll [(3, 30, 0), (1, 10, 2), (3, 31, 5), (7, 70, -1)]
          = some s ∧
        s.get_all.Pairwise (fun a b => a.key < b.key) ∧
        (∀ k v, (⟨k, v⟩ : KVPair) ∈ s.get_all ↔
          lastValue k [(3, 30, 0), (1, 10, 2), (3, 31, 5), (7, 70, -1)] = some v) ∧
        s.get_all.length =
          (([((3 : Int), (30 : Int), (0 : Int)), (1, 10, 2), (3, 31, 5), (7, 70, -1)].map
            (fun op => op.1)).dedup).length :=
  ⟨by decide, by decide, skipList_get_all_in_key_order INT_MIN INT_MAX _ (by decide)⟩

/-- Claim C19, the in-memory range scan is half-open. For every list reached
by `insert_key` calls with keys strictly between the keys of the head and of
the tail, and all `key1`, `key2` not above the key of the tail (every `int`
when the tail holds `INT_MAX`): `get_all_in_range(key1, key2)` returns the
pairs of the list with `key1 ≤ key < key2`, all of them and no other, in
increasing order of key. The early exit on `min` and `max` is part of the
function proved. -/
theorem skipList_range_half_open (lo hi : Int) (ops : List (Int × Int × Int))
    (hkeys : ∀ op ∈ ops, lo < op.1 ∧ op.1 < hi) :
    ∃ s, (SkipList.new lo hi).insertAll ops = some s ∧
      ∀ key1 key2, key1 ≤ hi → key2 ≤ hi →
        ∃ res, s.get_all_in_range key1 key2 = some res ∧
          res = s.get_all.filter (fun kv => decide (key1 ≤ kv.key) && decide (kv.key < key2)) ∧
          res.Pairwise (fun a b => a.key < b.key) ∧
          ∀ kv, kv ∈ res ↔ kv ∈ s.get_all ∧ key1 ≤ kv.key ∧ kv.key < key2 := by
  obtain ⟨s, r1, r2, r3, -⟩ :=
    insertAll_content ops (SkipList.new lo hi) (new_WF lo hi) (fun op hop => (hkeys op hop).2)
  refine ⟨s, r1, ?_⟩
  intro key1 key2 h1 h2
  have hm : s._maxKey = hi := r3
  refine ⟨_, get_all_in_range_eq s r2 key1 key2 (by rw [hm]; exact h1) (by rw [hm]; exact h2),
    rfl, List.Pairwise.sublist (List.filter_sublist _) (get_all_sorted s r2), ?_⟩
  intro kv
  simp only [List.mem_filter, Bool.and_eq_true, decide_eq_true_eq]

set_option maxRecDepth 100000 in
/-- Claim C19 at the calls `(3, 30)`, `(1, 10)`, `(3, 31)`, `(7, 70)`:
`get_all_in_range(3, 7)` returns `(3, 31)` only. -/
theorem skipList_range_half_open_witness :
    (∀ op ∈ [((3 : Int), (30 : Int), (0 : Int)), (1, 10, 2), (3, 31, 5), (7, 70, -1)],
        INT_MIN < op.1 ∧ op.1 < INT_MAX) ∧
      (((SkipList.new INT_MIN INT_MAX).insertAll
          [(3, 30, 0), (1, 10, 2), (3, 31, 5), (7, 70, -1)]).bind
            (fun s => s.get_all_in_range 3 7) = some [⟨3, 31⟩]) ∧
      ∃ s, (SkipList.new INT_MIN INT_MAX).insertAll [(3, 30, 0), (1, 10, 2), (3, 31, 5), (7, 70, -1)]
          = some s ∧
        ∀ key1 key2, key1 ≤ INT_MAX → key2 ≤ INT_MAX →
          ∃ res, s.get_all_in_range key1 key2 = some res ∧
            res = s.get_all.filter
              (fun kv => decide (key1 ≤ kv.key) && decide (kv.key < key2)) ∧
            res.Pairwise (fun a b => a.key < b.key) ∧
            ∀ kv, kv ∈ res ↔ kv ∈ s.get_all ∧ key1 ≤ kv.key ∧ kv.key < key2 :=
  ⟨by decide, by decide, skipList_range_half_open INT_MIN INT_MAX _ (by decide)⟩

set_option maxRecDepth 100000 in
/-- Claim C17 as stated fails for the key of the tail. A new list with the
sentinels `INT_MIN` and `INT_MAX` takes `insert_key(3, 30)`; the key `INT_MAX`
was never inserted and the constructor did not write the `value` member of the
tail. The search of `lookup(INT_MAX, found)` stops on the tail, whose key is
the key looked for: `found` is set, and the value returned is whatever the
tail holds as `value`, a read of a member never written. -/
theorem lookup_of_tail_key_sets_found :
    ∃ s, (SkipList.new INT_MIN INT_MAX).insertAll [(3, 30, 0)] = some s ∧
      lastValue INT_MAX [((3 : Int), (30 : Int), (0 : Int))] = none ∧
      s.get_all = [⟨3, 30⟩] ∧ s.tailValue = none ∧
      s.lookup INT_MAX false = none ∧
      ∀ w, ({ s with tailValue := some w }).lookup INT_MAX false = some (w, true) :=
  ⟨((SkipList.new INT_MIN INT_MAX).insertAll [(3, 30, 0)]).get (by decide),
    (Option.some_get _).symm, by decide, by decide, by decide, by decide, fun _ => rfl⟩

end SkipList

/-! ## The in-memory runs of the store -/

namespace LSM

theorem SameBuffer.refl (s : LSM) : SameBuffer s s := ⟨rfl, rfl, rfl, rfl, rfl, rfl⟩

theorem SameBuffer.trans {a b c : LSM} (h1 : SameBuffer a b) (h2 : SameBuffer b c) : SameBuffer a c := by
  unfold SameBuffer at *
  refine ⟨h2.1.trans h1.1, h2.2.1.trans h1.2.1, h2.2.2.1.trans h1.2.2.1, ?_, ?_, ?_⟩
  · exact h2.2.2.2.1.trans h1.2.2.2.1
  · exact h2.2.2.2.2.1.trans h1.2.2.2.2.1
  · exact h2.2.2.2.2.2.trans h1.2.2.2.2.2

theorem mergeRunsToLevel_sameBuffer (E : Env) : ∀ (fuel : Nat) (s s' : LSM) (level : Nat),
    mergeRunsToLevel E fuel s level = some s' → SameBuffer s s' := by
  intro fuel
  induction fuel with
  | zero => intro s s' level h; simp [mergeRunsToLevel] at h
  | succ f ih =>
    intro s s' level h
    simp only [mergeRunsToLevel] at h
    split at h
    · exact absurd h (by simp)
    · rename_i s1 hs1
      have h01 : SameBuffer s s1 := by
        split at hs1
        · split at hs1
          · exact absurd hs1 (by simp)
          · split at hs1
            · exact absurd hs1 (by simp)
            · split at hs1
              · exact absurd hs1 (by simp)
              · simp only [Option.some.injEq] at hs1
                subst hs1
                exact ⟨rfl, rfl, rfl, rfl, rfl, rfl⟩
        · simp only [Option.some.injEq] at hs1
          subst hs1
          exact SameBuffer.refl s
      split at h
      · exact absurd h (by simp)
      · rename_i target htarget
        split at h
        · exact absurd h (by simp)
        · rename_i s2 hs2
          have h12 : SameBuffer s1 s2 := by
            split at hs2
            · exact ih _ _ _ hs2
            · simp only [Option.some.injEq] at hs2
              subst hs2
              exact SameBuffer.refl s1
          split at h
          · exact absurd h (by simp)
          · split at h
            · split at h
              · exact absurd h (by simp)
              · split at h
                · exact absurd h (by simp)
                · split at h
                  · exact absurd h (by simp)
                  · simp only [Option.some.injEq] at h
                    subst h
                    exact SameBuffer.trans (SameBuffer.trans h01 h12) ⟨rfl, rfl, rfl, rfl, rfl, rfl⟩
            · exact absurd h (by simp)

theorem merge_runs_sameBuffer (E : Env) (s s' : LSM) (runs : List SkipList)
    (h : merge_runs E s runs = some s') : SameBuffer s s' := by
  unfold merge_runs at h
  split at h
  · exact absurd h (by simp)
  · split at h
    · exact absurd h (by simp)
    · rename_i s1 hs1
      have h01 : SameBuffer s s1 := by
        split at hs1
        · exact mergeRunsToLevel_sameBuffer E _ _ _ _ hs1
        · simp only [Option.some.injEq] at hs1
          subst hs1
          exact SameBuffer.refl s
      split at h
      · exact absurd h (by simp)
      · split at h
        · exact absurd h (by simp)
        · simp only [Option.some.injEq] at h
          subst h
          exact SameBuffer.trans h01 ⟨rfl, rfl, rfl, rfl, rfl, rfl⟩

theorem newRun_WF (e : Nat) : (newRun e).WF := by
  refine ⟨?_, ?_, ?_, ?_, ?_, ?_, ?_⟩ <;>
    simp [newRun, SkipList.new, SkipList.set_size, SkipList.SortedNodes]

theorem new_BufOK (E : Env) (e r m ps d md : Nat) (s : LSM) (h : LSM.new E e r m ps d md = some s) :
    s.BufOK := by
  unfold LSM.new at h
  split at h
  · exact absurd h (by simp)
  · simp only [Option.some.injEq] at h
    subst h
    intro run hrun
    have := List.eq_of_mem_replicate hrun
    subst this
    exact newRun_WF e

theorem do_merge_BufOK (E : Env) (s s' : LSM) (hok : s.BufOK) (h : do_merge E s = some s') :
    s'.BufOK := by
  unfold do_merge at h
  split at h
  · simp only [Option.some.injEq] at h; subst h; exact hok
  · split at h
    · exact absurd h (by simp)
    · split at h
      · exact absurd h (by simp)
      · rename_i s1 hs1
        obtain ⟨c1, -, -, -, -, -⟩ := merge_runs_sameBuffer E _ _ _ hs1
        simp only [Option.some.injEq] at h
        subst h
        intro run hrun
        simp only at hrun
        rcases List.mem_append.mp hrun with h1 | h1
        · exact hok run (by rw [← c1]; exact List.mem_of_mem_drop h1)
        · have := List.eq_of_mem_replicate h1
          subst this
          exact newRun_WF _

theorem advanceRun_C_0 (s s' : LSM) (h : advanceRun s = some s') : s'.C_0 = s.C_0 := by
  unfold advanceRun at h
  split at h
  · exact absurd h (by simp)
  · split at h <;> (simp only [Option.some.injEq] at h; subst h; rfl)

/-- After `insert_key(key, value)` every in-memory run is still well formed, and
`lookup(key)` finds `value` in the active run. -/
theorem insert_key_lookup (E : Env) (s s' : LSM) (key value lvl : Int) (hok : s.BufOK)
    (h : s.insert_key E key value lvl = some s') (v0 : Int) :
    s'.BufOK ∧ s'.lookup E key v0 = some (decide (value ≠ V_TOMBSTONE), value) := by
  unfold insert_key at h
  split at h
  · exact absurd h (by simp)
  · rename_i s0 hs0
    have hok0 : s0.BufOK := by
      intro run hrun; rw [advanceRun_C_0 s s0 hs0] at hrun; exact hok run hrun
    split at h
    · exact absurd h (by simp)
    · rename_i s1 hs1
      have hok1 : s1.BufOK := by
        split at hs1
        · exact do_merge_BufOK E s0 s1 hok0 hs1
        · simp only [Option.some.injEq] at hs1; subst hs1; exact hok0
      unfold putActive at h
      split at h
      · rename_i run bf hrun hbf
        split at h
        · rename_i run1 bf1 hrun1 hbf1
          simp only [Option.some.injEq] at h
          subst h
          have hlt : s1._activeRun < s1.C_0.length := by
            rcases Nat.lt_or_ge s1._activeRun s1.C_0.length with h1 | h1
            · exact h1
            · rw [List.getElem?_eq_none h1] at hrun; exact absurd hrun (by simp)
          have hltf : s1._activeRun < s1.filters.length := by
            rcases Nat.lt_or_ge s1._activeRun s1.filters.length with h1 | h1
            · exact h1
            · rw [List.getElem?_eq_none h1] at hbf; exact absurd hbf (by simp)
          obtain ⟨hwf1, hlk, hmn, hmx⟩ :=
            SkipList.insert_key_spec run run1 key value lvl (hok1 run (List.getElem?_mem hrun)) hrun1
          constructor
          · intro r hr
            simp only at hr
            rcases List.mem_or_eq_of_mem_set hr with h1 | h1
            · exact hok1 r h1
            · subst h1; exact hwf1
          · unfold lookup
            simp only [lookupBuffer]
            have e1 : (s1.C_0.set s1._activeRun run1)[s1._activeRun]? = some run1 := by
              simp [List.getElem?_set_self, hlt]
            have e2 : (s1.filters.set s1._activeRun bf1)[s1._activeRun]? = some bf1 := by
              simp [List.getElem?_set_self, hltf]
            simp only [e1, e2]
            have hnot : ¬ (key < run1.get_min ∨ key > run1.get_max) := by
              simp only [SkipList.get_min, SkipList.get_max]; omega
            rw [if_neg hnot]
            rw [BloomFilter.mayContain_of_holds E bf1 key (BloomFilter.add_holds E bf bf1 key hbf1)]
            simp only [hlk]
            simp
        · exact absurd h (by simp)
      · exact absurd h (by simp)

theorem insertAll_BufOK (E : Env) : ∀ (ops : List (Int × Int × Int)) (s s' : LSM), s.BufOK →
    s.insertAll E ops = some s' → s'.BufOK := by
  intro ops
  induction ops with
  | nil => intro s s' hok h; simp [insertAll] at h; subst h; exact hok
  | cons op rest ih =>
    intro s s' hok h
    obtain ⟨k, v, l⟩ := op
    simp only [insertAll] at h
    split at h
    · exact absurd h (by simp)
    · rename_i s1 hs1
      exact ih s1 s' (insert_key_lookup E s s1 k v l hok hs1 0).1 h

theorem insertAll_append (E : Env) : ∀ (ops : List (Int × Int × Int)) (s s' : LSM) (k v l : Int),
    s.insertAll E (ops ++ [(k, v, l)]) = some s' →
    ∃ s1, s.insertAll E ops = some s1 ∧ s1.insert_key E k v l = some s' := by
  intro ops
  induction ops with
  | nil =>
    intro s s' k v l h
    simp only [List.nil_append, insertAll] at h
    split at h
    · exact absurd h (by simp)
    · rename_i s1 hs1
      simp only [Option.some.injEq] at h
      subst h
      exact ⟨s, rfl, hs1⟩
  | cons op rest ih =>
    intro s s' k v l h
    obtain ⟨k0, v0, l0⟩ := op
    simp only [List.cons_append, insertAll] at h ⊢
    split at h
    · exact absurd h (by simp)
    · rename_i s1 hs1
      exact ih s1 s' k v l h

end LSM

/-- Claim C2 (read-your-writes): whenever a new store has gone through a sequence
of `insert_key` calls that ends with `insert_key(k, v)`, `v` not the tombstone,
the next `lookup(k)` returns true and yields `v`. The sequence is arbitrary, so
the last call may have moved on to the next run or started `do_merge`; that
the calls returned includes that every filter touched has at least one bit. -/
theorem read_your_writes (E : Env) (e r m ps d md : Nat) (ops : List (Int × Int × Int))
    (k v l : Int) (s0 s : LSM) (hnew : LSM.new E e r m ps d md = some s0)
    (hrun : s0.insertAll E (ops ++ [(k, v, l)]) = some s) (hv : v ≠ V_TOMBSTONE) (value : Int) :
    s.lookup E k value = some (true, v) := by
  obtain ⟨s1, h1, h2⟩ := LSM.insertAll_append E ops s0 s k v l hrun
  have hok1 := LSM.insertAll_BufOK E ops s0 s1 (LSM.new_BufOK E e r m ps d md s0 hnew) h1
  have := (LSM.insert_key_lookup E s1 s k v l hok1 h2 value).2
  rw [this]
  simp [hv]

set_option maxRecDepth 100000 in
/-- Claim C2 at a concrete store: one pair per run and two runs, so that the third
insert finds both runs full and goes through `do_merge`. -/
theorem read_your_writes_witness :
    ∃ s0 s, LSM.new sampleEnv 1 2 2 1 2 2 = some s0 ∧
      s0.insertAll sampleEnv ([(1, 1, 0), (2, 2, 0)] ++ [(3, 3, 0)]) = some s ∧
      (3 : Int) ≠ V_TOMBSTONE ∧ s.diskContents = [[[⟨1, 1⟩, ⟨2, 2⟩]]] ∧
      s.lookup sampleEnv 3 0 = some (true, 3) :=
  ⟨(LSM.new sampleEnv 1 2 2 1 2 2).get (by decide),
    (((LSM.new sampleEnv 1 2 2 1 2 2).get (by decide)).insertAll sampleEnv
      ([(1, 1, 0), (2, 2, 0)] ++ [(3, 3, 0)])).get (by decide),
    (Option.some_get _).symm, (Option.some_get _).symm, by decide, by decide,
    read_your_writes sampleEnv 1 2 2 1 2 2 [(1, 1, 0), (2, 2, 0)] 3 3 0 _ _
      (Option.some_get _).symm (Option.some_get _).symm (by decide) 0⟩

/-! ## The index of a disk run -/

namespace DiskRun

theorem mul_eq_of_mod {n ps j : Nat} (hps : 0 < ps) (h1 : j ≤ n * ps) (h2 : n * ps < j + ps)
    (hm : j % ps = 0) : n * ps = j := by
  obtain ⟨q, hq⟩ := Nat.dvd_of_mod_eq_zero hm
  subst hq
  have hle : q ≤ n := by
    have : ps * q ≤ ps * n := by rw [Nat.mul_comm ps n]; exact h1
    exact Nat.le_of_mul_le_mul_left this hps
  have hlt : n < q + 1 := by
    have : ps * n < ps * (q + 1) := by rw [Nat.mul_comm ps n, Nat.mul_add, Nat.mul_one]; exact h2
    exact Nat.lt_of_mul_lt_mul_left this
  have : n = q := by omega
  subst this
  exact Nat.mul_comm _ _

theorem constructIndexLoop_spec (E : Env) (map : List KVPair) (ps : Nat) :
    ∀ (fuel j : Nat) (bf : BloomFilter) (fps : List Int) (iMax : Nat)
      (bf' : BloomFilter) (fps' : List Int) (iMax' : Nat),
    constructIndexLoop E map ps fuel j bf fps iMax = some (bf', fps', iMax') →
    Fenced map ps j fps → iMax = (fps.length + (2 ^ 32 - 1)) % 2 ^ 32 →
    (0 < fuel → 0 < ps) ∧ Fenced map ps (j + fuel) fps' ∧
      iMax' = (fps'.length + (2 ^ 32 - 1)) % 2 ^ 32 ∧ (0 < fuel → j + fuel ≤ map.length) := by
  intro fuel
  induction fuel with
  | zero =>
    intro j bf fps iMax bf' fps' iMax' h hf hi
    simp only [constructIndexLoop, Option.some.injEq, Prod.mk.injEq] at h
    obtain ⟨-, h2, h3⟩ := h
    subst h2 h3
    exact ⟨fun h => absurd h (by omega), hf, hi, fun h => absurd h (by omega)⟩
  | succ f ih =>
    intro j bf fps iMax bf' fps' iMax' h hf hi
    simp only [constructIndexLoop] at h
    split at h
    · exact absurd h (by simp)
    · rename_i kv hkv
      have hjlt : j < map.length := by
        rcases Nat.lt_or_ge j map.length with h1 | h1
        · exact h1
        · rw [List.getElem?_eq_none h1] at hkv; exact absurd hkv (by simp)
      split at h
      · exact absurd h (by simp)
      · rename_i bf1 hbf1
        split at h
        · exact absurd h (by simp)
        · rename_i hps0
          have hps : 0 < ps := Nat.pos_of_ne_zero hps0
          obtain ⟨hf1, hf2, hf3⟩ := hf
          split at h
          · rename_i hmod
            have hjn : fps.length * ps = j := mul_eq_of_mod hps hf1 hf2 hmod
            have hF : Fenced map ps (j + 1) (fps ++ [kv.key]) := by
              refine ⟨?_, ?_, ?_⟩
              · simp only [List.length_append, List.length_singleton, Nat.add_mul, Nat.one_mul]
                omega
              · simp only [List.length_append, List.length_singleton, Nat.add_mul, Nat.one_mul]
                omega
              · intro i hi2
                simp only [List.length_append, List.length_singleton] at hi2
                by_cases hlast : i = fps.length
                · subst hlast
                  refine ⟨kv, by rw [hjn]; exact hkv, ?_⟩
                  rw [List.getElem?_append_right (le_refl _)]
                  simp
                · have hlt : i < fps.length := by omega
                  obtain ⟨kv2, h1, h2⟩ := hf3 i hlt
                  exact ⟨kv2, h1, by rw [List.getElem?_append_left hlt]; exact h2⟩
            have hI : (iMax + 1) % 2 ^ 32 = ((fps ++ [kv.key]).length + (2 ^ 32 - 1)) % 2 ^ 32 := by
              simp only [List.length_append, List.length_singleton]
              rw [hi]
              omega
            obtain ⟨-, r2, r3, r4⟩ := ih (j + 1) bf1 _ _ bf' fps' iMax' h hF hI
            refine ⟨fun _ => hps, ?_, r3, ?_⟩
            · rw [Nat.add_assoc, Nat.add_comm 1 f] at r2; exact r2
            · intro _
              by_cases hf0 : f = 0
              · subst hf0; omega
              · have := r4 (Nat.pos_of_ne_zero hf0); omega
          · rename_i hmod
            have hne : fps.length * ps ≠ j := by
              intro he
              apply hmod
              rw [← he]
              exact Nat.mul_mod_left _ _
            have hF : Fenced map ps (j + 1) fps := ⟨by omega, by omega, hf3⟩
            obtain ⟨-, r2, r3, r4⟩ := ih (j + 1) bf1 _ _ bf' fps' iMax' h hF hi
            refine ⟨fun _ => hps, ?_, r3, ?_⟩
            · rw [Nat.add_assoc, Nat.add_comm 1 f] at r2; exact r2
            · intro _
              by_cases hf0 : f = 0
              · subst hf0; omega
              · have := r4 (Nat.pos_of_ne_zero hf0); omega

theorem Fenced.length_pos {map : List KVPair} {ps j : Nat} {fps : List Int}
    (h : Fenced map ps j fps) (hj : 0 < j) : 0 < fps.length := by
  rcases Nat.eq_zero_or_pos fps.length with h0 | h0
  · have := h.1; rw [h0] at this; omega
  · exact h0

theorem Fenced.length_le {map : List KVPair} {ps j : Nat} {fps : List Int}
    (h : Fenced map ps j fps) (hps : 0 < ps) : fps.length ≤ j := by
  have h2 := h.2.1
  rcases Nat.eq_zero_or_pos fps.length with h0 | h0
  · omega
  · have : (fps.length - 1) * ps + ps = fps.length * ps := by
      have : fps.length = (fps.length - 1) + 1 := by omega
      calc (fps.length - 1) * ps + ps = ((fps.length - 1) + 1) * ps := by
            rw [Nat.add_mul, Nat.one_mul]
        _ = fps.length * ps := by rw [← this]
    have h3 : (fps.length - 1) * ps < j := by omega
    have h4 : fps.length - 1 ≤ (fps.length - 1) * ps := Nat.le_mul_of_pos_right _ hps
    omega

theorem resizeKeys_self (v : List Int) : resizeKeys v v.length = v := by
  simp [resizeKeys]

theorem constructIndexLoop_page_pos (E : Env) (map : List KVPair) (ps fuel j : Nat) (bf : BloomFilter)
    (fps : List Int) (iMax : Nat) (res : BloomFilter × List Int × Nat) (hfuel : 0 < fuel)
    (h : constructIndexLoop E map ps fuel j bf fps iMax = some res) : 0 < ps := by
  cases fuel with
  | zero => omega
  | succ f =>
    simp only [constructIndexLoop] at h
    split at h
    · exact absurd h (by simp)
    · split at h
      · exact absurd h (by simp)
      · split at h
        · exact absurd h (by simp)
        · rename_i hps0; exact Nat.pos_of_ne_zero hps0

theorem constructIndex_indexed (E : Env) (r0 r : DiskRun) (hfresh : r0._fencePointers = [])
    (hcap : 0 < r0._capacity) (h : r0.constructIndex E = some r) :
    r.Indexed ∧ r.map = r0.map ∧ r._capacity = r0._capacity ∧ r.pageSize = r0.pageSize := by
  unfold constructIndex at h
  split at h
  · exact absurd h (by simp)
  · rename_i hsmall
    split at h
    · exact absurd h (by simp)
    · rename_i bf fps iMax hloop
      rw [hfresh] at hloop
      have hps0 := constructIndexLoop_page_pos E _ _ _ _ _ _ _ _ hcap hloop
      have hF0 : Fenced r0.map r0.pageSize 0 [] := ⟨by simp, by simp; omega, by simp⟩
      obtain ⟨r1, r2, r3, r4⟩ :=
        constructIndexLoop_spec E r0.map r0.pageSize r0._capacity 0 r0.bf [] (2 ^ 32 - 1) bf fps iMax
          hloop hF0 (by simp)
      have hps := r1 hcap
      have hle := r4 hcap
      simp only [Nat.zero_add] at r2 hle
      have hlen1 := Fenced.length_pos r2 hcap
      have hlen2 := Fenced.length_le r2 hps
      have hiM : iMax + 1 = fps.length := by rw [r3]; omega
      have hidx : (r0._capacity + (2 ^ 64 - 1)) % 2 ^ 64 = r0._capacity - 1 := by
        have h64 : (2 : Nat) ^ 64 = 18446744073709551616 := by norm_num
        rw [h64]; omega
      rw [hidx] at h
      split at h
      · rename_i kv0 kvLast hkv0 hkvL
        simp only [Option.some.injEq] at h
        subst h
        refine ⟨⟨hcap, hle, Nat.le_of_not_lt hsmall, hps, ?_, ?_, ⟨kv0, hkv0, rfl⟩, ⟨kvLast, hkvL, rfl⟩⟩, rfl, rfl, rfl⟩
        · show Fenced r0.map r0.pageSize r0._capacity (resizeKeys fps ((iMax + 1) % 2 ^ 32))
          have : (iMax + 1) % 2 ^ 32 = fps.length := by omega
          rw [this, resizeKeys_self]; exact r2
        · show iMax + 1 = (resizeKeys fps ((iMax + 1) % 2 ^ 32)).length
          have : (iMax + 1) % 2 ^ 32 = fps.length := by omega
          rw [this, resizeKeys_self]; exact hiM
      · exact absurd h (by simp)

theorem getElem?_of_lt (map : List KVPair) (i : Nat) (h : i < map.length) :
    ∃ kv, map[i]? = some kv ∧ kv.key = keyAt map i := by
  refine ⟨map[i], List.getElem?_eq_getElem h, ?_⟩
  simp [keyAt, List.getElem?_eq_getElem h]

theorem keyAt_of_getElem? {map : List KVPair} {i : Nat} {kv : KVPair} (h : map[i]? = some kv) :
    keyAt map i = kv.key := by
  simp [keyAt, h]

theorem mono_le {map : List KVPair} {hi : Nat}
    (hmono : ∀ i j, i < j → j < hi → keyAt map i < keyAt map j) {i j : Nat} (hij : i ≤ j)
    (hj : j < hi) : keyAt map i ≤ keyAt map j := by
  rcases Nat.lt_or_ge i j with h | h
  · exact le_of_lt (hmono i j h hj)
  · have : i = j := by omega
    subst this; exact le_refl _

theorem binarySearchLoop_spec (map : List KVPair) (key : Int) (lo hi : Nat)
    (hhi : hi ≤ map.length) (hsmall : hi ≤ 2147483647)
    (hmono : ∀ i j, i < j → j < hi → keyAt map i < keyAt map j)
    (hkey : keyAt map lo ≤ key) :
    ∀ (fuel min max : Nat) (found : Bool), lo ≤ min → min ≤ max + 1 → max < hi →
      max + 2 ≤ min + fuel →
      (∀ i, lo ≤ i → i < min → keyAt map i < key) →
      (∀ i, max < i → i < hi → key < keyAt map i) →
      ∃ idx f, binarySearchLoop map key fuel min max found = some (idx, f) ∧ lo ≤ idx ∧ idx ≤ hi ∧
        (∀ i, lo ≤ i → i < idx → keyAt map i < key) ∧
        ((f = true ∧ idx < hi ∧ keyAt map idx = key) ∨
          (f = found ∧ ∀ i, idx ≤ i → i < hi → key < keyAt map i)) := by
  intro fuel
  induction fuel with
  | zero => intro min max found h1 h2 h3 h4; omega
  | succ n ih =>
    intro min max found h1 h2 h3 h4 hL hR
    simp only [binarySearchLoop]
    by_cases hmm : min ≤ max
    · rw [if_pos hmm]
      have hmid : (min + max) % 2 ^ 64 / 2 = (min + max) / 2 := by
        rw [Nat.mod_eq_of_lt (by omega)]
      rw [hmid]
      have hm1 : min ≤ (min + max) / 2 := by omega
      have hm2 : (min + max) / 2 ≤ max := by omega
      obtain ⟨kv, hkv, hkk⟩ := getElem?_of_lt map ((min + max) / 2) (by omega)
      simp only [hkv]
      by_cases hgt : key > kv.key
      · rw [if_pos hgt]
        have e : ((min + max) / 2 + 1) % 2 ^ 64 = (min + max) / 2 + 1 := by
          rw [Nat.mod_eq_of_lt (by omega)]
        rw [e]
        apply ih _ _ found (by omega) (by omega) h3 (by omega) _ hR
        intro i hi1 hi2
        have : keyAt map i ≤ keyAt map ((min + max) / 2) := mono_le hmono (by omega) (by omega)
        rw [← hkk] at this
        omega
      · rw [if_neg hgt]
        by_cases heq : key = kv.key
        · rw [if_pos heq]
          refine ⟨_, true, rfl, by omega, by omega, ?_, Or.inl ⟨rfl, by omega, by rw [← hkk, heq]⟩⟩
          intro i hi1 hi2
          have := hmono i ((min + max) / 2) hi2 (by omega)
          rw [← hkk] at this
          omega
        · rw [if_neg heq]
          have hlt : key < kv.key := by omega
          have hne : (min + max) / 2 ≠ lo := by
            intro he
            rw [he] at hkk
            omega
          have e : ((min + max) / 2 + (2 ^ 64 - 1)) % 2 ^ 64 = (min + max) / 2 - 1 := by
            have h : (min + max) / 2 + (2 ^ 64 - 1) = ((min + max) / 2 - 1) + 2 ^ 64 := by omega
            rw [h, Nat.add_mod_right, Nat.mod_eq_of_lt (by omega)]
          rw [e]
          apply ih _ _ found h1 (by omega) (by omega) (by omega) hL
          intro i hi1 hi2
          have : keyAt map ((min + max) / 2) ≤ keyAt map i := mono_le hmono (by omega) hi2
          rw [← hkk] at this
          omega
    · rw [if_neg hmm]
      refine ⟨min, found, rfl, h1, by omega, hL, Or.inr ⟨rfl, ?_⟩⟩
      intro i hi1 hi2
      exact hR i (by omega) hi2

/-- The search of `binary_search` in a bracket `[offset, offset + n)` of a file
whose keys increase strictly, for a key not below the first key of the bracket. -/
theorem binary_search_spec (r : DiskRun) (key : Int) (offset n : Nat) (found : Bool)
    (hn : 0 < n) (hhi : offset + n ≤ r.map.length) (hsmall : offset + n ≤ 2147483647)
    (hmono : ∀ i j, i < j → j < offset + n → keyAt r.map i < keyAt r.map j)
    (hkey : keyAt r.map offset ≤ key) :
    ∃ idx f, r.binary_search offset n key found = some (idx, f) ∧ offset ≤ idx ∧ idx ≤ offset + n ∧
      (∀ i, offset ≤ i → i < idx → keyAt r.map i < key) ∧
      ((f = true ∧ idx < offset + n ∧ keyAt r.map idx = key) ∨
        (f = found ∧ ∀ i, idx ≤ i → i < offset + n → key < keyAt r.map i)) := by
  unfold binary_search
  rw [if_neg (by omega)]
  have e : (offset + n + (2 ^ 64 - 1)) % 2 ^ 64 = offset + n - 1 := by
    have h : offset + n + (2 ^ 64 - 1) = (offset + n - 1) + 2 ^ 64 := by omega
    rw [h, Nat.add_mod_right, Nat.mod_eq_of_lt (by omega)]
  rw [e]
  exact binarySearchLoop_spec r.map key offset (offset + n) hhi hsmall hmono hkey (n + 1) offset
    (offset + n - 1) found (le_refl _) (by omega) (by omega) (by omega)
    (fun i h1 h2 => by omega) (fun i h1 h2 => by omega)

theorem succ_mul_le (i n ps : Nat) (h : i < n) : i * ps + ps ≤ n * ps := by
  have : (i + 1) * ps ≤ n * ps := Nat.mul_le_mul_right ps h
  rw [Nat.add_mul, Nat.one_mul] at this
  exact this

theorem flankingLoop_spec (fps : List Int) (ps : Nat) (key : Int) (F : Nat → Int)
    (hprod : fps.length * ps < 2 ^ 32) (hlen : fps.length ≤ 2147483647) (hps : 0 < ps)
    (hF : ∀ i, i < fps.length → fps[i]? = some (F i))
    (hmono : ∀ i j, i < j → j < fps.length → F i < F j) :
    ∀ (fuel min max : Nat), min < max → max < fps.length → max ≤ min + fuel →
      F min ≤ key → key < F max →
      ∃ start stop, flankingLoop fps ps key fuel min max = some (start, stop) ∧
        ((∃ m, m + 1 < fps.length ∧ start = m * ps ∧ stop = (m + 1) * ps ∧ F m ≤ key ∧
            key < F (m + 1)) ∨
          (∃ m, m < fps.length ∧ start = m * ps ∧ stop = m * ps ∧ F m = key)) := by
  have hmul : ∀ m, m < fps.length → (m * ps) % 2 ^ 32 = m * ps := by
    intro m hm
    have := succ_mul_le _ _ ps hm
    exact Nat.mod_eq_of_lt (by omega)
  intro fuel
  induction fuel with
  | zero => intro min max h1 h2 h3; omega
  | succ n ih =>
    intro min max h1 h2 h3 hlo hhi
    simp only [flankingLoop, if_pos h1]
    have hmid : (min + max) % 2 ^ 32 / 2 = (min + max) / 2 := by
      rw [Nat.mod_eq_of_lt (by omega)]
    simp only [hmid]
    have hm1 : min ≤ (min + max) / 2 := by omega
    have hm2 : (min + max) / 2 < max := by omega
    simp only [hF ((min + max) / 2) (by omega)]
    by_cases hgt : key > F ((min + max) / 2)
    · rw [if_pos hgt]
      have e : ((min + max) / 2 + 1) % 2 ^ 32 = (min + max) / 2 + 1 := by
        rw [Nat.mod_eq_of_lt (by omega)]
      simp only [e, hF ((min + max) / 2 + 1) (by omega)]
      by_cases hlt : key < F ((min + max) / 2 + 1)
      · rw [if_pos hlt]
        refine ⟨_, _, rfl, Or.inl ⟨(min + max) / 2, by omega, hmul _ (by omega),
          hmul _ (by omega), le_of_lt hgt, hlt⟩⟩
      · rw [if_neg hlt]
        have hne : (min + max) / 2 + 1 ≠ max := by
          intro he; rw [he] at hlt; exact hlt hhi
        exact ih _ _ (by omega) h2 (by omega) (not_lt.mp hlt) hhi
    · rw [if_neg hgt]
      by_cases hlt : key < F ((min + max) / 2)
      · rw [if_pos hlt]
        have hne : (min + max) / 2 ≠ min := by
          intro he; rw [he] at hlt; omega
        have e : ((min + max) / 2 + (2 ^ 32 - 1)) % 2 ^ 32 = (min + max) / 2 - 1 := by
          have h : (min + max) / 2 + (2 ^ 32 - 1) = ((min + max) / 2 - 1) + 2 ^ 32 := by omega
          rw [h, Nat.add_mod_right, Nat.mod_eq_of_lt (by omega)]
        simp only [e, hF ((min + max) / 2 - 1) (by omega)]
        by_cases hge : key ≥ F ((min + max) / 2 - 1)
        · rw [if_pos hge]
          have e2 : (min + max) / 2 - 1 + 1 = (min + max) / 2 := by omega
          refine ⟨_, _, rfl, Or.inl ⟨(min + max) / 2 - 1, by omega, hmul _ (by omega), ?_, hge, ?_⟩⟩
          · rw [e2]; exact hmul _ (by omega)
          · rw [e2]; exact hlt
        · rw [if_neg hge]
          have hne2 : (min + max) / 2 - 1 ≠ min := by
            intro he; rw [he] at hge; exact hge hlo
          exact ih _ _ (by omega) (by omega) (by omega) hlo (not_le.mp hge)
      · rw [if_neg hlt]
        exact ⟨_, _, rfl, Or.inr ⟨(min + max) / 2, by omega, hmul _ (by omega), hmul _ (by omega),
          by omega⟩⟩

theorem StrictKeys.mono {r : DiskRun} (hs : r.StrictKeys) (hle : r._capacity ≤ r.map.length) :
    ∀ i j, i < j → j < r._capacity → keyAt r.map i < keyAt r.map j := by
  intro i j hij hj
  unfold StrictKeys entries at hs
  rw [List.pairwise_iff_getElem] at hs
  have hlen : (r.map.take r._capacity).length = r._capacity := by
    rw [List.length_take]; exact Nat.min_eq_left hle
  have := hs i j (by omega) (by omega) hij
  simp only [List.getElem_take] at this
  have e1 : keyAt r.map i = r.map[i].key := by
    simp [keyAt, List.getElem?_eq_getElem (show i < r.map.length by omega)]
  have e2 : keyAt r.map j = r.map[j].key := by
    simp [keyAt, List.getElem?_eq_getElem (show j < r.map.length by omega)]
  rw [e1, e2]; exact this

/-- The bracket `get_flanking_FP` chooses on an indexed run with strictly
increasing keys, for a key not below `minKey`: it starts at a pair whose key
is not above the key sought, and either it is empty and starts at the key, or
it ends at the capacity or at a pair whose key is above the key. -/
theorem get_flanking_FP_spec (r : DiskRun) (hi : r.Indexed)
    (hmono : ∀ i j, i < j → j < r._capacity → keyAt r.map i < keyAt r.map j)
    (key : Int) (hmin : r.minKey ≤ key) :
    ∃ start stop, r.get_flanking_FP key = some (start, stop) ∧ start ≤ stop ∧ stop ≤ r._capacity ∧
      start < r._capacity ∧ keyAt r.map start ≤ key ∧
      ((start = stop ∧ keyAt r.map start = key) ∨
        (start < stop ∧ (stop = r._capacity ∨ key < keyAt r.map stop))) := by
  obtain ⟨hf1, hf2, hf3⟩ := hi.fenced
  have hps := hi.page_pos
  have hcs := hi.cap_small
  have hidx : ∀ i, i < r._fencePointers.length → i * r.pageSize < r._capacity := by
    intro i h
    have := succ_mul_le _ _ r.pageSize h
    omega
  have hF : ∀ i, i < r._fencePointers.length →
      r._fencePointers[i]? = some (keyAt r.map (i * r.pageSize)) := by
    intro i h
    obtain ⟨kv, h1, h2⟩ := hf3 i h
    rw [h2, keyAt_of_getElem? h1]
  have hFmono : ∀ i j, i < j → j < r._fencePointers.length →
      keyAt r.map (i * r.pageSize) < keyAt r.map (j * r.pageSize) := by
    intro i j hij hj
    exact hmono _ _ (Nat.mul_lt_mul_of_pos_right hij hps) (hidx j hj)
  have hlenle : r._fencePointers.length ≤ r._capacity := Fenced.length_le hi.fenced hps
  have hk0 : keyAt r.map 0 ≤ key := by
    obtain ⟨kv, h1, h2⟩ := hi.minKey
    rw [keyAt_of_getElem? h1, ← h2]; exact hmin
  unfold get_flanking_FP
  by_cases h0 : r._iMaxFP = 0
  · rw [if_pos h0]
    exact ⟨0, r._capacity, rfl, Nat.zero_le _, le_refl _, hi.cap_pos, hk0,
      Or.inr ⟨hi.cap_pos, Or.inl rfl⟩⟩
  · rw [if_neg h0]
    have hlen2 : 2 ≤ r._fencePointers.length := by have := hi.imax; omega
    have h1ps : 1 * r.pageSize < r._capacity := hidx 1 (by omega)
    rw [Nat.one_mul] at h1ps
    simp only [hF 1 (by omega), Nat.one_mul]
    by_cases hlt1 : key < keyAt r.map r.pageSize
    · rw [if_pos hlt1]
      exact ⟨0, r.pageSize, rfl, Nat.zero_le _, le_of_lt h1ps, hi.cap_pos, hk0,
        Or.inr ⟨hps, Or.inr hlt1⟩⟩
    · rw [if_neg hlt1]
      have hprod : r._fencePointers.length * r.pageSize < 2 ^ 32 := by omega
      have hiM : r._iMaxFP < r._fencePointers.length := by have := hi.imax; omega
      have hmulM : (r._iMaxFP * r.pageSize) % 2 ^ 32 = r._iMaxFP * r.pageSize := by
        have := hidx _ hiM
        exact Nat.mod_eq_of_lt (by omega)
      simp only [hF r._iMaxFP hiM]
      by_cases hgeM : key ≥ keyAt r.map (r._iMaxFP * r.pageSize)
      · rw [if_pos hgeM, hmulM]
        exact ⟨_, _, rfl, le_of_lt (hidx _ hiM), le_refl _, hidx _ hiM, hgeM,
          Or.inr ⟨hidx _ hiM, Or.inl rfl⟩⟩
      · rw [if_neg hgeM]
        have hne1 : r._iMaxFP ≠ 1 := by
          intro he; rw [he, Nat.one_mul] at hgeM; omega
        obtain ⟨start, stop, hres, hcase⟩ :=
          flankingLoop_spec r._fencePointers r.pageSize key (fun i => keyAt r.map (i * r.pageSize))
            hprod (by omega) hps hF hFmono (r._iMaxFP + 1) 0 r._iMaxFP (by omega) hiM (by omega)
            (by simpa using hk0) (not_le.mp hgeM)
        refine ⟨start, stop, hres, ?_⟩
        rcases hcase with ⟨m, hm, hs, ht, hlo, hhi⟩ | ⟨m, hm, hs, ht, heq⟩
        · have h1 := hidx (m + 1) hm
          have h2 := hidx m (by omega)
          have h3 : m * r.pageSize < (m + 1) * r.pageSize :=
            Nat.mul_lt_mul_of_pos_right (by omega) hps
          subst hs ht
          exact ⟨le_of_lt h3, le_of_lt h1, h2, hlo, Or.inr ⟨h3, Or.inr hhi⟩⟩
        · have h2 := hidx m hm
          subst hs ht
          exact ⟨le_refl _, le_of_lt h2, h2, le_of_eq heq, Or.inl ⟨rfl, heq⟩⟩

/-- The index `get_index` returns on an indexed run with strictly increasing
keys, for a key not below `minKey`: the pairs before it have smaller keys, and
either it is the index of the key and `found` is set, or all pairs from it on
have larger keys and `found` is as before. -/
theorem get_index_spec (r : DiskRun) (hi : r.Indexed)
    (hmono : ∀ i j, i < j → j < r._capacity → keyAt r.map i < keyAt r.map j)
    (key : Int) (hmin : r.minKey ≤ key) (found : Bool) :
    ∃ idx f, r.get_index key found = some (idx, f) ∧ idx ≤ r._capacity ∧
      (∀ i, i < idx → keyAt r.map i < key) ∧
      ((f = true ∧ idx < r._capacity ∧ keyAt r.map idx = key) ∨
        (f = found ∧ ∀ i, idx ≤ i → i < r._capacity → key < keyAt r.map i)) := by
  obtain ⟨start, stop, hfl, h1, h2, h3, h4, h5⟩ := get_flanking_FP_spec r hi hmono key hmin
  have hcs := hi.cap_small
  have hcl := hi.cap_le
  unfold get_index
  simp only [hfl]
  have e : (stop + (2 ^ 64 - start)) % 2 ^ 64 = stop - start := by
    have h : stop + (2 ^ 64 - start) = (stop - start) + 2 ^ 64 := by omega
    rw [h, Nat.add_mod_right, Nat.mod_eq_of_lt (by omega)]
  rw [e]
  have hbelow : ∀ i, i < start → keyAt r.map i < key := fun i hi2 =>
    lt_of_lt_of_le (hmono i start hi2 h3) h4
  rcases h5 with ⟨heq, hk⟩ | ⟨hlt, hend⟩
  · subst heq
    refine ⟨start, true, by simp [binary_search], le_of_lt h3, hbelow, Or.inl ⟨rfl, h3, hk⟩⟩
  · obtain ⟨idx, f, hbs, b1, b2, b3, b4⟩ :=
      binary_search_spec r key start (stop - start) found (by omega) (by omega) (by omega)
        (fun i j hij hj => hmono i j hij (by omega)) h4
    have es : start + (stop - start) = stop := by omega
    rw [es] at b2 b4
    refine ⟨idx, f, hbs, by omega, ?_, ?_⟩
    · intro i hi2
      rcases Nat.lt_or_ge i start with h | h
      · exact hbelow i h
      · exact b3 i h hi2
    · rcases b4 with ⟨c1, c2, c3⟩ | ⟨c1, c2⟩
      · exact Or.inl ⟨c1, by omega, c3⟩
      · refine Or.inr ⟨c1, ?_⟩
        intro i hi1 hi2
        rcases Nat.lt_or_ge i stop with h | h
        · exact c2 i hi1 h
        · rcases hend with he | he
          · omega
          · exact lt_of_lt_of_le he (mono_le hmono h hi2)

theorem entries_getElem? (r : DiskRun) (j : Nat) (kv : KVPair) :
    r.entries[j]? = some kv ↔ j < r._capacity ∧ r.map[j]? = some kv := by
  unfold entries
  rw [List.getElem?_take]
  split
  · rename_i h; simp [h]
  · rename_i h; simp [h]

theorem mem_entries (r : DiskRun) (kv : KVPair) :
    kv ∈ r.entries ↔ ∃ j, j < r._capacity ∧ r.map[j]? = some kv := by
  rw [List.mem_iff_getElem?]
  constructor
  · rintro ⟨j, hj⟩; exact ⟨j, (entries_getElem? r j kv).mp hj⟩
  · rintro ⟨j, hj⟩; exact ⟨j, (entries_getElem? r j kv).mpr hj⟩

/-- The point lookup of an indexed run with strictly increasing keys, for a key
between `minKey` and `maxKey`. -/
theorem lookup_indexed (r : DiskRun) (hi : r.Indexed) (hs : r.StrictKeys) (key : Int)
    (hmin : r.minKey ≤ key) (hmax : key ≤ r.maxKey) :
    (∀ v, (⟨key, v⟩ : KVPair) ∈ r.entries → r.lookup key false = some (v, true)) ∧
      ((∀ v, (⟨key, v⟩ : KVPair) ∉ r.entries) → r.lookup key false = some (0, false)) := by
  have hmono := hs.mono hi.cap_le
  obtain ⟨idx, f, hgi, g1, g2, g3⟩ := get_index_spec r hi hmono key hmin false
  have hcl := hi.cap_le
  have hcp := hi.cap_pos
  have hidx : idx < r._capacity := by
    rcases g3 with ⟨-, c, -⟩ | ⟨-, c⟩
    · exact c
    · rcases Nat.lt_or_ge idx r._capacity with h | h
      · exact h
      · have h1 := g2 (r._capacity - 1) (by omega)
        obtain ⟨kv, k1, k2⟩ := hi.maxKey
        rw [keyAt_of_getElem? k1, ← k2] at h1
        omega
  obtain ⟨kv, hkv, hkk⟩ := getElem?_of_lt r.map idx (by omega)
  have hlk : r.lookup key false = some (if f then kv.value else 0, f) := by
    unfold lookup
    simp only [hgi, hkv]
  constructor
  · intro v hv
    obtain ⟨j, hj1, hj2⟩ := (mem_entries r _).mp hv
    have hkj : keyAt r.map j = key := keyAt_of_getElem? hj2
    rcases g3 with ⟨c1, c2, c3⟩ | ⟨c1, c2⟩
    · have hji : j = idx := by
        rcases Nat.lt_trichotomy j idx with h | h | h
        · have := hmono j idx h c2; omega
        · exact h
        · have := hmono idx j h hj1; omega
      subst hji
      rw [hkv] at hj2
      cases hj2
      rw [hlk, c1]; rfl
    · rcases Nat.lt_or_ge j idx with h | h
      · have := g2 j h; omega
      · have := c2 j h hj1; omega
  · intro hno
    rcases g3 with ⟨c1, c2, c3⟩ | ⟨c1, c2⟩
    · exfalso
      apply hno kv.value
      rw [mem_entries]
      refine ⟨idx, c2, ?_⟩
      rw [hkv]
      congr 1
      cases kv
      simp only [KVPair.mk.injEq, and_true]
      rw [← c3, ← hkk]
    · rw [hlk, c1]; rfl

/-- The index pair `range` returns on an indexed run with strictly increasing
keys: the pairs at the indices from `i1` up to but not including `i2` are
those whose key is at least `key1` and below `key2`. -/
theorem range_indexed (r : DiskRun) (hi : r.Indexed) (hs : r.StrictKeys) (key1 key2 : Int) :
    ∃ i1 i2, r.range key1 key2 = some (i1, i2) ∧ i2 ≤ r._capacity ∧
      ∀ j kv, r.entries[j]? = some kv → ((i1 ≤ j ∧ j < i2) ↔ (key1 ≤ kv.key ∧ kv.key < key2)) := by
  have hmono := hs.mono hi.cap_le
  have hcl := hi.cap_le
  have hcp := hi.cap_pos
  obtain ⟨kv0, m1, m2⟩ := hi.minKey
  obtain ⟨kvL, l1, l2⟩ := hi.maxKey
  have hlow : ∀ j, j < r._capacity → r.minKey ≤ keyAt r.map j := by
    intro j hj
    rw [m2, ← keyAt_of_getElem? m1]
    exact mono_le hmono (Nat.zero_le _) hj
  have hhigh : ∀ j, j < r._capacity → keyAt r.map j ≤ r.maxKey := by
    intro j hj
    rw [l2, ← keyAt_of_getElem? l1]
    exact mono_le hmono (by omega) (by omega)
  -- the index `get_index` gives is the number of pairs with a smaller key
  have hlb : ∀ key, r.minKey ≤ key → ∃ idx f, r.get_index key false = some (idx, f) ∧
      idx ≤ r._capacity ∧ ∀ j, j < r._capacity → (idx ≤ j ↔ key ≤ keyAt r.map j) := by
    intro key hk
    obtain ⟨idx, f, hgi, g1, g2, g3⟩ := get_index_spec r hi hmono key hk false
    refine ⟨idx, f, hgi, g1, ?_⟩
    intro j hj
    constructor
    · intro hij
      rcases g3 with ⟨c1, c2, c3⟩ | ⟨c1, c2⟩
      · rw [← c3]; exact mono_le hmono hij hj
      · exact le_of_lt (c2 j hij hj)
    · intro hkj
      rcases Nat.lt_or_ge j idx with h | h
      · have := g2 j h; omega
      · exact h
  unfold range
  by_cases hdis : key1 > r.maxKey ∨ key2 < r.minKey
  · rw [if_pos hdis]
    refine ⟨0, 0, rfl, Nat.zero_le _, ?_⟩
    intro j kv hj
    obtain ⟨hj1, hj2⟩ := (entries_getElem? r j kv).mp hj
    have h1 := hlow j hj1
    have h2 := hhigh j hj1
    rw [keyAt_of_getElem? hj2] at h1 h2
    constructor
    · intro h; omega
    · intro h; rcases hdis with h3 | h3 <;> omega
  · rw [if_neg hdis]
    have hd1 : key1 ≤ r.maxKey := by omega
    have hd2 : r.minKey ≤ key2 := by omega
    -- the first index
    have hfirst : ∃ i1, (if key1 ≥ r.minKey then (r.get_index key1 false).map Prod.fst else some 0)
        = some i1 ∧ ∀ j, j < r._capacity → (i1 ≤ j ↔ key1 ≤ keyAt r.map j) := by
      by_cases hge : key1 ≥ r.minKey
      · rw [if_pos hge]
        obtain ⟨idx, f, hgi, -, g2⟩ := hlb key1 hge
        exact ⟨idx, by simp [hgi], g2⟩
      · rw [if_neg hge]
        refine ⟨0, rfl, fun j hj => ⟨fun _ => ?_, fun _ => Nat.zero_le _⟩⟩
        have := hlow j hj
        omega
    obtain ⟨i1, hi1, hi1s⟩ := hfirst
    simp only [hi1]
    by_cases hgt : key2 > r.maxKey
    · rw [if_pos hgt]
      refine ⟨i1, r._capacity, rfl, le_refl _, ?_⟩
      intro j kv hj
      obtain ⟨hj1, hj2⟩ := (entries_getElem? r j kv).mp hj
      have h1 := hi1s j hj1
      have h2 := hhigh j hj1
      rw [keyAt_of_getElem? hj2] at h1 h2
      constructor
      · intro h; exact ⟨h1.mp h.1, by omega⟩
      · intro h; exact ⟨h1.mpr h.1, hj1⟩
    · rw [if_neg hgt]
      obtain ⟨idx, f, hgi, g1, g2⟩ := hlb key2 hd2
      simp only [hgi]
      refine ⟨i1, idx, rfl, g1, ?_⟩
      intro j kv hj
      obtain ⟨hj1, hj2⟩ := (entries_getElem? r j kv).mp hj
      have h1 := hi1s j hj1
      have h2 := g2 j hj1
      rw [keyAt_of_getElem? hj2] at h1 h2
      constructor
      · intro h
        refine ⟨h1.mp h.1, ?_⟩
        by_contra hc
        have := h2.mpr (by omega)
        omega
      · intro h
        refine ⟨h1.mpr h.1, ?_⟩
        by_contra hc
        have := h2.mp (by omega)
        omega

end DiskRun

/-- Claim C9 (disk-run point lookup): take a run with at least one pair whose
pairs in use have strictly increasing keys and whose fence-pointer vector is
empty, as the constructor leaves it. After `constructIndex`, for every key `k`
with `minKey ≤ k ≤ maxKey`, `lookup(k, found)` called with `found = false`
returns `v` with `found` set exactly when `(k, v)` is a pair of
`map[0 .. capacity)`, and returns with `found` still false when no pair has key `k`. -/
theorem diskRun_point_lookup (E : Env) (r0 r : DiskRun) (hfresh : r0._fencePointers = [])
    (hcap : 1 ≤ r0._capacity) (hsorted : r0.StrictKeys) (hidx : r0.constructIndex E = some r)
    (k : Int) (hmin : r.minKey ≤ k) (hmax : k ≤ r.maxKey) :
    (∀ v, r.lookup k false = some (v, true) ↔ (⟨k, v⟩ : KVPair) ∈ r.entries) ∧
      ((∀ v, (⟨k, v⟩ : KVPair) ∉ r.entries) → r.lookup k false = some (0, false)) := by
  obtain ⟨hi, hm, hc, -⟩ := DiskRun.constructIndex_indexed E r0 r hfresh hcap hidx
  have hs : r.StrictKeys := by
    unfold DiskRun.StrictKeys DiskRun.entries at hsorted ⊢
    rw [hm, hc]; exact hsorted
  obtain ⟨h1, h2⟩ := DiskRun.lookup_indexed r hi hs k hmin hmax
  refine ⟨fun v => ⟨fun hl => ?_, h1 v⟩, h2⟩
  by_cases hex : ∃ w, (⟨k, w⟩ : KVPair) ∈ r.entries
  · obtain ⟨w, hw⟩ := hex
    have := h1 w hw
    rw [hl] at this
    simp only [Option.some.injEq, Prod.mk.injEq, and_true] at this
    rw [this]; exact hw
  · have := h2 (fun w hw => hex ⟨w, hw⟩)
    rw [hl] at this
    simp at this

set_option maxRecDepth 100000 in
/-- Claim C9 at the run `[(1, 10), (3, 30), (5, 50)]` with two pairs per page and the key `3`. -/
theorem diskRun_point_lookup_witness :
    ∃ r, sampleRun._fencePointers = [] ∧ 1 ≤ sampleRun._capacity ∧ sampleRun.StrictKeys ∧
      sampleRun.constructIndex sampleEnv = some r ∧ r.minKey ≤ 3 ∧ 3 ≤ r.maxKey ∧
      r.lookup 4 false = some (0, false) ∧
      ((∀ v, r.lookup 3 false = some (v, true) ↔ (⟨3, v⟩ : KVPair) ∈ r.entries) ∧
        ((∀ v, (⟨3, v⟩ : KVPair) ∉ r.entries) → r.lookup 3 false = some (0, false))) :=
  ⟨(sampleRun.constructIndex sampleEnv).get (by decide), rfl, by decide,
    by unfold DiskRun.StrictKeys; decide, (Option.some_get _).symm, by decide, by decide, by decide,
    diskRun_point_lookup sampleEnv sampleRun _ rfl (by decide)
      (by unfold DiskRun.StrictKeys; decide) (Option.some_get _).symm 3 (by decide) (by decide)⟩

set_option maxRecDepth 100000 in
/-- Claim C10 as stated fails: on the indexed run with keys `1, 2, 3`, one pair
per page, `range(1, 2)` returns `(0, 1)`, which leaves out index `1` although
its key `2` satisfies `1 ≤ 2 ≤ 2`. -/
theorem diskRun_range_excludes_upper_key :
    (DiskRun.ofPairs sampleEnv [⟨1, 1⟩, ⟨2, 2⟩, ⟨3, 3⟩] 1 1 0).map
      (fun r => (r.range 1 2, r.entries)) = some (some (0, 1), [⟨1, 1⟩, ⟨2, 2⟩, ⟨3, 3⟩]) := by
  decide

/-- Claim C10, amended: on a run indexed by `constructIndex` whose pairs in use
have strictly increasing keys, `range(lo, hi)` returns `(i1, i2)` such that
the indices `j` with `i1 ≤ j < i2` are exactly those with
`lo ≤ map[j].key < hi`, the upper key excluded, and it returns `(0, 0)` when
`lo > maxKey` or `hi < minKey`. -/
theorem diskRun_range_half_open (E : Env) (r0 r : DiskRun) (hfresh : r0._fencePointers = [])
    (hcap : 1 ≤ r0._capacity) (hsorted : r0.StrictKeys) (hidx : r0.constructIndex E = some r)
    (lo hi : Int) :
    (∃ i1 i2, r.range lo hi = some (i1, i2) ∧ i2 ≤ r._capacity ∧
      ∀ j kv, r.entries[j]? = some kv → ((i1 ≤ j ∧ j < i2) ↔ (lo ≤ kv.key ∧ kv.key < hi))) ∧
      ((lo > r.maxKey ∨ hi < r.minKey) → r.range lo hi = some (0, 0)) := by
  obtain ⟨hi2, hm, hc, -⟩ := DiskRun.constructIndex_indexed E r0 r hfresh hcap hidx
  have hs : r.StrictKeys := by
    unfold DiskRun.StrictKeys DiskRun.entries at hsorted ⊢
    rw [hm, hc]; exact hsorted
  refine ⟨DiskRun.range_indexed r hi2 hs lo hi, fun hd => ?_⟩
  unfold DiskRun.range
  rw [if_pos hd]

set_option maxRecDepth 100000 in
/-- Claim C10, amended, at the run `[(1, 10), (3, 30), (5, 50)]` with two pairs
per page and the interval from `1` to `5`. -/
theorem diskRun_range_half_open_witness :
    ∃ r, sampleRun._fencePointers = [] ∧ 1 ≤ sampleRun._capacity ∧ sampleRun.StrictKeys ∧
      sampleRun.constructIndex sampleEnv = some r ∧ r.range 1 5 = some (0, 2) ∧
      ((∃ i1 i2, r.range 1 5 = some (i1, i2) ∧ i2 ≤ r._capacity ∧
        ∀ j kv, r.entries[j]? = some kv → ((i1 ≤ j ∧ j < i2) ↔ (1 ≤ kv.key ∧ kv.key < 5))) ∧
        (((1 : Int) > r.maxKey ∨ 5 < r.minKey) → r.range 1 5 = some (0, 0))) :=
  ⟨(sampleRun.constructIndex sampleEnv).get (by decide), rfl, by decide,
    by unfold DiskRun.StrictKeys; decide, (Option.some_get _).symm, by decide,
    diskRun_range_half_open sampleEnv sampleRun _ rfl (by decide)
      (by unfold DiskRun.StrictKeys; decide) (Option.some_get _).symm 1 5⟩

/-! ## The heap of `addRuns` -/

namespace StaticHeap

theorem lt_iff (a b : KVIntPair) :
    a.lt b = true ↔ a.1.key < b.1.key ∨ (a.1.key = b.1.key ∧ a.2 < b.2) := by
  unfold KVIntPair.lt
  simp only [Bool.or_eq_true, Bool.and_eq_true, decide_eq_true_eq, Bool.not_eq_true',
    decide_eq_false_iff_not]
  constructor
  · rintro (h | ⟨h1, h2⟩)
    · exact Or.inl h
    · rcases lt_or_eq_of_le (not_lt.mp h1) with h3 | h3
      · exact Or.inl h3
      · exact Or.inr ⟨h3, h2⟩
  · rintro (h | ⟨h1, h2⟩)
    · exact Or.inl h
    · exact Or.inr ⟨by omega, h2⟩

theorem le_iff (a b : KVIntPair) :
    KVIntPair.le a b ↔ a.1.key < b.1.key ∨ (a.1.key = b.1.key ∧ a.2 ≤ b.2) := by
  unfold KVIntPair.le
  rw [← Bool.not_eq_true, lt_iff]
  constructor
  · intro h
    by_contra hc
    apply h
    rcases lt_trichotomy a.1.key b.1.key with h1 | h1 | h1
    · exact absurd (Or.inl h1) hc
    · right
      refine ⟨h1.symm, ?_⟩
      by_contra h2
      exact hc (Or.inr ⟨h1, by omega⟩)
    · exact Or.inl h1
  · rintro (h | ⟨h1, h2⟩) (h3 | ⟨h3, h4⟩) <;> omega

theorem le_refl (a : KVIntPair) : KVIntPair.le a a := by
  rw [le_iff]; right; exact ⟨rfl, Int.le_refl _⟩

theorem le_trans {a b c : KVIntPair} (h1 : KVIntPair.le a b) (h2 : KVIntPair.le b c) :
    KVIntPair.le a c := by
  rw [le_iff] at *
  rcases h1 with h1 | ⟨h1, h1'⟩ <;> rcases h2 with h2 | ⟨h2, h2'⟩
  · left; omega
  · left; omega
  · left; omega
  · right; exact ⟨by omega, by omega⟩

theorem le_of_lt {a b : KVIntPair} (h : a.lt b = true) : KVIntPair.le a b := by
  rw [lt_iff] at h
  rw [le_iff]
  rcases h with h | ⟨h1, h2⟩
  · exact Or.inl h
  · exact Or.inr ⟨h1, by omega⟩

theorem le_of_not_lt {a b : KVIntPair} (h : ¬ a.lt b = true) : KVIntPair.le b a := by
  unfold KVIntPair.le
  simpa using h

theorem elemAt_set_self (arr : List KVIntPair) (i : Nat) (x : KVIntPair) (h : i < arr.length) :
    elemAt (arr.set i x) i = x := by
  simp [elemAt, List.getElem?_set_self, h]

theorem elemAt_set_ne (arr : List KVIntPair) (i j : Nat) (x : KVIntPair) (h : i ≠ j) :
    elemAt (arr.set i x) j = elemAt arr j := by
  simp [elemAt, List.getElem?_set_ne h]

theorem getElem?_eq_elemAt (arr : List KVIntPair) (i : Nat) (h : i < arr.length) :
    arr[i]? = some (elemAt arr i) := by
  simp [elemAt, List.getElem?_eq_getElem h]

theorem getElem_eq_elemAt (arr : List KVIntPair) (i : Nat) (h : i < arr.length) :
    arr[i] = elemAt arr i := by
  simp [elemAt, List.getElem?_eq_getElem h]

/-- Exchanging the contents of two slots, one of them about to receive `a`,
leaves the same pairs as writing `a` to the other slot. -/
theorem perm_set_set {α : Type} [DecidableEq α] (l : List α) (i j : Nat) (x a : α)
    (hi : i < l.length) (hj : j < l.length) (hij : i ≠ j) (hx : l[j] = x) :
    ((l.set i x).set j a).Perm (l.set i a) := by
  rw [List.perm_iff_count]
  intro b
  have hj2 : j < (l.set i x).length := by simpa using hj
  rw [List.count_set _ _ _ _ hj2, List.count_set _ _ _ _ hi, List.count_set _ _ _ _ hi]
  have e : (l.set i x)[j] = x := by
    rw [List.getElem_set_ne hij]
    exact hx
  rw [e]
  have h1 : (if l[i] == b then 1 else 0) ≤ l.count b := by
    split
    · rename_i h
      have : l[i] = b := by simpa using h
      rw [← this]
      exact List.count_pos_iff.mpr (List.getElem_mem hi)
    · exact Nat.zero_le _
  omega

theorem perm_set_swap (l : List KVIntPair) (i j : Nat) (a : KVIntPair) (hi : i < l.length)
    (hj : j < l.length) (hij : i ≠ j) :
    ((l.set i (elemAt l j)).set j a).Perm (l.set i a) :=
  perm_set_set l i j (elemAt l j) a hi hj hij (getElem_eq_elemAt l j hj)

theorem set_elemAt_self (l : List KVIntPair) (i : Nat) : l.set i (elemAt l i) = l := by
  apply List.ext_getElem?
  intro k
  by_cases hk : i = k
  · subst hk
    by_cases hi : i < l.length
    · rw [List.getElem?_set_self hi, getElem?_eq_elemAt l i hi]
    · rw [List.getElem?_eq_none (by simpa using hi), List.getElem?_eq_none (by simpa using hi)]
  · rw [List.getElem?_set_ne hk]

/-- Exchanging two slots of a list leaves the same pairs. -/
theorem perm_swap (l : List KVIntPair) (i j : Nat) (hi : i < l.length) (hj : j < l.length)
    (hij : i ≠ j) : ((l.set i (elemAt l j)).set j (elemAt l i)).Perm l := by
  have := perm_set_swap l i j (elemAt l i) hi hj hij
  rwa [set_elemAt_self] at this


theorem elemAt_take (arr : List KVIntPair) (n k : Nat) (hk : k < n) :
    elemAt (arr.take n) k = elemAt arr k := by
  simp [elemAt, List.getElem?_take, hk]

theorem store_eq (arr : List KVIntPair) (i : Nat) (x : KVIntPair) (h : i < arr.length) :
    store arr i x = some (arr.set i x) := by
  simp [store, h]

/-- The loop of `push` with the hole at `i`: when the heap order holds away from
the hole, the pair pushed does not come after the children of the hole, and
the parent of the hole does not come after them either, the loop returns a heap
that holds the pair in place of the hole. -/
theorem pushLoop_spec (blob : KVIntPair) (n : Nat) :
    ∀ (fuel i : Nat) (arr : List KVIntPair), i < n → n ≤ arr.length → i < fuel →
      (∀ c, 0 < c → c < n → c ≠ i → KVIntPair.le (elemAt arr ((c - 1) / 2)) (elemAt arr c)) →
      (∀ c, 0 < c → c < n → (c - 1) / 2 = i → KVIntPair.le blob (elemAt arr c)) →
      (∀ c, 0 < c → c < n → (c - 1) / 2 = i → 0 < i →
        KVIntPair.le (elemAt arr ((i - 1) / 2)) (elemAt arr c)) →
      ∃ arr', pushLoop blob fuel i arr = some arr' ∧ arr'.length = arr.length ∧ HeapOK arr' n ∧
        (arr'.take n).Perm ((arr.set i blob).take n) ∧
        (∀ k, n ≤ k → elemAt arr' k = elemAt arr k) := by
  intro fuel
  induction fuel with
  | zero => intro i arr _ _ h; omega
  | succ f ih =>
    intro i arr hin hn hfuel hA hB hC
    have hil : i < arr.length := by omega
    -- writing the pair into the hole ends the loop with a heap
    have hdone : (i = 0 ∨ KVIntPair.le (elemAt arr ((i - 1) / 2)) blob) →
        HeapOK (arr.set i blob) n := by
      intro hpar
      refine ⟨by simpa using hn, ?_⟩
      intro c hc0 hcn
      by_cases hci : c = i
      · subst hci
        rw [elemAt_set_self _ _ _ hil, elemAt_set_ne _ _ _ _ (by omega)]
        rcases hpar with h | h
        · omega
        · exact h
      · rw [elemAt_set_ne _ _ _ _ (Ne.symm hci)]
        by_cases hpi : (c - 1) / 2 = i
        · rw [hpi, elemAt_set_self _ _ _ hil]
          exact hB c hc0 hcn hpi
        · rw [elemAt_set_ne _ _ _ _ (Ne.symm hpi)]
          exact hA c hc0 hcn hci
    simp only [pushLoop]
    by_cases hi0 : i = 0
    · rw [if_pos hi0, store_eq _ _ _ hil]
      exact ⟨_, rfl, by simp, hdone (Or.inl hi0), List.Perm.refl _,
        fun k hk => elemAt_set_ne _ _ _ _ (by omega)⟩
    · rw [if_neg hi0]
      have hpl : (i - 1) / 2 < arr.length := by omega
      rw [getElem?_eq_elemAt arr _ hpl]
      simp only
      by_cases hlt : blob.lt (elemAt arr ((i - 1) / 2)) = true
      · rw [if_pos hlt, store_eq _ _ _ hil]
        simp only
        have hpne : (i - 1) / 2 ≠ i := by omega
        have hA2 : ∀ c, 0 < c → c < n → c ≠ (i - 1) / 2 →
            KVIntPair.le (elemAt (arr.set i (elemAt arr ((i - 1) / 2))) ((c - 1) / 2))
              (elemAt (arr.set i (elemAt arr ((i - 1) / 2))) c) := by
          intro c hc0 hcn hcp
          by_cases hci : c = i
          · subst hci
            rw [elemAt_set_self _ _ _ hil, elemAt_set_ne _ _ _ _ (Ne.symm hpne)]
            exact le_refl _
          · rw [elemAt_set_ne _ _ _ _ (Ne.symm hci)]
            by_cases hpi : (c - 1) / 2 = i
            · rw [hpi, elemAt_set_self _ _ _ hil]
              exact hC c hc0 hcn hpi (by omega)
            · rw [elemAt_set_ne _ _ _ _ (Ne.symm hpi)]
              exact hA c hc0 hcn hci
        have hB2 : ∀ c, 0 < c → c < n → (c - 1) / 2 = (i - 1) / 2 →
            KVIntPair.le blob (elemAt (arr.set i (elemAt arr ((i - 1) / 2))) c) := by
          intro c hc0 hcn hcp
          by_cases hci : c = i
          · subst hci
            rw [elemAt_set_self _ _ _ hil]
            exact le_of_lt hlt
          · rw [elemAt_set_ne _ _ _ _ (Ne.symm hci)]
            have := hA c hc0 hcn hci
            rw [hcp] at this
            exact le_trans (le_of_lt hlt) this
        have hC2 : ∀ c, 0 < c → c < n → (c - 1) / 2 = (i - 1) / 2 → 0 < (i - 1) / 2 →
            KVIntPair.le (elemAt (arr.set i (elemAt arr ((i - 1) / 2))) (((i - 1) / 2 - 1) / 2))
              (elemAt (arr.set i (elemAt arr ((i - 1) / 2))) c) := by
          intro c hc0 hcn hcp hp0
          have hgp : KVIntPair.le (elemAt arr (((i - 1) / 2 - 1) / 2)) (elemAt arr ((i - 1) / 2)) :=
            hA ((i - 1) / 2) hp0 (by omega) hpne
          rw [elemAt_set_ne _ _ _ _ (by omega)]
          by_cases hci : c = i
          · subst hci
            rw [elemAt_set_self _ _ _ hil]
            exact hgp
          · rw [elemAt_set_ne _ _ _ _ (Ne.symm hci)]
            have := hA c hc0 hcn hci
            rw [hcp] at this
            exact le_trans hgp this
        obtain ⟨arr', h1, h2, h3, h4, h5⟩ :=
          ih ((i - 1) / 2) (arr.set i (elemAt arr ((i - 1) / 2))) (by omega) (by simpa using hn)
            (by omega) hA2 hB2 hC2
        refine ⟨arr', h1, by simpa using h2, h3, ?_, ?_⟩
        · refine h4.trans ?_
          simp only [List.set_take]
          have hlen : (arr.take n).length = n := by
            rw [List.length_take]; exact Nat.min_eq_left hn
          have := perm_set_swap (arr.take n) i ((i - 1) / 2) blob (by omega) (by omega)
            (Ne.symm hpne)
          rw [elemAt_take _ _ _ (by omega)] at this
          exact this
        · intro k hk
          rw [h5 k hk, elemAt_set_ne _ _ _ _ (by omega)]
      · rw [if_neg hlt, store_eq _ _ _ hil]
        exact ⟨_, rfl, by simp, hdone (Or.inr (le_of_not_lt hlt)), List.Perm.refl _,
          fun k hk => elemAt_set_ne _ _ _ _ (by omega)⟩


/-- The root of a heap does not come after any element of the heap. -/
theorem HeapOK.root_le {arr : List KVIntPair} {n : Nat} (h : HeapOK arr n) :
    ∀ c, c < n → KVIntPair.le (elemAt arr 0) (elemAt arr c) := by
  intro c
  induction c using Nat.strong_induction_on with
  | _ c ih =>
    intro hc
    by_cases h0 : c = 0
    · subst h0; exact le_refl _
    · exact le_trans (ih ((c - 1) / 2) (by omega) (by omega)) (h.2 c (by omega) hc)

/-- The member `push` on a heap with a free slot: the result is a heap that
holds the pair pushed and the pairs it held before. -/
theorem push_spec (h : StaticHeap) (blob : KVIntPair) (hok : HeapOK h.arr h.size)
    (hroom : h.size < h.arr.length) :
    ∃ h', h.push blob = some h' ∧ h'.size = h.size + 1 ∧ h'.arr.length = h.arr.length ∧
      HeapOK h'.arr h'.size ∧ (h'.arr.take h'.size).Perm (blob :: h.arr.take h.size) := by
  obtain ⟨arr', h1, h2, h3, h4, -⟩ :=
    pushLoop_spec blob (h.size + 1) (h.size + 1) h.size h.arr (by omega) (by omega) (by omega)
      (fun c hc0 hcn hci => hok.2 c hc0 (by omega))
      (fun c hc0 hcn hcp => by omega)
      (fun c hc0 hcn hcp => by omega)
  refine ⟨{ h with size := h.size + 1, arr := arr' }, ?_, rfl, h2, h3, ?_⟩
  · simp only [push, h1]
  · show (arr'.take (h.size + 1)).Perm (blob :: h.arr.take h.size)
    refine h4.trans ?_
    rw [List.take_succ, List.set_take, List.set_eq_of_length_le (by simp),
      List.getElem?_set_self hroom]
    exact List.perm_append_singleton _ _

/-- The member `heapify` at `i`, when the heap order holds away from `i` and
the parent of `i` does not come after the children of `i`: the call returns a
heap of the same pairs. -/
theorem heapify_spec (size : Nat) :
    ∀ (fuel i : Nat) (arr : List KVIntPair), size ≤ arr.length → i < arr.length → i ≤ size →
      size < fuel + i →
      (∀ c, 0 < c → c < size → (c - 1) / 2 ≠ i →
        KVIntPair.le (elemAt arr ((c - 1) / 2)) (elemAt arr c)) →
      (∀ c, 0 < c → c < size → (c - 1) / 2 = i → 0 < i →
        KVIntPair.le (elemAt arr ((i - 1) / 2)) (elemAt arr c)) →
      ∃ arr', heapify size fuel i arr = some arr' ∧ arr'.length = arr.length ∧ HeapOK arr' size ∧
        (arr'.take size).Perm (arr.take size) := by
  intro fuel
  induction fuel with
  | zero => intro i arr _ _ h1 h2; omega
  | succ f ih =>
    intro i arr hs hil his hfuel hA hC
    -- the slot picked among `i` and its children
    have hpick : ∃ sm,
        (match (if 2 * i + 1 < size then
                (match arr[2 * i + 1]? with
                 | none => none
                 | some al => some (if al.lt (elemAt arr i) then 2 * i + 1 else i))
              else some i) with
          | none => none
          | some s1 =>
            (if 2 * i + 2 < size then
              (match arr[2 * i + 2]?, arr[s1]? with
               | some ar, some as1 => some (if ar.lt as1 then 2 * i + 2 else s1)
               | _, _ => none)
            else some s1)) = some sm ∧
        (sm = i ∨ ((sm = 2 * i + 1 ∨ sm = 2 * i + 2) ∧ sm < size)) ∧
        KVIntPair.le (elemAt arr sm) (elemAt arr i) ∧
        (2 * i + 1 < size → KVIntPair.le (elemAt arr sm) (elemAt arr (2 * i + 1))) ∧
        (2 * i + 2 < size → KVIntPair.le (elemAt arr sm) (elemAt arr (2 * i + 2))) := by
      by_cases hL : 2 * i + 1 < size
      · rw [if_pos hL, getElem?_eq_elemAt arr _ (by omega)]
        simp only
        by_cases hlt : (elemAt arr (2 * i + 1)).lt (elemAt arr i) = true
        · rw [if_pos hlt]
          by_cases hR : 2 * i + 2 < size
          · rw [if_pos hR, getElem?_eq_elemAt arr _ (by omega),
              getElem?_eq_elemAt arr (2 * i + 1) (by omega)]
            simp only
            by_cases hlt2 : (elemAt arr (2 * i + 2)).lt (elemAt arr (2 * i + 1)) = true
            · rw [if_pos hlt2]
              exact ⟨_, rfl, Or.inr ⟨Or.inr rfl, hR⟩, le_trans (le_of_lt hlt2) (le_of_lt hlt),
                fun _ => le_of_lt hlt2, fun _ => le_refl _⟩
            · rw [if_neg hlt2]
              exact ⟨_, rfl, Or.inr ⟨Or.inl rfl, hL⟩, le_of_lt hlt, fun _ => le_refl _,
                fun _ => le_of_not_lt hlt2⟩
          · rw [if_neg hR]
            exact ⟨_, rfl, Or.inr ⟨Or.inl rfl, hL⟩, le_of_lt hlt, fun _ => le_refl _,
              fun h => absurd h hR⟩
        · rw [if_neg hlt]
          by_cases hR : 2 * i + 2 < size
          · rw [if_pos hR, getElem?_eq_elemAt arr _ (by omega), getElem?_eq_elemAt arr i hil]
            simp only
            by_cases hlt2 : (elemAt arr (2 * i + 2)).lt (elemAt arr i) = true
            · rw [if_pos hlt2]
              exact ⟨_, rfl, Or.inr ⟨Or.inr rfl, hR⟩, le_of_lt hlt2,
                fun _ => le_trans (le_of_lt hlt2) (le_of_not_lt hlt), fun _ => le_refl _⟩
            · rw [if_neg hlt2]
              exact ⟨_, rfl, Or.inl rfl, le_refl _, fun _ => le_of_not_lt hlt,
                fun _ => le_of_not_lt hlt2⟩
          · rw [if_neg hR]
            exact ⟨_, rfl, Or.inl rfl, le_refl _, fun _ => le_of_not_lt hlt,
              fun h => absurd h hR⟩
      · rw [if_neg hL]
        simp only
        rw [if_neg (by omega)]
        exact ⟨_, rfl, Or.inl rfl, le_refl _, fun h => absurd h hL, fun h => absurd h (by omega)⟩
    obtain ⟨sm, hsm, hwhich, hle_i, hle_L, hle_R⟩ := hpick
    have hstep : heapify size (f + 1) i arr =
        if sm ≠ i then heapify size f sm ((arr.set i (elemAt arr sm)).set sm (elemAt arr i))
        else some arr := by
      have hsml : sm < arr.length := by omega
      simp only [heapify]
      rw [getElem?_eq_elemAt arr i hil]
      simp only
      generalize (if 2 * i + 1 < size then
                (match arr[2 * i + 1]? with
                 | none => none
                 | some al => some (if al.lt (elemAt arr i) then 2 * i + 1 else i))
              else some i) = first at hsm ⊢
      cases first with
      | none => simp at hsm
      | some s1 =>
        simp only at hsm ⊢
        rw [hsm]
        simp only
        rw [getElem?_eq_elemAt arr sm hsml]
    rw [hstep]
    by_cases hsi : sm = i
    · rw [if_neg (by simpa using hsi)]
      refine ⟨arr, rfl, rfl, ⟨hs, ?_⟩, List.Perm.refl _⟩
      intro c hc0 hcn
      by_cases hp : (c - 1) / 2 = i
      · rw [hp]
        rw [hsi] at hle_L hle_R
        have hc : c = 2 * i + 1 ∨ c = 2 * i + 2 := by omega
        rcases hc with hc | hc
        · rw [hc]; exact hle_L (by omega)
        · rw [hc]; exact hle_R (by omega)
      · exact hA c hc0 hcn hp
    · rw [if_pos hsi]
      have hsm_lt : sm < size := by
        rcases hwhich with h | ⟨_, h⟩
        · exact absurd h hsi
        · exact h
      have hsm_par : (sm - 1) / 2 = i := by
        rcases hwhich with h | ⟨h, _⟩
        · exact absurd h hsi
        · omega
      have hsm_gt : i < sm := by
        rcases hwhich with h | ⟨h, _⟩
        · exact absurd h hsi
        · omega
      have his2 : i ≠ sm := fun h => hsi h.symm
      have hA2 : ∀ c, 0 < c → c < size → (c - 1) / 2 ≠ sm →
          KVIntPair.le (elemAt ((arr.set i (elemAt arr sm)).set sm (elemAt arr i)) ((c - 1) / 2))
            (elemAt ((arr.set i (elemAt arr sm)).set sm (elemAt arr i)) c) := by
        intro c hc0 hcn hcp
        rw [elemAt_set_ne _ _ _ _ (Ne.symm hcp)]
        by_cases hcs : c = sm
        · rw [hcs, elemAt_set_self _ _ _ (by simpa using (by omega : sm < arr.length)), hsm_par,
            elemAt_set_self _ _ _ hil]
          exact hle_i
        · rw [elemAt_set_ne _ _ _ _ (Ne.symm hcs)]
          by_cases hp : (c - 1) / 2 = i
          · rw [hp, elemAt_set_self _ _ _ hil, elemAt_set_ne _ _ _ _ (by omega)]
            have hc : c = 2 * i + 1 ∨ c = 2 * i + 2 := by omega
            rcases hc with hc | hc
            · rw [hc]; exact hle_L (by omega)
            · rw [hc]; exact hle_R (by omega)
          · rw [elemAt_set_ne _ _ _ _ (Ne.symm hp)]
            by_cases hci : c = i
            · rw [hci, elemAt_set_self _ _ _ hil]
              exact hC sm (by omega) hsm_lt hsm_par (by omega)
            · rw [elemAt_set_ne _ _ _ _ (Ne.symm hci)]
              exact hA c hc0 hcn hp
      have hC2 : ∀ c, 0 < c → c < size → (c - 1) / 2 = sm → 0 < sm →
          KVIntPair.le (elemAt ((arr.set i (elemAt arr sm)).set sm (elemAt arr i)) ((sm - 1) / 2))
            (elemAt ((arr.set i (elemAt arr sm)).set sm (elemAt arr i)) c) := by
        intro c hc0 hcn hcp _
        rw [hsm_par, elemAt_set_ne _ _ _ _ (by omega), elemAt_set_self _ _ _ hil,
          elemAt_set_ne _ _ _ _ (by omega), elemAt_set_ne _ _ _ _ (by omega)]
        have := hA c hc0 hcn (by omega)
        rw [hcp] at this
        exact this
      obtain ⟨arr', h1, h2, h3, h4⟩ :=
        ih sm ((arr.set i (elemAt arr sm)).set sm (elemAt arr i)) (by simpa using hs)
          (by simp; omega) (by omega) (by omega) hA2 hC2
      refine ⟨arr', h1, by simpa using h2, h3, h4.trans ?_⟩
      simp only [List.set_take]
      have hlen : (arr.take size).length = size := by
        rw [List.length_take]; exact Nat.min_eq_left hs
      have := perm_swap (arr.take size) i sm (by omega) (by omega) his2
      rw [elemAt_take _ _ _ hsm_lt, elemAt_take _ _ _ (by omega)] at this
      exact this


/-- The member `pop` on a heap that is not empty: the pair returned does not
come after any pair of the heap, and the heap left holds the other pairs. -/
theorem pop_spec (h : StaticHeap) (hok : HeapOK h.arr h.size) (hpos : 0 < h.size) :
    ∃ ret h', h.pop = some (ret, h') ∧ h'.size = h.size - 1 ∧ h'.arr.length = h.arr.length ∧
      HeapOK h'.arr h'.size ∧ (ret :: h'.arr.take h'.size).Perm (h.arr.take h.size) ∧
      ∀ x ∈ h.arr.take h.size, KVIntPair.le ret x := by
  have hlen : h.size ≤ h.arr.length := hok.1
  obtain ⟨arr', h1, h2, h3, h4⟩ :=
    heapify_spec (h.size - 1) (h.size + 1) 0 (h.arr.set 0 (elemAt h.arr (h.size - 1)))
      (by simp; omega) (by simp; omega) (by omega) (by omega)
      (fun c hc0 hcn hcp => by
        rw [elemAt_set_ne _ _ _ _ (Ne.symm hcp), elemAt_set_ne _ _ _ _ (by omega)]
        exact hok.2 c hc0 (by omega))
      (fun c hc0 hcn hcp h0 => absurd h0 (by omega))
  refine ⟨elemAt h.arr 0, { h with size := h.size - 1, arr := arr' }, ?_, rfl,
    by simpa using h2, h3, ?_, ?_⟩
  · simp only [pop]
    rw [if_neg (by omega), getElem?_eq_elemAt _ 0 (by omega),
      getElem?_eq_elemAt _ (h.size - 1) (by omega)]
    simp only [h1]
  · show (elemAt h.arr 0 :: arr'.take (h.size - 1)).Perm (h.arr.take h.size)
    refine (List.Perm.cons _ h4).trans ?_
    cases harr : h.arr with
    | nil => rw [harr] at hlen; simp at hlen; omega
    | cons ret t =>
      rw [harr] at hlen
      obtain ⟨m, hm⟩ : ∃ m, h.size = m + 1 := ⟨h.size - 1, by omega⟩
      rw [hm]
      simp only [Nat.add_sub_cancel, List.set_cons_zero, List.take_succ_cons]
      have e0 : elemAt (ret :: t) 0 = ret := by simp [elemAt]
      rw [e0]
      cases m with
      | zero => simp
      | succ k =>
        have hk : k < t.length := by simp at hlen; omega
        have e1 : elemAt (ret :: t) (k + 1) = t[k] := by
          simp [elemAt, List.getElem?_eq_getElem hk]
        rw [e1, List.take_succ_cons, List.take_succ, List.getElem?_eq_getElem hk]
        simp only [Option.toList]
        exact List.Perm.cons _ (List.perm_append_singleton _ _).symm
  · intro x hx
    obtain ⟨c, hc, rfl⟩ := List.getElem_of_mem hx
    have hc2 : c < h.size := by
      rw [List.length_take] at hc; omega
    rw [List.getElem_take, getElem_eq_elemAt _ _ (by omega)]
    exact hok.root_le c hc2

end StaticHeap

/-! ## The k-way merge of `addRuns` -/

namespace DiskLevel

theorem mem_restFrom : ∀ (rl : List DiskRun) (heads : List Nat) (o : Nat) (x : KVIntPair),
    x ∈ restFrom o rl heads ↔
      ∃ k src hd p, rl[k]? = some src ∧ heads[k]? = some hd ∧ hd ≤ p ∧
        src.entries[p]? = some x.1 ∧ x.2 = ((o + k : Nat) : Int) := by
  intro rl
  induction rl with
  | nil =>
    intro heads o x
    simp [restFrom]
  | cons r rs ih =>
    intro heads o x
    cases heads with
    | nil => simp [restFrom]
    | cons hd hds =>
      simp only [restFrom, List.mem_append, List.mem_map, ih hds (o + 1) x]
      constructor
      · rintro (⟨kv, hkv, rfl⟩ | ⟨k, src, hd', p, h1, h2, h3, h4, h5⟩)
        · obtain ⟨q, hq⟩ := List.mem_iff_getElem?.mp hkv
          rw [List.getElem?_drop] at hq
          exact ⟨0, r, hd, hd + q, by simp, by simp, by omega, hq, by simp⟩
        · exact ⟨k + 1, src, hd', p, by simpa using h1, by simpa using h2, h3, h4,
            by rw [h5]; push_cast; ring⟩
      · rintro ⟨k, src, hd', p, h1, h2, h3, h4, h5⟩
        cases k with
        | zero =>
          left
          simp only [List.getElem?_cons_zero, Option.some.injEq] at h1 h2
          subst h1 h2
          refine ⟨x.1, ?_, ?_⟩
          · rw [List.mem_iff_getElem?]
            refine ⟨p - hd, ?_⟩
            rw [List.getElem?_drop, ← h4]
            congr 1
            omega
          · rw [Prod.ext_iff]
            exact ⟨rfl, by rw [h5]; simp⟩
        | succ k =>
          right
          exact ⟨k, src, hd', p, by simpa using h1, by simpa using h2, h3, h4,
            by rw [h5]; push_cast; ring⟩

theorem mem_frontsFrom : ∀ (rl : List DiskRun) (heads : List Nat) (o : Nat) (x : KVIntPair),
    x ∈ frontsFrom o rl heads ↔
      ∃ k src hd, rl[k]? = some src ∧ heads[k]? = some hd ∧
        src.entries[hd]? = some x.1 ∧ x.2 = ((o + k : Nat) : Int) := by
  intro rl
  induction rl with
  | nil =>
    intro heads o x
    simp [frontsFrom]
  | cons r rs ih =>
    intro heads o x
    cases heads with
    | nil => simp [frontsFrom]
    | cons hd hds =>
      simp only [frontsFrom, List.mem_append, List.mem_map, ih hds (o + 1) x]
      constructor
      · rintro (⟨kv, hkv, rfl⟩ | ⟨k, src, hd', h1, h2, h4, h5⟩)
        · obtain ⟨q, hq⟩ := List.mem_iff_getElem?.mp hkv
          rw [List.getElem?_take] at hq
          split at hq
          · rename_i hq1
            have : q = 0 := by omega
            subst this
            rw [List.getElem?_drop] at hq
            exact ⟨0, r, hd, by simp, by simp, hq, by simp⟩
          · exact absurd hq (by simp)
        · exact ⟨k + 1, src, hd', by simpa using h1, by simpa using h2, h4,
            by rw [h5]; push_cast; ring⟩
      · rintro ⟨k, src, hd', h1, h2, h4, h5⟩
        cases k with
        | zero =>
          left
          simp only [List.getElem?_cons_zero, Option.some.injEq] at h1 h2
          subst h1 h2
          refine ⟨x.1, ?_, ?_⟩
          · rw [List.mem_iff_getElem?]
            refine ⟨0, ?_⟩
            rw [List.getElem?_take, if_pos (by omega), List.getElem?_drop]
            exact h4
          · rw [Prod.ext_iff]
            exact ⟨rfl, by rw [h5]; simp⟩
        | succ k =>
          right
          exact ⟨k, src, hd', by simpa using h1, by simpa using h2, h4,
            by rw [h5]; push_cast; ring⟩


theorem take_one_drop {α : Type} (l : List α) (n : Nat) : (l.drop n).take 1 = l[n]?.toList := by
  by_cases h : n < l.length
  · rw [List.getElem?_eq_getElem h]
    conv_lhs => rw [List.drop_eq_getElem_cons h]
    rfl
  · rw [List.drop_eq_nil_of_le (by omega), List.getElem?_eq_none (by omega)]
    simp [Option.toList]

/-- Moving the cursor of the source `k` past the pair `kv` takes this pair, and
no other, out of the pairs not yet passed. -/
theorem restFrom_advance : ∀ (rl : List DiskRun) (heads : List Nat) (o k : Nat) (src : DiskRun)
    (hd : Nat) (kv : KVPair), rl[k]? = some src → heads[k]? = some hd →
    src.entries[hd]? = some kv →
    (restFrom o rl heads).Perm
      ((kv, ((o + k : Nat) : Int)) :: restFrom o rl (heads.set k (hd + 1))) := by
  intro rl
  induction rl with
  | nil => intro heads o k src hd kv h1; simp at h1
  | cons r rs ih =>
    intro heads o k src hd kv h1 h2 h3
    cases heads with
    | nil => simp at h2
    | cons hd0 hds =>
      cases k with
      | zero =>
        simp only [List.getElem?_cons_zero, Option.some.injEq] at h1 h2
        subst h1 h2
        have hlt : hd0 < r.entries.length := by
          by_contra hc
          rw [List.getElem?_eq_none (by omega)] at h3
          exact absurd h3 (by simp)
        have hkv : r.entries[hd0] = kv := by
          rw [List.getElem?_eq_getElem hlt] at h3
          exact Option.some.inj h3
        simp only [restFrom, List.set_cons_zero, Nat.add_zero]
        rw [List.drop_eq_getElem_cons hlt, hkv]
        simp
      | succ k =>
        simp only [List.getElem?_cons_succ] at h1 h2
        simp only [restFrom, List.set_cons_succ]
        have := ih hds (o + 1) k src hd kv h1 h2 h3
        have e : o + 1 + k = o + (k + 1) := by omega
        rw [e] at this
        exact (List.Perm.append_left _ this).trans List.perm_middle

/-- Moving the cursor of the source `k` past the pair `kv` puts the next pair
of that source, if there is one, in the place of `kv` among the pairs under the cursors. -/
theorem frontsFrom_advance : ∀ (rl : List DiskRun) (heads : List Nat) (o k : Nat) (src : DiskRun)
    (hd : Nat) (kv : KVPair), rl[k]? = some src → heads[k]? = some hd →
    src.entries[hd]? = some kv →
    ((kv, ((o + k : Nat) : Int)) :: frontsFrom o rl (heads.set k (hd + 1))).Perm
      ((src.entries[hd + 1]?.toList.map (fun kv2 => (kv2, ((o + k : Nat) : Int)))) ++
        frontsFrom o rl heads) := by
  intro rl
  induction rl with
  | nil => intro heads o k src hd kv h1; simp at h1
  | cons r rs ih =>
    intro heads o k src hd kv h1 h2 h3
    cases heads with
    | nil => simp at h2
    | cons hd0 hds =>
      cases k with
      | zero =>
        simp only [List.getElem?_cons_zero, Option.some.injEq] at h1 h2
        subst h1 h2
        simp only [frontsFrom, List.set_cons_zero, Nat.add_zero, take_one_drop, h3]
        simp only [Option.toList, List.map_cons, List.map_nil, List.singleton_append]
        exact List.perm_middle.symm
      | succ k =>
        simp only [List.getElem?_cons_succ] at h1 h2
        simp only [frontsFrom, List.set_cons_succ]
        have := ih hds (o + 1) k src hd kv h1 h2 h3
        have e : o + 1 + k = o + (k + 1) := by omega
        rw [e] at this
        exact List.perm_middle.symm.trans
          ((List.Perm.append_left _ this).trans (List.perm_append_comm_assoc _ _ _))

/-- Every pair not yet passed has the pair under the cursor of its source before it or is it. -/
theorem front_of_rest (rl : List DiskRun) (heads : List Nat) (o : Nat) (x : KVIntPair)
    (hx : x ∈ restFrom o rl heads) :
    ∃ k src hd p y, rl[k]? = some src ∧ heads[k]? = some hd ∧ hd ≤ p ∧
      src.entries[p]? = some x.1 ∧ x.2 = ((o + k : Nat) : Int) ∧ src.entries[hd]? = some y ∧
      (y, ((o + k : Nat) : Int)) ∈ frontsFrom o rl heads := by
  obtain ⟨k, src, hd, p, h1, h2, h3, h4, h5⟩ := (mem_restFrom rl heads o x).mp hx
  have hp : p < src.entries.length := by
    by_contra hc
    rw [List.getElem?_eq_none (by omega)] at h4
    exact absurd h4 (by simp)
  have hy : src.entries[hd]? = some (src.entries[hd]) := List.getElem?_eq_getElem (by omega)
  exact ⟨k, src, hd, p, _, h1, h2, h3, h4, h5, hy,
    (mem_frontsFrom rl heads o _).mpr ⟨k, src, hd, h1, h2, hy, rfl⟩⟩

theorem restFrom_nil_of_fronts (rl : List DiskRun) (heads : List Nat) (o : Nat)
    (h : frontsFrom o rl heads = []) : restFrom o rl heads = [] := by
  rw [List.eq_nil_iff_forall_not_mem]
  intro x hx
  obtain ⟨k, src, hd, p, y, -, -, -, -, -, -, hy⟩ := front_of_rest rl heads o x hx
  rw [h] at hy
  exact absurd hy (by simp)

theorem restFrom_length : ∀ (rl : List DiskRun) (heads : List Nat) (o : Nat),
    (restFrom o rl heads).length + rl.length < mergeFuel rl := by
  have key : ∀ (rl : List DiskRun) (heads : List Nat) (o : Nat),
      (restFrom o rl heads).length + rl.length ≤ (rl.map (fun r => r.getCapacity + 1)).sum := by
    intro rl
    induction rl with
    | nil => intro heads o; simp [restFrom]
    | cons r rs ih =>
      intro heads o
      cases heads with
      | nil => simp [restFrom]; omega
      | cons hd hds =>
        have := ih hds (o + 1)
        have hle : r.entries.length ≤ r._capacity := by
          unfold DiskRun.entries
          rw [List.length_take]
          exact Nat.min_le_left _ _
        simp only [restFrom, List.length_append, List.length_map, List.length_drop,
          List.length_cons, List.map_cons, List.sum_cons, DiskRun.getCapacity]
        simp only [DiskRun.getCapacity] at this
        omega
  intro rl heads o
  have := key rl heads o
  unfold mergeFuel
  omega

/-- The first loop of `addRuns` puts the first pair of every source on the heap. -/
theorem pushHeads_spec : ∀ (rl : List DiskRun) (o : Nat) (h : StaticHeap),
    (∀ src ∈ rl, 1 ≤ src._capacity ∧ src._capacity ≤ src.map.length) →
    StaticHeap.HeapOK h.arr h.size → h.size + rl.length ≤ h.arr.length →
    ∃ h', pushHeads rl (o : Int) h = some h' ∧ h'.size = h.size + rl.length ∧
      h'.arr.length = h.arr.length ∧ StaticHeap.HeapOK h'.arr h'.size ∧
      (h'.arr.take h'.size).Perm
        (h.arr.take h.size ++ frontsFrom o rl (List.replicate rl.length 0)) := by
  intro rl
  induction rl with
  | nil =>
    intro o h _ hok _
    exact ⟨h, rfl, rfl, rfl, hok, by simp [frontsFrom]⟩
  | cons r rs ih =>
    intro o h hcaps hok hroom
    obtain ⟨hc1, hc2⟩ := hcaps r (List.mem_cons_self _ _)
    have h0 : r.map[0]? = some (r.map[0]) := List.getElem?_eq_getElem (by omega)
    have he0 : r.entries[0]? = some (r.map[0]) :=
      (DiskRun.entries_getElem? r 0 _).mpr ⟨by omega, h0⟩
    obtain ⟨h1, p1, p2, p3, p4, p5⟩ :=
      StaticHeap.push_spec h (r.map[0], (o : Int)) hok (by simp at hroom; omega)
    obtain ⟨h2, q1, q2, q3, q4, q5⟩ :=
      ih (o + 1) h1 (fun src hs => hcaps src (List.mem_cons_of_mem _ hs)) p4
        (by simp at hroom; omega)
    refine ⟨h2, ?_, by simp; omega, by omega, q4, ?_⟩
    · simp only [pushHeads, h0, p1]
      rw [← q1]
      push_cast
      rfl
    · refine q5.trans ?_
      simp only [List.length_cons, List.replicate_succ, frontsFrom, List.drop_zero]
      have e1 : r.entries.take 1 = [r.map[0]] := by
        have := take_one_drop r.entries 0
        rw [List.drop_zero, he0] at this
        exact this
      rw [e1]
      simp only [List.map_cons, List.map_nil, List.singleton_append]
      exact (List.Perm.append_right _ p5).trans List.perm_middle.symm


theorem pairwise_getElem? {α : Type} {R : α → α → Prop} {l : List α} (hs : l.Pairwise R)
    {i j : Nat} {a b : α} (hij : i < j) (ha : l[i]? = some a) (hb : l[j]? = some b) : R a b := by
  obtain ⟨hi, rfl⟩ := List.getElem?_eq_some.mp ha
  obtain ⟨hj, rfl⟩ := List.getElem?_eq_some.mp hb
  exact List.pairwise_iff_getElem.mp hs i j hi hj hij

theorem toUnsigned_cast (k : Nat) (hk : k ≤ 2147483647) : toUnsigned (k : Int) = k := by
  unfold toUnsigned
  have : ((k : Int) % 2 ^ 32) = (k : Int) := Int.emod_eq_of_lt (by omega) (by omega)
  rw [this]
  exact Int.toNat_ofNat k

/-- The loop of `addRuns` pops the pairs of the sources in the order of the
heap, every pair once, and writes them as `emitAll` does. The loop returns
unless a write fails. -/
theorem addRunsLoop_trace (rl : List DiskRun) (lastLevel : Bool) (hsrc : Sources rl) :
    ∀ (fuel : Nat) (h : StaticHeap) (heads : List Nat), MergeInv rl h heads →
      (restFrom 0 rl heads).length < fuel →
      ∃ Q : List KVIntPair, Q.Perm (restFrom 0 rl heads) ∧ Q.Pairwise KVIntPair.le ∧
        ((∀ src ∈ rl, src.StrictKeys) → Q.Pairwise (fun a b => a.lt b = true)) ∧
        ∀ e, (addRunsLoop rl lastLevel fuel { h := h, heads := heads, out := e }).map
          (fun s => s.out) = emitAll lastLevel e Q := by
  intro fuel
  induction fuel with
  | zero => intro h heads _ hf; omega
  | succ f ih =>
    intro h heads hinv hf
    obtain ⟨ha, hh, hok, hperm⟩ := hinv
    by_cases hsz : h.size = 0
    · have hfr : frontsFrom 0 rl heads = [] := by
        rw [hsz, List.take_zero] at hperm
        exact List.Perm.eq_nil hperm.symm
      have hrest := restFrom_nil_of_fronts rl heads 0 hfr
      refine ⟨[], by rw [hrest], List.Pairwise.nil, fun _ => List.Pairwise.nil, ?_⟩
      intro e
      simp [addRunsLoop, hsz, emitAll]
    · obtain ⟨ret, h1, hpop, hs1, hl1, hok1, hperm1, hmin⟩ :=
        StaticHeap.pop_spec h hok (by omega)
      have hret_mem : ret ∈ frontsFrom 0 rl heads :=
        hperm.subset (hperm1.subset (List.mem_cons_self _ _))
      obtain ⟨k, src, hd, hk1, hk2, hk3, hk4⟩ := (mem_frontsFrom rl heads 0 ret).mp hret_mem
      obtain ⟨hklt, hksrc⟩ := List.getElem?_eq_some.mp hk1
      have hsrc_mem : src ∈ rl := by rw [← hksrc]; exact List.getElem_mem _
      have hret : ret = (ret.1, ((0 + k : Nat) : Int)) := Prod.ext rfl hk4
      have hk0 : (0 + k : Nat) = k := Nat.zero_add k
      -- the pairs left after this round
      have hrestp := restFrom_advance rl heads 0 k src hd ret.1 hk1 hk2 hk3
      rw [← hret] at hrestp
      have hfrontp := frontsFrom_advance rl heads 0 k src hd ret.1 hk1 hk2 hk3
      rw [← hret] at hfrontp
      -- the pair popped does not come after any pair left
      have hle_all : ∀ x ∈ restFrom 0 rl heads, KVIntPair.le ret x := by
        intro x hx
        obtain ⟨k2, src2, hd2, p, y, g1, g2, g3, g4, g5, g6, g7⟩ := front_of_rest rl heads 0 x hx
        have hy : KVIntPair.le ret (y, ((0 + k2 : Nat) : Int)) :=
          hmin _ (hperm.symm.subset g7)
        refine StaticHeap.le_trans hy ?_
        rw [StaticHeap.le_iff]
        rcases Nat.lt_or_ge hd2 p with hlt | hge
        · have hs2 := hsrc.sorted src2 (List.getElem?_mem g1)
          have := pairwise_getElem? hs2 hlt g6 g4
          rcases lt_or_eq_of_le this with h3 | h3
          · exact Or.inl h3
          · exact Or.inr ⟨h3, by rw [g5]⟩
        · have hpe : p = hd2 := by omega
          rw [hpe, g6] at g4
          have : y = x.1 := Option.some.inj g4
          exact Or.inr ⟨by rw [this], by rw [g5]⟩
      -- the call of `advanceHead`
      have hun : toUnsigned ret.2 = k := by
        rw [hk4, hk0]
        exact toUnsigned_cast k (by have := hsrc.count; omega)
      have hne : ret ≠ KVINTPAIRMAX := by
        intro hc
        have : ret.2 = -1 := by rw [hc]; rfl
        rw [hk4] at this
        omega
      have hadv : ∃ h2, advanceHead rl h1 heads k = some (h2, heads.set k (hd + 1)) ∧
          MergeInv rl h2 (heads.set k (hd + 1)) := by
        simp only [advanceHead, hk1, hk2]
        have hroom : h1.size < h1.arr.length := by
          have := hok.1
          omega
        by_cases hnext : hd + 1 < src.getCapacity
        · rw [if_pos hnext]
          have hcap := (hsrc.caps src hsrc_mem).2
          simp only [DiskRun.getCapacity] at hnext
          have hm : src.map[hd + 1]? = some (src.map[hd + 1]) :=
            List.getElem?_eq_getElem (by omega)
          have he : src.entries[hd + 1]? = some (src.map[hd + 1]) :=
            (DiskRun.entries_getElem? src (hd + 1) _).mpr ⟨hnext, hm⟩
          obtain ⟨h2, p1, p2, p3, p4, p5⟩ :=
            StaticHeap.push_spec h1 (src.map[hd + 1], (k : Int)) hok1 hroom
          refine ⟨h2, by simp only [hm, p1], by omega, by simp; omega, p4, ?_⟩
          rw [he] at hfrontp
          simp only [Option.toList, List.map_cons, List.map_nil, List.singleton_append,
            hk0] at hfrontp
          refine p5.trans ?_
          have h3 : (ret :: frontsFrom 0 rl (heads.set k (hd + 1))).Perm
              (ret :: (src.map[hd + 1], (k : Int)) :: h1.arr.take h1.size) :=
            hfrontp.trans ((List.Perm.cons _ (hperm.symm.trans hperm1.symm)).trans
              (List.Perm.swap _ _ _))
          exact h3.cons_inv.symm
        · rw [if_neg hnext]
          refine ⟨h1, rfl, by omega, by simp; omega, hok1, ?_⟩
          simp only [DiskRun.getCapacity] at hnext
          have he : src.entries[hd + 1]? = none := by
            apply List.getElem?_eq_none
            unfold DiskRun.entries
            rw [List.length_take]
            omega
          rw [he] at hfrontp
          simp only [Option.toList, List.map_nil, List.nil_append] at hfrontp
          exact ((hfrontp.trans (hperm.symm.trans hperm1.symm)).cons_inv).symm
      obtain ⟨h2, hadv1, hinv2⟩ := hadv
      have hlen2 : (restFrom 0 rl (heads.set k (hd + 1))).length < f := by
        have := hrestp.length_eq
        simp only [List.length_cons] at this
        omega
      obtain ⟨Q, q1, q2, q3, q4⟩ := ih h2 (heads.set k (hd + 1)) hinv2 hlen2
      have hsub : ∀ x ∈ Q, x ∈ restFrom 0 rl heads := fun x hx =>
        hrestp.symm.subset (List.mem_cons_of_mem _ (q1.subset hx))
      refine ⟨ret :: Q, (List.Perm.cons _ q1).trans hrestp.symm, ?_, ?_, ?_⟩
      · exact List.Pairwise.cons (fun x hx => hle_all x (hsub x hx)) q2
      · intro hstrict
        refine List.Pairwise.cons ?_ (q3 hstrict)
        intro x hx
        obtain ⟨k2, src2, hd2, p, g1, g2, g3, g4, g5⟩ :=
          (mem_restFrom rl (heads.set k (hd + 1)) 0 x).mp (q1.subset hx)
        rw [StaticHeap.lt_iff]
        by_cases hkk : k2 = k
        · subst hkk
          rw [hk1] at g1
          have hs2 : src2 = src := (Option.some.inj g1).symm
          subst hs2
          rw [List.getElem?_set_self (by omega)] at g2
          have hd2e : hd2 = hd + 1 := (Option.some.inj g2).symm
          have := pairwise_getElem? (hstrict src2 hsrc_mem) (by omega : hd < p) hk3 g4
          exact Or.inl this
        · have hle := hle_all x (hsub x hx)
          rw [StaticHeap.le_iff] at hle
          rcases hle with h3 | ⟨h3, h4⟩
          · exact Or.inl h3
          · refine Or.inr ⟨h3, ?_⟩
            rw [hk4, g5] at h4 ⊢
            omega
      · intro e
        simp only [addRunsLoop, if_pos hsz, addRunsStep, hpop, if_neg hne, emitAll]
        cases hemit : emitPair lastLevel e ret with
        | none => simp
        | some e1 =>
          simp only [hun, hadv1]
          exact q4 e1

theorem storeKV_some {map m : List KVPair} {j : Int} {kv : KVPair}
    (h : storeKV map j kv = some m) : 0 ≤ j ∧ j.toNat < map.length ∧ m = map.set j.toNat kv := by
  unfold storeKV at h
  split at h
  · rename_i hc
    exact ⟨hc.1, hc.2, (Option.some.inj h).symm⟩
  · exact absurd h (by simp)

theorem keyAt_set_self (map : List KVPair) (i : Nat) (kv : KVPair) (h : i < map.length) :
    DiskRun.keyAt (map.set i kv) i = kv.key := by
  simp [DiskRun.keyAt, List.getElem?_set_self, h]

theorem keyAt_set_ne (map : List KVPair) (i a : Nat) (kv : KVPair) (h : i ≠ a) :
    DiskRun.keyAt (map.set i kv) a = DiskRun.keyAt map a := by
  simp [DiskRun.keyAt, List.getElem?_set_ne h]

/-- One write of the loop of `addRuns`, for a pair whose key is not below
`lastKey`, keeps the slots up to `j` strictly increasing. -/
theorem emitPair_OK (lastLevel : Bool) (e e1 : EmitState) (x : KVIntPair)
    (h : emitPair lastLevel e x = some e1) (hok : e.OK) (hle : 0 ≤ e.j → e.lastKey ≤ x.1.key) :
    e1.OK ∧ e1.lastKey = x.1.key ∧ e1.lastk = toUnsigned x.2 ∧
      e1.map.length = e.map.length ∧ e.j ≤ e1.j ∧ e1.j ≤ e.j + 1 := by
  unfold emitPair at h
  split at h
  · rename_i hkey
    split at h
    · -- the pair replaces the one in slot `j`
      split at h
      · exact absurd h (by simp)
      · rename_i m hst
        obtain ⟨s1, s2, rfl⟩ := storeKV_some hst
        have he := (Option.some.inj h).symm
        subst he
        have hsame : ∀ a, DiskRun.keyAt (e.map.set e.j.toNat x.1) a = DiskRun.keyAt e.map a := by
          intro a
          by_cases ha : e.j.toNat = a
          · rw [← ha, keyAt_set_self _ _ _ s2, hok.last s1, hkey]
          · exact keyAt_set_ne _ _ _ _ ha
        refine ⟨⟨hok.lo, by simpa using hok.hi, ?_, ?_⟩, rfl, rfl, by simp, le_refl _,
          by dsimp only; omega⟩
        · intro a b hab hb
          simp only [hsame]
          exact hok.sorted a b hab hb
        · intro _
          simp only [hsame]
          rw [hok.last s1, hkey]
    · have he := (Option.some.inj h).symm
      subst he
      refine ⟨⟨hok.lo, hok.hi, hok.sorted, ?_⟩, rfl, rfl, rfl, le_refl _, by dsimp only; omega⟩
      intro h0
      show DiskRun.keyAt e.map e.j.toNat = x.1.key
      rw [hok.last h0, hkey]
  · rename_i hkey
    split at h
    · exact absurd h (by simp)
    · rename_i back hback
      split at h
      · exact absurd h (by simp)
      · rename_i m hst
        obtain ⟨s1, s2, rfl⟩ := storeKV_some hst
        have he := (Option.some.inj h).symm
        subst he
        have hlt : 0 ≤ e.j → e.lastKey < x.1.key := fun h0 =>
          lt_of_le_of_ne (hle h0) hkey
        cases back with
        | true =>
          simp only [if_true] at s1 s2
          refine ⟨⟨hok.lo, by simpa using hok.hi, ?_, ?_⟩, rfl, rfl, by simp, by simp,
            by simp⟩
          · intro a b hab hb
            simp only [if_true] at hb ⊢
            rw [keyAt_set_ne _ _ _ _ (by omega : e.j.toNat ≠ a)]
            by_cases hbj : e.j.toNat = b
            · rw [← hbj, keyAt_set_self _ _ _ s2]
              have := hok.sorted a e.j.toNat (by omega) (by omega)
              rw [hok.last s1] at this
              exact lt_trans this (hlt s1)
            · rw [keyAt_set_ne _ _ _ _ hbj]
              exact hok.sorted a b hab hb
          · intro _
            simp only [if_true]
            exact keyAt_set_self _ _ _ s2
        | false =>
          simp only [Bool.false_eq_true, if_false] at s1 s2
          have hlo := hok.lo
          have ht : (e.j + 1).toNat = (e.j + 1) := Int.toNat_of_nonneg s1
          refine ⟨⟨by simp; omega, by simp; omega, ?_, ?_⟩, rfl, rfl, by simp, by simp,
            by simp⟩
          · intro a b hab hb
            simp only [Bool.false_eq_true, if_false] at hb ⊢
            rw [keyAt_set_ne _ _ _ _ (by omega : (e.j + 1).toNat ≠ a)]
            by_cases hbj : (e.j + 1).toNat = b
            · rw [← hbj, keyAt_set_self _ _ _ s2]
              have h0 : 0 ≤ e.j := by omega
              have hlast := hok.last h0
              by_cases haj : a = e.j.toNat
              · rw [haj, hlast]; exact hlt h0
              · have := hok.sorted a e.j.toNat (by omega) (by omega)
                rw [hlast] at this
                exact lt_trans this (hlt h0)
            · rw [keyAt_set_ne _ _ _ _ hbj]
              exact hok.sorted a b hab (by omega)
          · intro _
            simp only [Bool.false_eq_true, if_false]
            exact keyAt_set_self _ _ _ s2

theorem toUnsigned_tag (t : Int) (h0 : 0 ≤ t) (h1 : t ≤ 2147483647) :
    ((toUnsigned t : Nat) : Int) = t := by
  unfold toUnsigned
  rw [Int.emod_eq_of_lt h0 (by omega)]
  exact Int.toNat_of_nonneg h0

theorem EmitState.OK.key_le {e : EmitState} (hok : e.OK) (h0 : 0 ≤ e.j) (i : Nat)
    (hi : (i : Int) ≤ e.j) : DiskRun.keyAt e.map i ≤ e.lastKey := by
  by_cases h : i = e.j.toNat
  · rw [h, hok.last h0]
  · have := hok.sorted i e.j.toNat (by omega) (by omega)
    rw [hok.last h0] at this
    exact le_of_lt this

/-- The two shapes of a write of the loop of `addRuns` outside the terminal
level: the pair goes to slot `j` or is dropped when its key is `lastKey`, and to
slot `j + 1` otherwise. -/
theorem emitPair_shape (e : EmitState) (x : KVIntPair) (h0 : 0 ≤ e.j)
    (hroom : e.j + 1 < e.map.length) :
    ∃ e1, emitPair false e x = some e1 ∧ e1.lastKey = x.1.key ∧ e1.lastk = toUnsigned x.2 ∧
      ((e.lastKey = x.1.key ∧ e1.j = e.j ∧
          ((e.lastk < toUnsigned x.2 ∧ e1.map = e.map.set e.j.toNat x.1) ∨
            (¬ e.lastk < toUnsigned x.2 ∧ e1.map = e.map))) ∨
        (e.lastKey ≠ x.1.key ∧ e1.j = e.j + 1 ∧ e1.map = e.map.set (e.j + 1).toNat x.1)) := by
  unfold emitPair
  by_cases hkey : e.lastKey = x.1.key
  · rw [if_pos hkey]
    by_cases hk : e.lastk < toUnsigned x.2
    · rw [if_pos hk]
      have : storeKV e.map e.j x.1 = some (e.map.set e.j.toNat x.1) := by
        unfold storeKV
        rw [if_pos ⟨h0, by omega⟩]
      rw [this]
      exact ⟨_, rfl, rfl, rfl, Or.inl ⟨hkey, rfl, Or.inl ⟨hk, rfl⟩⟩⟩
    · rw [if_neg hk]
      exact ⟨_, rfl, rfl, rfl, Or.inl ⟨hkey, rfl, Or.inr ⟨hk, rfl⟩⟩⟩
  · rw [if_neg hkey, if_neg (by simp)]
    simp only [Bool.false_eq_true, if_false]
    have : storeKV e.map (e.j + 1) x.1 = some (e.map.set (e.j + 1).toNat x.1) := by
      unfold storeKV
      rw [if_pos ⟨by omega, by omega⟩]
    rw [this]
    exact ⟨_, rfl, rfl, rfl, Or.inr ⟨hkey, rfl, rfl⟩⟩

/-- One write of the loop of `addRuns` outside the terminal level keeps what
the writes have made of the pairs popped. -/
theorem emitPair_holds (strict : Prop) (e : EmitState) (D : List KVIntPair) (x : KVIntPair)
    (hH : e.Holds D strict) (ht0 : 0 ≤ x.2) (ht1 : x.2 ≤ 2147483647)
    (hle : e.lastKey ≤ x.1.key)
    (hs : strict → e.lastKey < x.1.key ∨ (e.lastKey = x.1.key ∧ (e.lastk : Int) < x.2))
    (hroom : e.j + 1 < e.map.length) :
    ∃ e1, emitPair false e x = some e1 ∧ e1.Holds (D ++ [x]) strict ∧
      e1.map.length = e.map.length ∧ e.j ≤ e1.j ∧ e1.j ≤ e.j + 1 ∧ e1.lastKey = x.1.key ∧
      ((e1.lastk : Nat) : Int) = x.2 ∧ ∀ i : Nat, e1.j < i → e1.map[i]? = e.map[i]? := by
  have h0 := hH.pos
  have hok := hH.ok
  obtain ⟨e1, heq, hlk, hlt, hshape⟩ := emitPair_shape e x h0 hroom
  obtain ⟨hok1, -, -, hlen, hj1, hj2⟩ := emitPair_OK false e e1 x heq hok (fun _ => hle)
  have htag : ((e1.lastk : Nat) : Int) = x.2 := by rw [hlt]; exact toUnsigned_tag x.2 ht0 ht1
  have hJ : (e.j.toNat : Int) = e.j := Int.toNat_of_nonneg h0
  have hxD : x ∈ D ++ [x] := List.mem_append_right _ (List.mem_singleton_self x)
  have hsub : ∀ d ∈ D, d ∈ D ++ [x] := fun d hd => List.mem_append_left _ hd
  have hlastkey : DiskRun.keyAt e.map e.j.toNat = e.lastKey := hok.last h0
  refine ⟨e1, heq, ?_, hlen, hj1, hj2, hlk, htag, ?_⟩
  · rcases hshape with ⟨hkey, hj, hmap⟩ | ⟨hkey, hj, hmap⟩
    · -- the key of the pair is `lastKey`
      have hkeys : ∀ i, DiskRun.keyAt e1.map i = DiskRun.keyAt e.map i := by
        intro i
        rcases hmap with ⟨-, hm⟩ | ⟨-, hm⟩
        · rw [hm]
          by_cases hi : e.j.toNat = i
          · rw [← hi, keyAt_set_self _ _ _ (by omega), hlastkey, hkey]
          · exact keyAt_set_ne _ _ _ _ hi
        · rw [hm]
      have hmax : strict → ∀ d ∈ D ++ [x], d.1.key = x.1.key → d.2 ≤ x.2 := by
        intro hst d hd hdk
        rcases List.mem_append.mp hd with hd | hd
        · have := hH.lastTag hst d hd (by rw [hdk, hkey])
          rcases hs hst with h | ⟨-, h⟩
          · omega
          · omega
        · rw [List.mem_singleton.mp hd]
      refine ⟨hok1, by omega, ?_, ?_, ?_, ?_, ?_⟩
      · intro i hi
        rw [hj] at hi
        rcases hmap with ⟨-, hm⟩ | ⟨-, hm⟩
        · rw [hm]
          by_cases hie : e.j.toNat = i
          · refine ⟨x.1, x.2, ?_, hxD⟩
            rw [← hie, List.getElem?_set_self (by omega)]
          · obtain ⟨kv, t, g1, g2⟩ := hH.fromD i hi
            exact ⟨kv, t, by rw [List.getElem?_set_ne hie]; exact g1, hsub _ g2⟩
        · rw [hm]
          obtain ⟨kv, t, g1, g2⟩ := hH.fromD i hi
          exact ⟨kv, t, g1, hsub _ g2⟩
      · intro d hd
        rcases List.mem_append.mp hd with hd | hd
        · obtain ⟨i, g1, g2⟩ := hH.slot d hd
          exact ⟨i, by omega, by rw [hkeys, g2]⟩
        · rw [List.mem_singleton.mp hd]
          exact ⟨e.j.toNat, by omega, by rw [hkeys, hlastkey, hkey]⟩
      · intro d hd
        rw [hlk]
        rcases List.mem_append.mp hd with hd | hd
        · have := hH.below d hd
          omega
        · rw [List.mem_singleton.mp hd]
      · intro hst i hi
        rw [hj] at hi
        have hm : e1.map = e.map.set e.j.toNat x.1 := by
          rcases hmap with ⟨-, hm⟩ | ⟨hn, -⟩
          · exact hm
          · exfalso
            apply hn
            rcases hs hst with h | ⟨-, h⟩
            · omega
            · have := toUnsigned_tag x.2 ht0 ht1
              omega
        rw [hm]
        by_cases hie : e.j.toNat = i
        · refine ⟨x.1, x.2, ?_, hxD, hmax hst⟩
          rw [← hie, List.getElem?_set_self (by omega)]
        · obtain ⟨kv, t, g1, g2, g3⟩ := hH.newest hst i hi
          refine ⟨kv, t, by rw [List.getElem?_set_ne hie]; exact g1, hsub _ g2, ?_⟩
          intro d hd hdk
          rcases List.mem_append.mp hd with hd | hd
          · exact g3 d hd hdk
          · exfalso
            rw [List.mem_singleton.mp hd] at hdk
            have h1 := hok.sorted i e.j.toNat (by omega) (by omega)
            rw [hlastkey, DiskRun.keyAt_of_getElem? g1] at h1
            omega
      · intro hst d hd hdk
        rw [htag]
        exact hmax hst d hd (by rw [hdk, hlk])
    · -- a new key
      have hlt2 : e.lastKey < x.1.key := lt_of_le_of_ne hle hkey
      have hJ1 : ((e.j + 1).toNat : Int) = e.j + 1 := Int.toNat_of_nonneg (by omega)
      have hold : ∀ d ∈ D, d.1.key < x.1.key := fun d hd =>
        lt_of_le_of_lt (hH.below d hd) hlt2
      have hmax : ∀ d ∈ D ++ [x], d.1.key = x.1.key → d.2 ≤ x.2 := by
        intro d hd hdk
        rcases List.mem_append.mp hd with hd | hd
        · have := hold d hd
          omega
        · rw [List.mem_singleton.mp hd]
      refine ⟨hok1, by omega, ?_, ?_, ?_, ?_, ?_⟩
      · intro i hi
        rw [hj] at hi
        rw [hmap]
        by_cases hie : (e.j + 1).toNat = i
        · refine ⟨x.1, x.2, ?_, hxD⟩
          rw [← hie, List.getElem?_set_self (by omega)]
        · obtain ⟨kv, t, g1, g2⟩ := hH.fromD i (by omega)
          exact ⟨kv, t, by rw [List.getElem?_set_ne hie]; exact g1, hsub _ g2⟩
      · intro d hd
        rw [hmap, hj]
        rcases List.mem_append.mp hd with hd | hd
        · obtain ⟨i, g1, g2⟩ := hH.slot d hd
          exact ⟨i, by omega, by rw [keyAt_set_ne _ _ _ _ (by omega), g2]⟩
        · rw [List.mem_singleton.mp hd]
          exact ⟨(e.j + 1).toNat, by omega, keyAt_set_self _ _ _ (by omega)⟩
      · intro d hd
        rw [hlk]
        rcases List.mem_append.mp hd with hd | hd
        · exact le_of_lt (hold d hd)
        · rw [List.mem_singleton.mp hd]
      · intro hst i hi
        rw [hj] at hi
        rw [hmap]
        by_cases hie : (e.j + 1).toNat = i
        · refine ⟨x.1, x.2, ?_, hxD, hmax⟩
          rw [← hie, List.getElem?_set_self (by omega)]
        · obtain ⟨kv, t, g1, g2, g3⟩ := hH.newest hst i (by omega)
          refine ⟨kv, t, by rw [List.getElem?_set_ne hie]; exact g1, hsub _ g2, ?_⟩
          intro d hd hdk
          rcases List.mem_append.mp hd with hd | hd
          · exact g3 d hd hdk
          · exfalso
            rw [List.mem_singleton.mp hd] at hdk
            have h1 := hok.key_le h0 i (by omega)
            rw [DiskRun.keyAt_of_getElem? g1] at h1
            omega
      · intro hst d hd hdk
        rw [htag]
        exact hmax d hd (by rw [hdk, hlk])
  · intro i hi
    rcases hshape with ⟨-, hj, hmap⟩ | ⟨-, hj, hmap⟩
    · rcases hmap with ⟨-, hm⟩ | ⟨-, hm⟩
      · rw [hm, List.getElem?_set_ne (by omega)]
      · rw [hm]
    · rw [hmap, List.getElem?_set_ne (by omega)]

/-- The writes of the loop of `addRuns` outside the terminal level, for pairs
that come in the order of the heap and fit in the destination: every write
succeeds, and the invariant of the writes holds at the end. -/
theorem emitAll_holds (strict : Prop) : ∀ (Q : List KVIntPair) (e : EmitState)
    (D : List KVIntPair), e.Holds D strict → Q.Pairwise KVIntPair.le →
    (∀ x ∈ Q, 0 ≤ x.2 ∧ x.2 ≤ 2147483647) → (∀ x ∈ Q, e.lastKey ≤ x.1.key) →
    (strict → Q.Pairwise (fun a b => a.lt b = true) ∧
      ∀ x ∈ Q, e.lastKey < x.1.key ∨ (e.lastKey = x.1.key ∧ (e.lastk : Int) < x.2)) →
    e.j + 1 + Q.length ≤ e.map.length →
    ∃ e', emitAll false e Q = some e' ∧ e'.Holds (D ++ Q) strict ∧
      e'.map.length = e.map.length ∧ e.j ≤ e'.j ∧
      ∀ i : Nat, e'.j < i → e'.map[i]? = e.map[i]? := by
  intro Q
  induction Q with
  | nil =>
    intro e D hH _ _ _ _ _
    exact ⟨e, rfl, by simpa using hH, rfl, le_refl _, fun _ _ => rfl⟩
  | cons x Q ih =>
    intro e D hH hsorted htags hkeys hstrict hroom
    obtain ⟨hx, hQ⟩ := List.pairwise_cons.mp hsorted
    obtain ⟨ht0, ht1⟩ := htags x (List.mem_cons_self _ _)
    simp only [List.length_cons, Nat.cast_add, Nat.cast_one] at hroom
    obtain ⟨e1, s1, s2, s3, s4, s5, s6, s7, s8⟩ :=
      emitPair_holds strict e D x hH ht0 ht1 (hkeys x (List.mem_cons_self _ _))
        (fun hst => (hstrict hst).2 x (List.mem_cons_self _ _)) (by omega)
    obtain ⟨e2, r1, r2, r3, r4, r5⟩ :=
      ih e1 (D ++ [x]) s2 hQ (fun y hy => htags y (List.mem_cons_of_mem _ hy))
        (fun y hy => by
          rw [s6]
          have := (StaticHeap.le_iff x y).mp (hx y hy)
          rcases this with h | ⟨h, -⟩
          · exact le_of_lt h
          · exact le_of_eq h)
        (fun hst => by
          obtain ⟨hp, -⟩ := hstrict hst
          obtain ⟨hpx, hpQ⟩ := List.pairwise_cons.mp hp
          refine ⟨hpQ, ?_⟩
          intro y hy
          rw [s6, s7]
          exact (StaticHeap.lt_iff x y).mp (hpx y hy))
        (by rw [s3]; omega)
    refine ⟨e2, ?_, ?_, by rw [r3, s3], by omega, ?_⟩
    · simp only [emitAll, s1]
      exact r1
    · have : D ++ x :: Q = D ++ [x] ++ Q := by simp
      rw [this]
      exact r2
    · intro i hi
      rw [r5 i hi, s8 i (by omega)]

/-- On a destination without a tombstone beyond slot `j`, the writes of the
terminal level are those of the other levels. -/
theorem emitAll_terminal : ∀ (Q : List KVIntPair) (e : EmitState), -1 ≤ e.j →
    (∀ (i : Nat) (kv : KVPair), e.j < i → e.map[i]? = some kv → kv.value ≠ V_TOMBSTONE) →
    emitAll true e Q = emitAll false e Q := by
  intro Q
  induction Q with
  | nil => intro e _ _; rfl
  | cons x Q ih =>
    intro e hj hfresh
    have hstep : emitPair true e x = emitPair false e x := by
      unfold emitPair
      by_cases hkey : e.lastKey = x.1.key
      · simp only [if_pos hkey]
      · simp only [if_neg hkey]
        rw [if_pos ⟨by omega, trivial⟩, if_neg (by simp)]
        unfold loadKV
        rw [if_pos (by omega)]
        cases hget : e.map[(e.j + 1).toNat]? with
        | none =>
          have hlen : e.map.length ≤ (e.j + 1).toNat := by
            by_contra hc
            rw [List.getElem?_eq_getElem (by omega)] at hget
            exact absurd hget (by simp)
          have : storeKV e.map (e.j + 1) x.1 = none := by
            unfold storeKV
            rw [if_neg (by omega)]
          simp [this]
        | some kv =>
          have := hfresh (e.j + 1).toNat kv (by omega) hget
          simp [this]
    simp only [emitAll, hstep]
    cases h1 : emitPair false e x with
    | none => rfl
    | some e1 =>
      simp only
      have hfacts : e.j ≤ e1.j ∧ ∀ i : Nat, e1.j < i → e1.map[i]? = e.map[i]? := by
        unfold emitPair at h1
        split at h1
        · split at h1
          · split at h1
            · exact absurd h1 (by simp)
            · rename_i m hst
              obtain ⟨s1, s2, rfl⟩ := storeKV_some hst
              have he := (Option.some.inj h1).symm
              subst he
              exact ⟨le_refl _, fun i hi => List.getElem?_set_ne (by dsimp only at hi; omega)⟩
          · have he := (Option.some.inj h1).symm
            subst he
            exact ⟨le_refl _, fun _ _ => rfl⟩
        · rw [if_neg (by simp)] at h1
          simp only [Bool.false_eq_true, if_false] at h1
          split at h1
          · exact absurd h1 (by simp)
          · rename_i m hst
            obtain ⟨s1, s2, rfl⟩ := storeKV_some hst
            have he := (Option.some.inj h1).symm
            subst he
            exact ⟨by dsimp only; omega,
              fun i hi => List.getElem?_set_ne (by dsimp only at hi; omega)⟩
      exact ih e1 (by omega) (fun i kv hi hget =>
        hfresh i kv (by omega) (by rw [← hfacts.2 i hi]; exact hget))

/-- The writes of the loop of `addRuns`, at any level and on any destination,
leave the slots up to `j` strictly increasing when the pairs come in the order
of the heap. -/
theorem emitAll_OK (lastLevel : Bool) : ∀ (Q : List KVIntPair) (e e' : EmitState),
    emitAll lastLevel e Q = some e' → e.OK → Q.Pairwise KVIntPair.le →
    (∀ x ∈ Q, 0 ≤ e.j → e.lastKey ≤ x.1.key) → e'.OK ∧ e'.map.length = e.map.length := by
  intro Q
  induction Q with
  | nil =>
    intro e e' h hok _ _
    simp only [emitAll, Option.some.injEq] at h
    subst h
    exact ⟨hok, rfl⟩
  | cons x Q ih =>
    intro e e' h hok hsorted hkeys
    obtain ⟨hx, hQ⟩ := List.pairwise_cons.mp hsorted
    simp only [emitAll] at h
    split at h
    · exact absurd h (by simp)
    · rename_i e1 h1
      obtain ⟨s1, s2, -, s3, -, -⟩ :=
        emitPair_OK lastLevel e e1 x h1 hok (hkeys x (List.mem_cons_self _ _))
      obtain ⟨r1, r2⟩ := ih e1 e' h s1 hQ (fun y hy _ => by
        rw [s2]
        rcases (StaticHeap.le_iff x y).mp (hx y hy) with h | ⟨h, -⟩
        · exact le_of_lt h
        · exact le_of_eq h)
      exact ⟨r1, by rw [r2, s3]⟩

theorem restFrom_length_le : ∀ (rl : List DiskRun) (heads : List Nat) (o : Nat),
    (restFrom o rl heads).length ≤ (rl.map (fun r => r._capacity)).sum := by
  intro rl
  induction rl with
  | nil => intro heads o; simp [restFrom]
  | cons r rs ih =>
    intro heads o
    cases heads with
    | nil => simp [restFrom]
    | cons hd hds =>
      have := ih hds (o + 1)
      have hle : r.entries.length ≤ r._capacity := by
        unfold DiskRun.entries
        rw [List.length_take]
        exact Nat.min_le_left _ _
      simp only [restFrom, List.length_append, List.length_map, List.length_drop,
        List.map_cons, List.sum_cons]
      omega

/-- The loop of `addRuns` from its start: the pairs of the sources are popped
in the order of the heap, and `addRuns` is the writes for these pairs followed
by the statements after the loop. -/
theorem addRuns_trace (rl : List DiskRun) (lastLevel : Bool) (hsrc : Sources rl) :
    ∃ Q : List KVIntPair, Q.Perm (restFrom 0 rl (List.replicate rl.length 0)) ∧
      Q.Pairwise KVIntPair.le ∧
      ((∀ src ∈ rl, src.StrictKeys) → Q.Pairwise (fun a b => a.lt b = true)) ∧
      ∀ (E : Env) (lvl : DiskLevel) (runLen : Nat),
        lvl.addRuns E rl runLen lastLevel =
          match lvl.runs[lvl._activeRun]? with
          | none => none
          | some dst =>
            match emitAll lastLevel
                { map := dst.map, j := -1, lastKey := INT_MAX, lastk := toUnsigned INT_MIN } Q with
            | none => none
            | some e => closeRun E lvl dst lastLevel e := by
  have hnew : StaticHeap.HeapOK (StaticHeap.new rl.length KVINTPAIRMAX).arr
      (StaticHeap.new rl.length KVINTPAIRMAX).size :=
    ⟨Nat.zero_le _, fun c h0 h1 => absurd h1 (Nat.not_lt_zero _)⟩
  obtain ⟨h, p1, p2, p3, p4, p5⟩ :=
    pushHeads_spec rl 0 (StaticHeap.new rl.length KVINTPAIRMAX) hsrc.caps hnew
      (by simp [StaticHeap.new])
  have hinv : MergeInv rl h (List.replicate rl.length 0) := by
    refine ⟨by rw [p3]; simp [StaticHeap.new], by simp, p4, ?_⟩
    simpa [StaticHeap.new] using p5
  have hfuel := restFrom_length rl (List.replicate rl.length 0) 0
  obtain ⟨Q, q1, q2, q3, q4⟩ :=
    addRunsLoop_trace rl lastLevel hsrc (mergeFuel rl) h (List.replicate rl.length 0) hinv
      (by omega)
  refine ⟨Q, q1, q2, q3, ?_⟩
  intro E lvl runLen
  unfold addRuns
  rw [if_neg (by have := hsrc.count; omega)]
  have hp : pushHeads rl 0 (StaticHeap.new rl.length KVINTPAIRMAX) = some h := by
    simpa using p1
  rw [hp]
  cases hdst : lvl.runs[lvl._activeRun]? with
  | none => rfl
  | some dst =>
    simp only
    have := q4 { map := dst.map, j := -1, lastKey := INT_MAX, lastk := toUnsigned INT_MIN }
    rw [← this]
    cases addRunsLoop rl lastLevel (mergeFuel rl)
      { h := h, heads := List.replicate rl.length 0,
        out := { map := dst.map, j := -1, lastKey := INT_MAX, lastk := toUnsigned INT_MIN } } with
    | none => rfl
    | some s => rfl

end DiskLevel

namespace DiskRun

theorem constructIndex_keeps (E : Env) (r r' : DiskRun) (h : r.constructIndex E = some r') :
    r'.map = r.map ∧ r'._capacity = r._capacity := by
  unfold constructIndex at h
  split at h
  · exact absurd h (by simp)
  · split at h
    · exact absurd h (by simp)
    · split at h
      · simp only [Option.some.injEq] at h
        subst h
        exact ⟨rfl, rfl⟩
      · exact absurd h (by simp)

theorem constructIndexLoop_total (E : Env) (map : List KVPair) (ps : Nat) (hps : 0 < ps) :
    ∀ (fuel j : Nat) (bf : BloomFilter) (fps : List Int) (iMax : Nat),
      j + fuel ≤ map.length → (0 < bf.m_bits.length ∨ bf.m_numHashes = 0) →
      ∃ res, constructIndexLoop E map ps fuel j bf fps iMax = some res := by
  intro fuel
  induction fuel with
  | zero => intro j bf fps iMax _ _; exact ⟨_, rfl⟩
  | succ f ih =>
    intro j bf fps iMax hj hbf
    have hjl : j < map.length := by omega
    obtain ⟨bf1, b1, b2, b3⟩ := BloomFilter.add_total E bf (map[j]).key hbf
    have hbf1 : 0 < bf1.m_bits.length ∨ bf1.m_numHashes = 0 := by rw [b2, b3]; exact hbf
    simp only [constructIndexLoop, List.getElem?_eq_getElem hjl, b1,
      if_neg (Nat.pos_iff_ne_zero.mp hps)]
    split
    · exact ih _ _ _ _ (by omega) hbf1
    · exact ih _ _ _ _ (by omega) hbf1

/-- The member `constructIndex` returns on a run of at least one and at most
`INT_MAX` pairs inside its file, with a page size and a usable filter. -/
theorem constructIndex_total (E : Env) (r : DiskRun) (h1 : 1 ≤ r._capacity)
    (h2 : r._capacity ≤ r.map.length) (h3 : r._capacity ≤ 2147483647) (hps : 0 < r.pageSize)
    (hbf : 0 < r.bf.m_bits.length ∨ r.bf.m_numHashes = 0) :
    ∃ r', r.constructIndex E = some r' := by
  obtain ⟨⟨bf, fps, iMax⟩, hloop⟩ :=
    constructIndexLoop_total E r.map r.pageSize hps r._capacity 0 r.bf r._fencePointers
      (2 ^ 32 - 1) (by omega) hbf
  have hidx : (r._capacity + (2 ^ 64 - 1)) % 2 ^ 64 = r._capacity - 1 := by
    have h64 : (2 : Nat) ^ 64 = 18446744073709551616 := by norm_num
    rw [h64]; omega
  unfold constructIndex
  rw [if_neg (by omega), hloop, hidx]
  simp only [List.getElem?_eq_getElem (by omega : 0 < r.map.length),
    List.getElem?_eq_getElem (by omega : r._capacity - 1 < r.map.length)]
  exact ⟨_, rfl⟩

end DiskRun

namespace DiskLevel

/-- The statements after the loop of `addRuns` write a run of the first
`j + 1` slots of the destination, for a `j` that is the last slot written or,
in the terminal level, the one before it. -/
theorem closeRun_some (E : Env) (lvl lvl' : DiskLevel) (dst : DiskRun) (lastLevel : Bool)
    (e : EmitState) (hdst : lvl.runs[lvl._activeRun]? = some dst)
    (h : closeRun E lvl dst lastLevel e = some lvl') :
    ∃ (j : Int) (out : DiskRun), j ≤ e.j ∧ (lastLevel = false → j = e.j) ∧
      lvl'.runs[lvl._activeRun]? = some out ∧ out.map = e.map ∧ out._capacity = (j + 1).toNat := by
  unfold closeRun at h
  split at h
  · exact absurd h (by simp)
  · rename_i j hj
    split at h
    · exact absurd h (by simp)
    · rename_i dst1 hci
      obtain ⟨c1, c2⟩ := DiskRun.constructIndex_keeps E _ _ hci
      simp only [Option.some.injEq] at h
      subst h
      have hact : lvl._activeRun < lvl.runs.length := (List.getElem?_eq_some.mp hdst).1
      refine ⟨j, dst1, ?_, ?_, by simp [List.getElem?_set_self hact], c1, c2⟩
      · cases lastLevel with
        | false =>
          simp only [Bool.false_eq_true, if_false, Option.some.injEq] at hj
          omega
        | true =>
          simp only [if_true, Option.map_eq_some'] at hj
          obtain ⟨kv, -, hkv⟩ := hj
          split at hkv <;> omega
      · intro hl
        subst hl
        simp only [Bool.false_eq_true, if_false, Option.some.injEq] at hj
        exact hj.symm

/-- A run written from a state of the writes with a `j` not above that of the
state has strictly increasing keys. -/
theorem strictKeys_of_OK (e : EmitState) (hok : e.OK) (out : DiskRun) (j : Int) (hj : j ≤ e.j)
    (hmap : out.map = e.map) (hcap : out._capacity = (j + 1).toNat) : out.StrictKeys := by
  unfold DiskRun.StrictKeys DiskRun.entries
  rw [List.pairwise_iff_getElem]
  intro a b ha hb hab
  rw [List.length_take] at ha hb
  rw [List.getElem_take, List.getElem_take]
  have hb2 : (b : Int) ≤ e.j := by omega
  have := hok.sorted a b hab hb2
  rw [← hmap] at this
  simp only [DiskRun.keyAt, List.getElem?_eq_getElem (by omega : a < out.map.length),
    List.getElem?_eq_getElem (by omega : b < out.map.length), Option.getD_some] at this
  exact this

end DiskLevel

namespace DiskLevel

theorem mem_rest_start (rl : List DiskRun) (x : KVIntPair) :
    x ∈ restFrom 0 rl (List.replicate rl.length 0) ↔
      ∃ (k : Nat) (src : DiskRun), rl[k]? = some src ∧ x.1 ∈ src.entries ∧ x.2 = (k : Int) := by
  rw [mem_restFrom]
  constructor
  · rintro ⟨k, src, hd, p, h1, h2, h3, h4, h5⟩
    exact ⟨k, src, h1, List.getElem?_mem h4, by rw [h5, Nat.zero_add]⟩
  · rintro ⟨k, src, h1, h2, h3⟩
    obtain ⟨p, hp⟩ := List.mem_iff_getElem?.mp h2
    have hk : k < rl.length := (List.getElem?_eq_some.mp h1).1
    refine ⟨k, src, 0, p, h1, ?_, Nat.zero_le _, hp, by rw [h3, Nat.zero_add]⟩
    rw [List.getElem?_eq_getElem (by simpa using hk)]
    simp

/-- The first write of the loop of `addRuns` and the writes after it, outside
the terminal level, for pairs that come in the order of the heap, with a key
below `INT_MAX` among them, and fit in the destination. -/
theorem emitAll_start (strict : Prop) (map : List KVPair) (Q : List KVIntPair)
    (hsorted : Q.Pairwise KVIntPair.le) (htags : ∀ x ∈ Q, 0 ≤ x.2 ∧ x.2 ≤ 2147483647)
    (hkey : ∃ y ∈ Q, y.1.key < INT_MAX)
    (hstrict : strict → Q.Pairwise (fun a b => a.lt b = true))
    (hroom : Q.length ≤ map.length) :
    ∃ e', emitAll false
        { map := map, j := -1, lastKey := INT_MAX, lastk := toUnsigned INT_MIN } Q = some e' ∧
      e'.Holds Q strict ∧ e'.map.length = map.length := by
  cases Q with
  | nil =>
    obtain ⟨y, hy, -⟩ := hkey
    exact absurd hy (List.not_mem_nil _)
  | cons x Q =>
    obtain ⟨hx, hQ⟩ := List.pairwise_cons.mp hsorted
    obtain ⟨ht0, ht1⟩ := htags x (List.mem_cons_self _ _)
    have hxkey : x.1.key < INT_MAX := by
      obtain ⟨y, hy, hlt⟩ := hkey
      rcases List.mem_cons.mp hy with h | h
      · rw [← h]; exact hlt
      · rcases (StaticHeap.le_iff x y).mp (hx y h) with h2 | ⟨h2, -⟩
        · exact lt_trans h2 hlt
        · rw [h2]; exact hlt
    simp only [List.length_cons] at hroom
    have hlen0 : 0 < map.length := by omega
    have hfirst : emitPair false
        { map := map, j := -1, lastKey := INT_MAX, lastk := toUnsigned INT_MIN } x =
        some { map := map.set 0 x.1, j := 0, lastKey := x.1.key, lastk := toUnsigned x.2 } := by
      unfold emitPair
      rw [if_neg (by simp only; omega), if_neg (by simp)]
      simp only [Bool.false_eq_true, if_false]
      have : storeKV map (-1 + 1) x.1 = some (map.set 0 x.1) := by
        unfold storeKV
        rw [if_pos ⟨by omega, by simpa using hlen0⟩]
        rfl
      rw [this]
      rfl
    have htag := toUnsigned_tag x.2 ht0 ht1
    have hH : EmitState.Holds
        { map := map.set 0 x.1, j := 0, lastKey := x.1.key, lastk := toUnsigned x.2 } [x]
        strict := by
      refine ⟨⟨by simp, by simpa using hlen0, ?_, ?_⟩, le_refl _, ?_, ?_, ?_, ?_, ?_⟩
      · intro a b hab hb
        simp only at hb
        omega
      · intro _
        exact keyAt_set_self _ _ _ hlen0
      · intro i hi
        simp only at hi
        have : i = 0 := by omega
        subst this
        exact ⟨x.1, x.2, by simp [List.getElem?_set_self hlen0], by simp⟩
      · intro d hd
        rw [List.mem_singleton.mp hd]
        exact ⟨0, le_refl _, keyAt_set_self _ _ _ hlen0⟩
      · intro d hd
        rw [List.mem_singleton.mp hd]
      · intro _ i hi
        simp only at hi
        have : i = 0 := by omega
        subst this
        refine ⟨x.1, x.2, by simp [List.getElem?_set_self hlen0], by simp, ?_⟩
        intro d hd _
        rw [List.mem_singleton.mp hd]
      · intro _ d hd _
        rw [List.mem_singleton.mp hd]
        simp only
        omega
    obtain ⟨e', r1, r2, r3, -, -⟩ :=
      emitAll_holds strict Q _ [x] hH hQ (fun y hy => htags y (List.mem_cons_of_mem _ hy))
        (fun y hy => by
          rcases (StaticHeap.le_iff x y).mp (hx y hy) with h | ⟨h, -⟩
          · exact le_of_lt h
          · exact le_of_eq h)
        (fun hst => by
          obtain ⟨hpx, hpQ⟩ := List.pairwise_cons.mp (hstrict hst)
          refine ⟨hpQ, ?_⟩
          intro y hy
          simp only
          rw [htag]
          exact (StaticHeap.lt_iff x y).mp (hpx y hy))
        (by simp only [List.length_set]; omega)
    refine ⟨e', ?_, by simpa using r2, by rw [r3]; simp⟩
    simp only [emitAll, hfirst]
    exact r1

theorem tags_of_trace (rl : List DiskRun) (hsrc : Sources rl) (Q : List KVIntPair)
    (hperm : Q.Perm (restFrom 0 rl (List.replicate rl.length 0))) :
    ∀ x ∈ Q, 0 ≤ x.2 ∧ x.2 ≤ 2147483647 := by
  intro x hx
  obtain ⟨k, src, h1, -, h3⟩ := (mem_rest_start rl x).mp (hperm.subset hx)
  have hk : k < rl.length := (List.getElem?_eq_some.mp h1).1
  have := hsrc.count
  rw [h3]
  omega

theorem mem_trace (rl : List DiskRun) (Q : List KVIntPair)
    (hperm : Q.Perm (restFrom 0 rl (List.replicate rl.length 0))) (src : DiskRun)
    (hs : src ∈ rl) (kv : KVPair) (hkv : kv ∈ src.entries) : ∃ k : Nat, (kv, (k : Int)) ∈ Q := by
  obtain ⟨k, hk⟩ := List.mem_iff_getElem?.mp hs
  exact ⟨k, hperm.symm.subset ((mem_rest_start rl _).mpr ⟨k, src, hk, hkv, rfl⟩)⟩

/-- The writes of `addRuns` succeed, outside the terminal level, on a
destination that can take the merge. -/
theorem emitAll_receives (strict : Prop) (rl : List DiskRun) (dst : DiskRun) (lastLevel : Bool)
    (hsrc : Sources rl) (hrec : Receives rl dst lastLevel) (Q : List KVIntPair)
    (hperm : Q.Perm (restFrom 0 rl (List.replicate rl.length 0)))
    (hsorted : Q.Pairwise KVIntPair.le)
    (hstrict : strict → Q.Pairwise (fun a b => a.lt b = true)) :
    ∃ e', emitAll false
        { map := dst.map, j := -1, lastKey := INT_MAX, lastk := toUnsigned INT_MIN } Q = some e' ∧
      e'.Holds Q strict ∧ e'.map.length = dst.map.length := by
  apply emitAll_start strict dst.map Q hsorted (tags_of_trace rl hsrc Q hperm) ?_ hstrict
  · rw [hperm.length_eq]
    exact le_trans (restFrom_length_le rl _ 0) hrec.room
  · obtain ⟨src, hs, kv, hkv, hlt⟩ := hrec.key
    obtain ⟨k, hk⟩ := mem_trace rl Q hperm src hs kv hkv
    exact ⟨_, hk, hlt⟩

/-- The statements after the loop of `addRuns` succeed when the run they write
has a pair and the destination can take the merge. -/
theorem closeRun_total (E : Env) (lvl : DiskLevel) (rl : List DiskRun) (dst : DiskRun)
    (lastLevel : Bool) (hrec : Receives rl dst lastLevel) (e : EmitState) (hok : e.OK)
    (hlen : e.map.length = dst.map.length)
    (hj : ∃ j : Int, 0 ≤ j ∧ j ≤ e.j ∧
      (if lastLevel then
        (loadKV e.map e.j).map (fun kv => if kv.value = V_TOMBSTONE then e.j - 1 else e.j)
      else some e.j) = some j) :
    ∃ lvl', closeRun E lvl dst lastLevel e = some lvl' := by
  obtain ⟨j, hj0, hj1, hj2⟩ := hj
  have hhi := hok.hi
  have hsmall := hrec.small
  obtain ⟨dst1, hd⟩ :=
    DiskRun.constructIndex_total E { dst with map := e.map, _capacity := (j + 1).toNat }
      (by simp only; omega) (by simp only; omega) (by simp only; omega) hrec.page hrec.bits
  unfold closeRun
  rw [hj2]
  simp only [hd]
  exact ⟨_, rfl⟩

theorem strict_unique (r : DiskRun) (hs : r.StrictKeys) (a b : KVPair) (ha : a ∈ r.entries)
    (hb : b ∈ r.entries) (hk : a.key = b.key) : a = b := by
  obtain ⟨i, hi⟩ := List.mem_iff_getElem?.mp ha
  obtain ⟨j, hj⟩ := List.mem_iff_getElem?.mp hb
  rcases Nat.lt_trichotomy i j with h | h | h
  · have := pairwise_getElem? hs h hi hj
    omega
  · rw [h, hj] at hi
    exact (Option.some.inj hi).symm
  · have := pairwise_getElem? hs h hj hi
    omega

end DiskLevel

/-! ## The claims on the merge of `addRuns` -/

namespace DiskLevel

/-- Claim C7 (amended), newest source wins in the k-way merge. For sources
that are not empty, each sorted with distinct keys and listed oldest first,
with a key below `INT_MAX` among them, and a destination that can take the
merge: `addRuns` with `lastLevel = false` writes a run of strictly increasing
keys, and a pair is in it exactly when it is the pair of its key in the
source of highest index that holds the key. -/
theorem addRuns_newest_source_wins (E : Env) (lvl : DiskLevel) (rl : List DiskRun)
    (runLen : Nat) (dst : DiskRun) (hsrc : Sources rl) (hstrict : ∀ src ∈ rl, src.StrictKeys)
    (hdst : lvl.runs[lvl._activeRun]? = some dst) (hrec : Receives rl dst false) :
    ∃ lvl' out, lvl.addRuns E rl runLen false = some lvl' ∧
      lvl'.runs[lvl._activeRun]? = some out ∧ out.StrictKeys ∧
      ∀ k v, (⟨k, v⟩ : KVPair) ∈ out.entries ↔
        ∃ (i : Nat) (src : DiskRun), rl[i]? = some src ∧ (⟨k, v⟩ : KVPair) ∈ src.entries ∧
          ∀ (i2 : Nat) (src2 : DiskRun), i < i2 → rl[i2]? = some src2 →
            ∀ v2, (⟨k, v2⟩ : KVPair) ∉ src2.entries := by
  obtain ⟨Q, q1, q2, q3, q4⟩ := addRuns_trace rl false hsrc
  obtain ⟨e', r1, r2, r3⟩ :=
    emitAll_receives True rl dst false hsrc hrec Q q1 q2 (fun _ => q3 hstrict)
  have hpos := r2.pos
  obtain ⟨lvl', hclose⟩ :=
    closeRun_total E lvl rl dst false hrec e' r2.ok r3 ⟨e'.j, hpos, le_refl _, by simp⟩
  obtain ⟨j, out, j1, j2, o1, o2, o3⟩ := closeRun_some E lvl lvl' dst false e' hdst hclose
  have hj := j2 rfl
  subst hj
  refine ⟨lvl', out, ?_, o1, strictKeys_of_OK e' r2.ok out _ j1 o2 o3, ?_⟩
  · rw [q4, hdst]
    simp only [r1]
    exact hclose
  · intro k v
    rw [DiskRun.mem_entries, o2, o3]
    constructor
    · rintro ⟨i, hi, hget⟩
      obtain ⟨kv, t, g1, g2, g3⟩ := r2.newest trivial i (by omega)
      rw [hget] at g1
      have hkv : kv = ⟨k, v⟩ := (Option.some.inj g1).symm
      subst hkv
      obtain ⟨i0, src, h1, h2, h3⟩ := (mem_rest_start rl _).mp (q1.subset g2)
      refine ⟨i0, src, h1, h2, ?_⟩
      intro i2 src2 hlt hs2 v2 hmem
      have hin : ((⟨k, v2⟩ : KVPair), (i2 : Int)) ∈ Q :=
        q1.symm.subset ((mem_rest_start rl _).mpr ⟨i2, src2, hs2, hmem, rfl⟩)
      have := g3 _ hin rfl
      simp only at this h3
      omega
    · rintro ⟨i, src, h1, h2, h3⟩
      have hin : ((⟨k, v⟩ : KVPair), (i : Int)) ∈ Q :=
        q1.symm.subset ((mem_rest_start rl _).mpr ⟨i, src, h1, h2, rfl⟩)
      obtain ⟨idx, x1, x2⟩ := r2.slot _ hin
      obtain ⟨kv, t, g1, g2, g3⟩ := r2.newest trivial idx x1
      have hkey : kv.key = k := by
        rw [← DiskRun.keyAt_of_getElem? g1]
        exact x2
      have hle := g3 _ hin hkey.symm
      obtain ⟨i1, src1, y1, y2, y3⟩ := (mem_rest_start rl _).mp (q1.subset g2)
      simp only at hle y2 y3
      have hi1 : i1 = i := by
        by_contra hne
        have hlt : i < i1 := by omega
        have hkv : kv = ⟨k, kv.value⟩ := by rw [← hkey]
        rw [hkv] at y2
        exact h3 i1 src1 hlt y1 kv.value y2
      subst hi1
      rw [h1] at y1
      have hs1 : src1 = src := (Option.some.inj y1).symm
      subst hs1
      have heq : kv = ⟨k, v⟩ :=
        strict_unique src1 (hstrict src1 (List.getElem?_mem h1)) kv ⟨k, v⟩ y2 h2 hkey
      refine ⟨idx, by omega, ?_⟩
      rw [g1, heq]

set_option maxRecDepth 100000 in
/-- Claim C7 at the sources `[(1, 10), (3, 30)]` and `[(3, 31), (4, 40)]`
merged into a fresh run of four slots. -/
theorem addRuns_newest_source_wins_witness :
    Sources sampleSources ∧ (∀ src ∈ sampleSources, src.StrictKeys) ∧
      sampleLevel.runs[sampleLevel._activeRun]? = some sampleDest ∧
      Receives sampleSources sampleDest false ∧
      ∃ lvl' out, sampleLevel.addRuns sampleEnv sampleSources 4 false = some lvl' ∧
        lvl'.runs[sampleLevel._activeRun]? = some out ∧ out.StrictKeys ∧
        ∀ k v, (⟨k, v⟩ : KVPair) ∈ out.entries ↔
          ∃ (i : Nat) (src : DiskRun), sampleSources[i]? = some src ∧
            (⟨k, v⟩ : KVPair) ∈ src.entries ∧
            ∀ (i2 : Nat) (src2 : DiskRun), i < i2 → sampleSources[i2]? = some src2 →
              ∀ v2, (⟨k, v2⟩ : KVPair) ∉ src2.entries := by
  have hs : Sources sampleSources := ⟨by decide, by decide, by decide⟩
  have hk : ∀ src ∈ sampleSources, src.StrictKeys := by
    unfold DiskRun.StrictKeys
    decide
  have hd : sampleLevel.runs[sampleLevel._activeRun]? = some sampleDest := by decide
  have hr : Receives sampleSources sampleDest false :=
    ⟨by decide, by decide, by decide, by decide, by decide, by decide, by decide⟩
  exact ⟨hs, hk, hd, hr,
    addRuns_newest_source_wins sampleEnv sampleLevel sampleSources 4 sampleDest hs hk hd hr⟩

set_option maxRecDepth 100000 in
/-- Claim C7 as stated fails for a source whose only key is `INT_MAX`. The
source is not empty and sorted with distinct keys and the destination is
fresh, yet the write of the pair popped finds its key equal to the start value
of `lastKey`, leaves the file as it was with `j = -1`, and `addRuns` ends in
`constructIndex` on a run of capacity zero, which reads `map[_capacity - 1]`. -/
theorem addRuns_loses_max_key :
    (∀ src ∈ [maxKeySource], 1 ≤ src._capacity ∧ src._capacity ≤ src.map.length ∧
        src.entries.Pairwise (fun a b => a.key < b.key)) ∧
      (emitPair false
          { map := sampleDest.map, j := -1, lastKey := INT_MAX, lastk := toUnsigned INT_MIN }
          (⟨INT_MAX, 5⟩, 0)).map (fun e => (e.map, e.j)) = some (sampleDest.map, -1) ∧
      sampleLevel.addRuns sampleEnv [maxKeySource] 1 false = none := by
  decide

/-- Claim C8, run monotonicity of the merge output. For sources that are not
empty and sorted by key, at the terminal level or another one: every run that
`addRuns` writes has strictly increasing keys over its pairs in use, whatever
the destination held before; and `addRuns` does write a run when the
destination can take the merge (for the terminal level: a fresh destination). -/
theorem addRuns_output_strictly_sorted (E : Env) (lvl : DiskLevel) (rl : List DiskRun)
    (runLen : Nat) (lastLevel : Bool) (hsrc : Sources rl) :
    (∀ lvl', lvl.addRuns E rl runLen lastLevel = some lvl' →
      ∃ out, lvl'.runs[lvl._activeRun]? = some out ∧ out.StrictKeys) ∧
    (∀ dst, lvl.runs[lvl._activeRun]? = some dst → Receives rl dst lastLevel →
      ∃ lvl', lvl.addRuns E rl runLen lastLevel = some lvl') := by
  obtain ⟨Q, q1, q2, q3, q4⟩ := addRuns_trace rl lastLevel hsrc
  constructor
  · intro lvl' h
    rw [q4] at h
    cases hdst : lvl.runs[lvl._activeRun]? with
    | none => rw [hdst] at h; exact absurd h (by simp)
    | some dst =>
      rw [hdst] at h
      simp only at h
      cases hem : emitAll lastLevel
          { map := dst.map, j := -1, lastKey := INT_MAX, lastk := toUnsigned INT_MIN } Q with
      | none => rw [hem] at h; exact absurd h (by simp)
      | some e =>
        rw [hem] at h
        simp only at h
        have e0ok : EmitState.OK
            { map := dst.map, j := -1, lastKey := INT_MAX, lastk := toUnsigned INT_MIN } :=
          ⟨le_refl _, by simp only; omega, fun a b _ hb => by simp only at hb; omega,
            fun h0 => by simp only at h0; omega⟩
        obtain ⟨ok, -⟩ := emitAll_OK lastLevel Q _ e hem e0ok q2
          (fun x _ h0 => by simp only at h0; omega)
        obtain ⟨j, out, j1, -, o1, o2, o3⟩ := closeRun_some E lvl lvl' dst lastLevel e hdst h
        exact ⟨out, o1, strictKeys_of_OK e ok out j j1 o2 o3⟩
  · intro dst hdst hrec
    rw [q4, hdst]
    simp only
    obtain ⟨e', r1, r2, r3⟩ :=
      emitAll_receives False rl dst lastLevel hsrc hrec Q q1 q2 (fun h => False.elim h)
    have hpos := r2.pos
    cases lastLevel with
    | false =>
      rw [r1]
      exact closeRun_total E lvl rl dst false hrec e' r2.ok r3 ⟨e'.j, hpos, le_refl _, by simp⟩
    | true =>
      have hagree := emitAll_terminal Q
        { map := dst.map, j := -1, lastKey := INT_MAX, lastk := toUnsigned INT_MIN } (le_refl _)
        (fun i kv _ hget => hrec.fresh rfl kv (List.getElem?_mem hget))
      rw [hagree, r1]
      have hJ : (e'.j.toNat : Int) = e'.j := Int.toNat_of_nonneg hpos
      obtain ⟨kv, t, g1, g2⟩ := r2.fromD e'.j.toNat (by omega)
      have hload : loadKV e'.map e'.j = some kv := by
        unfold loadKV
        rw [if_pos hpos, g1]
      apply closeRun_total E lvl rl dst true hrec e' r2.ok r3
      by_cases htomb : kv.value = V_TOMBSTONE
      · refine ⟨e'.j - 1, ?_, by omega, by simp [hload, htomb]⟩
        rcases hrec.kept rfl with ⟨s1, hs1, s2, hs2, a, ha, b, hb, hab⟩ | hnone
        · obtain ⟨ka, hka⟩ := mem_trace rl Q q1 s1 hs1 a ha
          obtain ⟨kb, hkb⟩ := mem_trace rl Q q1 s2 hs2 b hb
          obtain ⟨ia, ia1, ia2⟩ := r2.slot _ hka
          obtain ⟨ib, ib1, ib2⟩ := r2.slot _ hkb
          have hne : ia ≠ ib := by
            intro hc
            rw [hc, ib2] at ia2
            exact hab ia2.symm
          omega
        · exfalso
          obtain ⟨k, src, h1, h2, -⟩ := (mem_rest_start rl (kv, t)).mp (q1.subset g2)
          exact hnone src (List.getElem?_mem h1) kv h2 htomb
      · exact ⟨e'.j, hpos, le_refl _, by simp [hload, htomb]⟩

set_option maxRecDepth 100000 in
/-- Claim C8 at the sources `[(1, 10), (3, 30)]` and `[(3, 31), (4, 40)]`
merged at the terminal level into a fresh run of four slots. -/
theorem addRuns_output_strictly_sorted_witness :
    Sources sampleSources ∧ Receives sampleSources sampleDest true ∧
      ∃ lvl' out, sampleLevel.addRuns sampleEnv sampleSources 4 true = some lvl' ∧
        lvl'.runs[sampleLevel._activeRun]? = some out ∧ out.StrictKeys := by
  have hs : Sources sampleSources := ⟨by decide, by decide, by decide⟩
  have hr : Receives sampleSources sampleDest true :=
    ⟨by decide, by decide, by decide, by decide, by decide, by decide, by decide⟩
  have h := addRuns_output_strictly_sorted sampleEnv sampleLevel sampleSources 4 true hs
  obtain ⟨lvl', hl⟩ := h.2 sampleDest (by decide) hr
  obtain ⟨out, ho1, ho2⟩ := h.1 lvl' hl
  exact ⟨hs, hr, lvl', out, hl, ho1, ho2⟩

end DiskLevel

/-! ## The lookup of a disk level -/

namespace BloomFilter

theorem Holds.bits {E : Env} {bf : BloomFilter} {x : Int} (h : bf.Holds E x) :
    0 < bf.m_bits.length ∨ bf.m_numHashes = 0 := by
  by_cases h0 : bf.m_numHashes = 0
  · exact Or.inr h0
  · obtain ⟨i, hi, -⟩ := h 0 (Nat.pos_of_ne_zero h0)
    have := nthHash_lt hi
    exact Or.inl (by omega)

theorem mayContainLoop_total (hA hB : Nat) (bits : List Bool) (hb : 0 < bits.length) :
    ∀ (fuel n : Nat), ∃ b, mayContainLoop hA hB bits fuel n = some b := by
  intro fuel
  induction fuel with
  | zero => intro n; exact ⟨true, rfl⟩
  | succ f ih =>
    intro n
    simp only [mayContainLoop, nthHash, if_neg (Nat.pos_iff_ne_zero.mp hb)]
    have hlt : ((hA + n * hB % 2 ^ 64) % 2 ^ 64) % bits.length < bits.length := Nat.mod_lt _ hb
    rw [List.getElem?_eq_getElem hlt]
    simp only
    split
    · exact ih _
    · exact ⟨false, rfl⟩

/-- The member `mayContain` returns on a filter that has a bit or makes no hash round. -/
theorem mayContain_total (E : Env) (bf : BloomFilter) (key : Int)
    (h : 0 < bf.m_bits.length ∨ bf.m_numHashes = 0) : ∃ b, bf.mayContain E key = some b := by
  unfold mayContain
  rcases h with h | h
  · exact mayContainLoop_total _ _ _ h _ _
  · rw [h]; exact ⟨true, rfl⟩

end BloomFilter

namespace DiskRun

theorem constructIndexLoop_bloom (E : Env) (map : List KVPair) (ps : Nat) :
    ∀ (fuel j : Nat) (bf : BloomFilter) (fps : List Int) (iMax : Nat)
      (res : BloomFilter × List Int × Nat),
    constructIndexLoop E map ps fuel j bf fps iMax = some res →
    (∀ x, bf.Holds E x → res.1.Holds E x) ∧
      ∀ i kv, j ≤ i → i < j + fuel → map[i]? = some kv → res.1.Holds E kv.key := by
  intro fuel
  induction fuel with
  | zero =>
    intro j bf fps iMax res h
    simp only [constructIndexLoop, Option.some.injEq] at h
    subst h
    exact ⟨fun _ hx => hx, fun i kv h1 h2 => by omega⟩
  | succ f ih =>
    intro j bf fps iMax res h
    simp only [constructIndexLoop] at h
    split at h
    · exact absurd h (by simp)
    · rename_i kv0 hkv0
      split at h
      · exact absurd h (by simp)
      · rename_i bf1 hadd
        split at h
        · exact absurd h (by simp)
        · have hrest : ∃ fps1 iMax1, constructIndexLoop E map ps f (j + 1) bf1 fps1 iMax1
              = some res := by
            split at h
            · exact ⟨_, _, h⟩
            · exact ⟨_, _, h⟩
          obtain ⟨fps1, iMax1, hloop⟩ := hrest
          obtain ⟨k1, k2⟩ := ih (j + 1) bf1 fps1 iMax1 res hloop
          refine ⟨fun x hx => k1 x (BloomFilter.add_keeps E bf bf1 x kv0.key hadd hx), ?_⟩
          intro i kv h1 h2 hget
          by_cases hij : i = j
          · subst hij
            rw [hkv0] at hget
            rw [← Option.some.inj hget]
            exact k1 _ (BloomFilter.add_holds E bf bf1 kv0.key hadd)
          · exact k2 i kv (by omega) (by omega) hget

/-- The filter of a run that `constructIndex` has finished holds the key of
every pair in use. -/
theorem constructIndex_bloom (E : Env) (r0 r : DiskRun) (h : r0.constructIndex E = some r) :
    ∀ kv ∈ r.entries, r.bf.Holds E kv.key := by
  obtain ⟨hm, hc⟩ := constructIndex_keeps E r0 r h
  unfold constructIndex at h
  split at h
  · exact absurd h (by simp)
  · split at h
    · exact absurd h (by simp)
    · rename_i bf fps iMax hloop
      have hb := (constructIndexLoop_bloom E _ _ _ _ _ _ _ _ hloop).2
      split at h
      · simp only [Option.some.injEq] at h
        intro kv hkv
        obtain ⟨i, hi1, hi2⟩ := (mem_entries r kv).mp hkv
        rw [hc] at hi1
        rw [hm] at hi2
        have := hb i kv (Nat.zero_le _) (by omega) hi2
        rw [← h]
        exact this
      · exact absurd h (by simp)

/-- The keys of an indexed run with strictly increasing keys lie between
`minKey` and `maxKey`. -/
theorem Indexed.key_within {r : DiskRun} (hi : r.Indexed) (hs : r.StrictKeys) (kv : KVPair)
    (hkv : kv ∈ r.entries) : r.minKey ≤ kv.key ∧ kv.key ≤ r.maxKey := by
  obtain ⟨i, hi1, hi2⟩ := (mem_entries r kv).mp hkv
  obtain ⟨kv0, g1, g2⟩ := hi.minKey
  obtain ⟨kvL, g3, g4⟩ := hi.maxKey
  have hcap := hi.cap_pos
  have e0 : r.entries[0]? = some kv0 := (entries_getElem? r 0 kv0).mpr ⟨hcap, g1⟩
  have eL : r.entries[r._capacity - 1]? = some kvL :=
    (entries_getElem? r _ kvL).mpr ⟨by omega, g3⟩
  have ei : r.entries[i]? = some kv := (entries_getElem? r i kv).mpr ⟨hi1, hi2⟩
  constructor
  · rw [g2]
    rcases Nat.eq_zero_or_pos i with h | h
    · rw [h, e0] at ei
      rw [Option.some.inj ei]
    · exact le_of_lt (DiskLevel.pairwise_getElem? hs h e0 ei)
  · rw [g4]
    rcases Nat.lt_or_ge i (r._capacity - 1) with h | h
    · exact le_of_lt (DiskLevel.pairwise_getElem? hs h ei eL)
    · have : i = r._capacity - 1 := by omega
      rw [this, eL] at ei
      rw [Option.some.inj ei]

/-- What the lookups of a level use of a run that `constructIndex` has finished. -/
theorem Built.facts {E : Env} {r : DiskRun} (hb : r.Built E) :
    r.Indexed ∧ (∀ kv ∈ r.entries, r.bf.Holds E kv.key) ∧
      (0 < r.bf.m_bits.length ∨ r.bf.m_numHashes = 0) := by
  obtain ⟨r0, h1, h2, h3⟩ := hb
  obtain ⟨hidx, -, -, -⟩ := constructIndex_indexed E r0 r h1 (by omega) h3
  have hbl := constructIndex_bloom E r0 r h3
  refine ⟨hidx, hbl, ?_⟩
  obtain ⟨kv0, g1, -⟩ := hidx.minKey
  have hmem : kv0 ∈ r.entries := (mem_entries r kv0).mpr ⟨0, hidx.cap_pos, g1⟩
  exact (hbl kv0 hmem).bits

end DiskRun

namespace DiskLevel

/-- One round of the loop of `lookup` on a run that `constructIndex` has
finished, for a key above `INT_MIN`: a run holding the key ends the loop with
its value, any other run is passed over. -/
theorem lookupLoop_step (E : Env) (runs : List DiskRun) (key : Int) (hkey : INT_MIN < key)
    (n : Nat) (r : DiskRun) (hr : runs[n]? = some r) (hb : r.Built E) (hs : r.StrictKeys) :
    (∀ v, (⟨key, v⟩ : KVPair) ∈ r.entries → lookupLoop E runs key (n + 1) false = some (v, true)) ∧
      ((∀ v, (⟨key, v⟩ : KVPair) ∉ r.entries) →
        lookupLoop E runs key (n + 1) false = lookupLoop E runs key n false) := by
  obtain ⟨hidx, hbl, hbits⟩ := hb.facts
  constructor
  · intro v hv
    obtain ⟨w1, w2⟩ := hidx.key_within hs _ hv
    simp only at w1 w2
    have hguard : ¬ (r.maxKey = INT_MIN ∨ key < r.minKey ∨ key > r.maxKey) := by omega
    have hmc := BloomFilter.mayContain_of_holds E r.bf key (hbl _ hv)
    have hl := (DiskRun.lookup_indexed r hidx hs key w1 w2).1 v hv
    simp only [lookupLoop, hr, if_neg hguard, hmc, hl, if_true]
  · intro hno
    simp only [lookupLoop, hr]
    by_cases hguard : r.maxKey = INT_MIN ∨ key < r.minKey ∨ key > r.maxKey
    · rw [if_pos hguard]
    · rw [if_neg hguard]
      obtain ⟨b, hmc⟩ := BloomFilter.mayContain_total E r.bf key hbits
      rw [hmc]
      cases b with
      | false => rfl
      | true =>
        simp only
        have hl := (DiskRun.lookup_indexed r hidx hs key (by omega) (by omega)).2 hno
        rw [hl]
        simp

/-- The loop of `lookup` over the runs `n - 1, ..., 0`, all finished by
`constructIndex` and with strictly increasing keys, for a key above `INT_MIN`. -/
theorem lookupLoop_newest (E : Env) (runs : List DiskRun) (key : Int) (hkey : INT_MIN < key) :
    ∀ n : Nat, (∀ i, i < n → ∃ r, runs[i]? = some r ∧ r.Built E ∧ r.StrictKeys) →
      (∀ (i : Nat) (r : DiskRun) (v : Int), i < n → runs[i]? = some r →
        (⟨key, v⟩ : KVPair) ∈ r.entries →
        (∀ (i2 : Nat) (r2 : DiskRun), i < i2 → i2 < n → runs[i2]? = some r2 →
          ∀ v2, (⟨key, v2⟩ : KVPair) ∉ r2.entries) →
        lookupLoop E runs key n false = some (v, true)) ∧
      ((∀ (i : Nat) (r : DiskRun), i < n → runs[i]? = some r →
          ∀ v, (⟨key, v⟩ : KVPair) ∉ r.entries) →
        lookupLoop E runs key n false = some (0, false)) := by
  intro n
  induction n with
  | zero =>
    intro _
    exact ⟨fun i r v hi => absurd hi (Nat.not_lt_zero _), fun _ => rfl⟩
  | succ n ih =>
    intro hruns
    obtain ⟨r, hr, hb, hs⟩ := hruns n (Nat.lt_succ_self n)
    obtain ⟨st1, st2⟩ := lookupLoop_step E runs key hkey n r hr hb hs
    obtain ⟨ih1, ih2⟩ := ih (fun i hi => hruns i (by omega))
    constructor
    · intro i ri v hi hri hv hnew
      by_cases hin : i = n
      · subst hin
        rw [hr] at hri
        rw [Option.some.inj hri] at st1
        exact st1 v hv
      · rw [st2 (fun v2 => hnew n r (by omega) (Nat.lt_succ_self n) hr v2)]
        exact ih1 i ri v (by omega) hri hv
          (fun i2 r2 h1 h2 h3 => hnew i2 r2 h1 (by omega) h3)
    · intro hno
      rw [st2 (fun v2 => hno n r (Nat.lt_succ_self n) hr v2)]
      exact ih2 (fun i ri hi hri => hno i ri (by omega) hri)

/-- Claim C11 (amended), the lookup of a disk level is newest-first. For a
level whose occupied runs were finished by `constructIndex` and have strictly
increasing keys, and a key above `INT_MIN`: `lookup(key, found)` with `found`
false returns the value of the key in the occupied run of highest index that
holds it, a tombstone as it is, and sets `found`; when no occupied run holds
the key it returns `NULL` and leaves `found` false. -/
theorem diskLevel_lookup_newest_first (E : Env) (lvl : DiskLevel) (key : Int)
    (hkey : INT_MIN < key)
    (hruns : ∀ i, i < lvl._activeRun → ∃ r, lvl.runs[i]? = some r ∧ r.Built E ∧ r.StrictKeys) :
    (∀ (i : Nat) (r : DiskRun) (v : Int), i < lvl._activeRun → lvl.runs[i]? = some r →
        (⟨key, v⟩ : KVPair) ∈ r.entries →
        (∀ (i2 : Nat) (r2 : DiskRun), i < i2 → i2 < lvl._activeRun → lvl.runs[i2]? = some r2 →
          ∀ v2, (⟨key, v2⟩ : KVPair) ∉ r2.entries) →
        lvl.lookup E key false = some (v, true)) ∧
      ((∀ (i : Nat) (r : DiskRun), i < lvl._activeRun → lvl.runs[i]? = some r →
          ∀ v, (⟨key, v⟩ : KVPair) ∉ r.entries) →
        lvl.lookup E key false = some (0, false)) := by
  have hn : (if lvl.levelFull then lvl._numRuns else lvl._activeRun) = lvl._activeRun := by
    unfold levelFull
    split
    · rename_i h
      exact (of_decide_eq_true h).symm
    · rfl
  unfold lookup
  rw [hn]
  exact lookupLoop_newest E lvl.runs key hkey lvl._activeRun hruns

end DiskLevel

namespace DiskLevel

set_option maxRecDepth 100000 in
/-- Claim C11 at a level with the runs `[(1, 10), (3, 30)]` and
`[(3, 31), (4, 40)]`: `lookup(3)` returns `31`, the value in the newer run. -/
theorem diskLevel_lookup_newest_first_witness :
    INT_MIN < (3 : Int) ∧ sampleFullLevel.lookup sampleEnv 3 false = some (31, true) ∧
      sampleFullLevel.lookup sampleEnv 2 false = some (0, false) ∧
      ((∀ (i : Nat) (r : DiskRun) (v : Int), i < sampleFullLevel._activeRun →
          sampleFullLevel.runs[i]? = some r → (⟨3, v⟩ : KVPair) ∈ r.entries →
          (∀ (i2 : Nat) (r2 : DiskRun), i < i2 → i2 < sampleFullLevel._activeRun →
            sampleFullLevel.runs[i2]? = some r2 → ∀ v2, (⟨3, v2⟩ : KVPair) ∉ r2.entries) →
          sampleFullLevel.lookup sampleEnv 3 false = some (v, true)) ∧
        ((∀ (i : Nat) (r : DiskRun), i < sampleFullLevel._activeRun →
            sampleFullLevel.runs[i]? = some r → ∀ v, (⟨3, v⟩ : KVPair) ∉ r.entries) →
          sampleFullLevel.lookup sampleEnv 3 false = some (0, false))) := by
  refine ⟨by decide, by decide, by decide,
    diskLevel_lookup_newest_first sampleEnv sampleFullLevel 3 (by decide) ?_⟩
  intro i hi
  have hi2 : i < 2 := hi
  rcases (by omega : i = 0 ∨ i = 1) with h | h
  · subst h
    exact ⟨(sampleFullLevel.runs[0]?).get (by decide), (Option.some_get _).symm,
      ⟨(sampleSources[0]?).get (by decide), by decide, by decide, by decide⟩,
      by unfold DiskRun.StrictKeys; decide⟩
  · subst h
    exact ⟨(sampleFullLevel.runs[1]?).get (by decide), (Option.some_get _).symm,
      ⟨(sampleSources[1]?).get (by decide), by decide, by decide, by decide⟩,
      by unfold DiskRun.StrictKeys; decide⟩

set_option maxRecDepth 100000 in
/-- Claim C11 as stated fails for the key `INT_MIN`: a level whose only
occupied run holds the single pair `(INT_MIN, 7)`, written by `addRunByArray`,
has `maxKey = INT_MIN`, the loop of `lookup` passes over every run with that
`maxKey`, and `lookup(INT_MIN)` leaves `found` false. -/
theorem diskLevel_lookup_misses_min_key :
    ((DiskLevel.new sampleEnv 1 1 1 1 1).bind
        (fun l => l.addRunByArray sampleEnv [⟨INT_MIN, 7⟩] 1)).map
      (fun l => ((l.runs.take l._activeRun).map DiskRun.entries,
        (l.runs.take l._activeRun).map (fun r => r.maxKey), l.lookup sampleEnv INT_MIN false))
      = some ([[⟨INT_MIN, 7⟩]], [INT_MIN], some (0, false)) := by
  decide

end DiskLevel

/-! ## The number of pairs of a merged run -/

namespace DiskLevel

/-- A write of the loop of `addRuns`, at any level: the file and `j` stay as
they were, or the pair goes to slot `j` of the new state, which is the old `j`
or the one after it. -/
theorem emitPair_cases (lastLevel : Bool) (e e1 : EmitState) (x : KVIntPair)
    (h : emitPair lastLevel e x = some e1) :
    (e1.j = e.j ∧ e1.map = e.map) ∨
      (0 ≤ e1.j ∧ e.j ≤ e1.j ∧ e1.j ≤ e.j + 1 ∧ e1.j.toNat < e.map.length ∧
        e1.map = e.map.set e1.j.toNat x.1) := by
  unfold emitPair at h
  split at h
  · split at h
    · split at h
      · exact absurd h (by simp)
      · rename_i m hst
        obtain ⟨s1, s2, rfl⟩ := storeKV_some hst
        have he := (Option.some.inj h).symm
        subst he
        exact Or.inr ⟨s1, le_refl _, by dsimp only; omega, s2, rfl⟩
    · have he := (Option.some.inj h).symm
      subst he
      exact Or.inl ⟨rfl, rfl⟩
  · split at h
    · exact absurd h (by simp)
    · rename_i back hback
      split at h
      · exact absurd h (by simp)
      · rename_i m hst
        obtain ⟨s1, s2, rfl⟩ := storeKV_some hst
        have he := (Option.some.inj h).symm
        subst he
        cases back with
        | true =>
          simp only [if_true] at s1 s2
          exact Or.inr ⟨by simpa using s1, by simp, by simp, by simpa using s2, by simp⟩
        | false =>
          simp only [Bool.false_eq_true, if_false] at s1 s2
          exact Or.inr ⟨by simpa using s1, by simp, by simp, by simpa using s2, by simp⟩

/-- The writes of the loop of `addRuns`, at any level and on any destination:
every slot up to `j` holds the key of a pair popped, and `j` has moved by at
most one per pair. -/
theorem emitAll_keys (lastLevel : Bool) : ∀ (Q : List KVIntPair) (e e' : EmitState)
    (D : List KVIntPair), emitAll lastLevel e Q = some e' →
    (∀ i : Nat, (i : Int) ≤ e.j → ∃ d ∈ D, DiskRun.keyAt e.map i = d.1.key) →
    (∀ i : Nat, (i : Int) ≤ e'.j → ∃ d ∈ D ++ Q, DiskRun.keyAt e'.map i = d.1.key) ∧
      e'.j ≤ e.j + Q.length := by
  intro Q
  induction Q with
  | nil =>
    intro e e' D h hk
    simp only [emitAll, Option.some.injEq] at h
    subst h
    exact ⟨by simpa using hk, by simp⟩
  | cons x Q ih =>
    intro e e' D h hk
    simp only [emitAll] at h
    split at h
    · exact absurd h (by simp)
    · rename_i e1 h1
      have hstep : ∀ i : Nat, (i : Int) ≤ e1.j →
          ∃ d ∈ D ++ [x], DiskRun.keyAt e1.map i = d.1.key := by
        intro i hi
        rcases emitPair_cases lastLevel e e1 x h1 with ⟨c1, c2⟩ | ⟨c1, c2, c3, c4, c5⟩
        · obtain ⟨d, hd, hkd⟩ := hk i (by omega)
          exact ⟨d, List.mem_append_left _ hd, by rw [c2]; exact hkd⟩
        · by_cases hit : e1.j.toNat = i
          · refine ⟨x, List.mem_append_right _ (List.mem_singleton_self x), ?_⟩
            rw [c5, ← hit]
            exact keyAt_set_self _ _ _ c4
          · obtain ⟨d, hd, hkd⟩ := hk i (by omega)
            refine ⟨d, List.mem_append_left _ hd, ?_⟩
            rw [c5, keyAt_set_ne _ _ _ _ hit]
            exact hkd
      have hj1 : e1.j ≤ e.j + 1 := by
        rcases emitPair_cases lastLevel e e1 x h1 with ⟨c1, -⟩ | ⟨-, -, c3, -, -⟩ <;> omega
      obtain ⟨r1, r2⟩ := ih e1 e' (D ++ [x]) h hstep
      refine ⟨?_, by simp only [List.length_cons, Nat.cast_add, Nat.cast_one]; omega⟩
      have : D ++ x :: Q = D ++ [x] ++ Q := by simp
      rw [this]
      exact r1

/-- Slots with strictly increasing keys, all of them keys of `Q`, are at most
as many as the different keys of `Q`. -/
theorem slots_le_distinct (e : EmitState) (hok : e.OK) (Q : List KVIntPair)
    (hk : ∀ i : Nat, (i : Int) ≤ e.j → ∃ d ∈ Q, DiskRun.keyAt e.map i = d.1.key) :
    (e.j + 1).toNat ≤ ((Q.map (fun d => d.1.key)).dedup).length := by
  have hnd : ((List.range (e.j + 1).toNat).map (DiskRun.keyAt e.map)).Nodup := by
    unfold List.Nodup
    rw [List.pairwise_map]
    apply List.Pairwise.imp_of_mem _ (List.pairwise_lt_range _)
    intro a b ha hb hab
    rw [List.mem_range] at hb
    exact ne_of_lt (hok.sorted a b hab (by omega))
  have hsub : ((List.range (e.j + 1).toNat).map (DiskRun.keyAt e.map)) ⊆
      (Q.map (fun d => d.1.key)).dedup := by
    intro k hkm
    obtain ⟨i, hi, rfl⟩ := List.mem_map.mp hkm
    rw [List.mem_range] at hi
    obtain ⟨d, hd, hkd⟩ := hk i (by omega)
    rw [List.mem_dedup, hkd]
    exact List.mem_map.mpr ⟨d, hd, rfl⟩
  have := (List.subperm_of_subset hnd hsub).length_le
  simpa using this

theorem dedup_length_lt {α : Type} [DecidableEq α] (l : List α) (h : ¬ l.Nodup) :
    l.dedup.length < l.length := by
  rcases Nat.lt_or_ge l.dedup.length l.length with h1 | h1
  · exact h1
  · exfalso
    have hle := (List.dedup_sublist l).length_le
    have := (List.dedup_sublist l).eq_of_length (by omega)
    rw [← this] at h
    exact h (List.nodup_dedup l)

theorem sum_le_mul (rl : List DiskRun) (N : Nat) (h : ∀ src ∈ rl, src._capacity ≤ N) :
    (rl.map (fun r => r._capacity)).sum ≤ rl.length * N := by
  induction rl with
  | nil => simp
  | cons r rs ih =>
    have h1 := h r (List.mem_cons_self _ _)
    have h2 := ih (fun src hs => h src (List.mem_cons_of_mem _ hs))
    simp only [List.map_cons, List.sum_cons, List.length_cons, Nat.succ_mul]
    omega

/-- The member `addRuns` returns on a destination that can take the merge. -/
theorem addRuns_returns (E : Env) (lvl : DiskLevel) (rl : List DiskRun) (runLen : Nat)
    (lastLevel : Bool) (hsrc : Sources rl) (dst : DiskRun)
    (hdst : lvl.runs[lvl._activeRun]? = some dst) (hrec : Receives rl dst lastLevel) :
    ∃ lvl', lvl.addRuns E rl runLen lastLevel = some lvl' := by
  obtain ⟨Q, q1, q2, q3, q4⟩ := addRuns_trace rl lastLevel hsrc
  rw [q4, hdst]
  simp only
  obtain ⟨e', r1, r2, r3⟩ :=
    emitAll_receives False rl dst lastLevel hsrc hrec Q q1 q2 (fun h => False.elim h)
  have hpos := r2.pos
  cases lastLevel with
  | false =>
    rw [r1]
    exact closeRun_total E lvl rl dst false hrec e' r2.ok r3 ⟨e'.j, hpos, le_refl _, by simp⟩
  | true =>
    have hagree := emitAll_terminal Q
      { map := dst.map, j := -1, lastKey := INT_MAX, lastk := toUnsigned INT_MIN } (le_refl _)
      (fun i kv _ hget => hrec.fresh rfl kv (List.getElem?_mem hget))
    rw [hagree, r1]
    have hJ : (e'.j.toNat : Int) = e'.j := Int.toNat_of_nonneg hpos
    obtain ⟨kv, t, g1, g2⟩ := r2.fromD e'.j.toNat (by omega)
    have hload : loadKV e'.map e'.j = some kv := by
      unfold loadKV
      rw [if_pos hpos, g1]
    apply closeRun_total E lvl rl dst true hrec e' r2.ok r3
    by_cases htomb : kv.value = V_TOMBSTONE
    · refine ⟨e'.j - 1, ?_, by omega, by simp [hload, htomb]⟩
      rcases hrec.kept rfl with ⟨s1, hs1, s2, hs2, a, ha, b, hb, hab⟩ | hnone
      · obtain ⟨ka, hka⟩ := mem_trace rl Q q1 s1 hs1 a ha
        obtain ⟨kb, hkb⟩ := mem_trace rl Q q1 s2 hs2 b hb
        obtain ⟨ia, ia1, ia2⟩ := r2.slot _ hka
        obtain ⟨ib, ib1, ib2⟩ := r2.slot _ hkb
        have hne : ia ≠ ib := by
          intro hc
          rw [hc, ib2] at ia2
          exact hab ia2.symm
        omega
      · exfalso
        obtain ⟨k, src, h1, h2, -⟩ := (mem_rest_start rl (kv, t)).mp (q1.subset g2)
        exact hnone src (List.getElem?_mem h1) kv h2 htomb
    · exact ⟨e'.j, hpos, le_refl _, by simp [hload, htomb]⟩

/-- Claim C13, the count bound of a merge. For sources that are not empty and
sorted by key, at any level: the run that `addRuns` writes has a capacity of
at most the sum of the capacities of the sources, hence at most `M * N` for
`M` sources of capacity at most `N`, and of less than the sum when two sources
hold the same key; and `addRuns` does write a run when the destination can
take the merge. -/
theorem addRuns_capacity_bound (E : Env) (lvl : DiskLevel) (rl : List DiskRun) (runLen : Nat)
    (lastLevel : Bool) (hsrc : Sources rl) :
    (∀ lvl', lvl.addRuns E rl runLen lastLevel = some lvl' →
      ∃ out, lvl'.runs[lvl._activeRun]? = some out ∧
        out._capacity ≤ (rl.map (fun r => r._capacity)).sum ∧
        (∀ N, (∀ src ∈ rl, src._capacity ≤ N) → out._capacity ≤ rl.length * N) ∧
        ((∃ (i1 i2 : Nat) (s1 s2 : DiskRun) (a b : KVPair), i1 ≠ i2 ∧ rl[i1]? = some s1 ∧
            rl[i2]? = some s2 ∧ a ∈ s1.entries ∧ b ∈ s2.entries ∧ a.key = b.key) →
          out._capacity < (rl.map (fun r => r._capacity)).sum)) ∧
    (∀ dst, lvl.runs[lvl._activeRun]? = some dst → Receives rl dst lastLevel →
      ∃ lvl', lvl.addRuns E rl runLen lastLevel = some lvl') := by
  refine ⟨?_, fun dst hdst hrec => addRuns_returns E lvl rl runLen lastLevel hsrc dst hdst hrec⟩
  obtain ⟨Q, q1, q2, q3, q4⟩ := addRuns_trace rl lastLevel hsrc
  intro lvl' h
  rw [q4] at h
  cases hdst : lvl.runs[lvl._activeRun]? with
  | none => rw [hdst] at h; exact absurd h (by simp)
  | some dst =>
    rw [hdst] at h
    simp only at h
    cases hem : emitAll lastLevel
        { map := dst.map, j := -1, lastKey := INT_MAX, lastk := toUnsigned INT_MIN } Q with
    | none => rw [hem] at h; exact absurd h (by simp)
    | some e =>
      rw [hem] at h
      simp only at h
      have e0ok : EmitState.OK
          { map := dst.map, j := -1, lastKey := INT_MAX, lastk := toUnsigned INT_MIN } :=
        ⟨le_refl _, by simp only; omega, fun a b _ hb => by simp only at hb; omega,
          fun h0 => by simp only at h0; omega⟩
      obtain ⟨ok, -⟩ := emitAll_OK lastLevel Q _ e hem e0ok q2
        (fun x _ h0 => by simp only at h0; omega)
      obtain ⟨hk, -⟩ := emitAll_keys lastLevel Q _ e [] hem
        (fun i hi => by simp only at hi; omega)
      simp only [List.nil_append] at hk
      obtain ⟨j, out, j1, -, o1, o2, o3⟩ := closeRun_some E lvl lvl' dst lastLevel e hdst h
      have hslots := slots_le_distinct e ok Q hk
      have hdd := (List.dedup_sublist (Q.map (fun d => d.1.key))).length_le
      have hQ : Q.length ≤ (rl.map (fun r => r._capacity)).sum := by
        rw [q1.length_eq]
        exact restFrom_length_le rl _ 0
      have hcap : out._capacity ≤ (e.j + 1).toNat := by rw [o3]; omega
      simp only [List.length_map] at hdd
      refine ⟨out, o1, by omega, ?_, ?_⟩
      · intro N hN
        have := sum_le_mul rl N hN
        omega
      · rintro ⟨i1, i2, s1, s2, a, b, hne, g1, g2, g3, g4, g5⟩
        have ha : (a, (i1 : Int)) ∈ Q :=
          q1.symm.subset ((mem_rest_start rl _).mpr ⟨i1, s1, g1, g3, rfl⟩)
        have hb : (b, (i2 : Int)) ∈ Q :=
          q1.symm.subset ((mem_rest_start rl _).mpr ⟨i2, s2, g2, g4, rfl⟩)
        have hnn : ¬ (Q.map (fun d => d.1.key)).Nodup := by
          intro hn
          have := List.inj_on_of_nodup_map hn ha hb g5
          have h2 : (i1 : Int) = (i2 : Int) := congrArg Prod.snd this
          omega
        have := dedup_length_lt _ hnn
        simp only [List.length_map] at this
        omega

set_option maxRecDepth 100000 in
/-- Claim C13 at the sources `[(1, 10), (3, 30)]` and `[(3, 31), (4, 40)]`,
which share key `3`: the run written has three pairs, fewer than four. -/
theorem addRuns_capacity_bound_witness :
    Sources sampleSources ∧
      ((sampleLevel.addRuns sampleEnv sampleSources 4 false).bind
        (fun l => l.runs[sampleLevel._activeRun]?.map DiskRun.getCapacity)) = some 3 ∧
      ((∀ lvl', sampleLevel.addRuns sampleEnv sampleSources 4 false = some lvl' →
        ∃ out, lvl'.runs[sampleLevel._activeRun]? = some out ∧
          out._capacity ≤ (sampleSources.map (fun r => r._capacity)).sum ∧
          (∀ N, (∀ src ∈ sampleSources, src._capacity ≤ N) →
            out._capacity ≤ sampleSources.length * N) ∧
          ((∃ (i1 i2 : Nat) (s1 s2 : DiskRun) (a b : KVPair), i1 ≠ i2 ∧
              sampleSources[i1]? = some s1 ∧ sampleSources[i2]? = some s2 ∧
              a ∈ s1.entries ∧ b ∈ s2.entries ∧ a.key = b.key) →
            out._capacity < (sampleSources.map (fun r => r._capacity)).sum)) ∧
      (∀ dst, sampleLevel.runs[sampleLevel._activeRun]? = some dst →
        Receives sampleSources dst false →
        ∃ lvl', sampleLevel.addRuns sampleEnv sampleSources 4 false = some lvl')) :=
  ⟨⟨by decide, by decide, by decide⟩, by decide,
    addRuns_capacity_bound sampleEnv sampleLevel sampleSources 4 false
      ⟨by decide, by decide, by decide⟩⟩

end DiskLevel

/-! ## The claims on the store -/

namespace LSM

/-- Claim C16, out-of-order range. For every store and every `lo`, `hi` with
`hi ≤ lo`, `range(lo, hi)` returns the empty list: the first statement of
`range` returns before the store is read. The call writes neither the
in-memory runs nor the disk levels at any input, which is why `range` takes
the store and yields no new one. -/
theorem range_out_of_order_empty (s : LSM) (lo hi : Int) (h : hi ≤ lo) : s.range lo hi = some [] := by
  unfold range
  rw [if_pos h]

set_option maxRecDepth 100000 in
/-- Claim C16 at the store holding `(1, 1)`, `(2, 2)` on disk and `(3, 3)` in
memory: `range(3, 1)` and `range(2, 2)` are empty, `range(1, 4)` is not. -/
theorem range_out_of_order_empty_witness :
    ∃ s, sampleStore.bind (fun s0 => s0.insertAll sampleEnv [(1, 1, 0), (2, 2, 0), (3, 3, 0)])
        = some s ∧ (1 : Int) ≤ 3 ∧ s.range 3 1 = some [] ∧ s.range 2 2 = some [] ∧
      s.range 1 4 = some [⟨3, 3⟩, ⟨1, 1⟩, ⟨2, 2⟩] :=
  ⟨(sampleStore.bind (fun s0 =>
      s0.insertAll sampleEnv [(1, 1, 0), (2, 2, 0), (3, 3, 0)])).get (by decide),
    (Option.some_get _).symm, by decide, range_out_of_order_empty _ 3 1 (by decide), by decide,
    by decide⟩

end LSM

namespace SkipList

/-- The call `insert_key(key, value)` with a key that the list does not hold:
one more node, and `get_all` gains the pair. -/
theorem insert_key_fresh (s : SkipList) (hwf : s.WF) (key value lvl : Int)
    (hk : key < s._maxKey) (hno : ∀ nd ∈ s.nodes, nd.key ≠ key) :
    ∃ s', s.insert_key key value lvl = some s' ∧ s'.WF ∧ s'._maxKey = s._maxKey ∧
      s'.nodes.length = s.nodes.length + 1 ∧
      s'.get_all.Perm ((⟨key, value⟩ : KVPair) :: s.get_all) := by
  obtain ⟨s', nd, e1, e2, e3, e4, e5⟩ := insert_key_nodes s hwf key value lvl hk
  have hwf1 : s'.WF := (insert_key_spec s s' key value lvl hwf e1).1
  have hne : ∀ c, s.nodes[rank key s.nodes]? = some c → c.key ≠ key :=
    fun c hc => hno c (List.getElem?_mem hc)
  rw [filter_lt_take key s.nodes hwf.sorted, filter_gt_drop key s.nodes hwf.sorted hne] at e4
  have hsplit : s.nodes.take (rank key s.nodes) ++ s.nodes.drop (rank key s.nodes) = s.nodes :=
    List.take_append_drop _ _
  refine ⟨s', e1, hwf1, e5, ?_, ?_⟩
  · rw [e4]
    have := congrArg List.length hsplit
    simp only [List.length_append, List.length_cons] at this ⊢
    omega
  · unfold get_all
    rw [e4]
    have hnd : (⟨nd.key, nd.value⟩ : KVPair) = ⟨key, value⟩ := by rw [e2, e3]
    simp only [List.map_append, List.map_cons, hnd]
    refine List.perm_middle.trans (List.Perm.cons _ ?_)
    rw [← List.map_append, hsplit]

end SkipList

namespace LSM

theorem flatten_set_perm {α : Type} : ∀ (l : List (List α)) (a : Nat) (y y2 : List α) (x : α),
    l[a]? = some y → y2.Perm (x :: y) → (l.set a y2).flatten.Perm (x :: l.flatten) := by
  intro l
  induction l with
  | nil => intro a y y2 x h; simp at h
  | cons z rest ih =>
    intro a y y2 x h hp
    cases a with
    | zero =>
      simp only [List.getElem?_cons_zero, Option.some.injEq] at h
      subst h
      simp only [List.set_cons_zero, List.flatten_cons]
      exact (List.Perm.append_right _ hp)
    | succ a =>
      simp only [List.getElem?_cons_succ] at h
      simp only [List.set_cons_succ, List.flatten_cons]
      exact (List.Perm.append_left _ (ih a y y2 x h hp)).trans List.perm_middle

theorem gatherRuns_perm : ∀ (runs : List SkipList) (acc : List KVPair),
    (gatherRuns runs acc).Perm ((runs.map SkipList.get_all).flatten ++ acc) := by
  intro runs
  induction runs with
  | nil => intro acc; simp [gatherRuns]
  | cons r rest ih =>
    intro acc
    simp only [gatherRuns, List.map_cons, List.flatten_cons]
    refine (ih (r.get_all ++ acc)).trans ?_
    rw [← List.append_assoc]
    exact List.Perm.append_right _ List.perm_append_comm

theorem sortKV_perm (l : List KVPair) : (sortKV l).Perm l :=
  List.perm_insertionSort _ l

/-- The call of `sort` on pairs with different keys leaves strictly increasing keys. -/
theorem sortKV_strict (l : List KVPair) (hnd : (l.map (fun kv => kv.key)).Nodup) :
    (sortKV l).Pairwise (fun a b => a.key < b.key) := by
  haveI : IsTotal KVPair (fun a b => a.key ≤ b.key) := ⟨fun a b => le_total a.key b.key⟩
  haveI : IsTrans KVPair (fun a b => a.key ≤ b.key) := ⟨fun a b c h1 h2 => le_trans h1 h2⟩
  have hs : (sortKV l).Pairwise (fun a b => a.key ≤ b.key) :=
    List.sorted_insertionSort (fun a b : KVPair => a.key ≤ b.key) l
  have hnd2 : ((sortKV l).map (fun kv => kv.key)).Nodup :=
    ((sortKV_perm l).map _).nodup_iff.mpr hnd
  unfold List.Nodup at hnd2
  rw [List.pairwise_map] at hnd2
  exact (hs.and hnd2).imp (fun h => lt_of_le_of_ne h.1 h.2)

end LSM
namespace LSM

theorem getElem?_some_of_lt {α : Type} (l : List α) (i : Nat) (h : i < l.length) :
    ∃ x, l[i]? = some x := ⟨l[i], List.getElem?_eq_getElem h⟩

/-- The first statement of `insert_key` on a store that has room: the active
run afterwards has a free place. -/
theorem Filling.advance {e r : Nat} {s : LSM} {done : List (Int × Int × Int)}
    (hF : s.Filling e r done) (hroom : done.length < r * e) :
    ∃ s0, advanceRun s = some s0 ∧ s0.Filling e r done ∧
      (∀ run, s0.C_0[s0._activeRun]? = some run → run.nodes.length < e) ∧
      s0.diskLevels = s.diskLevels ∧ s0._numDiskLevels = s._numDiskLevels := by
  obtain ⟨run, hrun⟩ := getElem?_some_of_lt s.C_0 s._activeRun (by rw [hF.runs]; exact hF.active)
  obtain ⟨hle, hlen⟩ := hF.cur run hrun
  have hcount := (hF.wf run (List.getElem?_mem hrun)).count
  have hepos : 0 < e := by
    rcases Nat.eq_zero_or_pos e with h | h
    · subst h; simp at hroom
    · exact h
  have helts := hF.elts
  unfold advanceRun
  rw [hrun]
  simp only
  by_cases hfull : run.num_elements ≥ s._eltsPerRun
  · rw [if_pos hfull]
    have hn : run.nodes.length = e := by
      simp only [SkipList.num_elements] at hfull; omega
    have hmul : (s._activeRun + 1) * e = s._activeRun * e + e := Nat.succ_mul _ _
    have hlt : s._activeRun + 1 < r := by
      apply Nat.lt_of_mul_lt_mul_right (a := e)
      omega
    obtain ⟨run2, hrun2⟩ := getElem?_some_of_lt s.C_0 (s._activeRun + 1) (by rw [hF.runs]; exact hlt)
    have hempty := hF.rest _ run2 (Nat.lt_succ_self _) hrun2
    refine ⟨_, rfl, ⟨hF.runs, hF.filters, hF.elts, hF.numRuns, hF.toMerge, hlt, hF.wf, hF.tail,
      hF.bits, ?_, ?_, ?_, hF.content⟩, ?_, rfl, rfl⟩
    · intro i ri hi hri
      simp only at hi hri
      rcases Nat.lt_or_ge i s._activeRun with h1 | h1
      · exact hF.full i ri h1 hri
      · have : i = s._activeRun := by omega
        subst this
        rw [hrun] at hri
        simp only [Option.some.injEq] at hri
        subst hri
        exact hn
    · intro ri hri
      simp only at hri
      rw [hrun2] at hri
      simp only [Option.some.injEq] at hri
      subst hri
      rw [hempty]
      simp only [List.length_nil]
      constructor
      · omega
      · omega
    · intro i ri hi hri
      simp only at hi hri
      exact hF.rest i ri (by omega) hri
    · intro ri hri
      simp only at hri
      rw [hrun2] at hri
      simp only [Option.some.injEq] at hri
      subst hri
      rw [hempty]
      simp only [List.length_nil]
      omega
  · rw [if_neg hfull]
    refine ⟨s, rfl, hF, ?_, rfl, rfl⟩
    intro ri hri
    rw [hrun] at hri
    simp only [Option.some.injEq] at hri
    subst hri
    simp only [SkipList.num_elements] at hfull
    omega

/-- The last two statements of `insert_key` with a key that the store does not
hold yet, on a store whose active run has a free place. -/
theorem Filling.put {e r : Nat} {s : LSM} {done : List (Int × Int × Int)} (E : Env)
    (hF : s.Filling e r done)
    (hfree : ∀ run, s.C_0[s._activeRun]? = some run → run.nodes.length < e)
    (k v l : Int) (hk : k < INT_MAX) (hfresh : ∀ op ∈ done, op.1 ≠ k) :
    ∃ s', putActive E s k v l = some s' ∧ s'.Filling e r (done ++ [(k, v, l)]) ∧
      s'.diskLevels = s.diskLevels ∧ s'._numDiskLevels = s._numDiskLevels ∧
      s'._activeRun = s._activeRun := by
  have ha : s._activeRun < s.C_0.length := by rw [hF.runs]; exact hF.active
  have haf : s._activeRun < s.filters.length := by rw [hF.filters]; exact hF.active
  obtain ⟨run, hrun⟩ := getElem?_some_of_lt s.C_0 s._activeRun ha
  obtain ⟨bf, hbf⟩ := getElem?_some_of_lt s.filters s._activeRun haf
  obtain ⟨hle, hlen⟩ := hF.cur run hrun
  have hlt := hfree run hrun
  have hwf := hF.wf run (List.getElem?_mem hrun)
  have hno : ∀ nd ∈ run.nodes, nd.key ≠ k := by
    intro nd hnd
    have h1 : (⟨nd.key, nd.value⟩ : KVPair) ∈ run.get_all :=
      (SkipList.mem_get_all run nd.key nd.value).mpr ⟨nd, hnd, rfl, rfl⟩
    have h2 : (⟨nd.key, nd.value⟩ : KVPair) ∈ (s.C_0.map SkipList.get_all).flatten :=
      List.mem_flatten.mpr ⟨run.get_all, List.mem_map.mpr ⟨run, List.getElem?_mem hrun, rfl⟩, h1⟩
    have h3 := (hF.content.mem_iff).mp h2
    obtain ⟨op, hop, heq⟩ := List.mem_map.mp h3
    have : op.1 = nd.key := by
      have := congrArg KVPair.key heq
      simpa [toKV] using this
    rw [← this]
    exact hfresh op hop
  obtain ⟨run1, hins, hwf1, hmax1, hlen1, hperm1⟩ :=
    SkipList.insert_key_fresh run hwf k v l
      (by rw [hF.tail run (List.getElem?_mem hrun)]; exact hk) hno
  obtain ⟨bf1, hadd, hbl, hbh⟩ :=
    BloomFilter.add_total E bf k (hF.bits bf (List.getElem?_mem hbf))
  unfold putActive
  simp only [hrun, hbf, hins, hadd]
  refine ⟨_, rfl, ⟨?_, ?_, hF.elts, hF.numRuns, hF.toMerge, hF.active, ?_, ?_, ?_, ?_, ?_, ?_, ?_⟩,
    rfl, rfl, rfl⟩
  · simp only [List.length_set]; exact hF.runs
  · simp only [List.length_set]; exact hF.filters
  · intro ri hri
    rcases List.mem_or_eq_of_mem_set hri with h1 | h1
    · exact hF.wf ri h1
    · subst h1; exact hwf1
  · intro ri hri
    rcases List.mem_or_eq_of_mem_set hri with h1 | h1
    · exact hF.tail ri h1
    · subst h1; rw [hmax1]; exact hF.tail run (List.getElem?_mem hrun)
  · intro b hb
    rcases List.mem_or_eq_of_mem_set hb with h1 | h1
    · exact hF.bits b h1
    · subst h1
      rw [hbl, hbh]
      exact hF.bits bf (List.getElem?_mem hbf)
  · intro i ri hi hri
    simp only at hi hri
    rw [List.getElem?_set_ne (by omega)] at hri
    exact hF.full i ri hi hri
  · intro ri hri
    simp only at hri
    rw [List.getElem?_set_self ha] at hri
    simp only [Option.some.injEq] at hri
    subst hri
    rw [hlen1]
    simp only [List.length_append, List.length_cons, List.length_nil]
    constructor
    · omega
    · omega
  · intro i ri hi hri
    simp only at hi hri
    rw [List.getElem?_set_ne (by omega)] at hri
    exact hF.rest i ri hi hri
  · simp only
    rw [List.map_set]
    have h1 := flatten_set_perm (s.C_0.map SkipList.get_all) s._activeRun run.get_all
      run1.get_all ⟨k, v⟩ (by rw [List.getElem?_map, hrun]; rfl) hperm1
    refine h1.trans ?_
    rw [List.map_append]
    refine (List.Perm.cons _ hF.content).trans ?_
    simp only [List.map_cons, List.map_nil, toKV]
    exact (List.perm_append_singleton _ _).symm

/-- One `insert_key` call with a new key on a store that has room. -/
theorem Filling.step {e r : Nat} {s : LSM} {done : List (Int × Int × Int)} (E : Env)
    (hF : s.Filling e r done) (hroom : done.length < r * e)
    (k v l : Int) (hk : k < INT_MAX) (hfresh : ∀ op ∈ done, op.1 ≠ k) :
    ∃ s', s.insert_key E k v l = some s' ∧ s'.Filling e r (done ++ [(k, v, l)]) ∧
      s'.diskLevels = s.diskLevels ∧ s'._numDiskLevels = s._numDiskLevels := by
  obtain ⟨s0, h0, hF0, hfree, d1, d2⟩ := hF.advance hroom
  obtain ⟨s', h1, hF1, d3, d4, -⟩ := hF0.put E hfree k v l hk hfresh
  refine ⟨s', ?_, hF1, d3.trans d1, d4.trans d2⟩
  unfold insert_key
  rw [h0]
  simp only
  rw [if_neg (by rw [hF0.numRuns]; have := hF0.active; omega)]
  exact h1

/-- A sequence of `insert_key` calls with new keys that the store has room for. -/
theorem Filling.run {e r : Nat} (E : Env) : ∀ (ops : List (Int × Int × Int)) (s : LSM)
    (done : List (Int × Int × Int)), s.Filling e r done → done.length + ops.length ≤ r * e →
    ((done ++ ops).map (fun op => op.1)).Nodup → (∀ op ∈ ops, op.1 < INT_MAX) →
    ∃ s', s.insertAll E ops = some s' ∧ s'.Filling e r (done ++ ops) ∧
      s'.diskLevels = s.diskLevels ∧ s'._numDiskLevels = s._numDiskLevels := by
  intro ops
  induction ops with
  | nil =>
    intro s done hF _ _ _
    exact ⟨s, rfl, by rw [List.append_nil]; exact hF, rfl, rfl⟩
  | cons op rest ih =>
    intro s done hF hlen hnd hk
    obtain ⟨k, v, l⟩ := op
    simp only [List.length_cons] at hlen
    have hfresh : ∀ o ∈ done, o.1 ≠ k := by
      intro o ho heq
      rw [List.map_append, List.map_cons] at hnd
      have h1 := (List.nodup_append.mp hnd).2.2
      exact h1 (List.mem_map.mpr ⟨o, ho, rfl⟩) (by rw [heq]; exact List.mem_cons_self _ _)
    obtain ⟨s1, h1, hF1, d1, d2⟩ :=
      hF.step E (by omega) k v l (hk _ (List.mem_cons_self _ _)) hfresh
    have happ : done ++ (k, v, l) :: rest = (done ++ [(k, v, l)]) ++ rest := by simp
    obtain ⟨s2, h2, hF2, d3, d4⟩ := ih s1 (done ++ [(k, v, l)]) hF1
      (by simp only [List.length_append, List.length_cons, List.length_nil]; omega)
      (by rw [← happ]; exact hnd) (fun o ho => hk o (List.mem_cons_of_mem _ ho))
    refine ⟨s2, ?_, by rw [happ]; exact hF2, d3.trans d1, d4.trans d2⟩
    simp only [insertAll, h1]
    exact h2

end LSM
namespace DiskLevel

theorem newRuns_spec (E : Env) (runSize ps : Nat) (level : Int) (h : runSize ≠ 0) :
    ∀ (n first : Nat), ∃ rs, newRuns E runSize ps level n first = some rs ∧ rs.length = n ∧
      ∀ i, i < n → ∃ r, rs[i]? = some r ∧ DiskRun.new E runSize ps level (first + i) = some r := by
  intro n
  induction n with
  | zero => intro first; exact ⟨[], rfl, rfl, fun i hi => absurd hi (by omega)⟩
  | succ n ih =>
    intro first
    obtain ⟨rs, h1, h2, h3⟩ := ih (first + 1)
    obtain ⟨r, hr⟩ : ∃ r, DiskRun.new E runSize ps level first = some r := by
      unfold DiskRun.new; rw [if_neg h]; exact ⟨_, rfl⟩
    refine ⟨r :: rs, ?_, ?_, ?_⟩
    · simp only [newRuns, hr, h1]
    · simp [h2]
    · intro i hi
      cases i with
      | zero => exact ⟨r, by simp, by simpa using hr⟩
      | succ i =>
        obtain ⟨r2, g1, g2⟩ := h3 i (by omega)
        refine ⟨r2, by simpa using g1, ?_⟩
        rw [← g2]
        congr 1
        omega

/-- A slot of a level as the constructor of `DiskRun` leaves it. -/
theorem new_slot (E : Env) (cap ps : Nat) (level : Int) (id : Nat) (r : DiskRun)
    (h : DiskRun.new E cap ps level id = some r) :
    r.map.length = cap ∧ r._fencePointers = [] ∧ r.pageSize = ps ∧
      r.bf = BloomFilter.new E cap ∧ 1 ≤ cap := by
  unfold DiskRun.new at h
  split at h
  · exact absurd h (by simp)
  · simp only [Option.some.injEq] at h
    subst h
    exact ⟨by simp, rfl, rfl, rfl, by omega⟩

/-- The member `lookup` walks the occupied runs. -/
theorem lookup_eq_loop (E : Env) (lvl : DiskLevel) (key : Int) (found : Bool) :
    lvl.lookup E key found = lookupLoop E lvl.runs key lvl._activeRun found := by
  unfold lookup levelFull
  by_cases h : lvl._activeRun = lvl._numRuns
  · simp [h]
  · simp [h]

theorem writeData_whole (dst : DiskRun) (pairs : List KVPair)
    (hmap : pairs.length ≤ dst.map.length) :
    ∃ r1, dst.writeData pairs 0 pairs.length = some r1 ∧ r1.map.take pairs.length = pairs ∧
      r1._capacity = pairs.length ∧ pairs.length ≤ r1.map.length ∧
      r1._fencePointers = dst._fencePointers ∧ r1.pageSize = dst.pageSize ∧ r1.bf = dst.bf := by
  unfold DiskRun.writeData
  rw [if_neg (by omega)]
  exact ⟨_, rfl, by simp, rfl, by simp, rfl, rfl, rfl⟩

/-- The member `addRunByArray` with a sorted array of the size of a run, on a
level whose next slot is as the constructor left it: the call returns, the
slot holds the array, indexed, and counts as occupied. -/
theorem addRunByArray_slot (E : Env) (lvl : DiskLevel) (pairs : List KVPair) (dst : DiskRun)
    (hact : lvl._activeRun < lvl._numRuns) (hlen : pairs.length = lvl._runSize)
    (hpos : 1 ≤ pairs.length) (hsmall : pairs.length ≤ 2147483647)
    (hdst : lvl.runs[lvl._activeRun]? = some dst) (hmap : pairs.length ≤ dst.map.length)
    (hfp : dst._fencePointers = []) (hps : 0 < dst.pageSize)
    (hbf : 0 < dst.bf.m_bits.length ∨ dst.bf.m_numHashes = 0) :
    ∃ r, lvl.addRunByArray E pairs pairs.length =
        some { lvl with runs := lvl.runs.set lvl._activeRun r, _activeRun := lvl._activeRun + 1 } ∧
      r.Built E ∧ r.entries = pairs := by
  obtain ⟨r1, hw, w1, w2, w3, w4, w5, w6⟩ := writeData_whole dst pairs hmap
  obtain ⟨r, hr⟩ := DiskRun.constructIndex_total E r1 (by omega) (by omega) (by omega)
    (by omega) (by rw [w6]; exact hbf)
  obtain ⟨k1, k2⟩ := DiskRun.constructIndex_keeps E _ r hr
  refine ⟨r, ?_, ⟨r1, by rw [w4]; exact hfp, by omega, hr⟩, ?_⟩
  · unfold addRunByArray
    rw [if_neg (by omega), if_neg (by omega), hdst]
    simp only [hw, hr]
  · unfold DiskRun.entries
    rw [k1, k2, w2]
    exact w1

end DiskLevel

namespace LSM

/-- The member `merge_runs` when disk level 0 has a free slot: the drained
runs go to that slot as one sorted array. -/
theorem merge_runs_direct (E : Env) (s : LSM) (runs : List SkipList) (l0 : DiskLevel)
    (h0 : s.diskLevels[0]? = some l0) (hfree : l0._activeRun ≠ l0._numRuns) :
    merge_runs E s runs =
      (l0.addRunByArray E (sortKV (gatherRuns runs [])) (sortKV (gatherRuns runs [])).length).map
        (fun d1 => { s with diskLevels := s.diskLevels.set 0 d1 }) := by
  unfold merge_runs
  rw [h0]
  simp only [DiskLevel.levelFull, hfree, decide_False, Bool.false_eq_true, if_false, h0]
  cases l0.addRunByArray E (sortKV (gatherRuns runs [])) (sortKV (gatherRuns runs [])).length <;> rfl

/-- The pairs that a drain of all in-memory runs hands to the disk. -/
theorem Filling.drained {e r : Nat} {s : LSM} {done : List (Int × Int × Int)}
    (hF : s.Filling e r done) :
    (sortKV (gatherRuns s.C_0 [])).Perm (done.map toKV) := by
  refine (sortKV_perm _).trans ((gatherRuns_perm s.C_0 []).trans ?_)
  rw [List.append_nil]
  exact hF.content

/-- The `insert_key` call that finds every in-memory run full: if the merge
thread returns, the call returns, and the store is as after one call on a
new buffer. -/
theorem Filling.drain {e r : Nat} {s : LSM} {done : List (Int × Int × Int)} (E : Env)
    (hF : s.Filling e r done) (hfull : done.length = r * e) (he : 1 ≤ e) (hr : r < 2 ^ 32)
    (hbf : 0 < E.bfBits e ∨ E.bfHashes e = 0) (k v l : Int) (hk : k < INT_MAX) (s1 : LSM)
    (hm : merge_runs E { s with _activeRun := s._activeRun + 1 } s.C_0 = some s1) :
    ∃ s', s.insert_key E k v l = some s' ∧ s'.Filling e r [(k, v, l)] ∧
      s'.diskLevels = s1.diskLevels ∧ s'._numDiskLevels = s1._numDiskLevels ∧
      s'._activeRun = 0 := by
  obtain ⟨run, hrun⟩ := getElem?_some_of_lt s.C_0 s._activeRun (by rw [hF.runs]; exact hF.active)
  obtain ⟨hle, hlen⟩ := hF.cur run hrun
  have hcount := (hF.wf run (List.getElem?_mem hrun)).count
  have hact := hF.active
  have hmul : (s._activeRun + 1) * e = s._activeRun * e + e := Nat.succ_mul _ _
  have hle2 : (s._activeRun + 1) * e ≤ r * e := Nat.mul_le_mul_right e (by omega)
  have hn : run.nodes.length = e := by omega
  have ha : s._activeRun + 1 = r := by
    exact Nat.eq_of_mul_eq_mul_right (by omega : 0 < e) (by omega)
  have hadv : advanceRun s = some { s with _activeRun := s._activeRun + 1 } := by
    unfold advanceRun
    rw [hrun]
    simp only
    rw [if_pos (by simp only [SkipList.num_elements]; rw [hcount, hF.elts]; omega)]
  obtain ⟨c1, c2, c3, c4, c5, c6⟩ := merge_runs_sameBuffer E _ _ _ hm
  simp only at c1 c2 c3 c4 c5 c6
  have hnew : (s1._activeRun + (2 ^ 32 - s1._num_to_merge % 2 ^ 32)) % 2 ^ 32 = 0 := by
    rw [c3, c6, hF.toMerge, ha]
    rw [Nat.mod_eq_of_lt hr]
    have : r + (2 ^ 32 - r) = 2 ^ 32 := by omega
    rw [this]
    rfl
  have hnew2 : (s1._activeRun + (2 ^ 32 - r % 2 ^ 32)) % 2 ^ 32 = 0 := by
    rw [← hF.toMerge, ← c6]; exact hnew
  have hdo : do_merge E { s with _activeRun := s._activeRun + 1 } =
      some { s1 with
        C_0 := List.replicate r (newRun e)
        filters := List.replicate r (BloomFilter.new E e)
        _activeRun := 0 } := by
    unfold do_merge
    simp only
    rw [if_neg (by rw [hF.toMerge]; omega), if_neg (by rw [hF.runs, hF.filters, hF.toMerge]; omega)]
    have ht : s.C_0.take s._num_to_merge = s.C_0 := by
      rw [List.take_of_length_le (by rw [hF.runs, hF.toMerge])]
    rw [ht, hm]
    simp only [hnew2, c1, c2, c4, c5, c6, hF.toMerge, hF.numRuns, hF.elts, Nat.sub_zero]
    rw [List.drop_of_length_le (by rw [hF.runs]), List.drop_of_length_le (by rw [hF.filters])]
    simp only [List.nil_append]
  have hF2 : ({ s1 with
        C_0 := List.replicate r (newRun e)
        filters := List.replicate r (BloomFilter.new E e)
        _activeRun := 0 } : LSM).Filling e r [] := by
    refine ⟨by simp, by simp, ?_, ?_, ?_, by simp only; omega, ?_, ?_, ?_, ?_, ?_, ?_, ?_⟩
    · simp only; rw [c4]; exact hF.elts
    · simp only; rw [c5]; exact hF.numRuns
    · simp only; rw [c6]; exact hF.toMerge
    · intro ri hri
      have := List.eq_of_mem_replicate hri
      subst this
      exact newRun_WF e
    · intro ri hri
      have := List.eq_of_mem_replicate hri
      subst this
      rfl
    · intro b hb
      have := List.eq_of_mem_replicate hb
      subst this
      simpa [BloomFilter.new] using hbf
    · intro i ri hi; simp only at hi; omega
    · intro ri hri
      simp only at hri
      have := List.eq_of_mem_replicate (List.getElem?_mem hri)
      subst this
      simp [newRun, SkipList.new, SkipList.set_size]
    · intro i ri _ hri
      simp only at hri
      have := List.eq_of_mem_replicate (List.getElem?_mem hri)
      subst this
      rfl
    · simp only [List.map_replicate, List.map_nil]
      have : (newRun e).get_all = [] := rfl
      rw [this]
      clear hdo hF
      induction r with
      | zero => simp
      | succ n _ => simp [List.replicate_succ]
  obtain ⟨s', hput, hF3, d1, d2, d3⟩ := hF2.put E
    (by
      intro ri hri
      simp only at hri
      have := List.eq_of_mem_replicate (List.getElem?_mem hri)
      subst this
      simp only [newRun, SkipList.new, SkipList.set_size, List.length_nil]
      omega)
    k v l hk (fun op hop => absurd hop (List.not_mem_nil _))
  refine ⟨s', ?_, by simpa using hF3, d1, d2, d3⟩
  unfold insert_key
  rw [hadv]
  simp only
  rw [if_pos (by rw [hF.numRuns]; omega), hdo]
  exact hput

/-- The first loop of `lookup` passes a key that none of the runs it visits holds. -/
theorem lookupBuffer_miss (E : Env) (s : LSM) (key : Int) (hwf : s.BufOK)
    (htail : ∀ run ∈ s.C_0, key < run._maxKey)
    (hbits : ∀ bf ∈ s.filters, 0 < bf.m_bits.length ∨ bf.m_numHashes = 0) :
    ∀ (n : Nat) (x : Int), n ≤ s.C_0.length → n ≤ s.filters.length →
      (∀ i run, i < n → s.C_0[i]? = some run → ∀ nd ∈ run.nodes, nd.key ≠ key) →
      ∃ x', lookupBuffer E s key n x = some (none, x') := by
  intro n
  induction n with
  | zero => intro x _ _ _; exact ⟨x, rfl⟩
  | succ n ih =>
    intro x h1 h2 hno
    obtain ⟨run, hrun⟩ := getElem?_some_of_lt s.C_0 n (by omega)
    obtain ⟨bf, hbf⟩ := getElem?_some_of_lt s.filters n (by omega)
    have hrest : ∀ y, ∃ x', lookupBuffer E s key n y = some (none, x') := fun y =>
      ih y (by omega) (by omega) (fun i ri hi hri => hno i ri (by omega) hri)
    simp only [lookupBuffer, hrun, hbf]
    split
    · exact hrest x
    · obtain ⟨b, hb⟩ := BloomFilter.mayContain_total E bf key (hbits bf (List.getElem?_mem hbf))
      rw [hb]
      cases b with
      | false => exact hrest x
      | true =>
        simp only
        rw [SkipList.lookup_absent run (hwf run (List.getElem?_mem hrun)) key
          (htail run (List.getElem?_mem hrun)) (hno n run (by omega) hrun) false]
        simp only [Bool.false_eq_true, if_false]
        exact hrest 0

end LSM
namespace LSM

theorem insertAll_trans (E : Env) : ∀ (ops ops2 : List (Int × Int × Int)) (s s1 s2 : LSM),
    s.insertAll E ops = some s1 → s1.insertAll E ops2 = some s2 →
    s.insertAll E (ops ++ ops2) = some s2 := by
  intro ops
  induction ops with
  | nil =>
    intro ops2 s s1 s2 h1 h2
    simp only [insertAll, Option.some.injEq] at h1
    subst h1
    exact h2
  | cons op rest ih =>
    intro ops2 s s1 s2 h1 h2
    obtain ⟨k, v, l⟩ := op
    simp only [List.cons_append, insertAll] at h1 ⊢
    split at h1
    · exact absurd h1 (by simp)
    · rename_i s3 hs3
      exact ih ops2 s3 s1 s2 h1 h2

/-- The constructor with `numToMerge = numRuns`: the store it makes, and the
one disk level of that store. -/
theorem new_filling (E : Env) (e r ps d md : Nat) (he : 1 ≤ e) (hr : 1 ≤ r) (hd : 1 ≤ d)
    (hbf : 0 < E.bfBits e ∨ E.bfHashes e = 0) :
    ∃ s0 l0 dst, LSM.new E e r r ps d md = some s0 ∧ s0.Filling e r [] ∧
      s0.diskLevels = [l0] ∧ s0._numDiskLevels = 1 ∧
      l0._activeRun = 0 ∧ l0._numRuns = d ∧ l0._runSize = r * e ∧ l0.runs[0]? = some dst ∧
      DiskRun.new E (r * e) ps 1 0 = some dst := by
  have hpos : r * e ≠ 0 := Nat.mul_ne_zero (by omega) (by omega)
  obtain ⟨rs, h1, h2, h3⟩ := DiskLevel.newRuns_spec E (r * e) ps 1 hpos d 0
  obtain ⟨dst, g1, g2⟩ := h3 0 (by omega)
  simp only [LSM.new, DiskLevel.new, h1]
  refine ⟨_, _, dst, rfl, ?_, rfl, rfl, rfl, rfl, rfl, g1, by simpa using g2⟩
  · refine ⟨by simp, by simp, rfl, rfl, rfl, by simp only; omega, ?_, ?_, ?_, ?_, ?_, ?_, ?_⟩
    · intro ri hri
      have := List.eq_of_mem_replicate hri
      subst this
      exact newRun_WF e
    · intro ri hri
      have := List.eq_of_mem_replicate hri
      subst this
      rfl
    · intro b hb
      have := List.eq_of_mem_replicate hb
      subst this
      simpa [BloomFilter.new] using hbf
    · intro i ri hi; simp only at hi; omega
    · intro ri hri
      simp only at hri
      have := List.eq_of_mem_replicate (List.getElem?_mem hri)
      subst this
      simp [newRun, SkipList.new, SkipList.set_size]
    · intro i ri _ hri
      simp only at hri
      have := List.eq_of_mem_replicate (List.getElem?_mem hri)
      subst this
      rfl
    · simp only [List.map_replicate, List.map_nil]
      have : (newRun e).get_all = [] := rfl
      rw [this]
      clear hr
      induction r with
      | zero => simp
      | succ n _ => simp [List.replicate_succ]

/-- A store that has taken one call since its buffer was new, and is still
at run 0, holds the pair of that call there. -/
theorem Filling.single {e r : Nat} {s : LSM} {k v l : Int} (hF : s.Filling e r [(k, v, l)])
    (ha : s._activeRun = 0) :
    ∃ run, s.C_0[0]? = some run ∧ run.get_all = [⟨k, v⟩] := by
  obtain ⟨run, hrun⟩ := getElem?_some_of_lt s.C_0 s._activeRun (by rw [hF.runs]; exact hF.active)
  obtain ⟨hle, hlen⟩ := hF.cur run hrun
  simp only [List.length_cons, List.length_nil] at hlen
  refine ⟨run, by rw [← ha]; exact hrun, ?_⟩
  rw [ha] at hlen
  have hn : run.get_all.length = 1 := by
    simp only [SkipList.get_all, List.length_map]; omega
  have hsub : ∀ kv ∈ run.get_all, kv = (⟨k, v⟩ : KVPair) := by
    intro kv hkv
    have h2 : kv ∈ (s.C_0.map SkipList.get_all).flatten :=
      List.mem_flatten.mpr ⟨run.get_all, List.mem_map.mpr ⟨run, List.getElem?_mem hrun, rfl⟩, hkv⟩
    have h3 := (hF.content.mem_iff).mp h2
    simpa [toKV] using h3
  match hg : run.get_all, hn, hsub with
  | [kv], _, hsub => rw [hsub kv (List.mem_singleton_self _)]

end LSM

/-- Claim C14 (forced-merge visibility): for `E ≥ 1` pairs per in-memory run and
`R ≥ 1` runs that are all drained in one merge, `R * E` within the range of
`int`, a page size and a number of disk runs per level of at least one, and
filters that have a bit when they hash at all: after `R * E + 1` inserts into
a new store, with different keys strictly between `INT_MIN` and `INT_MAX` and
values other than the tombstone, every call has returned, the first `R * E`
pairs are the one run of disk level 0, in strictly increasing key order, the
last pair is alone in in-memory run 0, which is the active one, and `lookup`
of every inserted key returns true and yields its value. -/
theorem forced_merge_visible (E : Env) (e r ps d md : Nat) (he : 1 ≤ e) (hr : 1 ≤ r)
    (hsize : r * e ≤ 2147483647) (hps : 1 ≤ ps) (hd : 1 ≤ d)
    (hbf : ∀ n, 1 ≤ n → 0 < E.bfBits n ∨ E.bfHashes n = 0)
    (ops : List (Int × Int × Int)) (k v l : Int) (hlen : ops.length = r * e)
    (hdist : ((ops ++ [(k, v, l)]).map (fun op => op.1)).Nodup)
    (hdom : ∀ op ∈ ops ++ [(k, v, l)], INT_MIN < op.1 ∧ op.1 < INT_MAX ∧ op.2.1 ≠ V_TOMBSTONE) :
    ∃ s0 s run, LSM.new E e r r ps d md = some s0 ∧
      s0.insertAll E (ops ++ [(k, v, l)]) = some s ∧
      s.diskContents = [[run]] ∧ run.length = r * e ∧
      run.Pairwise (fun a b => a.key < b.key) ∧ run.Perm (ops.map toKV) ∧
      s._activeRun = 0 ∧ (s.C_0[0]?).map SkipList.get_all = some [⟨k, v⟩] ∧
      ∀ op ∈ ops ++ [(k, v, l)], ∀ x, s.lookup E op.1 x = some (true, op.2.1) := by
  obtain ⟨s0, l0, dst, hnew, hF0, hd0, hn0, la, ln, lr, lrun, ldst⟩ :=
    LSM.new_filling E e r ps d md he hr hd (hbf e he)
  have hnd1 : (ops.map (fun op => op.1)).Nodup := by
    rw [List.map_append] at hdist
    exact (List.nodup_append.mp hdist).1
  have hkfresh : ∀ op ∈ ops, op.1 ≠ k := by
    intro op hop heq
    rw [List.map_append] at hdist
    exact (List.nodup_append.mp hdist).2.2 (List.mem_map.mpr ⟨op, hop, rfl⟩)
      (by rw [heq]; simp)
  obtain ⟨s1, hrun1, hF1, hd1, hn1⟩ := LSM.Filling.run E ops s0 [] hF0
    (by simp only [List.length_nil]; omega) (by simpa using hnd1)
    (fun op hop => (hdom op (List.mem_append_left _ hop)).2.1)
  rw [List.nil_append] at hF1
  have hperm : (LSM.sortKV (LSM.gatherRuns s1.C_0 [])).Perm (ops.map toKV) := hF1.drained
  have hplen : (LSM.sortKV (LSM.gatherRuns s1.C_0 [])).length = r * e := by
    rw [hperm.length_eq, List.length_map, hlen]
  have hstrict : (LSM.sortKV (LSM.gatherRuns s1.C_0 [])).Pairwise (fun a b => a.key < b.key) := by
    apply LSM.sortKV_strict
    have h := ((LSM.sortKV_perm (LSM.gatherRuns s1.C_0 [])).symm.trans hperm).map
      (fun kv : KVPair => kv.key)
    have h2 : (ops.map toKV).map (fun kv : KVPair => kv.key) = ops.map (fun op => op.1) := by
      rw [List.map_map]; rfl
    rw [h2] at h
    exact h.nodup_iff.mpr hnd1
  have hpos : 1 ≤ r * e := Nat.mul_pos hr he
  obtain ⟨w1, w2, w3, w4, w5⟩ := DiskLevel.new_slot E _ ps 1 0 dst ldst
  obtain ⟨rr, hadd, hbuilt, hent⟩ := DiskLevel.addRunByArray_slot E l0
    (LSM.sortKV (LSM.gatherRuns s1.C_0 [])) dst (by omega) (by omega) (by omega) (by omega)
    (by rw [la]; exact lrun)
    (by omega) w2 (by omega) (by rw [w4]; simpa [BloomFilter.new] using hbf (r * e) hpos)
  have hm : LSM.merge_runs E { s1 with _activeRun := s1._activeRun + 1 } s1.C_0 =
      some { s1 with
        _activeRun := s1._activeRun + 1
        diskLevels := [{ l0 with runs := l0.runs.set l0._activeRun rr,
                                 _activeRun := l0._activeRun + 1 }] } := by
    rw [LSM.merge_runs_direct E _ s1.C_0 l0 (by simp only; rw [hd1, hd0]; rfl) (by omega), hadd]
    simp only [Option.map_some', hd1, hd0, List.set_cons_zero]
  have hrle : r ≤ r * e := Nat.le_mul_of_pos_right r he
  have hkdom := hdom (k, v, l) (by simp)
  obtain ⟨s, hins, hF, e1, e2, e3⟩ := hF1.drain E hlen he (by omega) (hbf e he) k v l hkdom.2.1 _ hm
  simp only at e1 e2
  obtain ⟨run0, hrun0, hall0⟩ := hF.single e3
  have hruns : ∃ tl, l0.runs = dst :: tl := by
    cases hl : l0.runs with
    | nil => rw [hl] at lrun; simp at lrun
    | cons a tl =>
      rw [hl] at lrun
      simp only [List.getElem?_cons_zero, Option.some.injEq] at lrun
      exact ⟨tl, by rw [lrun]⟩
  obtain ⟨tl, htl⟩ := hruns
  refine ⟨s0, s, LSM.sortKV (LSM.gatherRuns s1.C_0 []), hnew,
    LSM.insertAll_trans E ops [(k, v, l)] s0 s1 s hrun1 (by simp only [LSM.insertAll, hins]), ?_,
    hplen, hstrict, hperm, e3, by rw [hrun0]; simp [hall0], ?_⟩
  · unfold LSM.diskContents
    rw [e1]
    simp only [List.map_cons, List.map_nil, la, htl, List.set_cons_zero, Nat.zero_add,
      List.take_succ_cons, List.take_zero, hent]
  · intro op hop x
    rcases List.mem_append.mp hop with hop1 | hop1
    · obtain ⟨hk1, hk2, hk3⟩ := hdom op hop
      have hno : ∀ i run, i < 1 → s.C_0[i]? = some run → ∀ nd ∈ run.nodes, nd.key ≠ op.1 := by
        intro i run hi hri nd hnd
        have hi0 : i = 0 := by omega
        subst hi0
        rw [hrun0] at hri
        simp only [Option.some.injEq] at hri
        subst hri
        have h1 : (⟨nd.key, nd.value⟩ : KVPair) ∈ run0.get_all :=
          (SkipList.mem_get_all run0 nd.key nd.value).mpr ⟨nd, hnd, rfl, rfl⟩
        rw [hall0] at h1
        simp only [List.mem_singleton, KVPair.mk.injEq] at h1
        rw [h1.1]
        exact fun h => hkfresh op hop1 h.symm
      obtain ⟨x1, hx1⟩ := LSM.lookupBuffer_miss E s op.1 hF.wf
        (fun run hrun => by rw [hF.tail run hrun]; exact hk2) hF.bits 1 x
        (by rw [hF.runs]; omega) (by rw [hF.filters]; omega) hno
      have hmem : (⟨op.1, op.2.1⟩ : KVPair) ∈ rr.entries := by
        rw [hent]
        exact hperm.mem_iff.mpr (List.mem_map.mpr ⟨op, hop1, rfl⟩)
      have hloop := (DiskLevel.lookupLoop_newest E (rr :: tl) op.1 hk1 1
        (by
          intro i hi
          have hi0 : i = 0 := by omega
          subst hi0
          exact ⟨rr, by simp, hbuilt, by unfold DiskRun.StrictKeys; rw [hent]; exact hstrict⟩)).1
        0 rr op.2.1 (by omega) (by simp) hmem (fun i2 r2 h1 h2 => absurd h2 (by omega))
      unfold LSM.lookup
      rw [e3, Nat.zero_add, hx1]
      simp only
      rw [e1, e2, hn1, hn0]
      simp only [List.length_cons, List.length_nil, Nat.lt_irrefl, if_false, List.take_succ_cons,
        List.take_zero, LSM.lookupDisk, DiskLevel.lookup_eq_loop, la, htl, List.set_cons_zero,
        Nat.zero_add, hloop]
      simp [hk3]
    · simp only [List.mem_singleton] at hop1
      subst hop1
      have hok1 : s1.BufOK := hF1.wf
      have := (LSM.insert_key_lookup E s1 s k v l hok1 hins x).2
      rw [this]
      simp [hkdom.2.2]

set_option maxRecDepth 100000 in
/-- Claim C14 at the store of the scenario: two pairs per run, two runs, and the
inserts `(1,1), ..., (5,5)`; `lookup(3)` and `lookup(5)` return true and yield
`3` and `5`. -/
theorem forced_merge_visible_witness :
    ∃ s0 s, LSM.new sampleEnv 2 2 2 1 2 2 = some s0 ∧
      s0.insertAll sampleEnv ([(1, 1, 0), (2, 2, 0), (3, 3, 0), (4, 4, 0)] ++ [(5, 5, 0)]) = some s ∧
      s.diskContents = [[[⟨1, 1⟩, ⟨2, 2⟩, ⟨3, 3⟩, ⟨4, 4⟩]]] ∧
      s._activeRun = 0 ∧ (s.C_0[0]?).map SkipList.get_all = some [⟨5, 5⟩] ∧
      s.lookup sampleEnv 3 0 = some (true, 3) ∧ s.lookup sampleEnv 5 0 = some (true, 5) ∧
      ∃ s0 s run, LSM.new sampleEnv 2 2 2 1 2 2 = some s0 ∧
        s0.insertAll sampleEnv ([(1, 1, 0), (2, 2, 0), (3, 3, 0), (4, 4, 0)] ++ [(5, 5, 0)])
          = some s ∧
        s.diskContents = [[run]] ∧ run.length = 2 * 2 ∧
        run.Pairwise (fun a b => a.key < b.key) ∧
        run.Perm ([(1, 1, 0), (2, 2, 0), (3, 3, 0), (4, 4, 0)].map toKV) ∧
        s._activeRun = 0 ∧ (s.C_0[0]?).map SkipList.get_all = some [⟨5, 5⟩] ∧
        ∀ op ∈ [(1, 1, 0), (2, 2, 0), (3, 3, 0), (4, 4, 0)] ++ [((5 : Int), (5 : Int), (0 : Int))],
          ∀ x, s.lookup sampleEnv op.1 x = some (true, op.2.1) :=
  ⟨(LSM.new sampleEnv 2 2 2 1 2 2).get (by decide),
    (((LSM.new sampleEnv 2 2 2 1 2 2).get (by decide)).insertAll sampleEnv
      ([(1, 1, 0), (2, 2, 0), (3, 3, 0), (4, 4, 0)] ++ [(5, 5, 0)])).get (by decide),
    (Option.some_get _).symm, (Option.some_get _).symm, by decide, by decide, by decide,
    by decide, by decide,
    forced_merge_visible sampleEnv 2 2 1 2 2 (by decide) (by decide) (by decide) (by decide)
      (by decide) (fun n hn => Or.inl (by simp only [sampleEnv]; omega))
      [(1, 1, 0), (2, 2, 0), (3, 3, 0), (4, 4, 0)] 5 5 0 (by decide) (by decide) (by decide)⟩

set_option maxRecDepth 100000 in
/-- Claim C14 fails at the ends of the key range. With one pair per run and one
run, after `insert(INT_MIN, 7)` and `insert(5, 5)` the first pair is the run of
disk level 0, and `lookup(INT_MIN)` returns false: `DiskLevel::lookup` passes
the run because its `maxKey` is `INT_MIN`. After `insert(INT_MAX, 7)` and
`insert(5, 5)` no disk run holds a pair: the skip list took key `INT_MAX` for
its tail and counted no element, so the second insert started no merge. -/
theorem forced_merge_misses_extreme_keys :
    ((LSM.new sampleEnv 1 1 1 1 1 1).bind
        (fun s0 => s0.insertAll sampleEnv [(INT_MIN, 7, 0), (5, 5, 0)])).map
      (fun s => (s.diskContents, s.lookup sampleEnv INT_MIN 0, s.lookup sampleEnv 5 0))
      = some ([[[⟨INT_MIN, 7⟩]]], some (false, 0), some (true, 5)) ∧
    ((LSM.new sampleEnv 1 1 1 1 1 1).bind
        (fun s0 => s0.insertAll sampleEnv [(INT_MAX, 7, 0), (5, 5, 0)])).map
      (fun s => (s.diskContents, s.C_0.map SkipList.get_all))
      = some ([[]], [[⟨5, 5⟩]]) := by
  constructor <;> decide

namespace LSM

/-- The member `mergeRunsToLevel` in its three parts. -/
theorem mergeRunsToLevel_succ (E : Env) (fuel : Nat) (s : LSM) (level : Nat) :
    mergeRunsToLevel E (fuel + 1) s level =
      match growLevels E s level with
      | none => none
      | some s1 =>
        match s1.diskLevels[level]? with
        | none => none
        | some target =>
          match (if target.levelFull then mergeRunsToLevel E fuel s1 (level + 1) else some s1) with
          | none => none
          | some s2 => moveRuns E s2 level := rfl

end LSM
namespace DiskLevel

theorem MergedOf.weaken {rl : List DiskRun} {out : List KVPair} {t1 t2 : Prop}
    (h : MergedOf rl out t1) (himp : t1 → t2) : MergedOf rl out t2 :=
  ⟨h.1, fun k v hw => (h.2 k v hw).imp id (fun ⟨a, b⟩ => ⟨himp a, b⟩)⟩

/-- The member `addRuns`, at the terminal level or not, with sources of
strictly increasing keys on a destination that can take the merge: the call
returns, the slot `_activeRun` holds the merge of the sources, without a last
pair that is a tombstone at the terminal level, and counts as occupied. -/
theorem addRuns_merged (E : Env) (lvl : DiskLevel) (rl : List DiskRun) (runLen : Nat)
    (lastLevel : Bool) (dst : DiskRun) (hsrc : Sources rl)
    (hstrict : ∀ src ∈ rl, src.StrictKeys)
    (hdst : lvl.runs[lvl._activeRun]? = some dst) (hrec : Receives rl dst lastLevel) :
    ∃ out, lvl.addRuns E rl runLen lastLevel =
        some { lvl with runs := lvl.runs.set lvl._activeRun out,
                        _activeRun := lvl._activeRun + 1 } ∧
      out.StrictKeys ∧ 1 ≤ out._capacity ∧ out._capacity ≤ out.map.length ∧
      out.map.length = dst.map.length ∧ out._level = dst._level ∧
      MergedOf rl out.entries (lastLevel = true) := by
  obtain ⟨Q, q1, q2, q3, q4⟩ := addRuns_trace rl lastLevel hsrc
  obtain ⟨e', r1, r2, r3⟩ :=
    emitAll_receives True rl dst lastLevel hsrc hrec Q q1 q2 (fun _ => q3 hstrict)
  have hpos := r2.pos
  have hagree : emitAll lastLevel
      { map := dst.map, j := -1, lastKey := INT_MAX, lastk := toUnsigned INT_MIN } Q = some e' := by
    cases lastLevel with
    | false => exact r1
    | true =>
      rw [emitAll_terminal Q _ (le_refl _)
        (fun i kv _ hget => hrec.fresh rfl kv (List.getElem?_mem hget))]
      exact r1
  have hJ : (e'.j.toNat : Int) = e'.j := Int.toNat_of_nonneg hpos
  obtain ⟨kvj, tj, g1, g2⟩ := r2.fromD e'.j.toNat (by omega)
  have hload : loadKV e'.map e'.j = some kvj := by
    unfold loadKV
    rw [if_pos hpos, g1]
  -- the last slot the run keeps
  obtain ⟨jf, f1, f2, f3, f4⟩ : ∃ jf : Int, 0 ≤ jf ∧ jf ≤ e'.j ∧
      (if lastLevel then
          (loadKV e'.map e'.j).map (fun kv => if kv.value = V_TOMBSTONE then e'.j - 1 else e'.j)
        else some e'.j) = some jf ∧
      (jf = e'.j ∨ (lastLevel = true ∧ jf = e'.j - 1 ∧ kvj.value = V_TOMBSTONE)) := by
    by_cases hdrop : lastLevel = true ∧ kvj.value = V_TOMBSTONE
    · obtain ⟨hl, htomb⟩ := hdrop
      refine ⟨e'.j - 1, ?_, by omega, by simp [hl, hload, htomb], Or.inr ⟨hl, rfl, htomb⟩⟩
      rcases hrec.kept hl with ⟨s1, hs1, s2, hs2, a, ha, b, hb, hab⟩ | hnone
      · obtain ⟨ka, hka⟩ := mem_trace rl Q q1 s1 hs1 a ha
        obtain ⟨kb, hkb⟩ := mem_trace rl Q q1 s2 hs2 b hb
        obtain ⟨ia, ia1, ia2⟩ := r2.slot _ hka
        obtain ⟨ib, ib1, ib2⟩ := r2.slot _ hkb
        have hne : ia ≠ ib := by
          intro hc
          rw [hc, ib2] at ia2
          exact hab ia2.symm
        omega
      · exfalso
        obtain ⟨k, src, h1, h2, -⟩ := (mem_rest_start rl (kvj, tj)).mp (q1.subset g2)
        exact hnone src (List.getElem?_mem h1) kvj h2 htomb
    · refine ⟨e'.j, hpos, le_refl _, ?_, Or.inl rfl⟩
      cases lastLevel with
      | false => rfl
      | true =>
        have : kvj.value ≠ V_TOMBSTONE := fun h => hdrop ⟨rfl, h⟩
        simp [hload, this]
  have hhi := r2.ok.hi
  have hsmall := hrec.small
  obtain ⟨out, hci⟩ :=
    DiskRun.constructIndex_total E { dst with map := e'.map, _capacity := (jf + 1).toNat }
      (by simp only; omega) (by simp only; omega) (by simp only; omega) hrec.page hrec.bits
  obtain ⟨c1, c2⟩ := DiskRun.constructIndex_keeps E _ _ hci
  simp only at c1 c2
  have hlevel : out._level = dst._level := by
    unfold DiskRun.constructIndex at hci
    split at hci
    · exact absurd hci (by simp)
    · split at hci
      · exact absurd hci (by simp)
      · split at hci
        · simp only [Option.some.injEq] at hci
          subst hci
          rfl
        · exact absurd hci (by simp)
  have hclose : closeRun E lvl dst lastLevel e' =
      some { lvl with runs := lvl.runs.set lvl._activeRun out,
                      _activeRun := lvl._activeRun + 1 } := by
    unfold closeRun
    rw [f3]
    simp only [hci]
    rw [if_pos (by omega)]
  refine ⟨out, ?_, strictKeys_of_OK e' r2.ok out _ f2 c1 c2, by rw [c2]; omega,
    by rw [c1, c2]; omega, by rw [c1, r3], hlevel, ?_, ?_⟩
  · rw [q4, hdst]
    simp only [hagree]
    exact hclose
  · intro k v hkv
    rw [DiskRun.mem_entries, c1, c2] at hkv
    obtain ⟨i, hi, hget⟩ := hkv
    obtain ⟨kv, t, y1, y2, y3⟩ := r2.newest trivial i (by omega)
    rw [hget] at y1
    have hkv : kv = ⟨k, v⟩ := (Option.some.inj y1).symm
    subst hkv
    obtain ⟨i0, src, h1, h2, h3⟩ := (mem_rest_start rl _).mp (q1.subset y2)
    refine ⟨i0, src, h1, h2, ?_⟩
    intro i2 src2 hlt hs2 v2 hmem
    have hin : ((⟨k, v2⟩ : KVPair), (i2 : Int)) ∈ Q :=
      q1.symm.subset ((mem_rest_start rl _).mpr ⟨i2, src2, hs2, hmem, rfl⟩)
    have := y3 _ hin rfl
    simp only at this h3
    omega
  · rintro k v ⟨i, src, h1, h2, h3⟩
    have hin : ((⟨k, v⟩ : KVPair), (i : Int)) ∈ Q :=
      q1.symm.subset ((mem_rest_start rl _).mpr ⟨i, src, h1, h2, rfl⟩)
    obtain ⟨idx, x1, x2⟩ := r2.slot _ hin
    obtain ⟨kv, t, y1, y2, y3⟩ := r2.newest trivial idx x1
    have hkey : kv.key = k := by
      rw [← DiskRun.keyAt_of_getElem? y1]
      exact x2
    have hle := y3 _ hin hkey.symm
    obtain ⟨i1, src1, z1, z2, z3⟩ := (mem_rest_start rl _).mp (q1.subset y2)
    simp only at hle z2 z3
    have hi1 : i1 = i := by
      by_contra hne
      have hlt : i < i1 := by omega
      have hkv : kv = ⟨k, kv.value⟩ := by rw [← hkey]
      rw [hkv] at z2
      exact h3 i1 src1 hlt z1 kv.value z2
    subst hi1
    rw [h1] at z1
    have hs1 : src1 = src := (Option.some.inj z1).symm
    subst hs1
    have heq : kv = ⟨k, v⟩ :=
      strict_unique src1 (hstrict src1 (List.getElem?_mem h1)) kv ⟨k, v⟩ z2 h2 hkey
    rw [heq] at y1
    by_cases hin2 : (idx : Int) ≤ jf
    · left
      rw [DiskRun.mem_entries, c1, c2]
      exact ⟨idx, by omega, y1⟩
    · right
      rcases f4 with hf | ⟨hl, hf, htomb⟩
      · omega
      · refine ⟨hl, ?_⟩
        have hidx : idx = e'.j.toNat := by omega
        rw [hidx, g1] at y1
        have : kvj = ⟨k, v⟩ := Option.some.inj y1
        rw [this] at htomb
        exact htomb

end DiskLevel
namespace DiskRun

theorem Blank.slot_facts {E : Env} {cap ps : Nat} {level : Int} {r : DiskRun}
    (h : r.Blank E cap ps level) :
    r.map = List.replicate cap ⟨0, 0⟩ ∧ r._fencePointers = [] ∧ r.pageSize = ps ∧
      r.bf = BloomFilter.new E cap ∧ 1 ≤ cap ∧ r._level = level := by
  unfold Blank DiskRun.new at h
  split at h
  · exact absurd h (by simp)
  · simp only [Option.some.injEq] at h
    rw [← h]
    exact ⟨rfl, rfl, rfl, rfl, by omega, rfl⟩

theorem Blank.of_new {E : Env} {cap ps : Nat} {level : Int} {id : Nat} {r : DiskRun}
    (h : DiskRun.new E cap ps level id = some r) : r.Blank E cap ps level := by
  have hid : r._runID = id := by
    unfold DiskRun.new at h
    split at h
    · exact absurd h (by simp)
    · simp only [Option.some.injEq] at h
      rw [← h]
  unfold Blank
  rw [hid]
  exact h

theorem entries_ne_nil (r : DiskRun) (h1 : 1 ≤ r._capacity) (h2 : r._capacity ≤ r.map.length) :
    ∃ kv, kv ∈ r.entries := by
  have hlen : r.entries.length = r._capacity := by
    unfold entries
    rw [List.length_take]
    omega
  cases he : r.entries with
  | nil => rw [he] at hlen; simp at hlen; omega
  | cons kv _ => exact ⟨kv, List.mem_cons_self _ _⟩

end DiskRun

namespace DiskLevel

theorem renumber_all : ∀ (rs : List DiskRun) (i : Nat),
    ∃ rs', renumber rs rs.length i = some rs' ∧
      rs'.map DiskRun.entries = rs.map DiskRun.entries ∧
      ∀ r2 ∈ rs', ∃ r ∈ rs, r2.entries = r.entries ∧ r2.map = r.map ∧
        r2._capacity = r._capacity ∧ r2._level = r._level := by
  intro rs
  induction rs with
  | nil => intro i; exact ⟨[], rfl, rfl, fun _ h => absurd h (List.not_mem_nil _)⟩
  | cons r rs ih =>
    intro i
    obtain ⟨rs', h1, h2, h3⟩ := ih (i + 1)
    refine ⟨{ r with _runID := i } :: rs', ?_, ?_, ?_⟩
    · simp only [List.length_cons, renumber, h1]
    · simp only [List.map_cons, h2]
      rfl
    · intro r2 hr2
      rcases List.mem_cons.mp hr2 with h | h
      · subst h
        exact ⟨r, List.mem_cons_self _ _, rfl, rfl, rfl, rfl⟩
      · obtain ⟨r0, g1, g2⟩ := h3 r2 h
        exact ⟨r0, List.mem_cons_of_mem _ g1, g2⟩

theorem order_eq (lvl : DiskLevel) :
    lvl.order = ((lvl.runs.take lvl._activeRun).map DiskRun.entries).reverse := rfl

/-- The member `freeMergedRuns` on a full level, with the runs that
`getRunsToMerge` names: the call returns, the other runs move to the front
and the slots after them are new. -/
theorem freeMergedRuns_spec (E : Env) (ps D M idx : Nat) (lvl : DiskLevel)
    (hok : lvl.LevelOK E ps D M idx) (hfull : lvl._activeRun = D) (hM1 : 1 ≤ M) (hMD : M ≤ D)
    (hD : D < 2 ^ 32) :
    ∃ lvl', lvl.freeMergedRuns E (lvl.runs.take M) = some lvl' ∧ lvl'.LevelOK E ps D M idx ∧
      lvl'._activeRun + M = D ∧ lvl'._runSize = lvl._runSize ∧
      lvl.order = lvl'.order ++ ((lvl.runs.take M).map DiskRun.entries).reverse := by
  have hnew : (lvl._activeRun + (2 ^ 32 - lvl._mergeSize % 2 ^ 32)) % 2 ^ 32 = D - M := by
    have hm : M % 2 ^ 32 = M := Nat.mod_eq_of_lt (by omega)
    rw [hfull, hok.mergeSize, hm]
    have : D + (2 ^ 32 - M) = (D - M) + 2 ^ 32 := by omega
    rw [this, Nat.add_mod_right, Nat.mod_eq_of_lt (by omega)]
  have hnew2 : (lvl._activeRun + (2 ^ 32 - M % 2 ^ 32)) % 2 ^ 32 = D - M := by
    have := hnew
    rw [hok.mergeSize] at this
    exact this
  have hlen := hok.len
  have hdl : (lvl.runs.drop M).length = D - M := by rw [List.length_drop, hlen]
  obtain ⟨kept, k1, k2, k3⟩ := renumber_all (lvl.runs.drop M) 0
  rw [hdl] at k1
  obtain ⟨fresh, f1, f2, f3⟩ := newRuns_spec E lvl._runSize lvl._pageSize lvl._level
    (by have := hok.size_pos; omega) (D - (D - M)) (D - M)
  have hklen : kept.length = D - M := by
    have := congrArg List.length k2
    simp only [List.length_map] at this
    omega
  have hall : (lvl.runs.take M).all (fun r => decide (r._level = lvl._level)) = true := by
    rw [List.all_eq_true]
    intro r hr
    have hr2 : r ∈ lvl.runs.take lvl._activeRun := by
      rw [hfull]
      exact List.take_subset_take_left _ hMD hr
    simpa using (hok.used r hr2).2.2
  refine ⟨{ lvl with runs := kept ++ fresh, _activeRun := D - M }, ?_, ?_, by simp only; omega,
    rfl, ?_⟩
  · unfold freeMergedRuns
    rw [if_neg (by rw [List.length_take, hlen, hok.mergeSize]; omega), hall]
    rw [if_neg (by simp), if_neg (by rw [hlen, hok.mergeSize]; omega)]
    simp only [hok.mergeSize, hok.numRuns, hnew2, k1, f1]
  · refine ⟨hok.level, hok.page, hok.numRuns, hok.mergeSize, hok.size_pos, hok.size_le, ?_,
      by simp only; omega, ?_, ?_⟩
    · simp only [List.length_append]; omega
    · intro r hr
      simp only at hr
      rw [List.take_left' hklen] at hr
      obtain ⟨r0, g1, g2, g3, g4, g5⟩ := k3 r hr
      have hr0 : r0 ∈ lvl.runs.take lvl._activeRun := by
        rw [hfull, List.take_of_length_le (by omega)]
        exact List.mem_of_mem_drop g1
      obtain ⟨u1, u2, u3⟩ := hok.used r0 hr0
      refine ⟨⟨by rw [g4]; exact u1.cap_pos, by rw [g4, g3]; exact u1.cap_le, ?_, ?_⟩,
        by rw [g4]; exact u2, by rw [g5]; exact u3⟩
      · unfold DiskRun.StrictKeys; rw [g2]; exact u1.strict
      · rw [g2]; exact u1.keys
    · intro r hr
      simp only at hr
      rw [List.drop_left' hklen] at hr
      obtain ⟨i, hi⟩ := List.mem_iff_getElem?.mp hr
      have hi2 : i < D - (D - M) := by
        have := (List.getElem?_eq_some.mp hi).1
        omega
      obtain ⟨r1, g1, g2⟩ := f3 i hi2
      rw [hi] at g1
      simp only [Option.some.injEq] at g1
      subst g1
      rw [hok.page] at g2
      exact DiskRun.Blank.of_new g2
  · rw [order_eq, order_eq]
    simp only
    rw [List.take_left' hklen, k2, hfull, List.take_of_length_le (by omega)]
    rw [← List.reverse_append, ← List.map_append, List.take_append_drop]

/-- A level takes a run into its first free slot. -/
theorem LevelOK.occupy {E : Env} {ps D M idx : Nat} {lvl : DiskLevel}
    (hok : lvl.LevelOK E ps D M idx) (ha : lvl._activeRun < D) (out : DiskRun)
    (hlive : out.Live) (hcap : out._capacity ≤ lvl._runSize) (hlev : out._level = lvl._level) :
    ({ lvl with runs := lvl.runs.set lvl._activeRun out,
                _activeRun := lvl._activeRun + 1 } : DiskLevel).LevelOK E ps D M idx ∧
      ({ lvl with runs := lvl.runs.set lvl._activeRun out,
                  _activeRun := lvl._activeRun + 1 } : DiskLevel).order
        = out.entries :: lvl.order := by
  have hlen := hok.len
  have htake : (lvl.runs.set lvl._activeRun out).take (lvl._activeRun + 1) =
      lvl.runs.take lvl._activeRun ++ [out] := by
    rw [List.take_succ, List.getElem?_set_self (by omega), List.set_take,
      List.set_eq_of_length_le (by rw [List.length_take]; omega)]
    rfl
  have hdrop : (lvl.runs.set lvl._activeRun out).drop (lvl._activeRun + 1) =
      lvl.runs.drop (lvl._activeRun + 1) := List.drop_set_of_lt _ _ (Nat.lt_succ_self _)
  constructor
  · refine ⟨hok.level, hok.page, hok.numRuns, hok.mergeSize, hok.size_pos, hok.size_le, ?_,
      by simp only; omega, ?_, ?_⟩
    · simp only [List.length_set]; exact hlen
    · intro r hr
      simp only at hr
      rw [htake] at hr
      rcases List.mem_append.mp hr with h | h
      · exact hok.used r h
      · simp only [List.mem_singleton] at h
        subst h
        exact ⟨hlive, hcap, hlev⟩
    · intro r hr
      simp only at hr
      rw [hdrop] at hr
      apply hok.free r
      rw [List.drop_eq_getElem?_toList_append]
      exact List.mem_append_right _ hr
  · rw [order_eq, order_eq]
    simp only
    rw [htake, List.map_append, List.reverse_append]
    rfl

end DiskLevel
namespace DiskLevel

theorem mem_take_of_getElem? {α : Type} (l : List α) (n i : Nat) (x : α) (hi : i < n)
    (h : l[i]? = some x) : x ∈ l.take n := by
  apply List.mem_iff_getElem?.mpr
  exact ⟨i, by rw [List.getElem?_take, if_pos hi]; exact h⟩

theorem mem_drop_of_getElem? {α : Type} (l : List α) (n i : Nat) (x : α) (hi : n ≤ i)
    (h : l[i]? = some x) : x ∈ l.drop n := by
  apply List.mem_iff_getElem?.mpr
  refine ⟨i - n, ?_⟩
  rw [List.getElem?_drop]
  have : n + (i - n) = i := by omega
  rw [this]
  exact h

/-- A full level hands its first `M` runs to `addRuns` as sources, and a free
slot of the next level can take their merge. -/
theorem LevelOK.sources {E : Env} {ps D M idx : Nat} {src : DiskLevel}
    (hs : src.LevelOK E ps D M idx) (hfull : src._activeRun = D) (hM1 : 1 ≤ M) (hMD : M ≤ D)
    (hMs : M ≤ 2147483647) (hps : 1 ≤ ps)
    (hbf : ∀ n, 1 ≤ n → 0 < E.bfBits n ∨ E.bfHashes n = 0)
    (d0 : DiskRun) (cap : Nat) (lev : Int) (hblank : d0.Blank E cap ps lev)
    (hcap : cap = src._runSize * M) (hsmall : cap ≤ 2147483647) (lastLevel : Bool)
    (hkept : lastLevel = true → Keeps (src.runs.take M)) :
    Sources (src.runs.take M) ∧ (∀ r ∈ src.runs.take M, r.Live) ∧
      Receives (src.runs.take M) d0 lastLevel := by
  have hsub : ∀ r ∈ src.runs.take M, r ∈ src.runs.take src._activeRun := by
    intro r hr
    rw [hfull]
    exact List.take_subset_take_left _ hMD hr
  have hlive : ∀ r ∈ src.runs.take M, r.Live := fun r hr => (hs.used r (hsub r hr)).1
  have hlen : (src.runs.take M).length = M := by
    rw [List.length_take, hs.len]; omega
  obtain ⟨b1, b2, b3, b4, b5, b6⟩ := hblank.slot_facts
  refine ⟨⟨by omega, fun r hr => ⟨(hlive r hr).cap_pos, (hlive r hr).cap_le⟩, ?_⟩, hlive, ?_⟩
  · intro r hr
    exact ((hlive r hr).strict).imp (fun h => le_of_lt h)
  · refine ⟨?_, ?_, by rw [b1]; simpa using hsmall, by omega, ?_, ?_, ?_⟩
    · obtain ⟨r, hr⟩ : ∃ r, (src.runs.take M)[0]? = some r :=
        ⟨_, List.getElem?_eq_getElem (by omega)⟩
      have hmem := List.getElem?_mem hr
      obtain ⟨kv, hkv⟩ := DiskRun.entries_ne_nil r (hlive r hmem).cap_pos (hlive r hmem).cap_le
      exact ⟨r, hmem, kv, hkv, (hlive r hmem).keys kv hkv⟩
    · have := sum_le_mul (src.runs.take M) src._runSize
        (fun r hr => (hs.used r (hsub r hr)).2.1)
      rw [hlen] at this
      rw [b1, List.length_replicate, hcap, Nat.mul_comm]
      exact this
    · rw [b4]
      simpa [BloomFilter.new] using hbf cap b5
    · intro _ kv hkv
      rw [b1] at hkv
      have := List.eq_of_mem_replicate hkv
      subst this
      decide
    · exact hkept

end DiskLevel

namespace LSM

/-- The statements of `mergeRunsToLevel` after the recursive call, on a store
whose level `i` is full and whose level `i + 1` has a free slot: they return,
level `i` loses its `M` oldest runs, and level `i + 1` gains their merge as
its newest run. -/
theorem moveRuns_spec (E : Env) (hbf : ∀ n, 1 ≤ n → 0 < E.bfBits n ∨ E.bfHashes n = 0)
    (s : LSM) (i : Nat) (src dst : DiskLevel) (hok : s.DiskOK E)
    (hsrc : s.diskLevels[i]? = some src) (hdst : s.diskLevels[i + 1]? = some dst)
    (hfull : src._activeRun = src._numRuns) (hfree : dst._activeRun < dst._numRuns)
    (hkept : i + 2 = s._numDiskLevels ∧ dst._activeRun = 0 →
      DiskLevel.Keeps (src.runs.take s.diskMergeSize)) :
    ∃ (src' dst' : DiskLevel) (merged : DiskRun), moveRuns E s (i + 1) =
        some { s with diskLevels := (s.diskLevels.set (i + 1) dst').set i src' } ∧
      src'.LevelOK E s._pageSize s._diskRunsPerLevel s.diskMergeSize i ∧
      dst'.LevelOK E s._pageSize s._diskRunsPerLevel s.diskMergeSize (i + 1) ∧
      src'._runSize = src._runSize ∧ dst'._runSize = dst._runSize ∧
      src'._activeRun + s.diskMergeSize = s._diskRunsPerLevel ∧
      src.order = src'.order ++ ((src.runs.take s.diskMergeSize).map DiskRun.entries).reverse ∧
      dst'.order = merged.entries :: dst.order ∧ dst'._activeRun = dst._activeRun + 1 ∧
      merged.StrictKeys ∧
      DiskLevel.MergedOf (src.runs.take s.diskMergeSize) merged.entries
        (i + 2 = s._numDiskLevels ∧ dst._activeRun = 0) := by
  have hs := hok.levels i src hsrc
  have hd := hok.levels (i + 1) dst hdst
  have hsz := hok.sizes i src dst hsrc hdst
  have hM1 := hok.merge_pos
  have hMD := hok.merge_le
  have hfull2 : src._activeRun = s._diskRunsPerLevel := by rw [hfull, hs.numRuns]
  have hfree2 : dst._activeRun < s._diskRunsPerLevel := by rw [← hd.numRuns]; exact hfree
  obtain ⟨d0, hd0⟩ := getElem?_some_of_lt dst.runs dst._activeRun (by rw [hd.len]; exact hfree2)
  have hblank := hd.free d0 (DiskLevel.mem_drop_of_getElem? _ _ _ _ (le_refl _) hd0)
  obtain ⟨b1, b2, b3, b4, b5, b6⟩ := hblank.slot_facts
  have hflag : (decide (i + 1 + 1 = s._numDiskLevels) && dst.levelEmpty) = true ↔
      (i + 2 = s._numDiskLevels ∧ dst._activeRun = 0) := by
    simp [DiskLevel.levelEmpty]
  obtain ⟨hS, hL, hR⟩ := hs.sources hfull2 hM1 hMD hok.merge_small hok.page hbf d0 _ _ hblank
    (by rw [hsz, hs.mergeSize]) hd.size_le
    (decide (i + 1 + 1 = s._numDiskLevels) && dst.levelEmpty) (fun h => hkept (hflag.mp h))
  obtain ⟨out, a1, a2, a3, a4, a5, a6, a7⟩ := DiskLevel.addRuns_merged E dst
    (src.runs.take s.diskMergeSize) src._runSize
    (decide (i + 1 + 1 = s._numDiskLevels) && dst.levelEmpty) d0 hS
    (fun r hr => (hL r hr).strict) hd0 hR
  have hlive : out.Live := by
    refine ⟨a3, a4, a2, ?_⟩
    intro kv hkv
    obtain ⟨j, r, g1, g2, -⟩ := a7.1 kv.key kv.value hkv
    exact (hL r (List.getElem?_mem g1)).keys _ g2
  have hcap : out._capacity ≤ dst._runSize := by
    rw [a5, b1, List.length_replicate] at a4
    exact a4
  obtain ⟨o1, o2⟩ := hd.occupy hfree2 out hlive hcap (by rw [a6, b6])
  obtain ⟨src', f1, f2, f3, f4, f5⟩ := DiskLevel.freeMergedRuns_spec E _ _ _ _ src hs hfull2
    hM1 hMD hok.runs_lt
  refine ⟨src', _, out, ?_, f2, o1, f4, rfl, f3, f5, o2, rfl, a2, a7.weaken hflag.mp⟩
  unfold moveRuns
  rw [if_neg (by omega)]
  simp only [Nat.add_sub_cancel, hdst, hsrc]
  have hg : src.getRunsToMerge = some (src.runs.take s.diskMergeSize) := by
    unfold DiskLevel.getRunsToMerge
    rw [if_neg (by rw [hs.len, hs.mergeSize]; omega), hs.mergeSize]
  rw [hg]
  simp only [a1, f1]

end LSM
theorem newest_append (A B : List (List KVPair)) (k : Int) :
    newest (A ++ B) k = (newest A k).or (newest B k) := by
  induction A with
  | nil => simp [newest]
  | cons run rest ih =>
    simp only [List.cons_append, newest]
    cases run.find? (fun kv => decide (kv.key = k)) with
    | some kv => simp
    | none => simpa using ih

theorem find_key_eq_some (run : List KVPair) (hs : run.Pairwise (fun a b => a.key < b.key))
    (k v : Int) :
    (run.find? (fun kv => decide (kv.key = k))).map (fun kv => kv.value) = some v ↔
      (⟨k, v⟩ : KVPair) ∈ run := by
  induction run with
  | nil => simp
  | cons a rest ih =>
    rw [List.pairwise_cons] at hs
    simp only [List.find?_cons]
    by_cases hk : a.key = k
    · simp only [hk, decide_True, Option.map_some', Option.some.injEq, List.mem_cons]
      constructor
      · intro hv
        left
        cases a
        simp only at hk hv
        rw [hk, hv]
      · rintro (h | h)
        · rw [← h]
        · have := hs.1 _ h
          simp only at this
          omega
    · simp only [hk, decide_False, List.mem_cons]
      rw [ih hs.2]
      constructor
      · exact fun h => Or.inr h
      · rintro (h | h)
        · exfalso
          apply hk
          rw [← h]
        · exact h

theorem find_key_eq_none (run : List KVPair) (k : Int) :
    run.find? (fun kv => decide (kv.key = k)) = none ↔ ∀ v, (⟨k, v⟩ : KVPair) ∉ run := by
  rw [List.find?_eq_none]
  constructor
  · intro h v hv
    exact h _ hv (by simp)
  · intro h kv hkv hk
    simp only [decide_eq_true_eq] at hk
    apply h kv.value
    rw [← hk]
    exact hkv

theorem newest_single (run : List KVPair) (hs : run.Pairwise (fun a b => a.key < b.key))
    (k v : Int) : newest [run] k = some v ↔ (⟨k, v⟩ : KVPair) ∈ run := by
  rw [← find_key_eq_some run hs k v]
  simp only [newest]
  cases run.find? (fun kv => decide (kv.key = k)) with
  | some kv => simp
  | none => simp

namespace DiskLevel

theorem wins_cons (r : DiskRun) (rest : List DiskRun) (k v : Int) :
    Wins (r :: rest) k v ↔
      (Wins rest k v ∨
        ((⟨k, v⟩ : KVPair) ∈ r.entries ∧ ∀ src2 ∈ rest, ∀ v2, (⟨k, v2⟩ : KVPair) ∉ src2.entries)) := by
  unfold Wins
  constructor
  · rintro ⟨i, src, h1, h2, h3⟩
    cases i with
    | zero =>
      right
      simp only [List.getElem?_cons_zero, Option.some.injEq] at h1
      subst h1
      refine ⟨h2, ?_⟩
      intro src2 hs2 v2
      obtain ⟨j, hj⟩ := List.mem_iff_getElem?.mp hs2
      exact h3 (j + 1) src2 (by omega) (by simpa using hj) v2
    | succ i =>
      left
      refine ⟨i, src, by simpa using h1, h2, ?_⟩
      intro i2 src2 hlt hs2 v2
      exact h3 (i2 + 1) src2 (by omega) (by simpa using hs2) v2
  · rintro (⟨i, src, h1, h2, h3⟩ | ⟨h1, h2⟩)
    · refine ⟨i + 1, src, by simpa using h1, h2, ?_⟩
      intro i2 src2 hlt hs2 v2
      cases i2 with
      | zero => omega
      | succ i2 => exact h3 i2 src2 (by omega) (by simpa using hs2) v2
    · refine ⟨0, r, by simp, h1, ?_⟩
      intro i2 src2 hlt hs2 v2
      cases i2 with
      | zero => omega
      | succ i2 =>
        simp only [List.getElem?_cons_succ] at hs2
        exact h2 src2 (List.getElem?_mem hs2) v2

theorem newest_reverse_none (rl : List DiskRun) (k : Int) :
    newest ((rl.map DiskRun.entries).reverse) k = none ↔
      ∀ src ∈ rl, ∀ v, (⟨k, v⟩ : KVPair) ∉ src.entries := by
  induction rl with
  | nil => simp [newest]
  | cons r rest ih =>
    simp only [List.map_cons, List.reverse_cons, newest_append, List.mem_cons, forall_eq_or_imp]
    rw [Option.or_eq_none, ih]
    simp only [newest]
    rw [← find_key_eq_none]
    constructor
    · rintro ⟨h1, h2⟩
      refine ⟨?_, h1⟩
      cases hf : r.entries.find? (fun kv => decide (kv.key = k)) with
      | some kv => rw [hf] at h2; simp at h2
      | none => rfl
    · rintro ⟨h1, h2⟩
      refine ⟨h2, ?_⟩
      rw [h1]

/-- The first of the sources, newest first, that holds key `k` gives the pair
of `k` in the source of highest index. -/
theorem newest_reverse_some (rl : List DiskRun) (hs : ∀ r ∈ rl, r.StrictKeys) (k v : Int) :
    newest ((rl.map DiskRun.entries).reverse) k = some v ↔ Wins rl k v := by
  induction rl with
  | nil => simp [newest, Wins]
  | cons r rest ih =>
    rw [wins_cons, ← ih (fun r hr => hs r (List.mem_cons_of_mem _ hr))]
    simp only [List.map_cons, List.reverse_cons, newest_append]
    rw [← newest_reverse_none, ← newest_single r.entries (hs r (List.mem_cons_self _ _))]
    cases newest ((rest.map DiskRun.entries).reverse) k with
    | some w => simp
    | none => simp

/-- A run that is the whole merge of the sources answers for them. -/
theorem MergedOf.newest_eq {rl : List DiskRun} {out : List KVPair} (h : MergedOf rl out False)
    (hout : out.Pairwise (fun a b => a.key < b.key)) (hs : ∀ r ∈ rl, r.StrictKeys) (k : Int) :
    newest [out] k = newest ((rl.map DiskRun.entries).reverse) k := by
  apply Option.ext
  intro v
  simp only [Option.mem_def]
  rw [newest_single out hout, newest_reverse_some rl hs]
  constructor
  · exact h.1 k v
  · intro hw
    rcases h.2 k v hw with h1 | ⟨h1, -⟩
    · exact h1
    · exact absurd h1 id

/-- A run that is the merge of the sources, with or without the tombstones,
reports the values that a search of the sources reports. -/
theorem MergedOf.visible_eq {rl : List DiskRun} {out : List KVPair} {t : Prop}
    (h : MergedOf rl out t) (hout : out.Pairwise (fun a b => a.key < b.key))
    (hs : ∀ r ∈ rl, r.StrictKeys) (k : Int) :
    visible [out] k = visible ((rl.map DiskRun.entries).reverse) k := by
  unfold visible
  cases hR : newest ((rl.map DiskRun.entries).reverse) k with
  | none =>
    cases hO : newest [out] k with
    | none => rfl
    | some v =>
      have hw := h.1 k v ((newest_single out hout k v).mp hO)
      rw [← newest_reverse_some rl hs, hR] at hw
      exact absurd hw (by simp)
  | some v =>
    have hw := (newest_reverse_some rl hs k v).mp hR
    rcases h.2 k v hw with h1 | ⟨-, h1⟩
    · rw [(newest_single out hout k v).mpr h1]
    · cases hO : newest [out] k with
      | none => simp [Option.filter, h1]
      | some v2 =>
        have hw2 := h.1 k v2 ((newest_single out hout k v2).mp hO)
        rw [← newest_reverse_some rl hs, hR] at hw2
        simp only [Option.some.injEq] at hw2
        rw [hw2]

end DiskLevel

theorem visible_append (A B : List (List KVPair)) (k : Int) :
    visible (A ++ B) k =
      match newest A k with
      | some v => if v = V_TOMBSTONE then none else some v
      | none => visible B k := by
  unfold visible
  rw [newest_append]
  cases newest A k with
  | none => simp
  | some v =>
    by_cases hv : v = V_TOMBSTONE
    · simp [Option.filter, hv]
    · simp [Option.filter, hv]
namespace LSM

theorem list_split2 {α : Type} (l : List α) (i : Nat) (a b : α) (ha : l[i]? = some a)
    (hb : l[i + 1]? = some b) : l = l.take i ++ a :: b :: l.drop (i + 2) := by
  conv_lhs => rw [← List.take_append_drop i l, List.drop_eq_getElem?_toList_append, ha,
    List.drop_eq_getElem?_toList_append, hb]
  rfl

theorem list_set2 {α : Type} (l : List α) (i : Nat) (a b a2 b2 : α) (ha : l[i]? = some a)
    (hb : l[i + 1]? = some b) :
    (l.set (i + 1) b2).set i a2 = l.take i ++ a2 :: b2 :: l.drop (i + 2) := by
  have hi : i < l.length := (List.getElem?_eq_some.mp ha).1
  have hlen : (l.take i).length = i := by rw [List.length_take]; omega
  conv_lhs => rw [list_split2 l i a b ha hb]
  rw [List.set_append, if_neg (by omega), hlen, List.set_append, if_neg (by omega), hlen]
  simp

theorem getElem?_set2 {α : Type} (l : List α) (i j : Nat) (a2 b2 : α) (hi : i + 1 < l.length) :
    ((l.set (i + 1) b2).set i a2)[j]? =
      if j = i then some a2 else if j = i + 1 then some b2 else l[j]? := by
  by_cases h1 : j = i
  · subst h1
    rw [if_pos rfl, List.getElem?_set_self (by rw [List.length_set]; omega)]
  · rw [if_neg h1, List.getElem?_set_ne (by omega)]
    by_cases h2 : j = i + 1
    · subst h2
      rw [if_pos rfl, List.getElem?_set_self hi]
    · rw [if_neg h2, List.getElem?_set_ne (by omega)]

/-- The disk levels keep their shape when levels are replaced by levels of
the same shape and run size. -/
theorem DiskOK.replace {E : Env} {s : LSM} (hok : s.DiskOK E) (dl : List DiskLevel)
    (hlen : dl.length = s.diskLevels.length)
    (h : ∀ (j : Nat) (lv2 : DiskLevel), dl[j]? = some lv2 →
      lv2.LevelOK E s._pageSize s._diskRunsPerLevel s.diskMergeSize j ∧
        ∃ lv, s.diskLevels[j]? = some lv ∧ lv2._runSize = lv._runSize) :
    ({ s with diskLevels := dl } : LSM).DiskOK E := by
  refine ⟨by simp only; rw [hlen]; exact hok.count, hok.page, hok.merge_pos, hok.merge_le,
    hok.merge_small, hok.runs_lt, fun j lv2 hj => (h j lv2 hj).1, ?_⟩
  intro j a2 b2 ha hb
  simp only at ha hb
  obtain ⟨ka, a, ga, ra⟩ := h j a2 ha
  obtain ⟨kb, b, gb, rb⟩ := h (j + 1) b2 hb
  rw [rb, ra, hok.sizes j a b ga gb, ka.mergeSize, (hok.levels j a ga).mergeSize]

/-- The constructor of `DiskLevel` makes a level of free slots. -/
theorem new_levelOK (E : Env) (ps D M idx runSize : Nat) (h1 : 1 ≤ runSize)
    (h2 : runSize ≤ 2147483647) :
    ∃ nl, DiskLevel.new E ps ((idx : Int) + 1) runSize D M = some nl ∧
      nl.LevelOK E ps D M idx ∧ nl._activeRun = 0 ∧ nl._runSize = runSize ∧ nl._numRuns = D := by
  obtain ⟨rs, g1, g2, g3⟩ := DiskLevel.newRuns_spec E runSize ps ((idx : Int) + 1)
    (by omega) D 0
  refine ⟨_, by unfold DiskLevel.new; rw [g1], ?_, rfl, rfl, rfl⟩
  refine ⟨rfl, rfl, rfl, rfl, h1, h2, g2, Nat.zero_le _, ?_, ?_⟩
  · intro r hr
    simp at hr
  · intro r hr
    simp only [List.drop_zero] at hr
    obtain ⟨j, hj⟩ := List.mem_iff_getElem?.mp hr
    obtain ⟨r1, k1, k2⟩ := g3 j (by have := (List.getElem?_eq_some.mp hj).1; omega)
    rw [hj] at k1
    simp only [Option.some.injEq] at k1
    subst k1
    exact DiskRun.Blank.of_new k2

/-- The first statement of `mergeRunsToLevel` called for the level after the
last one: the level is made, with free slots only. -/
theorem growLevels_spec (E : Env) (s : LSM) (i : Nat) (src : DiskLevel) (hok : s.DiskOK E)
    (hsrc : s.diskLevels[i]? = some src) (hlast : i + 1 = s._numDiskLevels)
    (hgrow : src._runSize * src._mergeSize ≤ 2147483647) :
    ∃ nl, growLevels E s (i + 1) =
        some { s with diskLevels := s.diskLevels ++ [nl],
                      _numDiskLevels := s._numDiskLevels + 1 } ∧
      ({ s with diskLevels := s.diskLevels ++ [nl],
                _numDiskLevels := s._numDiskLevels + 1 } : LSM).DiskOK E ∧
      nl._activeRun = 0 ∧ nl._numRuns = s._diskRunsPerLevel ∧ nl.order = [] := by
  have hs := hok.levels i src hsrc
  have hpos : 1 ≤ src._runSize * src._mergeSize :=
    Nat.mul_pos hs.size_pos (by rw [hs.mergeSize]; exact hok.merge_pos)
  obtain ⟨nl, n1, n2, n3, n4, n5⟩ := new_levelOK E s._pageSize s._diskRunsPerLevel s.diskMergeSize
    (i + 1) (src._runSize * src._mergeSize) hpos hgrow
  have hcount := hok.count
  refine ⟨nl, ?_, ?_, n3, n5, ?_⟩
  · unfold growLevels
    rw [if_pos hlast]
    simp only [Nat.add_sub_cancel, hsrc]
    rw [if_neg (by omega)]
    simp only [n1]
  · refine ⟨by simp only [List.length_append, List.length_cons, List.length_nil]; omega,
      hok.page, hok.merge_pos, hok.merge_le, hok.merge_small, hok.runs_lt, ?_, ?_⟩
    · intro j lv hj
      simp only at hj
      rcases Nat.lt_or_ge j s.diskLevels.length with hlt | hge
      · rw [List.getElem?_append_left hlt] at hj
        exact hok.levels j lv hj
      · rw [List.getElem?_append_right hge] at hj
        have hj0 : j - s.diskLevels.length = 0 := by
          rcases Nat.eq_zero_or_pos (j - s.diskLevels.length) with h | h
          · exact h
          · rw [List.getElem?_eq_none (by simp; omega)] at hj
            exact absurd hj (by simp)
        rw [hj0] at hj
        simp only [List.getElem?_cons_zero, Option.some.injEq] at hj
        subst hj
        have : j = i + 1 := by omega
        subst this
        exact n2
    · intro j a b ha hb
      simp only at ha hb
      rcases Nat.lt_or_ge (j + 1) s.diskLevels.length with hlt | hge
      · rw [List.getElem?_append_left (by omega)] at ha
        rw [List.getElem?_append_left hlt] at hb
        exact hok.sizes j a b ha hb
      · have hj : j + 1 = s.diskLevels.length := by
          rcases Nat.lt_or_ge s.diskLevels.length (j + 1) with h | h
          · rw [List.getElem?_eq_none (by simp; omega)] at hb
            exact absurd hb (by simp)
          · omega
        rw [List.getElem?_append_right hge, hj] at hb
        simp only [Nat.sub_self, List.getElem?_cons_zero, Option.some.injEq] at hb
        subst hb
        rw [List.getElem?_append_left (by omega)] at ha
        have hji : j = i := by omega
        subst hji
        rw [hsrc] at ha
        simp only [Option.some.injEq] at ha
        subst ha
        exact n4
  · rw [DiskLevel.order_eq, n3]
    simp

end LSM
namespace LSM

theorem diskOrder_split2 (s : LSM) (i : Nat) (a b : DiskLevel) (ha : s.diskLevels[i]? = some a)
    (hb : s.diskLevels[i + 1]? = some b) :
    s.diskOrder = ((s.diskLevels.take i).map DiskLevel.order).flatten ++
      (a.order ++ (b.order ++ ((s.diskLevels.drop (i + 2)).map DiskLevel.order).flatten)) := by
  unfold diskOrder
  conv_lhs => rw [list_split2 s.diskLevels i a b ha hb]
  simp only [List.map_append, List.map_cons, List.flatten_append, List.flatten_cons]

/-- The statements of `mergeRunsToLevel` after the recursive call, on a store
whose level `i` is full and whose level `i + 1` has a free slot. -/
theorem moveRuns_store (E : Env) (hbf : ∀ n, 1 ≤ n → 0 < E.bfBits n ∨ E.bfHashes n = 0)
    (s : LSM) (i : Nat) (src dst : DiskLevel) (hok : s.DiskOK E)
    (hsrc : s.diskLevels[i]? = some src) (hdst : s.diskLevels[i + 1]? = some dst)
    (hfull : src._activeRun = src._numRuns) (hfree : dst._activeRun < dst._numRuns)
    (hkept : i + 2 = s._numDiskLevels ∧ dst._activeRun = 0 →
      DiskLevel.Keeps (src.runs.take s.diskMergeSize))
    (hbusy : ∀ lvl ∈ s.diskLevels.drop (i + 2), 1 ≤ lvl._activeRun) :
    ∃ (s2 : LSM) (src2 dst2 : DiskLevel) (merged : DiskRun),
      moveRuns E s (i + 1) = some s2 ∧ Cascaded E s s2 i src src2 dst2 merged := by
  obtain ⟨src2, dst2, merged, h1, h2, h3, h4, h5, h6, h7, h8, h8b, h9, h10⟩ :=
    moveRuns_spec E hbf s i src dst hok hsrc hdst hfull hfree hkept
  have hi : i + 1 < s.diskLevels.length := (List.getElem?_eq_some.mp hdst).1
  have hget := fun j => getElem?_set2 s.diskLevels i j src2 dst2 hi
  have hset := list_set2 s.diskLevels i src dst src2 dst2 hsrc hdst
  have hlen : (s.diskLevels.take i).length = i := by rw [List.length_take]; omega
  have hstrict : ∀ r ∈ src.runs.take s.diskMergeSize, r.StrictKeys := by
    intro r hr
    have hr2 : r ∈ src.runs.take src._activeRun := by
      rw [hfull, (hok.levels i src hsrc).numRuns]
      exact List.take_subset_take_left _ hok.merge_le hr
    exact ((hok.levels i src hsrc).used r hr2).1.strict
  refine ⟨_, src2, dst2, merged, h1, ?_, rfl, rfl, rfl, le_refl _, ?_, ?_, ?_, h6, h4, h7, ?_,
    h9, ?_, ?_, ?_⟩
  · apply hok.replace
    · simp only [List.length_set]
    · intro j lv2 hj
      rw [hget j] at hj
      by_cases hj1 : j = i
      · subst hj1
        rw [if_pos rfl] at hj
        simp only [Option.some.injEq] at hj
        subst hj
        exact ⟨h2, src, hsrc, h4⟩
      · rw [if_neg hj1] at hj
        by_cases hj2 : j = i + 1
        · subst hj2
          rw [if_pos rfl] at hj
          simp only [Option.some.injEq] at hj
          subst hj
          exact ⟨h3, dst, hdst, h5⟩
        · rw [if_neg hj2] at hj
          exact ⟨hok.levels j lv2 hj, lv2, hj, rfl⟩
  · simp only
    rw [hset, List.take_left' hlen]
  · simp only
    rw [hget i, if_pos rfl]
  · simp only
    rw [hget (i + 1), if_neg (by omega), if_pos rfl]
  · rw [h8]; rfl
  · apply h10.weaken
    rintro ⟨g1, g2⟩
    simp only
    omega
  · intro lvl hl
    simp only at hl
    rw [hset] at hl
    have hd : (s.diskLevels.take i ++ src2 :: dst2 :: s.diskLevels.drop (i + 2)).drop (i + 1)
        = dst2 :: s.diskLevels.drop (i + 2) := by
      have : i + 1 = (s.diskLevels.take i).length + 1 := by rw [hlen]
      rw [this, List.drop_append]
      rfl
    rw [hd] at hl
    rcases List.mem_cons.mp hl with h | h
    · subst h; omega
    · exact hbusy lvl h
  · intro k
    have e1 := diskOrder_split2 s i src dst hsrc hdst
    have e2 : ({ s with diskLevels := (s.diskLevels.set (i + 1) dst2).set i src2 } : LSM).diskOrder
        = ((s.diskLevels.take i).map DiskLevel.order).flatten ++
          (src2.order ++ (dst2.order ++
            ((s.diskLevels.drop (i + 2)).map DiskLevel.order).flatten)) := by
      unfold diskOrder
      simp only
      rw [hset]
      simp only [List.map_append, List.map_cons, List.flatten_append, List.flatten_cons]
    rw [e1, e2, h7, h8]
    have hc : merged.entries :: dst.order ++
          ((s.diskLevels.drop (i + 2)).map DiskLevel.order).flatten =
        [merged.entries] ++ (dst.order ++
          ((s.diskLevels.drop (i + 2)).map DiskLevel.order).flatten) := rfl
    rw [hc]
    unfold visible
    simp only [newest_append, Option.or_assoc]
    by_cases hterm : i + 2 = s._numDiskLevels ∧ dst._activeRun = 0
    · have hX1 : dst.order = [] := by
        rw [DiskLevel.order_eq, hterm.2]
        rfl
      have hX2 : s.diskLevels.drop (i + 2) = [] := by
        apply List.drop_of_length_le
        rw [hok.count]
        omega
      have hv := h10.visible_eq h9 hstrict k
      unfold visible at hv
      rw [hX1, hX2]
      simp only [List.map_nil, List.flatten_nil, newest, Option.or_none]
      cases newest ((s.diskLevels.take i).map DiskLevel.order).flatten k with
      | some v => rfl
      | none =>
        cases newest src2.order k with
        | some v => rfl
        | none => simpa using hv
    · have hm := (h10.weaken (fun h => hterm h)).newest_eq h9 hstrict k
      rw [hm]

theorem Cascaded.rebase {E : Env} {s1 s2 s : LSM} {i : Nat} {src src2 dst2 : DiskLevel}
    {merged : DiskRun} (h : Cascaded E s1 s2 i src src2 dst2 merged)
    (hp : s1._pageSize = s._pageSize) (hd : s1._diskRunsPerLevel = s._diskRunsPerLevel)
    (hm : s1.diskMergeSize = s.diskMergeSize) (hn : s._numDiskLevels ≤ s1._numDiskLevels)
    (ht : s1.diskLevels.take i = s.diskLevels.take i)
    (hs : ∀ k, visible s1.diskOrder k = visible s.diskOrder k) :
    Cascaded E s s2 i src src2 dst2 merged :=
  ⟨h.ok, h.page.trans hp, h.perLevel.trans hd, h.mergeSize.trans hm, le_trans hn h.grown,
    h.before.trans ht, h.source, h.target, by rw [← hm, ← hd]; exact h.freed, h.size,
    by rw [← hm]; exact h.kept, h.head, h.strict, by rw [← hm]; exact h.merge, h.busy,
    fun k => (h.same k).trans (hs k)⟩

/-- The member `mergeRunsToLevel`, called for the level after a full level
`i`, by induction on the number of levels below: the call returns, makes the
next level if the store does not have it, and moves the `M` oldest runs of
level `i` into one run of the next level, after it has made room there in the
same way. -/
theorem mergeRunsToLevel_spec (E : Env)
    (hbf : ∀ n, 1 ≤ n → 0 < E.bfBits n ∨ E.bfHashes n = 0) :
    ∀ (gap fuel : Nat) (s : LSM) (i : Nat) (src : DiskLevel),
      s.DiskOK E → i + 1 + gap = s._numDiskLevels → gap + 1 ≤ fuel →
      s.diskLevels[i]? = some src → src._activeRun = src._numRuns →
      (∀ lvl ∈ s.diskLevels.drop (i + 1), 1 ≤ lvl._activeRun) →
      (∀ lvl, s.diskLevels.getLast? = some lvl →
        lvl._runSize * lvl._mergeSize ≤ 2147483647 ∧
          DiskLevel.Keeps (lvl.runs.take s.diskMergeSize)) →
      ∃ (s2 : LSM) (src2 dst2 : DiskLevel) (merged : DiskRun),
        mergeRunsToLevel E fuel s (i + 1) = some s2 ∧
          Cascaded E s s2 i src src2 dst2 merged := by
  intro gap
  induction gap with
  | zero =>
    intro fuel s i src hok hn hfuel hsrc hfull hbusy hgrow
    obtain ⟨f, rfl⟩ : ∃ f, fuel = f + 1 := ⟨fuel - 1, by omega⟩
    have hcount := hok.count
    have hlast : s.diskLevels.getLast? = some src := by
      rw [List.getLast?_eq_getElem?, hcount]
      have : s._numDiskLevels - 1 = i := by omega
      rw [this]
      exact hsrc
    obtain ⟨nl, g1, g2, g3, g4, g5⟩ := growLevels_spec E s i src hok hsrc (by omega)
      (hgrow src hlast).1
    have hD : 1 ≤ s._diskRunsPerLevel := le_trans hok.merge_pos hok.merge_le
    have hnl : (s.diskLevels ++ [nl])[i + 1]? = some nl := by
      rw [List.getElem?_append_right (by omega)]
      have : i + 1 - s.diskLevels.length = 0 := by omega
      rw [this]
      rfl
    have hsrc1 : (s.diskLevels ++ [nl])[i]? = some src := by
      rw [List.getElem?_append_left (by omega)]
      exact hsrc
    obtain ⟨s2, src2, dst2, merged, m1, m2⟩ := moveRuns_store E hbf _ i src nl g2 hsrc1 hnl
      hfull (by rw [g3, g4]; omega) (fun _ => (hgrow src hlast).2)
      (by
        intro lvl hl
        simp only at hl
        rw [List.drop_of_length_le (by
          simp only [List.length_append, List.length_cons, List.length_nil]; omega)] at hl
        exact absurd hl (List.not_mem_nil _))
    refine ⟨s2, src2, dst2, merged, ?_, m2.rebase rfl rfl rfl (by simp only; omega) ?_ ?_⟩
    · rw [mergeRunsToLevel_succ, g1]
      simp only [hnl]
      rw [if_neg (by simp [DiskLevel.levelFull, g3, g4]; omega)]
      exact m1
    · simp only
      rw [List.take_append_of_le_length (by omega)]
    · intro k
      unfold diskOrder
      simp only [List.map_append, List.map_cons, List.map_nil, List.flatten_append,
        List.flatten_cons, List.flatten_nil, g5, List.append_nil]
  | succ g ih =>
    intro fuel s i src hok hn hfuel hsrc hfull hbusy hgrow
    obtain ⟨f, rfl⟩ : ∃ f, fuel = f + 1 := ⟨fuel - 1, by omega⟩
    have hcount := hok.count
    obtain ⟨target, htarget⟩ := getElem?_some_of_lt s.diskLevels (i + 1) (by omega)
    have hgl : growLevels E s (i + 1) = some s := by
      unfold growLevels
      rw [if_neg (by omega)]
    have hbusy2 : ∀ lvl ∈ s.diskLevels.drop (i + 2), 1 ≤ lvl._activeRun := by
      intro lvl hl
      apply hbusy lvl
      rw [List.drop_eq_getElem?_toList_append]
      exact List.mem_append_right _ hl
    rw [mergeRunsToLevel_succ, hgl]
    simp only [htarget]
    by_cases htf : target._activeRun = target._numRuns
    · rw [if_pos (by simp [DiskLevel.levelFull, htf])]
      obtain ⟨s1, src1, dst1, merged1, r1, r2⟩ :=
        ih f s (i + 1) target hok (by omega) (by omega) htarget htf hbusy2 hgrow
      rw [r1]
      simp only
      have hsrc1 : s1.diskLevels[i]? = some src := by
        have h1 := congrArg (fun l => l[i]?) r2.before
        simp only [List.getElem?_take, if_pos (Nat.lt_succ_self i)] at h1
        rw [h1]
        exact hsrc
      have hM := r2.ok.merge_pos
      have hlen1 : i + 2 < s1.diskLevels.length := (List.getElem?_eq_some.mp r2.target).1
      obtain ⟨s2, src2, dst2, merged, m1, m2⟩ := moveRuns_store E hbf s1 i src src1 r2.ok hsrc1
        r2.source hfull (by
          have := r2.freed
          rw [(r2.ok.levels (i + 1) src1 r2.source).numRuns, r2.perLevel]
          rw [r2.mergeSize] at hM
          omega)
        (by
          intro h
          have := r2.ok.count
          omega)
        r2.busy
      refine ⟨s2, src2, dst2, merged, m1, m2.rebase r2.page r2.perLevel r2.mergeSize r2.grown
        ?_ r2.same⟩
      have h1 := congrArg (fun l => l.take i) r2.before
      simp only [List.take_take, Nat.min_eq_left (Nat.le_succ i)] at h1
      exact h1
    · rw [if_neg (by simp [DiskLevel.levelFull, htf])]
      have hact := (hok.levels (i + 1) target htarget).active
      have hnum := (hok.levels (i + 1) target htarget).numRuns
      have htb : 1 ≤ target._activeRun :=
        hbusy target (DiskLevel.mem_drop_of_getElem? _ _ _ _ (le_refl _) htarget)
      exact moveRuns_store E hbf s i src target hok hsrc htarget hfull (by omega)
        (fun h => by omega) hbusy2

end LSM

namespace DiskLevel

theorem constructIndex_level (E : Env) (r r2 : DiskRun) (h : r.constructIndex E = some r2) :
    r2._level = r._level := by
  unfold DiskRun.constructIndex at h
  split at h
  · exact absurd h (by simp)
  · split at h
    · exact absurd h (by simp)
    · split at h
      · simp only [Option.some.injEq] at h
        subst h
        rfl
      · exact absurd h (by simp)

/-- The run that `addRunByArray` puts into a slot keeps the level of the slot. -/
theorem addRunByArray_level (E : Env) (lvl lvl2 : DiskLevel) (pairs : List KVPair) (n : Nat)
    (dst : DiskRun) (hdst : lvl.runs[lvl._activeRun]? = some dst)
    (h : lvl.addRunByArray E pairs n = some lvl2) :
    ∃ r, lvl2.runs[lvl._activeRun]? = some r ∧ r._level = dst._level := by
  unfold addRunByArray at h
  split at h
  · exact absurd h (by simp)
  · split at h
    · exact absurd h (by simp)
    · rw [hdst] at h
      simp only at h
      split at h
      · exact absurd h (by simp)
      · rename_i d1 hw
        split at h
        · exact absurd h (by simp)
        · rename_i d2 hc
          simp only [Option.some.injEq] at h
          subst h
          refine ⟨d2, ?_, ?_⟩
          · simp only
            rw [List.getElem?_set_self (List.getElem?_eq_some.mp hdst).1]
          · rw [constructIndex_level E d1 d2 hc]
            unfold DiskRun.writeData at hw
            split at hw
            · exact absurd hw (by simp)
            · simp only [Option.some.injEq] at hw
              subst hw
              rfl

/-- The member `addRunByArray` on a level with a free slot, with an array of
the size of a run, of strictly increasing keys below `INT_MAX`: the call
returns and the array is the newest run of the level. -/
theorem addRunByArray_install (E : Env)
    (hbf : ∀ n, 1 ≤ n → 0 < E.bfBits n ∨ E.bfHashes n = 0) (ps D M idx : Nat)
    (lvl : DiskLevel) (hok : lvl.LevelOK E ps D M idx) (hfree : lvl._activeRun < D)
    (hps : 1 ≤ ps) (pairs : List KVPair) (hlen : pairs.length = lvl._runSize)
    (hstrict : pairs.Pairwise (fun a b => a.key < b.key))
    (hlive : ∀ kv ∈ pairs, kv.key < INT_MAX) :
    ∃ lvl2, lvl.addRunByArray E pairs pairs.length = some lvl2 ∧ lvl2.LevelOK E ps D M idx ∧
      lvl2.order = pairs :: lvl.order ∧ lvl2._runSize = lvl._runSize ∧
      lvl2._activeRun = lvl._activeRun + 1 := by
  obtain ⟨d0, hd0⟩ := LSM.getElem?_some_of_lt lvl.runs lvl._activeRun (by rw [hok.len]; exact hfree)
  have hblank := hok.free d0 (mem_drop_of_getElem? _ _ _ _ (le_refl _) hd0)
  obtain ⟨b1, b2, b3, b4, b5, b6⟩ := hblank.slot_facts
  have hsz := hok.size_le
  obtain ⟨r, hadd, hbuilt, hent⟩ := addRunByArray_slot E lvl pairs d0 (by rw [hok.numRuns]; exact hfree)
    hlen (by omega) (by omega) hd0 (by rw [b1, List.length_replicate]; omega) b2 (by omega)
    (by rw [b4]; simpa [BloomFilter.new] using hbf _ b5)
  obtain ⟨r2, hr2, hlev⟩ := addRunByArray_level E lvl _ pairs pairs.length d0 hd0 hadd
  simp only at hr2
  rw [List.getElem?_set_self (List.getElem?_eq_some.mp hd0).1] at hr2
  simp only [Option.some.injEq] at hr2
  subst hr2
  obtain ⟨hidx, -, -⟩ := hbuilt.facts
  have hcap : r._capacity = pairs.length := by
    have := congrArg List.length hent
    unfold DiskRun.entries at this
    rw [List.length_take] at this
    have := hidx.cap_le
    omega
  have hl : r.Live := ⟨hidx.cap_pos, hidx.cap_le, by unfold DiskRun.StrictKeys; rw [hent]; exact hstrict,
    by rw [hent]; exact hlive⟩
  obtain ⟨o1, o2⟩ := hok.occupy hfree r hl (by omega) (by rw [hlev, b6])
  exact ⟨_, hadd, o1, by rw [o2, hent], rfl, rfl⟩

/-- The shape of a level, from conditions that can be computed. -/
theorem LevelOK.of_checks (E : Env) (ps D M idx : Nat) (lvl : DiskLevel)
    (h1 : lvl._level = (idx : Int) + 1) (h2 : lvl._pageSize = ps) (h3 : lvl._numRuns = D)
    (h4 : lvl._mergeSize = M) (h5 : 1 ≤ lvl._runSize) (h6 : lvl._runSize ≤ 2147483647)
    (h7 : lvl.runs.length = D) (h8 : lvl._activeRun ≤ D)
    (h9 : ∀ r ∈ lvl.runs.take lvl._activeRun,
      (1 ≤ r._capacity ∧ r._capacity ≤ r.map.length ∧
        r.entries.Pairwise (fun a b => a.key < b.key) ∧
        ∀ kv ∈ r.entries, kv.key < INT_MAX) ∧
      r._capacity ≤ lvl._runSize ∧ r._level = lvl._level)
    (h10 : ∀ r ∈ lvl.runs.drop lvl._activeRun,
      DiskRun.new E lvl._runSize ps lvl._level r._runID = some r) :
    lvl.LevelOK E ps D M idx :=
  ⟨h1, h2, h3, h4, h5, h6, h7, h8,
    fun r hr => ⟨⟨(h9 r hr).1.1, (h9 r hr).1.2.1, (h9 r hr).1.2.2.1, (h9 r hr).1.2.2.2⟩,
      (h9 r hr).2⟩,
    h10⟩

end DiskLevel

namespace LSM

/-- The shape of the disk levels of a store with one level. -/
theorem DiskOK.of_single (E : Env) (s : LSM) (lvl : DiskLevel) (h : s.diskLevels = [lvl])
    (hn : s._numDiskLevels = 1) (h1 : 1 ≤ s._pageSize) (h2 : 1 ≤ s.diskMergeSize)
    (h3 : s.diskMergeSize ≤ s._diskRunsPerLevel) (h4 : s.diskMergeSize ≤ 2147483647)
    (h5 : s._diskRunsPerLevel < 2 ^ 32)
    (hl : lvl.LevelOK E s._pageSize s._diskRunsPerLevel s.diskMergeSize 0) : s.DiskOK E := by
  refine ⟨by rw [h, hn]; rfl, h1, h2, h3, h4, h5, ?_, ?_⟩
  · intro i lv hi
    rw [h] at hi
    cases i with
    | zero =>
      simp only [List.getElem?_cons_zero, Option.some.injEq] at hi
      subst hi
      exact hl
    | succ i => simp at hi
  · intro i a b _ hb
    rw [h] at hb
    simp at hb

/-- The cascading merge where every run keeps a pair. For a store whose disk
levels have the shape that the constructor and the merges give them (runs of strictly
increasing keys below `INT_MAX`, free slots as the constructor left them, no
level after level 0 empty), whose level 0 is full, and whose last level
leaves room for a level of `M` times its run size and holds, in its `M`
oldest runs, two different keys or no tombstone: when the in-memory runs to
drain hold as many pairs as a run of level 0, with different keys below
`INT_MAX`, `merge_runs` returns. The store then has a level 1, whose newest
run is the merge of the `M` oldest runs of the old level 0: for every key the
pair of the newest of these runs that holds it, where a tombstone may be
missing only if the run is the one run of the last level. Level 0 holds the
other runs it had and, as its newest run, the drained pairs in key order. For
every key, the value that a search of the disk reports is the one that a
search of the drained pairs and then of the old levels reports, so that no
pair is lost but tombstones at the last level. -/
theorem cascading_merge (E : Env) (hbf : ∀ n, 1 ≤ n → 0 < E.bfBits n ∨ E.bfHashes n = 0)
    (s : LSM) (runs : List SkipList) (l0 : DiskLevel) (hok : s.DiskOK E)
    (h0 : s.diskLevels[0]? = some l0) (hfull : l0.levelFull = true)
    (hbusy : ∀ lvl ∈ s.diskLevels.drop 1, 1 ≤ lvl._activeRun)
    (hlast : ∀ lvl ∈ s.diskLevels.getLast?, lvl._runSize * lvl._mergeSize ≤ 2147483647 ∧
      DiskLevel.Keeps (lvl.runs.take s.diskMergeSize))
    (hlen : (gatherRuns runs []).length = l0._runSize)
    (hkeys : ((gatherRuns runs []).map (fun kv => kv.key)).Nodup)
    (hmax : ∀ kv ∈ gatherRuns runs [], kv.key < INT_MAX) :
    ∃ (s2 : LSM) (l0n l1n : DiskLevel) (merged : DiskRun) (kept : List (List KVPair)),
      merge_runs E s runs = some s2 ∧ s2.DiskOK E ∧
      s._numDiskLevels ≤ s2._numDiskLevels ∧ 2 ≤ s2._numDiskLevels ∧
      (∀ lvl ∈ s2.diskLevels.drop 1, 1 ≤ lvl._activeRun) ∧
      s2.diskLevels[0]? = some l0n ∧ s2.diskLevels[1]? = some l1n ∧
      l0.order = kept ++ ((l0.runs.take s.diskMergeSize).map DiskRun.entries).reverse ∧
      l0n.order = sortKV (gatherRuns runs []) :: kept ∧
      l1n.order.head? = some merged.entries ∧ merged.StrictKeys ∧
      DiskLevel.MergedOf (l0.runs.take s.diskMergeSize) merged.entries
        (l1n._activeRun = 1 ∧ s2._numDiskLevels = 2) ∧
      ∀ k, visible s2.diskOrder k = visible (sortKV (gatherRuns runs []) :: s.diskOrder) k := by
  have hfull2 : l0._activeRun = l0._numRuns := by
    simpa [DiskLevel.levelFull] using hfull
  have hcount := hok.count
  have hn1 : 1 ≤ s.diskLevels.length := by
    have := (List.getElem?_eq_some.mp h0).1
    omega
  obtain ⟨s1, src2, dst2, merged, c1, c2⟩ := mergeRunsToLevel_spec E hbf
    (s._numDiskLevels - 1) (s._numDiskLevels + 1) s 0 l0 hok (by omega) (by omega) h0 hfull2
    hbusy (fun lvl hl => hlast lvl (Option.mem_def.mpr hl))
  have hl1 := c2.ok.levels 0 src2 c2.source
  have hM := hok.merge_pos
  have hfree : src2._activeRun < s1._diskRunsPerLevel := by
    have := c2.freed
    rw [c2.perLevel]
    omega
  have hperm := sortKV_perm (gatherRuns runs [])
  obtain ⟨l0n, a1, a2, a3, a4, a5⟩ := DiskLevel.addRunByArray_install E hbf _ _ _ _ src2 hl1 hfree
    c2.ok.page (sortKV (gatherRuns runs []))
    (by rw [hperm.length_eq, hlen, c2.size]) (sortKV_strict _ hkeys)
    (fun kv hkv => hmax kv (hperm.subset hkv))
  have htail : ∃ tl, s1.diskLevels = src2 :: tl := by
    cases hl : s1.diskLevels with
    | nil => have := c2.source; rw [hl] at this; simp at this
    | cons a tl =>
      have := c2.source
      rw [hl] at this
      simp only [List.getElem?_cons_zero, Option.some.injEq] at this
      exact ⟨tl, by rw [this]⟩
  obtain ⟨tl, htl⟩ := htail
  have htarget := c2.target
  rw [htl] at htarget
  simp only [Nat.zero_add, List.getElem?_cons_succ] at htarget
  have hok2 : ({ s1 with diskLevels := s1.diskLevels.set 0 l0n } : LSM).DiskOK E := by
    apply c2.ok.replace
    · simp only [List.length_set]
    · intro j lv2 hj
      rw [htl] at hj
      cases j with
      | zero =>
        simp only [List.set_cons_zero, List.getElem?_cons_zero, Option.some.injEq] at hj
        subst hj
        exact ⟨a2, src2, c2.source, a4⟩
      | succ j =>
        simp only [List.set_cons_zero, List.getElem?_cons_succ] at hj
        have hj2 : s1.diskLevels[j + 1]? = some lv2 := by rw [htl]; simpa using hj
        exact ⟨c2.ok.levels (j + 1) lv2 hj2, lv2, hj2, rfl⟩
  have hn2 : 2 ≤ s1._numDiskLevels := by
    have := c2.ok.count
    rw [← this, htl]
    cases tl with
    | nil => simp at htarget
    | cons b tl2 => simp
  refine ⟨_, l0n, dst2, merged, src2.order, ?_, hok2, c2.grown, hn2, ?_, ?_, ?_, c2.kept, a3,
    c2.head, c2.strict, c2.merge.weaken (fun h => ⟨h.1, by simp only; omega⟩), ?_⟩
  · unfold merge_runs
    rw [h0]
    simp only [hfull, if_true, c1, c2.source]
    rw [hperm.length_eq, ← hperm.length_eq, a1]
  · intro lvl hl
    simp only at hl
    rw [htl] at hl
    simp only [List.set_cons_zero, List.drop_succ_cons, List.drop_zero] at hl
    apply c2.busy lvl
    rw [htl]
    simpa using hl
  · simp only
    rw [htl]
    simp
  · simp only
    rw [htl]
    simpa using htarget
  · intro k
    have e1 : ({ s1 with diskLevels := s1.diskLevels.set 0 l0n } : LSM).diskOrder =
        [sortKV (gatherRuns runs [])] ++ s1.diskOrder := by
      unfold diskOrder
      simp only
      rw [htl]
      simp only [List.set_cons_zero, List.map_cons, List.flatten_cons, a3, List.cons_append,
        List.nil_append]
    have e2 : sortKV (gatherRuns runs []) :: s.diskOrder =
        [sortKV (gatherRuns runs [])] ++ s.diskOrder := rfl
    rw [e1, e2, visible_append, visible_append, c2.same k]

end LSM
namespace LSM

set_option maxRecDepth 100000 in
/-- The cascading merge at the store of scenario S4: one pair per in-memory
run, two runs, two disk runs per level. After the inserts `(1,1), ..., (6,6)` disk
level 0 is full; the merge that the seventh insert starts makes level 1,
moves keys `1..4` there as one run and leaves `(5,5), (6,6)` as the run of
level 0; after the eighth insert `range(1, 9)` returns the eight pairs. -/
theorem cascading_merge_witness :
    ∃ (s : LSM) (l0 : DiskLevel), cascadeStore = some s ∧ s.DiskOK sampleEnv ∧
      s.diskLevels[0]? = some l0 ∧ l0.levelFull = true ∧
      (∀ lvl ∈ s.diskLevels.drop 1, 1 ≤ lvl._activeRun) ∧
      (∀ lvl ∈ s.diskLevels.getLast?, lvl._runSize * lvl._mergeSize ≤ 2147483647 ∧
        DiskLevel.Keeps (lvl.runs.take s.diskMergeSize)) ∧
      (gatherRuns s.C_0 []).length = l0._runSize ∧
      ((gatherRuns s.C_0 []).map (fun kv => kv.key)).Nodup ∧
      (∀ kv ∈ gatherRuns s.C_0 [], kv.key < INT_MAX) ∧
      s.diskContents = [[[⟨1, 1⟩, ⟨2, 2⟩], [⟨3, 3⟩, ⟨4, 4⟩]]] ∧
      (merge_runs sampleEnv s s.C_0).map diskContents
        = some [[[⟨5, 5⟩, ⟨6, 6⟩]], [[⟨1, 1⟩, ⟨2, 2⟩, ⟨3, 3⟩, ⟨4, 4⟩]]] ∧
      (s.insertAll sampleEnv [(7, 7, 0), (8, 8, 0)]).map
          (fun s8 => (s8._numDiskLevels, s8.diskContents, s8.range 1 9))
        = some (2, [[[⟨5, 5⟩, ⟨6, 6⟩]], [[⟨1, 1⟩, ⟨2, 2⟩, ⟨3, 3⟩, ⟨4, 4⟩]]],
            some [⟨8, 8⟩, ⟨7, 7⟩, ⟨5, 5⟩, ⟨6, 6⟩, ⟨1, 1⟩, ⟨2, 2⟩, ⟨3, 3⟩, ⟨4, 4⟩]) ∧
      ∃ (s2 : LSM) (l0n l1n : DiskLevel) (merged : DiskRun) (kept : List (List KVPair)),
        merge_runs sampleEnv s s.C_0 = some s2 ∧ s2.DiskOK sampleEnv ∧
        s._numDiskLevels ≤ s2._numDiskLevels ∧ 2 ≤ s2._numDiskLevels ∧
        (∀ lvl ∈ s2.diskLevels.drop 1, 1 ≤ lvl._activeRun) ∧
        s2.diskLevels[0]? = some l0n ∧ s2.diskLevels[1]? = some l1n ∧
        l0.order = kept ++ ((l0.runs.take s.diskMergeSize).map DiskRun.entries).reverse ∧
        l0n.order = sortKV (gatherRuns s.C_0 []) :: kept ∧
        l1n.order.head? = some merged.entries ∧ merged.StrictKeys ∧
        DiskLevel.MergedOf (l0.runs.take s.diskMergeSize) merged.entries
          (l1n._activeRun = 1 ∧ s2._numDiskLevels = 2) ∧
        ∀ k, visible s2.diskOrder k = visible (sortKV (gatherRuns s.C_0 []) :: s.diskOrder) k :=
  have hok : (cascadeStore.get (by decide)).DiskOK sampleEnv :=
    DiskOK.of_single sampleEnv _ (((cascadeStore.get (by decide)).diskLevels[0]?).get (by decide))
      (by decide) (by decide) (by decide) (by decide) (by decide) (by decide) (by decide)
      (DiskLevel.LevelOK.of_checks sampleEnv _ _ _ 0 _ (by decide) (by decide) (by decide)
        (by decide) (by decide) (by decide) (by decide) (by decide) (by decide) (by decide))
  ⟨cascadeStore.get (by decide), ((cascadeStore.get (by decide)).diskLevels[0]?).get (by decide),
    (Option.some_get _).symm, hok, (Option.some_get _).symm, by decide, by decide, by decide,
    by decide, by decide, by decide, by decide, by decide, by decide,
    cascading_merge sampleEnv (fun n hn => Or.inl (by simp only [sampleEnv]; omega)) _ _ _ hok
      (Option.some_get _).symm (by decide) (by decide) (by decide) (by decide) (by decide)
      (by decide)⟩

set_option maxRecDepth 100000 in
/-- Claim C15 (cascading merge), evaluated on the code: a drain that finds
disk level 0 full does not merge the level into the next one and install the
drained run when the runs to merge hold one key only, and a tombstone for it.
With one pair per in-memory run, one run and one disk run per level: after
`delete(5)` and `insert(6, 6)` the run of disk level 0 is the tombstone of key
`5` and the level is full; the merge that the next insert starts moves that
run to a new level 1, where `addRuns` drops the tombstone, sets the capacity
of the run to zero, and `constructIndex` reads `map[_capacity - 1]`: neither
`merge_runs` nor `insert_key(7, 7)` returns, and the pair `(6, 6)` to drain is
installed nowhere. -/
theorem cascading_merge_empty_run :
    ((LSM.new sampleEnv 1 1 1 1 1 1).bind
        (fun s0 => s0.insertAll sampleEnv [(5, V_TOMBSTONE, 0), (6, 6, 0)])).map
      (fun s => (s.diskContents, s.diskLevels.map DiskLevel.levelFull,
        s.C_0.map SkipList.get_all, (merge_runs sampleEnv s s.C_0).isSome,
        (s.insert_key sampleEnv 7 7 0).isSome))
      = some ([[[⟨5, V_TOMBSTONE⟩]]], [true], [[⟨6, 6⟩]], false, false) := by
  decide

end LSM

/-- Claim C22, amended (fence-pointer bracket). Take a run with at least one
pair whose pairs in use have strictly increasing keys and whose fence-pointer
vector is empty, as the constructor leaves it. After `constructIndex`, for
every pair at an index `p` below the capacity, `get_flanking_FP` called with
the key of the pair returns `start` and `end` with `start ≤ p` and
`end ≤ capacity`, and either `p < end`, or the bracket is empty and starts at
`p`, which is what the loop returns when it meets the key as a fence pointer. -/
theorem fence_bracket_holds_key (E : Env) (r0 r : DiskRun) (hfresh : r0._fencePointers = [])
    (hcap : 1 ≤ r0._capacity) (hsorted : r0.StrictKeys) (hidx : r0.constructIndex E = some r)
    (p : Nat) (kv : KVPair) (hp : p < r._capacity) (hkv : r.map[p]? = some kv) :
    ∃ start stop, r.get_flanking_FP kv.key = some (start, stop) ∧ start ≤ p ∧
      stop ≤ r._capacity ∧ (p < stop ∨ (start = stop ∧ p = start)) := by
  obtain ⟨hi, hm, hc, -⟩ := DiskRun.constructIndex_indexed E r0 r hfresh hcap hidx
  have hs : r.StrictKeys := by
    unfold DiskRun.StrictKeys DiskRun.entries at hsorted ⊢
    rw [hm, hc]; exact hsorted
  have hmono := hs.mono hi.cap_le
  have hkey : DiskRun.keyAt r.map p = kv.key := DiskRun.keyAt_of_getElem? hkv
  have hmin : r.minKey ≤ kv.key := by
    obtain ⟨kv0, g1, g2⟩ := hi.minKey
    rw [g2, ← DiskRun.keyAt_of_getElem? g1, ← hkey]
    rcases Nat.eq_zero_or_pos p with h | h
    · rw [h]
    · exact le_of_lt (hmono 0 p h hp)
  obtain ⟨start, stop, h1, h2, h3, h4, h5, h6⟩ := DiskRun.get_flanking_FP_spec r hi hmono kv.key hmin
  have hsp : start ≤ p := by
    by_contra hlt
    have := hmono p start (by omega) h4
    omega
  refine ⟨start, stop, h1, hsp, h3, ?_⟩
  rcases h6 with ⟨e1, e2⟩ | ⟨e1, e2⟩
  · right
    refine ⟨e1, ?_⟩
    rcases Nat.lt_or_ge start p with h | h
    · have := hmono start p h hp
      omega
    · omega
  · left
    rcases e2 with e2 | e2
    · omega
    · by_contra hge
      have hstop : stop < r._capacity := by
        by_contra hc2
        have : stop = r._capacity := by omega
        omega
      rcases Nat.lt_or_ge stop p with h | h
      · have := hmono stop p h hp
        omega
      · have : stop = p := by omega
        rw [this] at e2
        omega

set_option maxRecDepth 100000 in
/-- Claim C22 at the run `[(1,1), ..., (5,5)]` with one pair per page and the
pair at index `1`: the bracket is `[1, 2)`. -/
theorem fence_bracket_holds_key_witness :
    ∃ r : DiskRun, sampleWritten._fencePointers = [] ∧ 1 ≤ sampleWritten._capacity ∧
      sampleWritten.StrictKeys ∧ sampleWritten.constructIndex sampleEnv = some r ∧
      1 < r._capacity ∧ r.map[1]? = some ⟨2, 2⟩ ∧ r.get_flanking_FP 2 = some (1, 2) ∧
      ∃ start stop, r.get_flanking_FP (⟨2, 2⟩ : KVPair).key = some (start, stop) ∧ start ≤ 1 ∧
        stop ≤ r._capacity ∧ (1 < stop ∨ (start = stop ∧ 1 = start)) :=
  ⟨sampleFenced.get (by decide), by decide, by decide, by unfold DiskRun.StrictKeys; decide,
    (Option.some_get _).symm, by decide, by decide, by decide,
    fence_bracket_holds_key sampleEnv sampleWritten (sampleFenced.get (by decide)) (by decide)
      (by decide) (by unfold DiskRun.StrictKeys; decide) (Option.some_get _).symm 1 ⟨2, 2⟩
      (by decide) (by decide)⟩

set_option maxRecDepth 100000 in
/-- Claim C22 fails for a key that the loop of `get_flanking_FP` meets as a
fence pointer. In the run `[(1,1), ..., (5,5)]` with one pair per page the key
`3` is at index `2`; the loop starts with `middle = 2`, finds the key equal to
`_fencePointers[2]` and returns `start = end = 2`, an empty bracket. The call
`lookup(3)` still finds the pair, because `binary_search` with `n = 0` returns
its offset as found. -/
theorem fence_bracket_empty_on_fence_key :
    sampleFenced.map (fun r => (r._capacity, r.pageSize, r._fencePointers)) =
        some (5, 1, [1, 2, 3, 4, 5]) ∧
      sampleFenced.map (fun r => r.map[2]?) = some (some ⟨3, 3⟩) ∧
      sampleFenced.map (fun r => r.get_flanking_FP 3) = some (some (2, 2)) ∧
      sampleFenced.map (fun r => r.lookup 3 false) = some (some (3, true)) := by
  decide

/-- Claim C23 (index construction). Take a run with `c ≥ 1` pairs in use, within
its file and within the range of the `int` counter of the loop, a page size
`s ≥ 1`, an empty fence-pointer vector, as the constructor leaves it, and a
filter that has a bit when it hashes. Then `constructIndex` returns and leaves
the pairs as they are; the fence-pointer vector has `⌈c / s⌉` entries, entry `i`
being the key of `map[i * s]`; `minKey` and `maxKey` are the keys of `map[0]`
and `map[c - 1]`; and `mayContain` is true for the key of every pair of
`map[0 .. c)`. -/
theorem constructIndex_builds_index (E : Env) (r0 : DiskRun) (hfresh : r0._fencePointers = [])
    (hcap : 1 ≤ r0._capacity) (hlen : r0._capacity ≤ r0.map.length)
    (hsmall : r0._capacity ≤ 2147483647) (hps : 1 ≤ r0.pageSize)
    (hbf : 0 < r0.bf.m_bits.length ∨ r0.bf.m_numHashes = 0) :
    ∃ r, r0.constructIndex E = some r ∧ r.map = r0.map ∧ r._capacity = r0._capacity ∧
      r._fencePointers.length = (r0._capacity + r0.pageSize - 1) / r0.pageSize ∧
      (∀ i, i < r._fencePointers.length →
        ∃ kv, r0.map[i * r0.pageSize]? = some kv ∧ r._fencePointers[i]? = some kv.key) ∧
      (∃ kv, r0.map[0]? = some kv ∧ r.minKey = kv.key) ∧
      (∃ kv, r0.map[r0._capacity - 1]? = some kv ∧ r.maxKey = kv.key) ∧
      ∀ kv ∈ r0.entries, r.bf.mayContain E kv.key = some true := by
  obtain ⟨r, hr⟩ := DiskRun.constructIndex_total E r0 hcap hlen hsmall hps hbf
  obtain ⟨hi, hm, hc, hp⟩ := DiskRun.constructIndex_indexed E r0 r hfresh hcap hr
  obtain ⟨f1, f2, f3⟩ := hi.fenced
  have hbl := DiskRun.constructIndex_bloom E r0 r hr
  have hent : r.entries = r0.entries := by
    unfold DiskRun.entries
    rw [hm, hc]
  refine ⟨r, hr, hm, hc, ?_, ?_, ?_, ?_, ?_⟩
  · rw [hp, hc] at f1 f2
    symm
    apply Nat.div_eq_of_lt_le
    · omega
    · rw [Nat.succ_mul]
      omega
  · intro i hlt
    obtain ⟨kv, g1, g2⟩ := f3 i hlt
    rw [hm, hp] at g1
    exact ⟨kv, g1, g2⟩
  · obtain ⟨kv, g1, g2⟩ := hi.minKey
    rw [hm] at g1
    exact ⟨kv, g1, g2⟩
  · obtain ⟨kv, g1, g2⟩ := hi.maxKey
    rw [hm, hc] at g1
    exact ⟨kv, g1, g2⟩
  · intro kv hkv
    rw [← hent] at hkv
    exact BloomFilter.mayContain_of_holds E r.bf kv.key (hbl kv hkv)

set_option maxRecDepth 100000 in
/-- Claim C23 at the run `[(1, 10), (3, 30), (5, 50)]` with two pairs per page:
the fence pointers are the keys `1` and `5`. -/
theorem constructIndex_builds_index_witness :
    sampleRun._fencePointers = [] ∧ 1 ≤ sampleRun._capacity ∧
      (sampleRun.constructIndex sampleEnv).map
          (fun r => (r._fencePointers, r.minKey, r.maxKey)) = some ([1, 5], 1, 5) ∧
      ∃ r, sampleRun.constructIndex sampleEnv = some r ∧ r.map = sampleRun.map ∧
        r._capacity = sampleRun._capacity ∧
        r._fencePointers.length = (sampleRun._capacity + sampleRun.pageSize - 1) / sampleRun.pageSize ∧
        (∀ i, i < r._fencePointers.length →
          ∃ kv, sampleRun.map[i * sampleRun.pageSize]? = some kv ∧
            r._fencePointers[i]? = some kv.key) ∧
        (∃ kv, sampleRun.map[0]? = some kv ∧ r.minKey = kv.key) ∧
        (∃ kv, sampleRun.map[sampleRun._capacity - 1]? = some kv ∧ r.maxKey = kv.key) ∧
        ∀ kv ∈ sampleRun.entries, r.bf.mayContain sampleEnv kv.key = some true :=
  ⟨rfl, by decide, by decide,
    constructIndex_builds_index sampleEnv sampleRun rfl (by decide) (by decide) (by decide)
      (by decide) (Or.inl (by decide))⟩

namespace DiskLevel

/-- The renaming loop of `freeMergedRuns` over all the runs left: run `j` gets
the number `i + j` and is otherwise as it was. -/
theorem renumber_exact : ∀ (rs : List DiskRun) (i : Nat),
    ∃ rs2, renumber rs rs.length i = some rs2 ∧ rs2.length = rs.length ∧
      ∀ (j : Nat) (r : DiskRun), rs[j]? = some r → rs2[j]? = some { r with _runID := i + j } := by
  intro rs
  induction rs with
  | nil => intro i; exact ⟨[], rfl, rfl, fun j r h => by simp at h⟩
  | cons r rs ih =>
    intro i
    obtain ⟨rs2, h1, h2, h3⟩ := ih (i + 1)
    refine ⟨{ r with _runID := i } :: rs2, ?_, by simp [h2], ?_⟩
    · simp only [List.length_cons, renumber, h1]
    · intro j r1 hj
      cases j with
      | zero =>
        simp only [List.getElem?_cons_zero, Option.some.injEq] at hj
        subst hj
        simp
      | succ j =>
        simp only [List.getElem?_cons_succ] at hj
        have := h3 j r1 hj
        simp only [List.getElem?_cons_succ, this, Option.some.injEq]
        have e : i + 1 + j = i + (j + 1) := by omega
        rw [e]

/-- The member `freeMergedRuns` on a full level, with the runs that
`getRunsToMerge` names. -/
theorem freeMergedRuns_full (E : Env) (lvl : DiskLevel) (hlen : lvl.runs.length = lvl._numRuns)
    (hfull : lvl._activeRun = lvl._numRuns) (hM : lvl._mergeSize ≤ lvl._numRuns)
    (hD : lvl._numRuns < 2 ^ 32)
    (hlev : ∀ r ∈ lvl.runs.take lvl._mergeSize, r._level = lvl._level)
    (hsize : 1 ≤ lvl._runSize) :
    ∃ kept fresh, lvl.freeMergedRuns E (lvl.runs.take lvl._mergeSize) =
        some { lvl with runs := kept ++ fresh, _activeRun := lvl._numRuns - lvl._mergeSize } ∧
      kept.length = lvl._numRuns - lvl._mergeSize ∧
      (∀ (j : Nat) (r : DiskRun), lvl.runs[j + lvl._mergeSize]? = some r →
        kept[j]? = some { r with _runID := j }) ∧
      fresh.length = lvl._mergeSize ∧
      ∀ j, j < lvl._mergeSize →
        fresh[j]? = DiskRun.new E lvl._runSize lvl._pageSize lvl._level
          (lvl._numRuns - lvl._mergeSize + j) := by
  have hnew : (lvl._activeRun + (2 ^ 32 - lvl._mergeSize % 2 ^ 32)) % 2 ^ 32 =
      lvl._numRuns - lvl._mergeSize := by
    have hm : lvl._mergeSize % 2 ^ 32 = lvl._mergeSize := Nat.mod_eq_of_lt (by omega)
    rw [hfull, hm]
    have : lvl._numRuns + (2 ^ 32 - lvl._mergeSize) =
        (lvl._numRuns - lvl._mergeSize) + 2 ^ 32 := by omega
    rw [this, Nat.add_mod_right, Nat.mod_eq_of_lt (by omega)]
  have hdl : (lvl.runs.drop lvl._mergeSize).length = lvl._numRuns - lvl._mergeSize := by
    rw [List.length_drop, hlen]
  obtain ⟨kept, k1, k2, k3⟩ := renumber_exact (lvl.runs.drop lvl._mergeSize) 0
  rw [hdl] at k1 k2
  obtain ⟨fresh, f1, f2, f3⟩ := newRuns_spec E lvl._runSize lvl._pageSize lvl._level
    (by omega) (lvl._numRuns - (lvl._numRuns - lvl._mergeSize)) (lvl._numRuns - lvl._mergeSize)
  have hcnt : lvl._numRuns - (lvl._numRuns - lvl._mergeSize) = lvl._mergeSize := by omega
  rw [hcnt] at f1 f2 f3
  have hall : (lvl.runs.take lvl._mergeSize).all (fun r => decide (r._level = lvl._level))
      = true := by
    rw [List.all_eq_true]
    intro r hr
    simpa using hlev r hr
  refine ⟨kept, fresh, ?_, k2, ?_, f2, ?_⟩
  · unfold freeMergedRuns
    rw [if_neg (by rw [List.length_take, hlen]; omega), hall]
    rw [if_neg (by simp), if_neg (by rw [hlen]; omega)]
    simp only [hnew, hcnt, k1, f1]
  · intro j r hj
    have := k3 j r (by rw [List.getElem?_drop, Nat.add_comm]; exact hj)
    rw [this, Nat.zero_add]
  · intro j hj
    obtain ⟨r, g1, g2⟩ := f3 j hj
    rw [g1, g2]

/-- Claim C26 (slot reclamation). For a level whose `R` slots are all in use,
with `R` in the range of `unsigned`, a merge size `M ≤ R` and a run size of at
least one: `freeMergedRuns`, called with the runs that `getRunsToMerge` names,
each of them of this level, returns; the level then has `R` slots again and
`_activeRun = R - M`; slot `i < R - M` holds the run that slot `i + M` held,
with `_runID = i` and nothing else changed; and the `M` slots after them hold
runs as the constructor makes them. -/
theorem freeMergedRuns_reclaims_slots (E : Env) (lvl : DiskLevel)
    (hlen : lvl.runs.length = lvl._numRuns) (hfull : lvl._activeRun = lvl._numRuns)
    (hM : lvl._mergeSize ≤ lvl._numRuns) (hD : lvl._numRuns < 2 ^ 32)
    (hlev : ∀ r ∈ lvl.runs.take lvl._mergeSize, r._level = lvl._level)
    (hsize : 1 ≤ lvl._runSize) :
    ∃ rl lvl2, lvl.getRunsToMerge = some rl ∧ rl = lvl.runs.take lvl._mergeSize ∧
      lvl.freeMergedRuns E rl = some lvl2 ∧
      lvl2.runs.length = lvl._numRuns ∧ lvl2._activeRun = lvl._numRuns - lvl._mergeSize ∧
      (∀ i, i < lvl._numRuns - lvl._mergeSize →
        ∃ r, lvl.runs[i + lvl._mergeSize]? = some r ∧
          lvl2.runs[i]? = some { r with _runID := i }) ∧
      (∀ i, lvl._numRuns - lvl._mergeSize ≤ i → i < lvl._numRuns →
        ∃ r, lvl2.runs[i]? = some r ∧
          DiskRun.new E lvl._runSize lvl._pageSize lvl._level i = some r) ∧
      lvl2._numRuns = lvl._numRuns ∧ lvl2._mergeSize = lvl._mergeSize ∧
      lvl2._runSize = lvl._runSize ∧ lvl2._level = lvl._level ∧
      lvl2._pageSize = lvl._pageSize := by
  obtain ⟨kept, fresh, h1, h2, h3, h4, h5⟩ :=
    freeMergedRuns_full E lvl hlen hfull hM hD hlev hsize
  refine ⟨lvl.runs.take lvl._mergeSize, _, ?_, rfl, h1, ?_, rfl, ?_, ?_, rfl, rfl, rfl, rfl, rfl⟩
  · unfold getRunsToMerge
    rw [if_neg (by rw [hlen]; omega)]
  · simp only [List.length_append, h2, h4]
    omega
  · intro i hi
    obtain ⟨r, hr⟩ : ∃ r, lvl.runs[i + lvl._mergeSize]? = some r :=
      ⟨_, List.getElem?_eq_getElem (by rw [hlen]; omega)⟩
    refine ⟨r, hr, ?_⟩
    simp only
    rw [List.getElem?_append_left (by rw [h2]; exact hi)]
    exact h3 i r hr
  · intro i hlo hhi
    simp only
    rw [List.getElem?_append_right (by rw [h2]; exact hlo), h2]
    have hj : i - (lvl._numRuns - lvl._mergeSize) < lvl._mergeSize := by omega
    rw [h5 _ hj]
    have e : lvl._numRuns - lvl._mergeSize + (i - (lvl._numRuns - lvl._mergeSize)) = i := by
      omega
    rw [e]
    unfold DiskRun.new
    rw [if_neg (by omega)]
    exact ⟨_, rfl, rfl⟩

set_option maxRecDepth 100000 in
/-- Claim C26 at a level of three slots in use holding `[(1,1)]`, `[(2,2)]`,
`[(3,3)]`, with two runs merged at a time: the run `[(3,3)]` moves to slot 0. -/
theorem freeMergedRuns_reclaims_slots_witness :
    ∃ lvl : DiskLevel, sampleThree = some lvl ∧ lvl.runs.length = lvl._numRuns ∧
      lvl._activeRun = lvl._numRuns ∧ lvl._mergeSize ≤ lvl._numRuns ∧ lvl._numRuns < 2 ^ 32 ∧
      (∀ r ∈ lvl.runs.take lvl._mergeSize, r._level = lvl._level) ∧ 1 ≤ lvl._runSize ∧
      (lvl.runs.map (fun r => (r._runID, r.entries))) =
        [(0, [⟨1, 1⟩]), (1, [⟨2, 2⟩]), (2, [⟨3, 3⟩])] ∧
      (lvl.freeMergedRuns sampleEnv (lvl.runs.take 2)).map
          (fun l => (l._activeRun, l.runs.map (fun r => (r._runID, r.entries)))) =
        some (1, [(0, [⟨3, 3⟩]), (1, [⟨0, 0⟩]), (2, [⟨0, 0⟩])]) ∧
      ∃ rl lvl2, lvl.getRunsToMerge = some rl ∧ rl = lvl.runs.take lvl._mergeSize ∧
        lvl.freeMergedRuns sampleEnv rl = some lvl2 ∧
        lvl2.runs.length = lvl._numRuns ∧ lvl2._activeRun = lvl._numRuns - lvl._mergeSize ∧
        (∀ i, i < lvl._numRuns - lvl._mergeSize →
          ∃ r, lvl.runs[i + lvl._mergeSize]? = some r ∧
            lvl2.runs[i]? = some { r with _runID := i }) ∧
        (∀ i, lvl._numRuns - lvl._mergeSize ≤ i → i < lvl._numRuns →
          ∃ r, lvl2.runs[i]? = some r ∧
            DiskRun.new sampleEnv lvl._runSize lvl._pageSize lvl._level i = some r) ∧
        lvl2._numRuns = lvl._numRuns ∧ lvl2._mergeSize = lvl._mergeSize ∧
        lvl2._runSize = lvl._runSize ∧ lvl2._level = lvl._level ∧
        lvl2._pageSize = lvl._pageSize :=
  ⟨sampleThree.get (by decide), (Option.some_get _).symm, by decide, by decide, by decide,
    by decide, by decide, by decide, by decide, by decide,
    freeMergedRuns_reclaims_slots sampleEnv (sampleThree.get (by decide)) (by decide) (by decide)
      (by decide) (by decide) (by decide) (by decide)⟩

end DiskLevel

namespace SkipList

/-- The member `insert_key` leaves the count of a list as it is or adds one. -/
theorem insert_key_count (s s1 : SkipList) (key value lvl : Int)
    (h : s.insert_key key value lvl = some s1) :
    s1.num_elements = s.num_elements ∨ s1.num_elements = s.num_elements + 1 := by
  have hn : (s.noteKey key)._n = s._n := by
    unfold noteKey
    split
    · rfl
    · split <;> rfl
  unfold insert_key at h
  split at h
  · exact absurd h (by simp)
  · split at h
    · split at h
      · simp only [Option.some.injEq] at h
        subst h
        exact Or.inl hn
      · simp only [Option.some.injEq] at h
        subst h
        exact Or.inr (by simp only [num_elements, linkNew, hn])
    · split at h
      · simp only [Option.some.injEq] at h
        subst h
        exact Or.inl hn
      · simp only [Option.some.injEq] at h
        subst h
        exact Or.inr (by simp only [num_elements, linkNew, hn])

end SkipList

namespace LSM

theorem newRun_count (e : Nat) : (newRun e).num_elements = 0 := rfl

/-- A new store has the shape of the buffer. -/
theorem new_bufShape (E : Env) (e r m ps d md : Nat) (hr : 1 ≤ r) (s : LSM)
    (h : LSM.new E e r m ps d md = some s) : s.BufShape e r m := by
  unfold LSM.new at h
  split at h
  · exact absurd h (by simp)
  · simp only [Option.some.injEq] at h
    subst h
    refine ⟨by simp, by simp, rfl, rfl, rfl, hr, ?_, ?_, ?_⟩
    · intro run hrun
      rw [List.eq_of_mem_replicate hrun, newRun_count]
      exact Nat.zero_le _
    · intro i run hi
      exact absurd hi (by simp)
    · intro i run _ hrun
      have hm := List.mem_iff_getElem?.mpr ⟨i, hrun⟩
      rw [List.eq_of_mem_replicate hm, newRun_count]

/-- The first two statements of `insert_key` on a store with the shape of the
buffer: the shape is kept, the active run then has room, and a call of
`do_merge` lowers `_activeRun` by the number of runs to merge. -/
theorem BufShape.ready {e r m : Nat} {s : LSM} (E : Env) (hS : s.BufShape e r m)
    (he : 1 ≤ e) (hm : 1 ≤ m) (hmr : m ≤ r) (hr : r < 2 ^ 32) (sa s1 : LSM)
    (ha : advanceRun s = some sa)
    (h1 : (if sa._activeRun ≥ sa._num_runs then do_merge E sa else some sa) = some s1) :
    s1.BufShape e r m ∧
      (∃ run, s1.C_0[s1._activeRun]? = some run ∧ run.num_elements < e) ∧
      (sa._activeRun ≥ sa._num_runs → s1._activeRun + m = sa._activeRun) := by
  obtain ⟨cur, hcur⟩ := getElem?_some_of_lt s.C_0 s._activeRun (by rw [hS.runs]; exact hS.active)
  have hcle := hS.atMost cur (List.mem_iff_getElem?.mpr ⟨_, hcur⟩)
  unfold advanceRun at ha
  rw [hcur] at ha
  simp only at ha
  by_cases hfull : cur.num_elements ≥ s._eltsPerRun
  · rw [if_pos hfull] at ha
    simp only [Option.some.injEq] at ha
    rw [hS.elts] at hfull
    have hce : cur.num_elements = e := by omega
    -- the runs up to the old active one are full
    have hbelow : ∀ (i : Nat) (run : SkipList), i < s._activeRun + 1 → s.C_0[i]? = some run →
        run.num_elements = e := by
      intro i run hi hrun
      by_cases hia : i < s._activeRun
      · exact hS.below i run hia hrun
      · have : i = s._activeRun := by omega
        subst this
        rw [hcur] at hrun
        simp only [Option.some.injEq] at hrun
        rw [← hrun]
        exact hce
    by_cases hlast : s._activeRun + 1 < r
    · -- the next run becomes the active one
      subst ha
      rw [if_neg (by simp only [hS.numRuns]; omega)] at h1
      simp only [Option.some.injEq] at h1
      subst h1
      obtain ⟨nxt, hnxt⟩ := getElem?_some_of_lt s.C_0 (s._activeRun + 1) (by rw [hS.runs]; exact hlast)
      refine ⟨⟨hS.runs, hS.filters, hS.elts, hS.numRuns, hS.toMerge, hlast, hS.atMost, hbelow, ?_⟩,
        ⟨nxt, hnxt, ?_⟩, ?_⟩
      · intro i run hi hrun
        exact hS.above i run (by simp only at hi; omega) hrun
      · rw [hS.above _ nxt (by omega) hnxt]
        omega
      · intro hge
        simp only [hS.numRuns] at hge
        omega
    · -- every run is full: `do_merge`
      have hact : s._activeRun + 1 = r := by have := hS.active; omega
      subst ha
      rw [if_pos (by simp only [hS.numRuns]; omega)] at h1
      unfold do_merge at h1
      rw [if_neg (by simp only [hS.toMerge]; omega)] at h1
      rw [if_neg (by simp only [hS.toMerge, hS.runs, hS.filters]; omega)] at h1
      split at h1
      · exact absurd h1 (by simp)
      · rename_i s2 hs2
        obtain ⟨c1, c2, c3, c4, c5, c6⟩ := merge_runs_sameBuffer E _ _ _ hs2
        simp only at c1 c2 c3 c4 c5 c6
        have hmm : m % 2 ^ 32 = m := Nat.mod_eq_of_lt (by omega)
        have hnew : (s2._activeRun + (2 ^ 32 - s2._num_to_merge % 2 ^ 32)) % 2 ^ 32 = r - m := by
          rw [c3, c6, hS.toMerge, hmm, hact]
          have : r + (2 ^ 32 - m) = (r - m) + 2 ^ 32 := by omega
          rw [this, Nat.add_mod_right, Nat.mod_eq_of_lt (by omega)]
        simp only [Option.some.injEq] at h1
        subst h1
        have hnew2 : (s2._activeRun + (2 ^ 32 - m % 2 ^ 32)) % 2 ^ 32 = r - m := by
          have := hnew
          rw [c6, hS.toMerge] at this
          exact this
        simp only [c1, c2, c4, c5, c6, hS.toMerge, hS.numRuns, hS.elts, hnew2]
        have hcnt : r - (r - m) = m := by omega
        rw [hcnt]
        have hdl : (s.C_0.drop m).length = r - m := by rw [List.length_drop, hS.runs]
        refine ⟨⟨?_, ?_, ?_, ?_, ?_, ?_, ?_, ?_, ?_⟩, ?_, ?_⟩
        · simp only [List.length_append, hdl, List.length_replicate]
          omega
        · simp only [List.length_append, List.length_drop, hS.filters, List.length_replicate]
          omega
        · simp only [c4, hS.elts]
        · simp only [c5, hS.numRuns]
        · simp only [c6, hS.toMerge]
        · simp only
          omega
        · intro run hrun
          simp only at hrun
          rcases List.mem_append.mp hrun with hd | hd
          · exact hS.atMost run (List.mem_of_mem_drop hd)
          · rw [List.eq_of_mem_replicate hd, newRun_count]
            exact Nat.zero_le _
        · intro i run hi hrun
          simp only at hi hrun
          rw [List.getElem?_append_left (by rw [hdl]; exact hi), List.getElem?_drop] at hrun
          exact hbelow (m + i) run (by omega) hrun
        · intro i run hi hrun
          simp only at hi hrun
          rw [List.getElem?_append_right (by rw [hdl]; omega)] at hrun
          have hmem := List.mem_iff_getElem?.mpr ⟨_, hrun⟩
          rw [List.eq_of_mem_replicate hmem, newRun_count]
        · refine ⟨newRun e, ?_, by rw [newRun_count]; omega⟩
          rw [List.getElem?_append_right (by rw [hdl]), hdl, Nat.sub_self]
          obtain ⟨m1, rfl⟩ : ∃ m1, m = m1 + 1 := ⟨m - 1, by omega⟩
          simp [List.replicate_succ]
        · intro _
          omega
  · rw [if_neg hfull] at ha
    simp only [Option.some.injEq] at ha
    subst ha
    rw [if_neg (by simp only [hS.numRuns]; have := hS.active; omega)] at h1
    simp only [Option.some.injEq] at h1
    subst h1
    refine ⟨hS, ⟨cur, hcur, ?_⟩, ?_⟩
    · rw [hS.elts] at hfull
      omega
    · intro hge
      simp only [hS.numRuns] at hge
      have := hS.active
      omega

/-- The last two statements of `insert_key` keep the shape of the buffer when
the active run has room. -/
theorem BufShape.put_pair {e r m : Nat} {s : LSM} (E : Env) (hS : s.BufShape e r m)
    (hroom : ∃ run, s.C_0[s._activeRun]? = some run ∧ run.num_elements < e)
    (key value lvl : Int) (s1 : LSM) (h : putActive E s key value lvl = some s1) :
    s1.BufShape e r m := by
  obtain ⟨cur, hcur, hlt⟩ := hroom
  unfold putActive at h
  rw [hcur] at h
  split at h
  · rename_i run bf hrun hbf
    simp only [Option.some.injEq] at hrun
    subst hrun
    split at h
    · rename_i run1 bf1 hr1 hb1
      simp only [Option.some.injEq] at h
      subst h
      have hc := SkipList.insert_key_count _ _ _ _ _ hr1
      refine ⟨by simp [hS.runs], by simp [hS.filters], hS.elts, hS.numRuns, hS.toMerge, hS.active,
        ?_, ?_, ?_⟩
      · intro x hx
        simp only at hx
        rcases List.mem_or_eq_of_mem_set hx with hx | hx
        · exact hS.atMost x hx
        · subst hx
          omega
      · intro i x hi hx
        simp only at hi hx
        rw [List.getElem?_set_ne (by omega)] at hx
        exact hS.below i x hi hx
      · intro i x hi hx
        simp only at hi hx
        rw [List.getElem?_set_ne (by omega)] at hx
        exact hS.above i x hi hx
    · exact absurd h (by simp)
  · exact absurd h (by simp)

/-- The member `insert_key` keeps the shape of the buffer. -/
theorem BufShape.insert {e r m : Nat} {s : LSM} (E : Env) (hS : s.BufShape e r m)
    (he : 1 ≤ e) (hm : 1 ≤ m) (hmr : m ≤ r) (hr : r < 2 ^ 32) (key value lvl : Int) (s1 : LSM)
    (h : s.insert_key E key value lvl = some s1) : s1.BufShape e r m := by
  unfold insert_key at h
  split at h
  · exact absurd h (by simp)
  · rename_i sa ha
    split at h
    · exact absurd h (by simp)
    · rename_i sb hb
      obtain ⟨k1, k2, -⟩ := hS.ready E he hm hmr hr sa sb ha hb
      exact k1.put_pair E k2 key value lvl s1 h

/-- A sequence of `insert_key` calls keeps the shape of the buffer. -/
theorem BufShape.insertAll {e r m : Nat} (E : Env) (he : 1 ≤ e) (hm : 1 ≤ m) (hmr : m ≤ r)
    (hr : r < 2 ^ 32) : ∀ (ops : List (Int × Int × Int)) (s s1 : LSM), s.BufShape e r m →
      s.insertAll E ops = some s1 → s1.BufShape e r m := by
  intro ops
  induction ops with
  | nil =>
    intro s s1 hS h
    simp only [LSM.insertAll, Option.some.injEq] at h
    subst h
    exact hS
  | cons op rest ih =>
    intro s s1 hS h
    obtain ⟨k, v, l⟩ := op
    simp only [LSM.insertAll] at h
    split at h
    · exact absurd h (by simp)
    · rename_i s2 hs2
      exact ih s2 s1 (hS.insert E he hm hmr hr k v l s2 hs2) h

end LSM
namespace LSM

/-- Claim C24 (buffer invariant). For a store made with `e ≥ 1` elements per
run and `1 ≤ m ≤ r` runs to merge out of `r` runs, `r` in the range of
`unsigned`: after every sequence of `insert_key` and `delete_key` calls that
return (a `delete_key` is the `insert_key` of the tombstone) `_activeRun < r`,
`C_0` and `filters` have `r` entries, every in-memory run counts at most `e`
elements, every run before the active one counts `e`; and the `do_merge` that
the next `insert_key` calls, when it calls one, lowers `_activeRun` by `m`. -/
theorem buffer_shape_kept (E : Env) (e r m ps d md : Nat) (he : 1 ≤ e) (hm : 1 ≤ m)
    (hmr : m ≤ r) (hr : r < 2 ^ 32) (ops : List (Int × Int × Int)) (s0 s : LSM)
    (hnew : LSM.new E e r m ps d md = some s0) (hrun : s0.insertAll E ops = some s) :
    s._activeRun < r ∧ s.C_0.length = r ∧ s.filters.length = r ∧
      (∀ run ∈ s.C_0, run.num_elements ≤ e) ∧
      (∀ (i : Nat) (run : SkipList), i < s._activeRun → s.C_0[i]? = some run →
        run.num_elements = e) ∧
      ∀ (sa s1 : LSM), advanceRun s = some sa → sa._num_runs ≤ sa._activeRun →
        do_merge E sa = some s1 → s1._activeRun + m = sa._activeRun := by
  have h0 := new_bufShape E e r m ps d md (by omega) s0 hnew
  have hS := BufShape.insertAll E he hm hmr hr ops s0 s h0 hrun
  refine ⟨hS.active, hS.runs, hS.filters, hS.atMost, hS.below, ?_⟩
  intro sa s1 ha hge hd
  exact (hS.ready E he hm hmr hr sa s1 ha (by rw [if_pos hge]; exact hd)).2.2 hge

set_option maxRecDepth 100000 in
/-- Claim C24 on the store of two in-memory runs of one element, both merged
at a time, after `insert(1, 1)` and `delete(2)`: both runs are full, and the
`do_merge` of the next insert takes `_activeRun` from `2` to `0`. -/
theorem buffer_shape_kept_witness :
    ∃ s0 s : LSM, LSM.new sampleEnv 1 2 2 1 2 2 = some s0 ∧
      s0.insertAll sampleEnv [(1, 1, 0), (2, V_TOMBSTONE, 0)] = some s ∧
      s.C_0.map SkipList.get_all = [[⟨1, 1⟩], [⟨2, V_TOMBSTONE⟩]] ∧
      ((advanceRun s).bind (fun sa => (do_merge sampleEnv sa).map
        (fun s1 => (sa._activeRun, s1._activeRun)))) = some (2, 0) ∧
      (s._activeRun < 2 ∧ s.C_0.length = 2 ∧ s.filters.length = 2 ∧
        (∀ run ∈ s.C_0, run.num_elements ≤ 1) ∧
        (∀ (i : Nat) (run : SkipList), i < s._activeRun → s.C_0[i]? = some run →
          run.num_elements = 1) ∧
        ∀ (sa s1 : LSM), advanceRun s = some sa → sa._num_runs ≤ sa._activeRun →
          do_merge sampleEnv sa = some s1 → s1._activeRun + 2 = sa._activeRun) :=
  ⟨(LSM.new sampleEnv 1 2 2 1 2 2).get (by decide),
    (((LSM.new sampleEnv 1 2 2 1 2 2).get (by decide)).insertAll sampleEnv
      [(1, 1, 0), (2, V_TOMBSTONE, 0)]).get (by decide),
    (Option.some_get _).symm, (Option.some_get _).symm, by decide, by decide,
    buffer_shape_kept sampleEnv 1 2 2 1 2 2 (by decide) (by decide) (by decide) (by decide)
      [(1, 1, 0), (2, V_TOMBSTONE, 0)] _ _ (Option.some_get _).symm
      (Option.some_get _).symm⟩

end LSM

namespace DiskLevel

/-- The runs that `newRuns` makes: as many as asked for, each with the number
of the level; and a run is only made with room for a pair. -/
theorem newRuns_some (E : Env) (runSize ps : Nat) (level : Int) :
    ∀ (n first : Nat) (rs : List DiskRun), newRuns E runSize ps level n first = some rs →
      rs.length = n ∧ (∀ r ∈ rs, r._level = level) ∧ (1 ≤ n → 1 ≤ runSize) := by
  intro n
  induction n with
  | zero =>
    intro first rs h
    simp only [newRuns, Option.some.injEq] at h
    subst h
    exact ⟨rfl, fun r hr => absurd hr (by simp), fun h => absurd h (by omega)⟩
  | succ n ih =>
    intro first rs h
    simp only [newRuns] at h
    split at h
    · rename_i r rs1 hr hrs
      simp only [Option.some.injEq] at h
      subst h
      obtain ⟨k1, k2, -⟩ := ih (first + 1) rs1 hrs
      unfold DiskRun.new at hr
      split at hr
      · exact absurd hr (by simp)
      · rename_i hcap
        simp only [Option.some.injEq] at hr
        subst hr
        refine ⟨by simp [k1], ?_, fun _ => by omega⟩
        intro x hx
        rcases List.mem_cons.mp hx with hx | hx
        · subst hx
          rfl
        · exact k2 x hx
    · exact absurd h (by simp)

/-- A level as the constructor makes it. -/
theorem new_shaped (E : Env) (ps : Nat) (level : Int) (rs D M : Nat) (lvl : DiskLevel)
    (hD : 1 ≤ D) (h : DiskLevel.new E ps level rs D M = some lvl) :
    lvl.Shaped D M ∧ lvl._activeRun = 0 ∧ lvl._runSize = rs := by
  unfold DiskLevel.new at h
  split at h
  · exact absurd h (by simp)
  · rename_i runs hruns
    simp only [Option.some.injEq] at h
    subst h
    obtain ⟨k1, k2, k3⟩ := newRuns_some E rs ps level D 0 runs hruns
    exact ⟨⟨rfl, rfl, k3 hD, k1, Nat.zero_le _, k2⟩, rfl, rfl⟩

/-- The member `addRuns` on a level that is not full keeps the counters. -/
theorem addRuns_shaped (E : Env) (lvl lvl1 : DiskLevel) (rl : List DiskRun) (runLen : Nat)
    (flag : Bool) (D M : Nat) (hS : lvl.Shaped D M) (hroom : lvl._activeRun < D)
    (h : lvl.addRuns E rl runLen flag = some lvl1) :
    lvl1.Shaped D M ∧ lvl1._runSize = lvl._runSize ∧ lvl1._level = lvl._level := by
  unfold addRuns at h
  split at h
  · exact absurd h (by simp)
  · split at h
    · rename_i hp dst hheap hdst
      split at h
      · exact absurd h (by simp)
      · rename_i st hst
        unfold closeRun at h
        split at h
        · exact absurd h (by simp)
        · rename_i j hj
          split at h
          · exact absurd h (by simp)
          · rename_i dst1 hd1
            have hl := constructIndex_level E _ _ hd1
            simp only at hl
            simp only [Option.some.injEq] at h
            subst h
            refine ⟨⟨hS.numRuns, hS.mergeSize, hS.size_pos, by simp [hS.len], ?_, ?_⟩, rfl, rfl⟩
            · simp only
              split <;> omega
            · intro r hr
              simp only at hr
              rcases List.mem_or_eq_of_mem_set hr with hr | hr
              · exact hS.tagged r hr
              · subst hr
                rw [hl]
                exact hS.tagged dst (List.mem_iff_getElem?.mpr ⟨_, hdst⟩)
    · exact absurd h (by simp)

/-- The member `addRunByArray` keeps the counters. -/
theorem addRunByArray_shaped (E : Env) (lvl lvl1 : DiskLevel) (pairs : List KVPair) (n : Nat)
    (D M : Nat) (hS : lvl.Shaped D M) (h : lvl.addRunByArray E pairs n = some lvl1) :
    lvl1.Shaped D M ∧ lvl1._runSize = lvl._runSize := by
  unfold addRunByArray at h
  split at h
  · exact absurd h (by simp)
  · rename_i hact
    split at h
    · exact absurd h (by simp)
    · split at h
      · exact absurd h (by simp)
      · rename_i dst hdst
        split at h
        · exact absurd h (by simp)
        · rename_i d1 hw
          split at h
          · exact absurd h (by simp)
          · rename_i d2 hc
            have hl := constructIndex_level E _ _ hc
            have hw1 : d1._level = dst._level := by
              unfold DiskRun.writeData at hw
              split at hw
              · exact absurd hw (by simp)
              · simp only [Option.some.injEq] at hw
                rw [← hw]
            simp only [Option.some.injEq] at h
            subst h
            have hact2 : lvl._activeRun < D := by
              have := hS.numRuns
              simp only [not_not] at hact
              omega
            refine ⟨⟨hS.numRuns, hS.mergeSize, hS.size_pos, by simp [hS.len], by simp only; omega,
              ?_⟩, rfl⟩
            intro r hr
            simp only at hr
            rcases List.mem_or_eq_of_mem_set hr with hr | hr
            · exact hS.tagged r hr
            · subst hr
              rw [hl, hw1]
              exact hS.tagged dst (List.mem_iff_getElem?.mpr ⟨_, hdst⟩)

/-- The member `freeMergedRuns` on a full level, with the runs that
`getRunsToMerge` names, keeps the counters and frees `M` slots. -/
theorem freeMergedRuns_shaped (E : Env) (lvl lvl1 : DiskLevel) (D M : Nat) (hS : lvl.Shaped D M)
    (hfull : lvl._activeRun = D) (hM : M ≤ D) (hD : D < 2 ^ 32)
    (h : lvl.freeMergedRuns E (lvl.runs.take M) = some lvl1) :
    lvl1.Shaped D M ∧ lvl1._activeRun + M = D ∧ lvl1._runSize = lvl._runSize := by
  have hn := hS.numRuns
  have hm := hS.mergeSize
  obtain ⟨kept, fresh, h1, h2, h3, h4, h5⟩ := freeMergedRuns_full E lvl (by rw [hS.len, hn])
    (by rw [hfull, hn]) (by rw [hm, hn]; exact hM) (by rw [hn]; exact hD)
    (fun r hr => hS.tagged r (List.mem_of_mem_take hr)) hS.size_pos
  rw [hm] at h1
  rw [h1] at h
  simp only [Option.some.injEq] at h
  subst h
  rw [hn, hm] at h2
  rw [hm] at h4
  refine ⟨⟨hn, rfl, hS.size_pos, ?_, ?_, ?_⟩, ?_, rfl⟩
  · simp only [List.length_append, h2, h4]
    omega
  · simp only [hn, hm]
    omega
  · intro r hr
    simp only at hr
    rcases List.mem_append.mp hr with hr | hr
    · obtain ⟨j, hj⟩ := List.mem_iff_getElem?.mp hr
      have hjl : j < D - M := by
        have := (List.getElem?_eq_some.mp hj).1
        omega
      obtain ⟨r0, hr0⟩ : ∃ r0, lvl.runs[j + lvl._mergeSize]? = some r0 :=
        ⟨_, List.getElem?_eq_getElem (by rw [hS.len, hm]; omega)⟩
      have := h3 j r0 hr0
      rw [hj] at this
      simp only [Option.some.injEq] at this
      subst this
      exact hS.tagged r0 (List.mem_iff_getElem?.mpr ⟨_, hr0⟩)
    · obtain ⟨j, hj⟩ := List.mem_iff_getElem?.mp hr
      have hjl : j < M := by
        have := (List.getElem?_eq_some.mp hj).1
        omega
      have := h5 j (by rw [hm]; exact hjl)
      rw [hj] at this
      unfold DiskRun.new at this
      split at this
      · exact absurd this (by simp)
      · simp only [Option.some.injEq] at this
        rw [this]
  · simp only [hn, hm]
    omega

end DiskLevel
namespace LSM

/-- The two ways in which `growLevels` returns: the store has the level, or
it is the level after the last one and is made from the last one. -/
theorem growLevels_cases (E : Env) (s s1 : LSM) (level : Nat)
    (h : growLevels E s level = some s1) :
    (level ≠ s._numDiskLevels ∧ s1 = s) ∨
      (level = s._numDiskLevels ∧ 1 ≤ level ∧ ∃ (prev nl : DiskLevel),
        s.diskLevels[level - 1]? = some prev ∧
        DiskLevel.new E s._pageSize ((level : Int) + 1) (prev._runSize * prev._mergeSize)
          s._diskRunsPerLevel s.diskMergeSize = some nl ∧
        s1 = { s with diskLevels := s.diskLevels ++ [nl],
                      _numDiskLevels := s._numDiskLevels + 1 }) := by
  unfold growLevels at h
  split at h
  · rename_i hl
    split at h
    · exact absurd h (by simp)
    · rename_i prev hprev
      split at h
      · exact absurd h (by simp)
      · rename_i h0
        split at h
        · exact absurd h (by simp)
        · rename_i nl hnl
          simp only [Option.some.injEq] at h
          exact Or.inr ⟨hl, by omega, prev, nl, hprev, hnl, h.symm⟩
  · rename_i hl
    simp only [Option.some.injEq] at h
    exact Or.inl ⟨hl, h.symm⟩

/-- What `moveRuns` does when it returns. -/
theorem moveRuns_cases (E : Env) (s2 s3 : LSM) (level : Nat) (h : moveRuns E s2 level = some s3) :
    1 ≤ level ∧ ∃ (dst src dst1 src1 : DiskLevel), s2.diskLevels[level]? = some dst ∧
      s2.diskLevels[level - 1]? = some src ∧ src._mergeSize ≤ src.runs.length ∧
      dst.addRuns E (src.runs.take src._mergeSize) src._runSize
        (decide (level + 1 = s2._numDiskLevels) && dst.levelEmpty) = some dst1 ∧
      src.freeMergedRuns E (src.runs.take src._mergeSize) = some src1 ∧
      s3 = { s2 with diskLevels := (s2.diskLevels.set level dst1).set (level - 1) src1 } := by
  unfold moveRuns at h
  split at h
  · exact absurd h (by simp)
  · rename_i h0
    split at h
    · rename_i dst src hdst hsrc
      split at h
      · exact absurd h (by simp)
      · rename_i rl hrl
        unfold DiskLevel.getRunsToMerge at hrl
        split at hrl
        · exact absurd hrl (by simp)
        · rename_i hlen
          simp only [Option.some.injEq] at hrl
          subst hrl
          split at h
          · exact absurd h (by simp)
          · rename_i dst1 hd1
            split at h
            · exact absurd h (by simp)
            · rename_i src1 hs1
              simp only [Option.some.injEq] at h
              exact ⟨by omega, dst, src, dst1, src1, hdst, hsrc, by omega, hd1, hs1, h.symm⟩
    · exact absurd h (by simp)

/-- The member `mergeRunsToLevel` keeps `_numDiskLevels` the number of levels. -/
theorem mergeRunsToLevel_count (E : Env) : ∀ (fuel : Nat) (s s2 : LSM) (level : Nat),
    s.diskLevels.length = s._numDiskLevels → mergeRunsToLevel E fuel s level = some s2 →
      s2.diskLevels.length = s2._numDiskLevels := by
  intro fuel
  induction fuel with
  | zero => intro s s2 level _ h; exact absurd h (by simp [mergeRunsToLevel])
  | succ fuel ih =>
    intro s s2 level hc h
    rw [mergeRunsToLevel_succ] at h
    split at h
    · exact absurd h (by simp)
    · rename_i s1 hg
      have hc1 : s1.diskLevels.length = s1._numDiskLevels := by
        rcases growLevels_cases E s s1 level hg with ⟨-, rfl⟩ | ⟨-, -, prev, nl, -, -, rfl⟩
        · exact hc
        · simp only [List.length_append, List.length_singleton, hc]
      split at h
      · exact absurd h (by simp)
      · rename_i target ht
        split at h
        · exact absurd h (by simp)
        · rename_i s3 h3
          have hc3 : s3.diskLevels.length = s3._numDiskLevels := by
            split at h3
            · exact ih s1 s3 (level + 1) hc1 h3
            · simp only [Option.some.injEq] at h3
              subst h3
              exact hc1
          obtain ⟨-, dst, src, dst1, src1, -, -, -, -, -, rfl⟩ := moveRuns_cases E s3 s2 level h
          simp only [List.length_set]
          exact hc3

/-- More fuel does not change what `mergeRunsToLevel` returns. -/
theorem mergeRunsToLevel_mono (E : Env) : ∀ (fuel fuel2 : Nat) (s s2 : LSM) (level : Nat),
    mergeRunsToLevel E fuel s level = some s2 → fuel ≤ fuel2 →
      mergeRunsToLevel E fuel2 s level = some s2 := by
  intro fuel
  induction fuel with
  | zero => intro fuel2 s s2 level h; exact absurd h (by simp [mergeRunsToLevel])
  | succ fuel ih =>
    intro fuel2 s s2 level h hle
    obtain ⟨f2, rfl⟩ : ∃ f2, fuel2 = f2 + 1 := ⟨fuel2 - 1, by omega⟩
    rw [mergeRunsToLevel_succ] at h ⊢
    cases hg : growLevels E s level with
    | none => rw [hg] at h; exact absurd h (by simp)
    | some s1 =>
      rw [hg] at h
      simp only at h ⊢
      cases ht : s1.diskLevels[level]? with
      | none => rw [ht] at h; exact absurd h (by simp)
      | some target =>
        rw [ht] at h
        simp only at h ⊢
        by_cases hf : target.levelFull = true
        · rw [if_pos hf] at h ⊢
          cases hr : mergeRunsToLevel E fuel s1 (level + 1) with
          | none => rw [hr] at h; exact absurd h (by simp)
          | some s3 =>
            rw [hr] at h
            rw [ih f2 s1 s3 (level + 1) hr (by omega)]
            exact h
        · rw [if_neg hf] at h ⊢
          exact h

/-- The first statement of `mergeRunsToLevel(level)`, `level ≥ 1`, keeps the
counters of the disk levels; a level it makes is empty. -/
theorem growLevels_shape (E : Env) (s s1 : LSM) (level : Nat) (hS : s.DiskShape)
    (h : growLevels E s level = some s1) :
    s1.DiskShape ∧ s1._diskRunsPerLevel = s._diskRunsPerLevel ∧
      s1.diskMergeSize = s.diskMergeSize ∧
      (∀ j, j < s._numDiskLevels → s1.diskLevels[j]? = s.diskLevels[j]?) ∧
      (level = s._numDiskLevels →
        ∃ nl, s1.diskLevels[level]? = some nl ∧ nl._activeRun = 0) := by
  have hD : 1 ≤ s._diskRunsPerLevel := le_trans hS.merge_pos hS.merge_le
  rcases growLevels_cases E s s1 level h with ⟨hl, rfl⟩ | ⟨hl, -, prev, nl, -, hnl, rfl⟩
  · exact ⟨hS, rfl, rfl, fun _ _ => rfl, fun h => absurd h hl⟩
  · obtain ⟨n1, n2, -⟩ := DiskLevel.new_shaped E _ _ _ _ _ nl hD hnl
    refine ⟨⟨?_, hS.merge_pos, hS.merge_le, hS.runs_lt, ?_⟩, rfl, rfl, ?_, ?_⟩
    · simp only [List.length_append, List.length_singleton, hS.count]
    · intro lvl hlvl
      simp only at hlvl
      rcases List.mem_append.mp hlvl with hm | hm
      · exact hS.levels lvl hm
      · simp only [List.mem_singleton] at hm
        subst hm
        exact n1
    · intro j hj
      simp only
      rw [List.getElem?_append_left (by rw [hS.count]; exact hj)]
    · intro _
      refine ⟨nl, ?_, n2⟩
      simp only
      rw [List.getElem?_append_right (by rw [hS.count, hl]), hS.count, hl, Nat.sub_self]
      rfl

/-- The statements of `mergeRunsToLevel(i + 1)` after the recursive call, when
level `i` is full and level `i + 1` is not: the counters of the disk levels
are kept, the levels before `i` are as they were, and level `i` has `M` free
slots. -/
theorem moveRuns_shape (E : Env) (s2 s3 : LSM) (i : Nat) (src dst : DiskLevel)
    (hS : s2.DiskShape) (hsrc : s2.diskLevels[i]? = some src)
    (hfull : src._activeRun = src._numRuns) (hdst : s2.diskLevels[i + 1]? = some dst)
    (hroom : dst._activeRun < s2._diskRunsPerLevel) (h : moveRuns E s2 (i + 1) = some s3) :
    s3.DiskShape ∧ s3._diskRunsPerLevel = s2._diskRunsPerLevel ∧
      s3.diskMergeSize = s2.diskMergeSize ∧
      (∀ j, j < i → s3.diskLevels[j]? = s2.diskLevels[j]?) ∧
      ∃ src3, s3.diskLevels[i]? = some src3 ∧
        src3._activeRun + s2.diskMergeSize = s2._diskRunsPerLevel ∧
        src3._runSize = src._runSize := by
  obtain ⟨-, dst0, src0, dst1, src1, m1, m2, m3, m4, m5, rfl⟩ := moveRuns_cases E s2 s3 (i + 1) h
  simp only [Nat.add_sub_cancel] at m2
  rw [hdst] at m1
  rw [hsrc] at m2
  simp only [Option.some.injEq] at m1 m2
  subst m1
  subst m2
  have hsS := hS.levels src (List.mem_iff_getElem?.mpr ⟨_, hsrc⟩)
  have hdS := hS.levels dst (List.mem_iff_getElem?.mpr ⟨_, hdst⟩)
  obtain ⟨a1, -, -⟩ := DiskLevel.addRuns_shaped E dst dst1 _ _ _ _ _ hdS hroom m4
  rw [hsS.mergeSize] at m5
  obtain ⟨f1, f2, f3⟩ := DiskLevel.freeMergedRuns_shaped E src src1 _ _ hsS
    (by rw [hfull, hsS.numRuns]) hS.merge_le hS.runs_lt m5
  have hlen : i + 1 < s2.diskLevels.length := (List.getElem?_eq_some.mp hdst).1
  simp only [Nat.add_sub_cancel]
  refine ⟨⟨?_, hS.merge_pos, hS.merge_le, hS.runs_lt, ?_⟩, trivial, trivial, ?_, src1, ?_, f2, f3⟩
  · simp only [List.length_set]
    exact hS.count
  · intro lvl hlvl
    simp only at hlvl
    obtain ⟨j, hj⟩ := List.mem_iff_getElem?.mp hlvl
    rw [getElem?_set2 _ _ _ _ _ hlen] at hj
    split at hj
    · simp only [Option.some.injEq] at hj
      subst hj
      exact f1
    · split at hj
      · simp only [Option.some.injEq] at hj
        subst hj
        exact a1
      · exact hS.levels lvl (List.mem_iff_getElem?.mpr ⟨_, hj⟩)
  · intro j hj
    rw [getElem?_set2 _ _ _ _ _ hlen, if_neg (by omega), if_neg (by omega)]
  · rw [getElem?_set2 _ _ _ _ _ hlen, if_pos rfl]

/-- The member `mergeRunsToLevel`, called for the level after a full level
`i`: when it returns, the counters of the disk levels are kept, the levels
before `i` are as they were, and level `i` has `M` free slots. -/
theorem mergeRunsToLevel_shape (E : Env) : ∀ (fuel : Nat) (s s3 : LSM) (i : Nat)
    (src : DiskLevel), s.DiskShape → s.diskLevels[i]? = some src →
    src._activeRun = src._numRuns → mergeRunsToLevel E fuel s (i + 1) = some s3 →
    s3.DiskShape ∧ s3._diskRunsPerLevel = s._diskRunsPerLevel ∧
      s3.diskMergeSize = s.diskMergeSize ∧
      (∀ j, j < i → s3.diskLevels[j]? = s.diskLevels[j]?) ∧
      ∃ src3, s3.diskLevels[i]? = some src3 ∧
        src3._activeRun + s.diskMergeSize = s._diskRunsPerLevel ∧
        src3._runSize = src._runSize := by
  intro fuel
  induction fuel with
  | zero => intro s s3 i src _ _ _ h; exact absurd h (by simp [mergeRunsToLevel])
  | succ fuel ih =>
    intro s s3 i src hS hsrc hfull h
    have hi : i < s._numDiskLevels := by
      have := (List.getElem?_eq_some.mp hsrc).1
      rw [hS.count] at this
      exact this
    rw [mergeRunsToLevel_succ] at h
    split at h
    · exact absurd h (by simp)
    · rename_i s1 hg
      obtain ⟨g1, g2, g3, g4, -⟩ := growLevels_shape E s s1 (i + 1) hS hg
      have hsrc1 : s1.diskLevels[i]? = some src := by rw [g4 i hi]; exact hsrc
      split at h
      · exact absurd h (by simp)
      · rename_i target ht
        have htS := g1.levels target (List.mem_iff_getElem?.mpr ⟨_, ht⟩)
        split at h
        · exact absurd h (by simp)
        · rename_i s2 h2
          by_cases hf : target.levelFull = true
          · rw [if_pos hf] at h2
            have hf2 : target._activeRun = target._numRuns := by
              simpa [DiskLevel.levelFull] using hf
            obtain ⟨k1, k2, k3, k4, dst, k5, k6, -⟩ := ih s1 s2 (i + 1) target g1 ht hf2 h2
            have hsrc2 : s2.diskLevels[i]? = some src := by
              rw [k4 i (by omega)]; exact hsrc1
            have hpos := g1.merge_pos
            obtain ⟨m1, m2, m3, m4, m5⟩ := moveRuns_shape E s2 s3 i src dst k1 hsrc2 hfull k5
              (by rw [k2]; omega) h
            refine ⟨m1, by rw [m2, k2, g2], by rw [m3, k3, g3], ?_, ?_⟩
            · intro j hj
              rw [m4 j hj, k4 j (by omega), g4 j (by omega)]
            · obtain ⟨src3, n1, n2, n3⟩ := m5
              exact ⟨src3, n1, by rw [← g2, ← g3, ← k2, ← k3]; exact n2, n3⟩
          · rw [if_neg hf] at h2
            simp only [Option.some.injEq] at h2
            subst h2
            have hroom : target._activeRun < s1._diskRunsPerLevel := by
              have h1 := htS.active
              have h2 := htS.numRuns
              have h3 : target._activeRun ≠ target._numRuns := by
                simpa [DiskLevel.levelFull] using hf
              omega
            obtain ⟨m1, m2, m3, m4, m5⟩ := moveRuns_shape E s1 s3 i src target g1 hsrc1 hfull ht
              hroom h
            refine ⟨m1, by rw [m2, g2], by rw [m3, g3], ?_, ?_⟩
            · intro j hj
              rw [m4 j hj, g4 j (by omega)]
            · obtain ⟨src3, n1, n2, n3⟩ := m5
              exact ⟨src3, n1, by rw [← g2, ← g3]; exact n2, n3⟩

end LSM
namespace LSM

/-- The calls of `mergeRunsToLevel` in the three parts of the member. -/
theorem mergeCalls_succ (E : Env) (fuel : Nat) (s : LSM) (level : Nat) :
    mergeCalls E (fuel + 1) s level =
      MergeCall.enter level ::
        (match growLevels E s level with
         | none => []
         | some s1 =>
           match s1.diskLevels[level]? with
           | none => []
           | some target =>
             if target.levelFull then
               mergeCalls E fuel s1 (level + 1) ++
                 (match mergeRunsToLevel E fuel s1 (level + 1) with
                  | none => []
                  | some s2 => moveRunsCalls E s2 level)
             else moveRunsCalls E s1 level) := rfl

/-- The calls of `moveRunsCalls`: `addRuns` on the level `level` of the store,
with the flag that `mergeRunsToLevel` computes, and `freeMergedRuns` on the
level before with the runs that `getRunsToMerge` names. -/
theorem moveRunsCalls_mem (E : Env) (s2 : LSM) (level : Nat) (c : MergeCall)
    (hc : c ∈ moveRunsCalls E s2 level) :
    ∃ (dst src : DiskLevel), s2.diskLevels[level]? = some dst ∧
      s2.diskLevels[level - 1]? = some src ∧ src._mergeSize ≤ src.runs.length ∧
      (c = MergeCall.addRuns level s2 (src.runs.take src._mergeSize) src._runSize
            (decide (level + 1 = s2._numDiskLevels) && dst.levelEmpty) ∨
        c = MergeCall.freeMergedRuns src (src.runs.take src._mergeSize)) := by
  unfold moveRunsCalls at hc
  split at hc
  · exact absurd hc (by simp)
  · split at hc
    · rename_i dst src hdst hsrc
      split at hc
      · exact absurd hc (by simp)
      · rename_i rl hrl
        unfold DiskLevel.getRunsToMerge at hrl
        split at hrl
        · exact absurd hrl (by simp)
        · rename_i hlen
          simp only [Option.some.injEq] at hrl
          subst hrl
          refine ⟨dst, src, hdst, hsrc, by omega, ?_⟩
          rcases List.mem_cons.mp hc with h1 | h1
          · exact Or.inl h1
          · split at h1
            · exact absurd h1 (by simp)
            · simp only [List.mem_singleton] at h1
              exact Or.inr h1
    · exact absurd hc (by simp)

/-- The call `freeMergedRuns` that `mergeRunsToLevel` makes, in a store whose
runs carry the number of their level, gets `_mergeSize` runs of the level. -/
theorem moveRunsCalls_free (E : Env) (s2 : LSM) (level : Nat) (hS : s2.DiskShape)
    (lv : DiskLevel) (rl : List DiskRun)
    (hc : MergeCall.freeMergedRuns lv rl ∈ moveRunsCalls E s2 level) :
    rl.length = lv._mergeSize ∧ ∀ r ∈ rl, r._level = lv._level := by
  obtain ⟨dst, src, -, hsrc, hlen, h | h⟩ := moveRunsCalls_mem E s2 level _ hc
  · exact absurd h (by simp)
  · simp only [MergeCall.freeMergedRuns.injEq] at h
    obtain ⟨rfl, rfl⟩ := h
    have hsS := hS.levels lv (List.mem_iff_getElem?.mpr ⟨_, hsrc⟩)
    refine ⟨by rw [List.length_take]; omega, fun r hr => hsS.tagged r (List.mem_of_mem_take hr)⟩

/-- Every call of `freeMergedRuns` made while `mergeRunsToLevel` runs for the
level after a full level gets `_mergeSize` runs of the level it is called on. -/
theorem mergeCalls_free (E : Env) : ∀ (fuel : Nat) (s : LSM) (i : Nat) (src : DiskLevel),
    s.DiskShape → s.diskLevels[i]? = some src → src._activeRun = src._numRuns →
    ∀ (lv : DiskLevel) (rl : List DiskRun),
      MergeCall.freeMergedRuns lv rl ∈ mergeCalls E fuel s (i + 1) →
      rl.length = lv._mergeSize ∧ ∀ r ∈ rl, r._level = lv._level := by
  intro fuel
  induction fuel with
  | zero => intro s i src _ _ _ lv rl h; exact absurd h (by simp [mergeCalls])
  | succ fuel ih =>
    intro s i src hS hsrc hfull lv rl h
    rw [mergeCalls_succ] at h
    rcases List.mem_cons.mp h with h | h
    · exact absurd h (by simp)
    · split at h
      · exact absurd h (by simp)
      · rename_i s1 hg
        obtain ⟨g1, -, -, -, -⟩ := growLevels_shape E s s1 (i + 1) hS hg
        split at h
        · exact absurd h (by simp)
        · rename_i target ht
          split at h
          · rename_i hf
            have hf2 : target._activeRun = target._numRuns := by
              simpa [DiskLevel.levelFull] using hf
            rcases List.mem_append.mp h with h | h
            · exact ih s1 (i + 1) target g1 ht hf2 lv rl h
            · split at h
              · exact absurd h (by simp)
              · rename_i s2 h2
                obtain ⟨k1, -⟩ := mergeRunsToLevel_shape E fuel s1 s2 (i + 1) target g1 ht hf2 h2
                exact moveRunsCalls_free E s2 (i + 1) k1 lv rl h
          · exact moveRunsCalls_free E s1 (i + 1) g1 lv rl h

/-- Every call of `addRuns` made while `mergeRunsToLevel` runs is made in the
store that a run of `mergeRunsToLevel(lv)` has after its first statement and
its recursive call, on the level `lv` of that store, with the flag that is
true when `lv` is the last level and empty. -/
theorem mergeCalls_addRuns (E : Env) : ∀ (fuel : Nat) (s : LSM) (level : Nat),
    s.diskLevels.length = s._numDiskLevels →
    ∀ (lv : Nat) (s2 : LSM) (rl : List DiskRun) (runLen : Nat) (flag : Bool),
      MergeCall.addRuns lv s2 rl runLen flag ∈ mergeCalls E fuel s level →
      s2.diskLevels.length = s2._numDiskLevels ∧
      ∃ (f : Nat) (sIn s1 : LSM) (target dst : DiskLevel), growLevels E sIn lv = some s1 ∧
        s1.diskLevels[lv]? = some target ∧
        (if target.levelFull then mergeRunsToLevel E f s1 (lv + 1) else some s1) = some s2 ∧
        s2.diskLevels[lv]? = some dst ∧
        flag = (decide (lv + 1 = s2._numDiskLevels) && dst.levelEmpty) := by
  intro fuel
  induction fuel with
  | zero => intro s level _ lv s2 rl runLen flag h; exact absurd h (by simp [mergeCalls])
  | succ fuel ih =>
    intro s level hc lv s2 rl runLen flag h
    rw [mergeCalls_succ] at h
    rcases List.mem_cons.mp h with h | h
    · exact absurd h (by simp)
    · split at h
      · exact absurd h (by simp)
      · rename_i s1 hg
        have hc1 : s1.diskLevels.length = s1._numDiskLevels := by
          rcases growLevels_cases E s s1 level hg with ⟨-, rfl⟩ | ⟨-, -, prev, nl, -, -, rfl⟩
          · exact hc
          · simp only [List.length_append, List.length_singleton, hc]
        split at h
        · exact absurd h (by simp)
        · rename_i target ht
          split at h
          · rename_i hf
            rcases List.mem_append.mp h with h | h
            · exact ih s1 (level + 1) hc1 lv s2 rl runLen flag h
            · split at h
              · exact absurd h (by simp)
              · rename_i s3 h3
                have hc3 := mergeRunsToLevel_count E fuel s1 s3 (level + 1) hc1 h3
                obtain ⟨dst, src, hdst, -, -, hcall | hcall⟩ := moveRunsCalls_mem E s3 level _ h
                · simp only [MergeCall.addRuns.injEq] at hcall
                  obtain ⟨rfl, rfl, -, -, rfl⟩ := hcall
                  exact ⟨hc3, fuel, s, s1, target, dst, hg, ht, by rw [if_pos hf]; exact h3, hdst,
                    rfl⟩
                · exact absurd hcall (by simp)
          · rename_i hf
            obtain ⟨dst, src, hdst, -, -, hcall | hcall⟩ := moveRunsCalls_mem E s1 level _ h
            · simp only [MergeCall.addRuns.injEq] at hcall
              obtain ⟨rfl, rfl, -, -, rfl⟩ := hcall
              exact ⟨hc1, 0, s, s2, target, dst, hg, ht, by rw [if_neg hf], hdst, rfl⟩
            · exact absurd hcall (by simp)

theorem MergeCall.entries_cons_enter (level : Nat) (calls : List MergeCall) :
    MergeCall.entries (MergeCall.enter level :: calls) = MergeCall.entries calls + 1 := by
  simp [MergeCall.entries]

theorem MergeCall.entries_append (a b : List MergeCall) :
    MergeCall.entries (a ++ b) = MergeCall.entries a + MergeCall.entries b := by
  simp [MergeCall.entries]

theorem moveRunsCalls_entries (E : Env) (s2 : LSM) (level : Nat) :
    MergeCall.entries (moveRunsCalls E s2 level) = 0 := by
  unfold MergeCall.entries
  rw [List.length_eq_zero, List.filter_eq_nil_iff]
  intro c hc
  obtain ⟨dst, src, -, -, -, h | h⟩ := moveRunsCalls_mem E s2 level c hc <;> subst h <;> simp

/-- The entries of `mergeRunsToLevel` in a run for a level that the store has
or that comes right after its levels, when a level has room for a run: at
most one for that level and one for every level after it. -/
theorem mergeCalls_entries (E : Env) : ∀ (gap fuel : Nat) (s : LSM) (level : Nat),
    s.diskLevels.length = s._numDiskLevels → 1 ≤ s._diskRunsPerLevel →
    level + gap = s._numDiskLevels →
    MergeCall.entries (mergeCalls E fuel s level) ≤ gap + 1 := by
  intro gap
  induction gap with
  | zero =>
    intro fuel s level hc hD hl
    cases fuel with
    | zero => simp [mergeCalls, MergeCall.entries]
    | succ fuel =>
      rw [mergeCalls_succ, MergeCall.entries_cons_enter]
      have key : ∀ n : Nat, n = 0 → n + 1 ≤ 0 + 1 := by intro n h; omega
      apply key
      split
      · rfl
      · rename_i s1 hg
        split
        · rfl
        · rename_i target ht
          rcases growLevels_cases E s s1 level hg with ⟨hne, -⟩ | ⟨-, -, prev, nl, -, hnl, rfl⟩
          · exact absurd (by omega) hne
          · simp only at ht
            rw [List.getElem?_append_right (by omega)] at ht
            have h0 : level - s.diskLevels.length = 0 := by omega
            rw [h0] at ht
            simp only [List.getElem?_cons_zero, Option.some.injEq] at ht
            subst ht
            have hnf : nl.levelFull = false := by
              unfold DiskLevel.new at hnl
              split at hnl
              · exact absurd hnl (by simp)
              · simp only [Option.some.injEq] at hnl
                subst hnl
                simp only [DiskLevel.levelFull, decide_eq_false_iff_not]
                omega
            rw [hnf]
            simp only [Bool.false_eq_true, if_false]
            exact moveRunsCalls_entries E _ level
  | succ gap ih =>
    intro fuel s level hc hD hl
    cases fuel with
    | zero => simp [mergeCalls, MergeCall.entries]
    | succ fuel =>
      rw [mergeCalls_succ, MergeCall.entries_cons_enter]
      simp only [Nat.add_le_add_iff_right]
      split
      · exact Nat.zero_le _
      · rename_i s1 hg
        split
        · exact Nat.zero_le _
        · rename_i target ht
          rcases growLevels_cases E s s1 level hg with ⟨-, rfl⟩ | ⟨heq, -⟩
          · split
            · rw [MergeCall.entries_append]
              have h1 := ih fuel s1 (level + 1) hc hD (by omega)
              have h2 : MergeCall.entries (match mergeRunsToLevel E fuel s1 (level + 1) with
                  | none => []
                  | some s2 => moveRunsCalls E s2 level) = 0 := by
                split
                · rfl
                · exact moveRunsCalls_entries E _ level
              omega
            · rw [moveRunsCalls_entries]
              exact Nat.zero_le _
          · exact absurd heq (by omega)

end LSM
namespace LSM

/-- A new store has the counters of the disk levels, and the runs of its
level 0 take the pairs of `m` in-memory runs. -/
theorem new_diskShape (E : Env) (e r m ps d md : Nat) (hmd : 1 ≤ md) (hmdd : md ≤ d)
    (hd : d < 2 ^ 32) (s : LSM) (h : LSM.new E e r m ps d md = some s) :
    s.DiskShape ∧ ∃ l0, s.diskLevels[0]? = some l0 ∧ l0._runSize = m * e := by
  unfold LSM.new at h
  split at h
  · exact absurd h (by simp)
  · rename_i l0 hl0
    simp only [Option.some.injEq] at h
    subst h
    obtain ⟨n1, -, n3⟩ := DiskLevel.new_shaped E _ _ _ _ _ l0 (by omega) hl0
    refine ⟨⟨rfl, hmd, hmdd, hd, ?_⟩, l0, rfl, n3⟩
    intro lvl hlvl
    simp only [List.mem_singleton] at hlvl
    subst hlvl
    exact n1

/-- The member `merge_runs` keeps the counters of the disk levels and the run
size of level 0. -/
theorem merge_runs_shape (E : Env) (s s2 : LSM) (runs : List SkipList) (k : Nat)
    (hS : s.DiskShape) (hk : ∃ l0, s.diskLevels[0]? = some l0 ∧ l0._runSize = k)
    (h : merge_runs E s runs = some s2) :
    s2.DiskShape ∧ ∃ l0, s2.diskLevels[0]? = some l0 ∧ l0._runSize = k := by
  obtain ⟨l0, hl0, hsz⟩ := hk
  unfold merge_runs at h
  rw [hl0] at h
  simp only at h
  split at h
  · exact absurd h (by simp)
  · rename_i s1 hs1
    have h1 : s1.DiskShape ∧ ∃ d0, s1.diskLevels[0]? = some d0 ∧ d0._runSize = k := by
      split at hs1
      · rename_i hf
        have hf2 : l0._activeRun = l0._numRuns := by simpa [DiskLevel.levelFull] using hf
        obtain ⟨k1, -, -, -, src3, k5, -, k7⟩ :=
          mergeRunsToLevel_shape E _ s s1 0 l0 hS hl0 hf2 hs1
        exact ⟨k1, src3, k5, by rw [k7, hsz]⟩
      · simp only [Option.some.injEq] at hs1
        subst hs1
        exact ⟨hS, l0, hl0, hsz⟩
    obtain ⟨hS1, d0, hd0, hdz⟩ := h1
    rw [hd0] at h
    simp only at h
    split at h
    · exact absurd h (by simp)
    · rename_i d1 hd1
      simp only [Option.some.injEq] at h
      subst h
      obtain ⟨a1, a2⟩ := DiskLevel.addRunByArray_shaped E d0 d1 _ _ _ _
        (hS1.levels d0 (List.mem_iff_getElem?.mpr ⟨_, hd0⟩)) hd1
      have hlen : 0 < s1.diskLevels.length := (List.getElem?_eq_some.mp hd0).1
      refine ⟨⟨?_, hS1.merge_pos, hS1.merge_le, hS1.runs_lt, ?_⟩, d1, ?_, by rw [a2, hdz]⟩
      · simp only [List.length_set]
        exact hS1.count
      · intro lvl hlvl
        simp only at hlvl
        rcases List.mem_or_eq_of_mem_set hlvl with hm | hm
        · exact hS1.levels lvl hm
        · subst hm
          exact a1
      · simp only
        rw [List.getElem?_set_self hlen]

/-- The member `insert_key` keeps the counters of the disk levels and the run
size of level 0. -/
theorem insert_key_shape (E : Env) (s s2 : LSM) (key value lvl : Int) (k : Nat)
    (hS : s.DiskShape) (hk : ∃ l0, s.diskLevels[0]? = some l0 ∧ l0._runSize = k)
    (h : s.insert_key E key value lvl = some s2) :
    s2.DiskShape ∧ ∃ l0, s2.diskLevels[0]? = some l0 ∧ l0._runSize = k := by
  unfold insert_key at h
  split at h
  · exact absurd h (by simp)
  · rename_i sa ha
    have hA : sa.DiskShape ∧ ∃ l0, sa.diskLevels[0]? = some l0 ∧ l0._runSize = k := by
      unfold advanceRun at ha
      split at ha
      · exact absurd ha (by simp)
      · split at ha
        · simp only [Option.some.injEq] at ha
          subst ha
          exact ⟨⟨hS.count, hS.merge_pos, hS.merge_le, hS.runs_lt, hS.levels⟩, hk⟩
        · simp only [Option.some.injEq] at ha
          subst ha
          exact ⟨hS, hk⟩
    split at h
    · exact absurd h (by simp)
    · rename_i sb hb
      have hB : sb.DiskShape ∧ ∃ l0, sb.diskLevels[0]? = some l0 ∧ l0._runSize = k := by
        split at hb
        · unfold do_merge at hb
          split at hb
          · simp only [Option.some.injEq] at hb
            subst hb
            exact hA
          · split at hb
            · exact absurd hb (by simp)
            · split at hb
              · exact absurd hb (by simp)
              · rename_i s1 hs1
                obtain ⟨m1, m2⟩ := merge_runs_shape E _ _ _ k hA.1 hA.2 hs1
                simp only [Option.some.injEq] at hb
                subst hb
                exact ⟨⟨m1.count, m1.merge_pos, m1.merge_le, m1.runs_lt, m1.levels⟩, m2⟩
        · simp only [Option.some.injEq] at hb
          subst hb
          exact hA
      unfold putActive at h
      split at h
      · split at h
        · simp only [Option.some.injEq] at h
          subst h
          exact ⟨⟨hB.1.count, hB.1.merge_pos, hB.1.merge_le, hB.1.runs_lt, hB.1.levels⟩, hB.2⟩
        · exact absurd h (by simp)
      · exact absurd h (by simp)

/-- A sequence of `insert_key` calls keeps the counters of the disk levels and
the run size of level 0. -/
theorem insertAll_shape (E : Env) (k : Nat) : ∀ (ops : List (Int × Int × Int)) (s s2 : LSM),
    s.DiskShape → (∃ l0, s.diskLevels[0]? = some l0 ∧ l0._runSize = k) →
    s.insertAll E ops = some s2 →
    s2.DiskShape ∧ ∃ l0, s2.diskLevels[0]? = some l0 ∧ l0._runSize = k := by
  intro ops
  induction ops with
  | nil =>
    intro s s2 hS hk h
    simp only [LSM.insertAll, Option.some.injEq] at h
    subst h
    exact ⟨hS, hk⟩
  | cons op rest ih =>
    intro s s2 hS hk h
    obtain ⟨key, v, l⟩ := op
    simp only [LSM.insertAll] at h
    split at h
    · exact absurd h (by simp)
    · rename_i s1 hs1
      obtain ⟨k1, k2⟩ := insert_key_shape E s s1 key v l k hS hk hs1
      exact ih s1 s2 k1 k2 h

theorem gatherRuns_length : ∀ (runs : List SkipList) (acc : List KVPair),
    (gatherRuns runs acc).length = (runs.map (fun r => r.get_all.length)).sum + acc.length := by
  intro runs
  induction runs with
  | nil => intro acc; simp [gatherRuns]
  | cons r rest ih =>
    intro acc
    simp only [gatherRuns, ih, List.length_append, List.map_cons, List.sum_cons]
    omega

theorem sum_const (l : List Nat) (e : Nat) (h : ∀ x ∈ l, x = e) : l.sum = l.length * e := by
  induction l with
  | nil => simp
  | cons a rest ih =>
    have h1 := h a (List.mem_cons_self _ _)
    have h2 := ih (fun x hx => h x (List.mem_cons_of_mem _ hx))
    simp only [List.sum_cons, List.length_cons, h1, h2, Nat.succ_mul]
    omega

/-- When `insert_key` finds every in-memory run full, the first `m` runs hold
`m * e` pairs together. -/
theorem BufShape.drained_length {e r m : Nat} {s sa : LSM} (hS : s.BufShape e r m)
    (hwf : s.BufOK) (hmr : m ≤ r) (ha : advanceRun s = some sa)
    (hfull : sa._num_runs ≤ sa._activeRun) :
    sa.diskLevels = s.diskLevels ∧ sa._numDiskLevels = s._numDiskLevels ∧
      sa._diskRunsPerLevel = s._diskRunsPerLevel ∧ sa.diskMergeSize = s.diskMergeSize ∧
      (sortKV (gatherRuns (sa.C_0.take sa._num_to_merge) [])).length = m * e := by
  obtain ⟨cur, hcur⟩ := getElem?_some_of_lt s.C_0 s._activeRun (by rw [hS.runs]; exact hS.active)
  have hcle := hS.atMost cur (List.mem_iff_getElem?.mpr ⟨_, hcur⟩)
  unfold advanceRun at ha
  rw [hcur] at ha
  simp only at ha
  by_cases hf : cur.num_elements ≥ s._eltsPerRun
  · rw [if_pos hf] at ha
    simp only [Option.some.injEq] at ha
    subst ha
    simp only [hS.numRuns] at hfull
    rw [hS.elts] at hf
    refine ⟨rfl, rfl, rfl, rfl, ?_⟩
    simp only [hS.toMerge]
    rw [(sortKV_perm _).length_eq, gatherRuns_length, List.length_nil, Nat.add_zero]
    have hall : ∀ x ∈ (s.C_0.take m).map (fun r => r.get_all.length), x = e := by
      intro x hx
      obtain ⟨run, hrun, rfl⟩ := List.mem_map.mp hx
      obtain ⟨j, hj⟩ := List.mem_iff_getElem?.mp hrun
      have hjm : j < m := by
        have := (List.getElem?_eq_some.mp hj).1
        rw [List.length_take] at this
        omega
      rw [List.getElem?_take_of_lt hjm] at hj
      have hmem : run ∈ s.C_0 := List.mem_iff_getElem?.mpr ⟨_, hj⟩
      have hcount := (hwf run hmem).count
      have hlen : run.get_all.length = run.num_elements := by
        simp only [SkipList.get_all, List.length_map, SkipList.num_elements, hcount]
      rw [hlen]
      by_cases hja : j < s._activeRun
      · exact hS.below j run hja hj
      · have hact := hS.active
        have : j = s._activeRun := by omega
        subst this
        rw [hcur] at hj
        simp only [Option.some.injEq] at hj
        subst hj
        omega
    rw [sum_const _ e hall, List.length_map, List.length_take, hS.runs, Nat.min_eq_left hmr]
  · rw [if_neg hf] at ha
    simp only [Option.some.injEq] at ha
    subst ha
    simp only [hS.numRuns] at hfull
    have := hS.active
    omega

end LSM
namespace LSM

/-- Depth beyond one call for every level from `level` on, and one more,
changes nothing in what `mergeRunsToLevel(level)` returns, when a level has
room for a run. -/
theorem mergeRunsToLevel_stable (E : Env) : ∀ (gap fuel : Nat) (s : LSM) (level : Nat),
    s.diskLevels.length = s._numDiskLevels → 1 ≤ s._diskRunsPerLevel →
    level + gap = s._numDiskLevels → gap + 1 ≤ fuel →
    mergeRunsToLevel E fuel s level = mergeRunsToLevel E (gap + 1) s level := by
  intro gap
  induction gap with
  | zero =>
    intro fuel s level hc hD hl hfuel
    obtain ⟨f, rfl⟩ : ∃ f, fuel = f + 1 := ⟨fuel - 1, by omega⟩
    rw [mergeRunsToLevel_succ, mergeRunsToLevel_succ]
    cases hg : growLevels E s level with
    | none => rfl
    | some s1 =>
      simp only
      cases ht : s1.diskLevels[level]? with
      | none => rfl
      | some target =>
        simp only
        rcases growLevels_cases E s s1 level hg with ⟨hne, -⟩ | ⟨-, -, prev, nl, -, hnl, rfl⟩
        · exact absurd (by omega) hne
        · simp only at ht
          rw [List.getElem?_append_right (by omega)] at ht
          have h0 : level - s.diskLevels.length = 0 := by omega
          rw [h0] at ht
          simp only [List.getElem?_cons_zero, Option.some.injEq] at ht
          subst ht
          have hnf : nl.levelFull = false := by
            unfold DiskLevel.new at hnl
            split at hnl
            · exact absurd hnl (by simp)
            · simp only [Option.some.injEq] at hnl
              subst hnl
              simp only [DiskLevel.levelFull, decide_eq_false_iff_not]
              omega
          rw [hnf]
          simp only [Bool.false_eq_true, if_false]
  | succ gap ih =>
    intro fuel s level hc hD hl hfuel
    obtain ⟨f, rfl⟩ : ∃ f, fuel = f + 1 := ⟨fuel - 1, by omega⟩
    rw [mergeRunsToLevel_succ, mergeRunsToLevel_succ]
    cases hg : growLevels E s level with
    | none => rfl
    | some s1 =>
      simp only
      cases ht : s1.diskLevels[level]? with
      | none => rfl
      | some target =>
        simp only
        rcases growLevels_cases E s s1 level hg with ⟨-, rfl⟩ | ⟨heq, -⟩
        · rw [ih f s1 (level + 1) hc hD (by omega) (by omega)]
        · exact absurd heq (by omega)

end LSM

/-! ## What a merge keeps, and when the cascade returns -/

namespace DiskLevel

/-- One write of the loop of `addRuns` outside the terminal level, when it
returns, for a pair whose key is in the range of `int` and not below the keys
popped before: `j` stays a slot of the file or `-1`, the key of slot `j` is
`lastKey`, every key popped has a slot up to `j` once a slot is written, and
as long as none is written every key popped is `INT_MAX`. -/
theorem emitPair_covers (e e1 : EmitState) (x : KVIntPair) (D : List KVIntPair)
    (h : emitPair false e x = some e1) (hlo : -1 ≤ e.j) (hhi : e.j < e.map.length)
    (hlast : 0 ≤ e.j → DiskRun.keyAt e.map e.j.toNat = e.lastKey)
    (hcov : 0 ≤ e.j → ∀ d ∈ D, ∃ i : Nat, (i : Int) ≤ e.j ∧ DiskRun.keyAt e.map i = d.1.key)
    (hnone : e.j = -1 → e.lastKey = INT_MAX ∧ ∀ d ∈ D, d.1.key = INT_MAX)
    (hord : ∀ d ∈ D, d.1.key ≤ x.1.key) (hx : x.1.key ≤ INT_MAX) :
    -1 ≤ e1.j ∧ e1.j < e1.map.length ∧ e1.map.length = e.map.length ∧
      (0 ≤ e1.j → DiskRun.keyAt e1.map e1.j.toNat = e1.lastKey) ∧
      (0 ≤ e1.j → ∀ d ∈ D ++ [x], ∃ i : Nat, (i : Int) ≤ e1.j ∧
        DiskRun.keyAt e1.map i = d.1.key) ∧
      (e1.j = -1 → e1.lastKey = INT_MAX ∧ ∀ d ∈ D ++ [x], d.1.key = INT_MAX) := by
  unfold emitPair at h
  by_cases hkey : e.lastKey = x.1.key
  · rw [if_pos hkey] at h
    by_cases hk : e.lastk < toUnsigned x.2
    · rw [if_pos hk] at h
      cases hst : storeKV e.map e.j x.1 with
      | none => rw [hst] at h; exact absurd h (by simp)
      | some m =>
        rw [hst] at h
        obtain ⟨s1, s2, s3⟩ := storeKV_some hst
        have he := (Option.some.inj h).symm
        subst he
        subst s3
        have hkeys : ∀ i, DiskRun.keyAt (e.map.set e.j.toNat x.1) i = DiskRun.keyAt e.map i := by
          intro i
          by_cases hi : e.j.toNat = i
          · rw [← hi, keyAt_set_self _ _ _ s2, hlast s1, hkey]
          · exact keyAt_set_ne _ _ _ _ hi
        refine ⟨hlo, by simpa using hhi, by simp, ?_, ?_, ?_⟩
        · intro _
          exact keyAt_set_self _ _ _ s2
        · intro _ d hd
          simp only
          rcases List.mem_append.mp hd with hd | hd
          · obtain ⟨i, g1, g2⟩ := hcov s1 d hd
            exact ⟨i, g1, by rw [hkeys, g2]⟩
          · rw [List.mem_singleton.mp hd]
            exact ⟨e.j.toNat, by omega, keyAt_set_self _ _ _ s2⟩
        · intro hj
          simp only at hj
          omega
    · rw [if_neg hk] at h
      have he := (Option.some.inj h).symm
      subst he
      refine ⟨hlo, hhi, rfl, ?_, ?_, ?_⟩
      · intro h0
        simp only at h0 ⊢
        rw [hlast h0, hkey]
      · intro h0 d hd
        simp only at h0 ⊢
        rcases List.mem_append.mp hd with hd | hd
        · exact hcov h0 d hd
        · rw [List.mem_singleton.mp hd]
          exact ⟨e.j.toNat, by omega, by rw [hlast h0, hkey]⟩
      · intro hj
        simp only at hj ⊢
        obtain ⟨n1, n2⟩ := hnone hj
        refine ⟨by rw [← hkey]; exact n1, ?_⟩
        intro d hd
        rcases List.mem_append.mp hd with hd | hd
        · exact n2 d hd
        · rw [List.mem_singleton.mp hd, ← hkey]
          exact n1
  · rw [if_neg hkey, if_neg (by simp)] at h
    simp only [Bool.false_eq_true, if_false] at h
    cases hst : storeKV e.map (e.j + 1) x.1 with
    | none => rw [hst] at h; exact absurd h (by simp)
    | some m =>
      rw [hst] at h
      obtain ⟨s1, s2, s3⟩ := storeKV_some hst
      have he := (Option.some.inj h).symm
      subst he
      subst s3
      have hJ1 : ((e.j + 1).toNat : Int) = e.j + 1 := Int.toNat_of_nonneg s1
      refine ⟨by simp only; omega, ?_, by simp, ?_, ?_, ?_⟩
      · simp only [List.length_set]
        omega
      · intro _
        exact keyAt_set_self _ _ _ s2
      · intro _ d hd
        simp only
        rcases List.mem_append.mp hd with hd | hd
        · by_cases h0 : 0 ≤ e.j
          · obtain ⟨i, g1, g2⟩ := hcov h0 d hd
            exact ⟨i, by omega, by rw [keyAt_set_ne _ _ _ _ (by omega), g2]⟩
          · exfalso
            obtain ⟨n1, n2⟩ := hnone (by omega)
            have h1 := hord d hd
            rw [n2 d hd] at h1
            apply hkey
            rw [n1]
            omega
        · rw [List.mem_singleton.mp hd]
          exact ⟨(e.j + 1).toNat, by omega, keyAt_set_self _ _ _ s2⟩
      · intro hj
        simp only at hj
        omega

/-- The writes of the loop of `addRuns` outside the terminal level, when they
return, for pairs that come in the order of their keys, all in the range of
`int`. -/
theorem emitAll_covers : ∀ (Q : List KVIntPair) (e e' : EmitState) (D : List KVIntPair),
    emitAll false e Q = some e' → -1 ≤ e.j → e.j < e.map.length →
    (0 ≤ e.j → DiskRun.keyAt e.map e.j.toNat = e.lastKey) →
    (0 ≤ e.j → ∀ d ∈ D, ∃ i : Nat, (i : Int) ≤ e.j ∧ DiskRun.keyAt e.map i = d.1.key) →
    (e.j = -1 → e.lastKey = INT_MAX ∧ ∀ d ∈ D, d.1.key = INT_MAX) →
    (∀ d ∈ D, ∀ y ∈ Q, d.1.key ≤ y.1.key) → Q.Pairwise (fun a b => a.1.key ≤ b.1.key) →
    (∀ y ∈ Q, y.1.key ≤ INT_MAX) →
    e'.j < e'.map.length ∧ e'.map.length = e.map.length ∧
      (0 ≤ e'.j → ∀ d ∈ D ++ Q, ∃ i : Nat, (i : Int) ≤ e'.j ∧
        DiskRun.keyAt e'.map i = d.1.key) ∧
      (e'.j = -1 → ∀ d ∈ D ++ Q, d.1.key = INT_MAX) := by
  intro Q
  induction Q with
  | nil =>
    intro e e' D h hlo hhi hlast hcov hnone _ _ _
    simp only [emitAll, Option.some.injEq] at h
    subst h
    refine ⟨hhi, rfl, ?_, ?_⟩
    · rw [List.append_nil]
      exact hcov
    · rw [List.append_nil]
      exact fun hj => (hnone hj).2
  | cons x Q ih =>
    intro e e' D h hlo hhi hlast hcov hnone hord hsorted hint
    simp only [emitAll] at h
    cases h1 : emitPair false e x with
    | none => rw [h1] at h; exact absurd h (by simp)
    | some e1 =>
      rw [h1] at h
      obtain ⟨hx, hQ⟩ := List.pairwise_cons.mp hsorted
      obtain ⟨k1, k2, k3, k4, k5, k6⟩ := emitPair_covers e e1 x D h1 hlo hhi hlast hcov hnone
        (fun d hd => hord d hd x (List.mem_cons_self _ _)) (hint x (List.mem_cons_self _ _))
      obtain ⟨m1, m2, m3, m4⟩ := ih e1 e' (D ++ [x]) h k1 k2 k4 k5 k6
        (by
          intro d hd y hy
          rcases List.mem_append.mp hd with hd | hd
          · exact hord d hd y (List.mem_cons_of_mem _ hy)
          · rw [List.mem_singleton.mp hd]
            exact hx y hy)
        hQ (fun y hy => hint y (List.mem_cons_of_mem _ hy))
      rw [List.append_assoc, List.singleton_append] at m3 m4
      exact ⟨m1, by rw [m2, k3], m3, m4⟩

/-- The member `constructIndex` returns only on a run that is not empty, when
the file has fewer than `2 ^ 64` pairs. -/
theorem constructIndex_capacity_pos (E : Env) (r r1 : DiskRun)
    (h : r.constructIndex E = some r1) (hlen : r.map.length < 2 ^ 64) : 1 ≤ r._capacity := by
  by_contra hc
  have h0 : r._capacity = 0 := by omega
  unfold DiskRun.constructIndex at h
  split at h
  · exact absurd h (by simp)
  · split at h
    · exact absurd h (by simp)
    · split at h
      · rename_i kv0 kvLast _ hl
        rw [h0] at hl
        have := (List.getElem?_eq_some.mp hl).1
        simp only [Nat.zero_add] at this
        have h2 : (2 ^ 64 - 1) % 2 ^ 64 = 2 ^ 64 - 1 := by norm_num
        rw [h2] at this
        omega
      · exact absurd h (by simp)

/-- Outside the terminal level `addRuns` drops no key: when it returns, for
sources that are not empty and sorted, with keys in the range of `int`, and a
file of fewer than `2 ^ 64` pairs to write, every key of a pair of a source is
the key of a pair of the run written. -/
theorem addRuns_keeps_keys (E : Env) (lvl lvl1 : DiskLevel) (rl : List DiskRun) (runLen : Nat)
    (dst out : DiskRun) (hsrc : Sources rl)
    (hint : ∀ src ∈ rl, ∀ kv ∈ src.entries, kv.key ≤ INT_MAX)
    (hdst : lvl.runs[lvl._activeRun]? = some dst) (hlen : dst.map.length < 2 ^ 64)
    (h : lvl.addRuns E rl runLen false = some lvl1)
    (hout : lvl1.runs[lvl._activeRun]? = some out) :
    ∀ src ∈ rl, ∀ kv ∈ src.entries, ∃ kv2 ∈ out.entries, kv2.key = kv.key := by
  obtain ⟨Q, q1, q2, -, q4⟩ := addRuns_trace rl false hsrc
  rw [q4, hdst] at h
  simp only at h
  cases he : emitAll false
      { map := dst.map, j := -1, lastKey := INT_MAX, lastk := toUnsigned INT_MIN } Q with
  | none => rw [he] at h; exact absurd h (by simp)
  | some e' =>
    rw [he] at h
    simp only at h
    have hkeys : Q.Pairwise (fun a b => a.1.key ≤ b.1.key) := by
      apply q2.imp
      intro a b hab
      rcases (StaticHeap.le_iff a b).mp hab with h1 | ⟨h1, -⟩
      · exact le_of_lt h1
      · exact le_of_eq h1
    have hQint : ∀ y ∈ Q, y.1.key ≤ INT_MAX := by
      intro y hy
      obtain ⟨k, src, g1, g2, -⟩ := (mem_rest_start rl y).mp (q1.subset hy)
      exact hint src (List.getElem?_mem g1) _ g2
    obtain ⟨m1, m2, m3, m4⟩ := emitAll_covers Q _ e' [] he (le_refl _)
      (by simp only; omega) (fun h0 => absurd h0 (by simp)) (fun h0 => absurd h0 (by simp))
      (fun _ => ⟨rfl, fun d hd => absurd hd (List.not_mem_nil _)⟩)
      (fun d hd => absurd hd (List.not_mem_nil _)) hkeys hQint
    simp only [List.nil_append] at m3 m4 m2
    have hcap : 0 ≤ e'.j := by
      unfold closeRun at h
      simp only [Bool.false_eq_true, if_false] at h
      split at h
      · exact absurd h (by simp)
      · rename_i dst1 hci
        have := constructIndex_capacity_pos E _ dst1 hci (by simp only; rw [m2]; exact hlen)
        simp only at this
        omega
    obtain ⟨j, out1, j1, j2, o1, o2, o3⟩ := closeRun_some E lvl lvl1 dst false e' hdst h
    have hj := j2 rfl
    subst hj
    rw [hout] at o1
    have ho : out = out1 := Option.some.inj o1
    subst ho
    intro src hs kv hkv
    obtain ⟨k, hk⟩ := mem_trace rl Q q1 src hs kv hkv
    obtain ⟨idx, x1, x2⟩ := m3 hcap _ hk
    have hidx : idx < e'.map.length := by omega
    refine ⟨e'.map[idx], (DiskRun.mem_entries _ _).mpr
      ⟨idx, by rw [o3]; omega, by rw [o2]; exact List.getElem?_eq_getElem hidx⟩, ?_⟩
    rw [← DiskRun.keyAt_of_getElem? (List.getElem?_eq_getElem hidx)]
    exact x2

end DiskLevel

namespace DiskLevel

end DiskLevel

namespace LSM

end LSM

namespace LSM

end LSM

namespace LSM

/-- Claim C25 (drain assertions). A store is made with `e ≥ 1` elements per
run, `1 ≤ m ≤ r` runs to merge out of `r`, and a disk merge size `md ≥ 1` that
is at most the number `d` of runs per level (the constructor computes both
merge sizes from the same fraction), `r` and `d` in the range of `unsigned`.
After any sequence of `insert_key` and `delete_key` calls that return, when
the next `insert_key` finds every in-memory run full and starts a merge: if
`merge_runs` gets to its call of `addRunByArray`, the level `d0` it calls it
on has `_activeRun < _numRuns`, and the array holds `m * e` pairs, which is
the `_runSize` of the level; and every call of `freeMergedRuns` made on the
way, at any depth of the recursion, gets `_mergeSize` runs whose `_level` is
the one of the level it is called on. -/
theorem drain_assertions_hold (E : Env) (e r m ps d md : Nat) (he : 1 ≤ e) (hm : 1 ≤ m)
    (hmr : m ≤ r) (hr : r < 2 ^ 32) (hmd : 1 ≤ md) (hmdd : md ≤ d) (hd : d < 2 ^ 32)
    (ops : List (Int × Int × Int)) (s0 s sa : LSM)
    (hnew : LSM.new E e r m ps d md = some s0) (hrun : s0.insertAll E ops = some s)
    (ha : advanceRun s = some sa) (hfull : sa._num_runs ≤ sa._activeRun) :
    (∀ (d0 : DiskLevel) (pairs : List KVPair) (n : Nat),
      drainCall E sa (sa.C_0.take sa._num_to_merge) = some (d0, pairs, n) →
        d0._activeRun < d0._numRuns ∧ pairs.length = m * e ∧ n = m * e ∧
          d0._runSize = m * e) ∧
    ∀ l0 ∈ sa.diskLevels[0]?, l0.levelFull = true →
      ∀ (fuel : Nat) (lv : DiskLevel) (rl : List DiskRun),
        MergeCall.freeMergedRuns lv rl ∈ mergeCalls E fuel sa 1 →
          rl.length = lv._mergeSize ∧ ∀ r ∈ rl, r._level = lv._level := by
  have hB := BufShape.insertAll E he hm hmr hr ops s0 s
    (new_bufShape E e r m ps d md (by omega) s0 hnew) hrun
  have hW := insertAll_BufOK E ops s0 s (new_BufOK E e r m ps d md s0 hnew) hrun
  obtain ⟨n1, n2⟩ := new_diskShape E e r m ps d md hmd hmdd hd s0 hnew
  obtain ⟨hS, l0, hl0, hsz⟩ := insertAll_shape E (m * e) ops s0 s n1 n2 hrun
  obtain ⟨a1, a2, a3, a4, a5⟩ := hB.drained_length hW hmr ha hfull
  have hSa : sa.DiskShape := by
    refine ⟨by rw [a1, a2]; exact hS.count, by rw [a4]; exact hS.merge_pos,
      by rw [a3, a4]; exact hS.merge_le, by rw [a3]; exact hS.runs_lt, ?_⟩
    rw [a1, a3, a4]
    exact hS.levels
  have hl0a : sa.diskLevels[0]? = some l0 := by rw [a1]; exact hl0
  have hl0S := hSa.levels l0 (List.mem_iff_getElem?.mpr ⟨_, hl0a⟩)
  constructor
  · intro d0 pairs n hcall
    unfold drainCall at hcall
    rw [hl0a] at hcall
    simp only at hcall
    split at hcall
    · exact absurd hcall (by simp)
    · rename_i s1 hs1
      split at hcall
      · exact absurd hcall (by simp)
      · rename_i d1 hd1
        simp only [Option.some.injEq, Prod.mk.injEq] at hcall
        obtain ⟨rfl, rfl, rfl⟩ := hcall
        refine ⟨?_, a5, a5, ?_⟩
        · split at hs1
          · rename_i hf
            have hf2 : l0._activeRun = l0._numRuns := by simpa [DiskLevel.levelFull] using hf
            obtain ⟨k1, k2, k3, -, src3, k5, k6, -⟩ :=
              mergeRunsToLevel_shape E _ sa s1 0 l0 hSa hl0a hf2 hs1
            rw [hd1] at k5
            simp only [Option.some.injEq] at k5
            subst k5
            have h1 := (k1.levels d1 (List.mem_iff_getElem?.mpr ⟨_, hd1⟩)).numRuns
            have h2 := hSa.merge_pos
            rw [h1, k2]
            omega
          · rename_i hf
            simp only [Option.some.injEq] at hs1
            subst hs1
            rw [hl0a] at hd1
            simp only [Option.some.injEq] at hd1
            subst hd1
            have h1 := hl0S.active
            have h2 := hl0S.numRuns
            have h3 : l0._activeRun ≠ l0._numRuns := by simpa [DiskLevel.levelFull] using hf
            omega
        · split at hs1
          · rename_i hf
            have hf2 : l0._activeRun = l0._numRuns := by simpa [DiskLevel.levelFull] using hf
            obtain ⟨-, -, -, -, src3, k5, -, k7⟩ :=
              mergeRunsToLevel_shape E _ sa s1 0 l0 hSa hl0a hf2 hs1
            rw [hd1] at k5
            simp only [Option.some.injEq] at k5
            subst k5
            rw [k7, hsz]
          · simp only [Option.some.injEq] at hs1
            subst hs1
            rw [hl0a] at hd1
            simp only [Option.some.injEq] at hd1
            subst hd1
            exact hsz
  · intro l0b hl0b hf fuel lv rl hcall
    rw [hl0a] at hl0b
    simp only [Option.mem_def, Option.some.injEq] at hl0b
    subst hl0b
    have hf2 : l0._activeRun = l0._numRuns := by simpa [DiskLevel.levelFull] using hf
    exact mergeCalls_free E fuel sa 0 l0 hSa hl0a hf2 lv rl hcall

set_option maxRecDepth 100000 in
/-- Claim C25 at the store of one pair per in-memory run, two runs, two disk
runs per level, after the inserts `(1,1), ..., (6,6)`: the next insert finds
both in-memory runs and disk level 0 full; on its way `freeMergedRuns` gets
the two runs of level 0, and `addRunByArray` is called on the emptied level 0
with the pairs `(5,5), (6,6)`. -/
theorem drain_assertions_hold_witness :
    ∃ s0 s sa : LSM, LSM.new sampleEnv 1 2 2 1 2 2 = some s0 ∧
      s0.insertAll sampleEnv [(1, 1, 0), (2, 2, 0), (3, 3, 0), (4, 4, 0), (5, 5, 0), (6, 6, 0)]
        = some s ∧
      advanceRun s = some sa ∧ sa._num_runs ≤ sa._activeRun ∧
      (drainCall sampleEnv sa (sa.C_0.take sa._num_to_merge)).map
          (fun c => (c.1._activeRun, c.1._numRuns, c.1._runSize, c.2.1, c.2.2))
        = some (0, 2, 2, [⟨5, 5⟩, ⟨6, 6⟩], 2) ∧
      (mergeCalls sampleEnv 2 sa 1).map MergeCall.code = [(0, 1), (1, 1), (2, 2)] ∧
      ((∀ (d0 : DiskLevel) (pairs : List KVPair) (n : Nat),
        drainCall sampleEnv sa (sa.C_0.take sa._num_to_merge) = some (d0, pairs, n) →
          d0._activeRun < d0._numRuns ∧ pairs.length = 2 * 1 ∧ n = 2 * 1 ∧
            d0._runSize = 2 * 1) ∧
      ∀ l0 ∈ sa.diskLevels[0]?, l0.levelFull = true →
        ∀ (fuel : Nat) (lv : DiskLevel) (rl : List DiskRun),
          MergeCall.freeMergedRuns lv rl ∈ mergeCalls sampleEnv fuel sa 1 →
            rl.length = lv._mergeSize ∧ ∀ r ∈ rl, r._level = lv._level) :=
  ⟨(LSM.new sampleEnv 1 2 2 1 2 2).get (by decide),
    (((LSM.new sampleEnv 1 2 2 1 2 2).get (by decide)).insertAll sampleEnv
      [(1, 1, 0), (2, 2, 0), (3, 3, 0), (4, 4, 0), (5, 5, 0), (6, 6, 0)]).get (by decide),
    (advanceRun ((((LSM.new sampleEnv 1 2 2 1 2 2).get (by decide)).insertAll sampleEnv
      [(1, 1, 0), (2, 2, 0), (3, 3, 0), (4, 4, 0), (5, 5, 0), (6, 6, 0)]).get (by decide))).get
      (by decide),
    (Option.some_get _).symm, (Option.some_get _).symm, (Option.some_get _).symm, by decide,
    by decide, by decide,
    drain_assertions_hold sampleEnv 1 2 2 1 2 2 (by decide) (by decide) (by decide) (by decide)
      (by decide) (by decide) (by decide)
      [(1, 1, 0), (2, 2, 0), (3, 3, 0), (4, 4, 0), (5, 5, 0), (6, 6, 0)] _ _ _
      (Option.some_get _).symm (Option.some_get _).symm (Option.some_get _).symm (by decide)⟩

/-- The calls of `addRuns` among the calls of a run of `mergeRunsToLevel`. In
a store whose `_numDiskLevels` counts its levels, every call of `addRuns`
made while `mergeRunsToLevel` runs, at any
depth, is made by a run of `mergeRunsToLevel(lv)` in the store `s2` it has
after its first statement (which makes the level if needed) and its recursive
call, on the level `lv` of that store; the flag `lastLevel` is true exactly
when `lv + 1` is the number of levels of `s2` and that level is empty; and
when it is true, no level from `lv` on holds a run, so no key has a pair in or
below the target. -/
theorem last_level_flag_marks_empty_bottom (E : Env) (s : LSM) (fuel level : Nat)
    (hcount : s.diskLevels.length = s._numDiskLevels)
    (lv : Nat) (s2 : LSM) (rl : List DiskRun) (runLen : Nat) (flag : Bool)
    (hcall : MergeCall.addRuns lv s2 rl runLen flag ∈ mergeCalls E fuel s level) :
    ∃ (f : Nat) (sIn s1 : LSM) (target dst : DiskLevel), growLevels E sIn lv = some s1 ∧
      s1.diskLevels[lv]? = some target ∧
      (if target.levelFull then mergeRunsToLevel E f s1 (lv + 1) else some s1) = some s2 ∧
      s2.diskLevels[lv]? = some dst ∧
      (flag = true ↔ lv + 1 = s2._numDiskLevels ∧ dst.levelEmpty = true) ∧
      (flag = true → (∀ lvl ∈ s2.diskLevels.drop lv, lvl.order = []) ∧
        ∀ k, newest ((s2.diskLevels.drop lv).map DiskLevel.order).flatten k = none) := by
  obtain ⟨hc2, f, sIn, s1, target, dst, h1, h2, h3, h4, h5⟩ :=
    mergeCalls_addRuns E fuel s level hcount lv s2 rl runLen flag hcall
  refine ⟨f, sIn, s1, target, dst, h1, h2, h3, h4, ?_, ?_⟩
  · rw [h5]
    simp only [Bool.and_eq_true, decide_eq_true_eq]
  · intro hflag
    rw [h5] at hflag
    simp only [Bool.and_eq_true, decide_eq_true_eq] at hflag
    obtain ⟨hl, he⟩ := hflag
    have hdrop : s2.diskLevels.drop lv = [dst] := by
      rw [List.drop_eq_getElem?_toList_append, h4]
      have : s2.diskLevels.drop (lv + 1) = [] := List.drop_of_length_le (by omega)
      rw [this]
      rfl
    have hord : dst.order = [] := by
      have : dst._activeRun = 0 := by simpa [DiskLevel.levelEmpty] using he
      simp [DiskLevel.order, this]
    rw [hdrop]
    refine ⟨?_, ?_⟩
    · intro lvl hlvl
      simp only [List.mem_singleton] at hlvl
      subst hlvl
      exact hord
    · intro k
      simp [hord, newest]

set_option maxRecDepth 100000 in
/-- The calls of `addRuns` at the store of one pair per in-memory run, two
runs, two disk runs per level, after the inserts `(1,1), ..., (6,6)`:
`mergeRunsToLevel(1)` makes level 1 and calls `addRuns` on it with
`lastLevel = true`. -/
theorem last_level_flag_marks_empty_bottom_witness :
    ∃ (s s2 : LSM) (rl : List DiskRun), cascadeStore = some s ∧
      s.diskLevels.length = s._numDiskLevels ∧
      MergeCall.addRuns 1 s2 rl 2 true ∈ mergeCalls sampleEnv 2 s 1 ∧
      s._numDiskLevels = 1 ∧ s2._numDiskLevels = 2 ∧
      s2.diskLevels.map (fun l => l._activeRun) = [2, 0] ∧
      ∃ (f : Nat) (sIn s1 : LSM) (target dst : DiskLevel), growLevels sampleEnv sIn 1 = some s1 ∧
        s1.diskLevels[1]? = some target ∧
        (if target.levelFull then mergeRunsToLevel sampleEnv f s1 (1 + 1) else some s1)
          = some s2 ∧
        s2.diskLevels[1]? = some dst ∧
        (true = true ↔ 1 + 1 = s2._numDiskLevels ∧ dst.levelEmpty = true) ∧
        (true = true → (∀ lvl ∈ s2.diskLevels.drop 1, lvl.order = []) ∧
          ∀ k, newest ((s2.diskLevels.drop 1).map DiskLevel.order).flatten k = none) :=
  ⟨cascadeStore.get (by decide), (growLevels sampleEnv (cascadeStore.get (by decide)) 1).get
      (by decide),
    ((cascadeStore.get (by decide)).diskLevels.map (fun l => l.runs.take 2)).flatten,
    (Option.some_get _).symm, by decide, by decide, by decide, by decide, by decide,
    last_level_flag_marks_empty_bottom sampleEnv (cascadeStore.get (by decide)) 2 1 (by decide)
      1 ((growLevels sampleEnv (cascadeStore.get (by decide)) 1).get (by decide))
      ((cascadeStore.get (by decide)).diskLevels.map (fun l => l.runs.take 2)).flatten 2 true
      (by decide)⟩

/-- The cascade on a store whose runs on disk hold no key twice. For a store
whose disk levels have the shape that the constructor and the merges give
them (runs of strictly increasing keys below `INT_MAX` among them), whose
level `i` is full, with no level after it empty, and whose last level leaves
room for a level of `M` times its run size and holds, in its `M` oldest runs,
two different keys or no tombstone: a run of `mergeRunsToLevel(i + 1)` enters
`mergeRunsToLevel` at most `L - (i + 1) + 1` times, whatever depth it is
allowed, where `L` is the number of levels; with that depth or more it returns
the same store; and in that store every level has `_activeRun ≤ _numRuns`. -/
theorem cascade_returns_within_depth (E : Env)
    (hbf : ∀ n, 1 ≤ n → 0 < E.bfBits n ∨ E.bfHashes n = 0) (s : LSM) (i : Nat)
    (src : DiskLevel) (hok : s.DiskOK E) (hsrc : s.diskLevels[i]? = some src)
    (hfull : src.levelFull = true)
    (hbusy : ∀ lvl ∈ s.diskLevels.drop (i + 1), 1 ≤ lvl._activeRun)
    (hlast : ∀ lvl ∈ s.diskLevels.getLast?, lvl._runSize * lvl._mergeSize ≤ 2147483647 ∧
      DiskLevel.Keeps (lvl.runs.take s.diskMergeSize)) :
    (∀ fuel, MergeCall.entries (mergeCalls E fuel s (i + 1)) ≤ s._numDiskLevels - (i + 1) + 1) ∧
    ∃ s2, (∀ fuel, s._numDiskLevels - (i + 1) + 1 ≤ fuel →
        mergeRunsToLevel E fuel s (i + 1) = some s2) ∧
      ∀ lvl ∈ s2.diskLevels, lvl._activeRun ≤ lvl._numRuns := by
  have hi : i < s._numDiskLevels := by
    have := (List.getElem?_eq_some.mp hsrc).1
    rw [hok.count] at this
    exact this
  have hfull2 : src._activeRun = src._numRuns := by simpa [DiskLevel.levelFull] using hfull
  have hD : 1 ≤ s._diskRunsPerLevel := le_trans hok.merge_pos hok.merge_le
  constructor
  · intro fuel
    exact mergeCalls_entries E (s._numDiskLevels - (i + 1)) fuel s (i + 1) hok.count hD (by omega)
  · obtain ⟨s2, src2, dst2, merged, c1, c2⟩ := mergeRunsToLevel_spec E hbf
      (s._numDiskLevels - (i + 1)) (s._numDiskLevels - (i + 1) + 1) s i src hok (by omega)
      (le_refl _) hsrc hfull2 hbusy (fun lvl hl => hlast lvl (Option.mem_def.mpr hl))
    refine ⟨s2, fun fuel hfuel => mergeRunsToLevel_mono E _ fuel s s2 (i + 1) c1 hfuel, ?_⟩
    intro lvl hlvl
    obtain ⟨j, hj⟩ := List.mem_iff_getElem?.mp hlvl
    have hl := c2.ok.levels j lvl hj
    rw [hl.numRuns]
    exact hl.active

set_option maxRecDepth 100000 in
/-- The cascade at the store of one pair per in-memory run, two runs, two
disk runs per level, after the inserts `(1,1), ..., (6,6)`:
`mergeRunsToLevel(1)` is entered once and leaves level 0 empty and one run in
the new level 1. -/
theorem cascade_returns_within_depth_witness :
    ∃ (s : LSM) (l0 : DiskLevel), cascadeStore = some s ∧ s.DiskOK sampleEnv ∧
      s.diskLevels[0]? = some l0 ∧ l0.levelFull = true ∧
      (∀ lvl ∈ s.diskLevels.drop (0 + 1), 1 ≤ lvl._activeRun) ∧
      (∀ lvl ∈ s.diskLevels.getLast?, lvl._runSize * lvl._mergeSize ≤ 2147483647 ∧
        DiskLevel.Keeps (lvl.runs.take s.diskMergeSize)) ∧
      s._numDiskLevels = 1 ∧
      (mergeCalls sampleEnv 5 s 1).map MergeCall.code = [(0, 1), (1, 1), (2, 2)] ∧
      (mergeRunsToLevel sampleEnv 1 s 1).map
          (fun s2 => s2.diskLevels.map (fun l => (l._activeRun, l._numRuns)))
        = some [(0, 2), (1, 2)] ∧
      ((∀ fuel, MergeCall.entries (mergeCalls sampleEnv fuel s (0 + 1))
          ≤ s._numDiskLevels - (0 + 1) + 1) ∧
        ∃ s2, (∀ fuel, s._numDiskLevels - (0 + 1) + 1 ≤ fuel →
            mergeRunsToLevel sampleEnv fuel s (0 + 1) = some s2) ∧
          ∀ lvl ∈ s2.diskLevels, lvl._activeRun ≤ lvl._numRuns) :=
  have hok : (cascadeStore.get (by decide)).DiskOK sampleEnv :=
    DiskOK.of_single sampleEnv _ (((cascadeStore.get (by decide)).diskLevels[0]?).get (by decide))
      (by decide) (by decide) (by decide) (by decide) (by decide) (by decide) (by decide)
      (DiskLevel.LevelOK.of_checks sampleEnv _ _ _ 0 _ (by decide) (by decide) (by decide)
        (by decide) (by decide) (by decide) (by decide) (by decide) (by decide) (by decide))
  ⟨cascadeStore.get (by decide), ((cascadeStore.get (by decide)).diskLevels[0]?).get (by decide),
    (Option.some_get _).symm, hok, (Option.some_get _).symm, by decide, by decide, by decide,
    by decide, by decide, by decide,
    cascade_returns_within_depth sampleEnv (fun n hn => Or.inl (by simp only [sampleEnv]; omega))
      (cascadeStore.get (by decide)) 0
      (((cascadeStore.get (by decide)).diskLevels[0]?).get (by decide)) hok
      (Option.some_get _).symm (by decide) (by decide) (by decide)⟩

/-- Claim C27 (terminal marking). Take a run of `mergeRunsToLevel(level)`,
`level ≥ 1`, in a store whose `_numDiskLevels` counts its levels: `s1` is the
store after the first statement, which makes the level if needed, `s2` the
store after the recursive call, made if the target is full, `dst` and `src`
are the levels `level` and `level - 1` of `s2`, and `rl` the runs that
`getRunsToMerge` names. The run is then the call `dst.addRuns(rl, runSize,
lastLevel)` followed by `src.freeMergedRuns(rl)`, where `lastLevel` is true
exactly when `level + 1` is the number of levels of `s2` and `dst` has no run
in use. Consequently, when the sources are runs (not empty, sorted, keys in
the range of `int`) and the file of the slot written has fewer than `2 ^ 64`
pairs: if `addRuns` returns and some key of a source has no pair in the run
written, then `lastLevel` was true, `dst` is the last level and the levels
from `level` on held no run, so no pair of that key is in or below the
target. -/
theorem terminal_flag_guards_dropped_keys (E : Env) (fuel level : Nat) (s s1 s2 : LSM)
    (target dst src : DiskLevel) (rl : List DiskRun)
    (hcount : s.diskLevels.length = s._numDiskLevels) (hlevel : 1 ≤ level)
    (hgrow : growLevels E s level = some s1) (htarget : s1.diskLevels[level]? = some target)
    (hrec : (if target.levelFull then mergeRunsToLevel E fuel s1 (level + 1) else some s1)
      = some s2)
    (hdst : s2.diskLevels[level]? = some dst) (hsrc : s2.diskLevels[level - 1]? = some src)
    (hrl : src.getRunsToMerge = some rl) :
    mergeRunsToLevel E (fuel + 1) s level =
        (dst.addRuns E rl src._runSize
            (decide (level + 1 = s2._numDiskLevels) && dst.levelEmpty)).bind
          (fun dst1 => (src.freeMergedRuns E rl).map (fun src1 =>
            { s2 with diskLevels := (s2.diskLevels.set level dst1).set (level - 1) src1 })) ∧
      ((decide (level + 1 = s2._numDiskLevels) && dst.levelEmpty) = true ↔
        level + 1 = s2._numDiskLevels ∧ dst._activeRun = 0) ∧
      ∀ (slot : DiskRun) (dst1 : DiskLevel) (out : DiskRun),
        dst.runs[dst._activeRun]? = some slot → slot.map.length < 2 ^ 64 →
        DiskLevel.Sources rl → (∀ r ∈ rl, ∀ kv ∈ r.entries, kv.key ≤ INT_MAX) →
        dst.addRuns E rl src._runSize
          (decide (level + 1 = s2._numDiskLevels) && dst.levelEmpty) = some dst1 →
        dst1.runs[dst._activeRun]? = some out →
        ∀ r ∈ rl, ∀ kv ∈ r.entries, (∀ kv2 ∈ out.entries, kv2.key ≠ kv.key) →
          (decide (level + 1 = s2._numDiskLevels) && dst.levelEmpty) = true ∧
            s2.diskLevels.drop level = [dst] ∧
            ∀ lvl ∈ s2.diskLevels.drop level, ∀ run ∈ lvl.order, ∀ kv2 ∈ run,
              kv2.key ≠ kv.key := by
  have hflag : ((decide (level + 1 = s2._numDiskLevels) && dst.levelEmpty) = true ↔
      level + 1 = s2._numDiskLevels ∧ dst._activeRun = 0) := by
    simp only [Bool.and_eq_true, decide_eq_true_eq, DiskLevel.levelEmpty]
  have hc1 : s1.diskLevels.length = s1._numDiskLevels := by
    rcases growLevels_cases E s s1 level hgrow with ⟨-, g⟩ | ⟨-, -, prev, nl, -, -, g⟩
    · rw [g]; exact hcount
    · rw [g]
      simp only [List.length_append, List.length_singleton]
      omega
  have hc2 : s2.diskLevels.length = s2._numDiskLevels := by
    by_cases hf : target.levelFull = true
    · rw [if_pos hf] at hrec
      exact mergeRunsToLevel_count E fuel s1 s2 (level + 1) hc1 hrec
    · rw [if_neg hf] at hrec
      simp only [Option.some.injEq] at hrec
      rw [← hrec]
      exact hc1
  refine ⟨?_, hflag, ?_⟩
  · rw [mergeRunsToLevel_succ, hgrow]
    simp only [htarget, hrec]
    unfold moveRuns
    rw [if_neg (by omega)]
    simp only [hdst, hsrc, hrl]
    cases dst.addRuns E rl src._runSize
        (decide (level + 1 = s2._numDiskLevels) && dst.levelEmpty) with
    | none => rfl
    | some dst1 =>
      cases src.freeMergedRuns E rl with
      | none => rfl
      | some src1 => rfl
  · intro slot dst1 out hslot hlen hsources hint hadd hout r hr kv hkv hmiss
    cases hb : (decide (level + 1 = s2._numDiskLevels) && dst.levelEmpty) with
    | false =>
      rw [hb] at hadd
      obtain ⟨kv2, h1, h2⟩ := DiskLevel.addRuns_keeps_keys E dst dst1 rl src._runSize slot out
        hsources hint hslot hlen hadd hout r hr kv hkv
      exact absurd h2 (hmiss kv2 h1)
    | true =>
      obtain ⟨hl, he⟩ := hflag.mp hb
      have hdrop : s2.diskLevels.drop level = [dst] := by
        rw [List.drop_eq_getElem?_toList_append, hdst]
        have : s2.diskLevels.drop (level + 1) = [] := List.drop_of_length_le (by omega)
        rw [this]
        rfl
      refine ⟨rfl, hdrop, ?_⟩
      intro lvl hlvl run hrun
      rw [hdrop] at hlvl
      simp only [List.mem_singleton] at hlvl
      subst hlvl
      simp [DiskLevel.order, he] at hrun

set_option maxRecDepth 100000 in
/-- Claim C27 at the store of one pair per in-memory run, two runs, two disk
runs per level, after `insert(1,1)`, `insert(2,2)`, `insert(3,3)`,
`delete(4)`, `insert(5,5)`, `insert(6,6)`: the runs `[(1,1), (2,2)]` and
`[(3,3), (4, tombstone)]` fill level 0. `mergeRunsToLevel(1)` makes level 1
and calls `addRuns` on it with `lastLevel = true`; the run written is
`[(1,1), (2,2), (3,3)]`, without the tombstone of key `4`, and level 1, the
last level, held no run. -/
theorem terminal_flag_guards_dropped_keys_witness :
    ∃ (s s1 : LSM) (dst src : DiskLevel) (rl : List DiskRun) (slot : DiskRun) (dst1 : DiskLevel)
      (out : DiskRun),
      tombstoneStore = some s ∧ s.diskLevels.length = s._numDiskLevels ∧ 1 ≤ 1 ∧
      growLevels sampleEnv s 1 = some s1 ∧ s1.diskLevels[1]? = some dst ∧
      (if dst.levelFull then mergeRunsToLevel sampleEnv 0 s1 (1 + 1) else some s1) = some s1 ∧
      s1.diskLevels[1 - 1]? = some src ∧ src.getRunsToMerge = some rl ∧
      rl.map DiskRun.entries = [[⟨1, 1⟩, ⟨2, 2⟩], [⟨3, 3⟩, ⟨4, V_TOMBSTONE⟩]] ∧
      s._numDiskLevels = 1 ∧ s1._numDiskLevels = 2 ∧ dst._activeRun = 0 ∧
      dst.runs[dst._activeRun]? = some slot ∧ slot.map.length < 2 ^ 64 ∧
      DiskLevel.Sources rl ∧ (∀ r ∈ rl, ∀ kv ∈ r.entries, kv.key ≤ INT_MAX) ∧
      dst.addRuns sampleEnv rl src._runSize true = some dst1 ∧
      dst1.runs[dst._activeRun]? = some out ∧ out.entries = [⟨1, 1⟩, ⟨2, 2⟩, ⟨3, 3⟩] ∧
      (mergeRunsToLevel sampleEnv (0 + 1) s 1 =
          (dst.addRuns sampleEnv rl src._runSize
              (decide (1 + 1 = s1._numDiskLevels) && dst.levelEmpty)).bind
            (fun dst1 => (src.freeMergedRuns sampleEnv rl).map (fun src1 =>
              { s1 with diskLevels := (s1.diskLevels.set 1 dst1).set (1 - 1) src1 })) ∧
        ((decide (1 + 1 = s1._numDiskLevels) && dst.levelEmpty) = true ↔
          1 + 1 = s1._numDiskLevels ∧ dst._activeRun = 0) ∧
        ∀ (slot : DiskRun) (dst1 : DiskLevel) (out : DiskRun),
          dst.runs[dst._activeRun]? = some slot → slot.map.length < 2 ^ 64 →
          DiskLevel.Sources rl → (∀ r ∈ rl, ∀ kv ∈ r.entries, kv.key ≤ INT_MAX) →
          dst.addRuns sampleEnv rl src._runSize
            (decide (1 + 1 = s1._numDiskLevels) && dst.levelEmpty) = some dst1 →
          dst1.runs[dst._activeRun]? = some out →
          ∀ r ∈ rl, ∀ kv ∈ r.entries, (∀ kv2 ∈ out.entries, kv2.key ≠ kv.key) →
            (decide (1 + 1 = s1._numDiskLevels) && dst.levelEmpty) = true ∧
              s1.diskLevels.drop 1 = [dst] ∧
              ∀ lvl ∈ s1.diskLevels.drop 1, ∀ run ∈ lvl.order, ∀ kv2 ∈ run,
                kv2.key ≠ kv.key) := by
  refine ⟨(tombstoneStore.get (by decide)), ?_⟩
  refine ⟨((growLevels sampleEnv (tombstoneStore.get (by decide)) 1).get (by decide)), ?_⟩
  refine ⟨((List.get? (diskLevels ((growLevels sampleEnv (tombstoneStore.get (by decide))
    1).get (by decide))) 1).get (by decide)), ?_⟩
  refine ⟨((List.get? (diskLevels ((growLevels sampleEnv (tombstoneStore.get (by decide))
    1).get (by decide))) 0).get (by decide)), ?_⟩
  refine ⟨(List.take 2 (DiskLevel.runs ((List.get? (diskLevels ((growLevels sampleEnv
    (tombstoneStore.get (by decide)) 1).get (by decide))) 0).get (by decide)))), ?_⟩
  refine ⟨((List.get? (DiskLevel.runs ((List.get? (diskLevels ((growLevels sampleEnv
    (tombstoneStore.get (by decide)) 1).get (by decide))) 1).get (by decide))) 0).get (by
    decide)), ?_⟩
  refine ⟨((DiskLevel.addRuns sampleEnv ((List.get? (diskLevels ((growLevels sampleEnv
    (tombstoneStore.get (by decide)) 1).get (by decide))) 1).get (by decide)) (List.take 2
    (DiskLevel.runs ((List.get? (diskLevels ((growLevels sampleEnv (tombstoneStore.get (by
    decide)) 1).get (by decide))) 0).get (by decide)))) 2 true).get (by decide)), ?_⟩
  refine ⟨((List.get? (DiskLevel.runs ((DiskLevel.addRuns sampleEnv ((List.get? (diskLevels
    ((growLevels sampleEnv (tombstoneStore.get (by decide)) 1).get (by decide))) 1).get (by
    decide)) (List.take 2 (DiskLevel.runs ((List.get? (diskLevels ((growLevels sampleEnv
    (tombstoneStore.get (by decide)) 1).get (by decide))) 0).get (by decide)))) 2 true).get (by
    decide))) 0).get (by decide)), ?_⟩
  exact ⟨(Option.some_get _).symm, by decide, by decide, (Option.some_get _).symm,
    (Option.some_get _).symm, by decide, (Option.some_get _).symm, by decide, by decide,
    by decide, by decide, by decide, by decide, by decide, ⟨by decide, by decide, by decide⟩,
    by decide, by decide, by decide, by decide,
    terminal_flag_guards_dropped_keys sampleEnv 0 1
      (tombstoneStore.get (by decide))
      ((growLevels sampleEnv (tombstoneStore.get (by decide)) 1).get (by decide))
      ((growLevels sampleEnv (tombstoneStore.get (by decide)) 1).get (by decide))
      ((List.get? (diskLevels ((growLevels sampleEnv (tombstoneStore.get (by decide)) 1).get
        (by decide))) 1).get (by decide))
      ((List.get? (diskLevels ((growLevels sampleEnv (tombstoneStore.get (by decide)) 1).get
        (by decide))) 1).get (by decide))
      ((List.get? (diskLevels ((growLevels sampleEnv (tombstoneStore.get (by decide)) 1).get
        (by decide))) 0).get (by decide))
      (List.take 2 (DiskLevel.runs ((List.get? (diskLevels ((growLevels sampleEnv
        (tombstoneStore.get (by decide)) 1).get (by decide))) 0).get (by decide))))
      (by decide) (by decide) (Option.some_get _).symm (Option.some_get _).symm (by decide)
      (Option.some_get _).symm (Option.some_get _).symm (by decide)⟩

set_option maxRecDepth 100000 in
/-- A call of `addRuns` that does not return, at a full level. With one pair
per in-memory run, one run and one disk run per level, after `delete(5)` and
`insert(6, 6)` the run of disk level 0 is the tombstone of key `5` and the
level is full. `mergeRunsToLevel(1)` makes level 1 and calls `addRuns` on it
with `lastLevel = true`; the tombstone is dropped, the run is left with
capacity zero, and `constructIndex` reads `map[_capacity - 1]`: the call of
`addRuns` does not return, and with no depth does `mergeRunsToLevel(1)`. -/
theorem cascade_stops_in_emptied_run :
    ∃ s, (LSM.new sampleEnv 1 1 1 1 1 1).bind
        (fun s0 => s0.insertAll sampleEnv [(5, V_TOMBSTONE, 0), (6, 6, 0)]) = some s ∧
      s.diskContents = [[[⟨5, V_TOMBSTONE⟩]]] ∧
      s.diskLevels.map DiskLevel.levelFull = [true] ∧
      (mergeCalls sampleEnv 1 s 1).map MergeCall.code = [(0, 1), (1, 1)] ∧
      (mergeCalls sampleEnv 1 s 1).map (MergeCall.addRunsReturns sampleEnv) = [true, false] ∧
      ∀ fuel, mergeRunsToLevel sampleEnv fuel s 1 = none := by
  refine ⟨((LSM.new sampleEnv 1 1 1 1 1 1).bind
      (fun s0 => s0.insertAll sampleEnv [(5, V_TOMBSTONE, 0), (6, 6, 0)])).get (by decide),
    (Option.some_get _).symm, by decide, by decide, by decide, by decide, ?_⟩
  intro fuel
  cases fuel with
  | zero => rfl
  | succ f =>
    rw [mergeRunsToLevel_stable sampleEnv 0 (f + 1) _ 1 (by decide) (by decide) (by decide)
      (by omega)]
    decide

end LSM

namespace ThreadEvent

theorem liveAfter_append : ∀ (xs ys : List ThreadEvent) (live : Nat),
    liveAfter live (xs ++ ys) = liveAfter (liveAfter live xs) ys := by
  intro xs
  induction xs with
  | nil => intro ys live; rfl
  | cons x xs ih =>
    intro ys live
    cases x with
    | join => exact ih ys (live - 1)
    | spawn => exact ih ys (live + 1)
    | readLevel i => exact ih ys live

theorem orderly_append : ∀ (xs ys : List ThreadEvent) (live : Nat),
    orderly live (xs ++ ys) = (orderly live xs && orderly (liveAfter live xs) ys) := by
  intro xs
  induction xs with
  | nil => intro ys live; simp [orderly, liveAfter]
  | cons x xs ih =>
    intro ys live
    cases x with
    | join =>
      show (decide (live = 1) && orderly 0 (xs ++ ys)) =
        ((decide (live = 1) && orderly 0 xs) && orderly (liveAfter (live - 1) xs) ys)
      rw [ih]
      by_cases h : live = 1
      · subst h; simp
      · simp [h]
    | spawn =>
      show (decide (live = 0) && orderly 1 (xs ++ ys)) =
        ((decide (live = 0) && orderly 1 xs) && orderly (liveAfter (live + 1) xs) ys)
      rw [ih]
      by_cases h : live = 0
      · subst h; simp
      · simp [h]
    | readLevel i =>
      show (decide (live = 0) && orderly live (xs ++ ys)) =
        ((decide (live = 0) && orderly live xs) && orderly (liveAfter live xs) ys)
      rw [ih, Bool.and_assoc]

theorem Good.nil (joinable : Bool) : Good joinable ([], joinable) := ⟨rfl, rfl⟩

theorem Good.joined (joinable : Bool) : Good joinable (joinIfJoinable joinable, false) := by
  cases joinable <;> exact ⟨rfl, rfl⟩

theorem Good.append {j : Bool} {xs ys : List ThreadEvent} {j1 j2 : Bool} (h1 : Good j (xs, j1))
    (h2 : Good j1 (ys, j2)) : Good j (xs ++ ys, j2) := by
  obtain ⟨a1, a2⟩ := h1
  obtain ⟨b1, b2⟩ := h2
  simp only at a1 a2 b1 b2
  refine ⟨?_, ?_⟩
  · simp only [orderly_append, a1, a2, b1, Bool.and_self]
  · simp only [liveAfter_append, a2, b2]

/-- Accesses to disk levels keep the discipline when `mergeThread` is not joinable. -/
theorem Good.reads (xs : List ThreadEvent) (h : ∀ ev ∈ xs, ∃ i, ev = readLevel i) :
    Good false (xs, false) := by
  induction xs with
  | nil => exact ⟨rfl, rfl⟩
  | cons x xs ih =>
    obtain ⟨i, rfl⟩ := h x (List.mem_cons_self _ _)
    obtain ⟨a1, a2⟩ := ih (fun ev hev => h ev (List.mem_cons_of_mem _ hev))
    exact ⟨by simpa [orderly, ofJoinable] using a1, by simpa [liveAfter, ofJoinable] using a2⟩

/-- What the check `orderly` says about every position of the events: at most
one merge thread is live; a thread is started when none is live; a join finds
the one live thread; a disk level is read when none is live. -/
theorem orderly_spec : ∀ (xs : List ThreadEvent) (live : Nat), live ≤ 1 →
    orderly live xs = true → ∀ n : Nat,
      liveAfter live (xs.take n) ≤ 1 ∧
      (xs[n]? = some spawn → liveAfter live (xs.take n) = 0) ∧
      (xs[n]? = some join → liveAfter live (xs.take n) = 1) ∧
      ∀ i, xs[n]? = some (readLevel i) → liveAfter live (xs.take n) = 0 := by
  intro xs
  induction xs with
  | nil =>
    intro live hl _ n
    simp [liveAfter, hl]
  | cons x xs ih =>
    intro live hl ho n
    cases n with
    | zero =>
      simp only [List.take_zero, liveAfter, List.getElem?_cons_zero, Option.some.injEq]
      refine ⟨hl, ?_, ?_, ?_⟩
      · intro hx
        subst hx
        simp only [orderly, Bool.and_eq_true, decide_eq_true_eq] at ho
        exact ho.1
      · intro hx
        subst hx
        simp only [orderly, Bool.and_eq_true, decide_eq_true_eq] at ho
        exact ho.1
      · intro i hx
        subst hx
        simp only [orderly, Bool.and_eq_true, decide_eq_true_eq] at ho
        exact ho.1
    | succ n =>
      simp only [List.take_succ_cons, List.getElem?_cons_succ]
      cases x with
      | join =>
        simp only [orderly, Bool.and_eq_true, decide_eq_true_eq] at ho
        simp only [liveAfter]
        obtain ⟨h1, h2⟩ := ho
        subst h1
        exact ih 0 (by omega) h2 n
      | spawn =>
        simp only [orderly, Bool.and_eq_true, decide_eq_true_eq] at ho
        simp only [liveAfter]
        obtain ⟨h1, h2⟩ := ho
        subst h1
        exact ih 1 (by omega) h2 n
      | readLevel i =>
        simp only [orderly, Bool.and_eq_true, decide_eq_true_eq] at ho
        simp only [liveAfter]
        exact ih live hl ho.2 n

end ThreadEvent

namespace LSM

open ThreadEvent

theorem do_mergeEvents_good (s : LSM) (j : Bool) : Good j (s.do_mergeEvents j) := by
  unfold do_mergeEvents
  split
  · exact Good.nil j
  · split
    · exact Good.nil j
    · exact @Good.append j _ _ false true (Good.joined j) ⟨rfl, rfl⟩

theorem insert_keyEvents_good (s : LSM) (j : Bool) : Good j (s.insert_keyEvents j) := by
  unfold insert_keyEvents
  split
  · exact Good.nil j
  · split
    · exact do_mergeEvents_good _ j
    · exact Good.nil j

theorem lookupDiskEvents_reads (E : Env) (key : Int) : ∀ (levels : List DiskLevel) (i : Nat),
    ∀ ev ∈ lookupDiskEvents E key levels i, ∃ k, ev = readLevel k := by
  intro levels
  induction levels with
  | nil => intro i ev hev; simp [lookupDiskEvents] at hev
  | cons lvl rest ih =>
    intro i ev hev
    simp only [lookupDiskEvents] at hev
    rcases List.mem_cons.mp hev with h | h
    · exact ⟨i, h⟩
    · split at h
      · exact ih (i + 1) ev h
      · exact absurd h (by simp)

theorem lookupEvents_good (E : Env) (s : LSM) (j : Bool) (key value : Int) :
    Good j (s.lookupEvents E j key value) := by
  unfold lookupEvents
  split
  · exact Good.nil j
  · exact Good.nil j
  · exact (Good.joined j).append (Good.reads _ (lookupDiskEvents_reads E key _ 0))

theorem rangeDiskEvents_reads (key1 key2 : Int) : ∀ (levels : List DiskLevel) (ht : HashTable)
    (elts : List KVPair) (i : Nat),
    ∀ ev ∈ rangeDiskEvents key1 key2 levels ht elts i, ∃ k, ev = readLevel k := by
  intro levels
  induction levels with
  | nil => intro ht elts i ev hev; simp [rangeDiskEvents] at hev
  | cons lvl rest ih =>
    intro ht elts i ev hev
    simp only [rangeDiskEvents] at hev
    rcases List.mem_cons.mp hev with h | h
    · exact ⟨i, h⟩
    · split at h
      · exact absurd h (by simp)
      · exact ih _ _ (i + 1) ev h

theorem rangeEvents_good (s : LSM) (j : Bool) (key1 key2 : Int) :
    Good j (s.rangeEvents j key1 key2) := by
  unfold rangeEvents
  split
  · exact Good.nil j
  · split
    · exact Good.nil j
    · exact (Good.joined j).append (Good.reads _ (rangeDiskEvents_reads key1 key2 _ _ _ 0))

theorem range_reads (n : Nat) : ∀ ev ∈ (List.range n).map readLevel, ∃ k, ev = readLevel k := by
  intro ev hev
  obtain ⟨k, -, rfl⟩ := List.mem_map.mp hev
  exact ⟨k, rfl⟩

theorem printEltsEvents_good (s : LSM) (j : Bool) : Good j (s.printEltsEvents j) := by
  unfold printEltsEvents
  exact (Good.joined j).append (Good.reads _ (range_reads _))

/-- After `size()` has returned, `mergeThread` is not joinable. -/
theorem rangeEvents_joined (s : LSM) (j : Bool) (key1 key2 : Int) (hk : key1 < key2)
    (h : (s.range key1 key2).isSome = true) : (s.rangeEvents j key1 key2).2 = false := by
  unfold rangeEvents
  unfold range at h
  rw [if_neg (by omega)] at h ⊢
  split
  · rename_i hb
    rw [hb] at h
    exact absurd h (by simp)
  · rfl

theorem printStatsEvents_good (s : LSM) (j : Bool) : Good j (s.printStatsEvents j) := by
  unfold printStatsEvents
  split
  · exact rangeEvents_good s j INT_MIN INT_MAX
  · rename_i res hres
    have hj := rangeEvents_joined s j INT_MIN INT_MAX (by decide) (by rw [hres]; rfl)
    have h1 : Good j ((s.rangeEvents j INT_MIN INT_MAX).1, false) := by
      have := rangeEvents_good s j INT_MIN INT_MAX
      rw [← hj]
      exact this
    rw [hj]
    exact ((h1.append (Good.joined false)).append (Good.reads _ (range_reads _))).append
      (printEltsEvents_good s false)

end LSM

namespace Op

open ThreadEvent

theorem step_good (E : Env) (s : LSM) (j : Bool) (op : Op) : Good j (step E s j op).1 := by
  cases op with
  | insert_key key value insertLevel => exact LSM.insert_keyEvents_good s j
  | delete_key key insertLevel => exact LSM.insert_keyEvents_good s j
  | lookup key value => exact LSM.lookupEvents_good E s j key value
  | range key1 key2 => exact LSM.rangeEvents_good s j key1 key2
  | num_buffer => exact Good.joined j
  | size => exact LSM.rangeEvents_good s j INT_MIN INT_MAX
  | printElts => exact LSM.printEltsEvents_good s j
  | printStats => exact LSM.printStatsEvents_good s j

/-- The events of a sequence of calls keep the discipline. -/
theorem events_orderly (E : Env) : ∀ (ops : List Op) (s : LSM) (j : Bool),
    orderly (ofJoinable j) (events E s j ops) = true := by
  intro ops
  induction ops with
  | nil => intro s j; rfl
  | cons op rest ih =>
    intro s j
    obtain ⟨h1, h2⟩ := step_good E s j op
    simp only [events, orderly_append, h1, h2, Bool.true_and]
    split
    · rfl
    · exact ih _ _

/-- Claim C21 (merge thread). The calling thread makes any sequence of calls
of `insert_key`, `delete_key`, `lookup`, `range`, `num_buffer`, `size`,
`printElts` and `printStats` on a store whose `mergeThread` is not joinable, as
the constructor leaves it. At every position of the events of these calls at
most one merge thread is started and not joined; `do_merge` starts a thread
only when none is live, having joined the one before; a join finds the one
live thread; and a disk level is read only when no merge thread is live, the
thread started last having been joined. -/
theorem merge_thread_joined_before_disk (E : Env) (s : LSM) (ops : List Op) (n : Nat) :
    liveAfter 0 ((events E s false ops).take n) ≤ 1 ∧
    ((events E s false ops)[n]? = some ThreadEvent.spawn →
      liveAfter 0 ((events E s false ops).take n) = 0) ∧
    ((events E s false ops)[n]? = some ThreadEvent.join →
      liveAfter 0 ((events E s false ops).take n) = 1) ∧
    ∀ i, (events E s false ops)[n]? = some (ThreadEvent.readLevel i) →
      liveAfter 0 ((events E s false ops).take n) = 0 :=
  orderly_spec (events E s false ops) 0 (by omega) (events_orderly E ops s false) n

end Op

namespace DiskRun

/-- The keys of a sorted bracket, by index. -/
theorem bracket_sorted (r : DiskRun) (offset n : Nat) (hhi : offset + n ≤ r.map.length)
    (hs : (r.bracket offset n).Pairwise (fun a b => a.key ≤ b.key)) :
    ∀ i j, offset ≤ i → i ≤ j → j < offset + n → keyAt r.map i ≤ keyAt r.map j := by
  intro i j hi hij hj
  rcases Nat.lt_or_ge i j with hlt | hge
  · unfold bracket at hs
    rw [List.pairwise_iff_getElem] at hs
    have hlen : ((r.map.drop offset).take n).length = n := by
      rw [List.length_take, List.length_drop]
      omega
    have := hs (i - offset) (j - offset) (by omega) (by omega) (by omega)
    simp only [List.getElem_take, List.getElem_drop] at this
    have e1 : keyAt r.map i = r.map[i].key := by
      simp [keyAt, List.getElem?_eq_getElem (show i < r.map.length by omega)]
    have e2 : keyAt r.map j = r.map[j].key := by
      simp [keyAt, List.getElem?_eq_getElem (show j < r.map.length by omega)]
    rw [e1, e2]
    have a1 : offset + (i - offset) = i := by omega
    have a2 : offset + (j - offset) = j := by omega
    simp only [a1, a2] at this
    exact this
  · have : i = j := by omega
    subst this
    exact le_refl _

/-- The loop of `binary_search` on a sorted bracket `[lo, hi)` that ends within
the first `2 ^ 63` pairs of the file, for a key not below the first key of
the bracket: every round has `lo ≤ min ≤ max < hi`, a round that lowers `max`
reads an index above `lo`, and the loop returns the index of the key or the
place where the keys of the bracket start to exceed it. -/
theorem binarySearchLoop_sorted (map : List KVPair) (key : Int) (lo hi : Nat)
    (hhi : hi ≤ map.length) (hsmall : hi ≤ 2 ^ 63)
    (hmono : ∀ i j, lo ≤ i → i ≤ j → j < hi → keyAt map i ≤ keyAt map j)
    (hkey : keyAt map lo ≤ key) :
    ∀ (fuel min max : Nat) (found : Bool), lo ≤ min → min ≤ max + 1 → max < hi →
      max + 2 ≤ min + fuel →
      (∀ i, lo ≤ i → i < min → keyAt map i < key) →
      (∀ i, max < i → i < hi → key < keyAt map i) →
      (∀ ab ∈ binarySearchRounds map key fuel min max,
        lo ≤ ab.1 ∧ ab.1 ≤ ab.2 ∧ ab.2 < hi ∧
          (key < keyAt map ((ab.1 + ab.2) / 2) → lo < (ab.1 + ab.2) / 2)) ∧
      ∃ idx f, binarySearchLoop map key fuel min max found = some (idx, f) ∧ lo ≤ idx ∧ idx ≤ hi ∧
        ((f = true ∧ idx < hi ∧ keyAt map idx = key) ∨
          (f = found ∧ (∀ i, lo ≤ i → i < idx → keyAt map i < key) ∧
            ∀ i, idx ≤ i → i < hi → key < keyAt map i)) := by
  intro fuel
  induction fuel with
  | zero => intro min max found h1 h2 h3 h4; omega
  | succ n ih =>
    intro min max found h1 h2 h3 h4 hL hR
    simp only [binarySearchLoop, binarySearchRounds]
    by_cases hmm : min ≤ max
    · rw [if_pos hmm, if_pos hmm]
      have hmid : (min + max) % 2 ^ 64 / 2 = (min + max) / 2 := by
        rw [Nat.mod_eq_of_lt (by omega)]
      rw [hmid]
      have hm1 : min ≤ (min + max) / 2 := by omega
      have hm2 : (min + max) / 2 ≤ max := by omega
      obtain ⟨kv, hkv, hkk⟩ := getElem?_of_lt map ((min + max) / 2) (by omega)
      simp only [hkv]
      have hhead : lo ≤ min ∧ min ≤ max ∧ max < hi ∧
          (key < keyAt map ((min + max) / 2) → lo < (min + max) / 2) := by
        refine ⟨h1, hmm, h3, ?_⟩
        intro hlt
        by_contra hne
        have he : (min + max) / 2 = lo := by omega
        rw [he] at hlt
        omega
      by_cases hgt : key > kv.key
      · rw [if_pos hgt, if_pos hgt]
        have e : ((min + max) / 2 + 1) % 2 ^ 64 = (min + max) / 2 + 1 := by
          rw [Nat.mod_eq_of_lt (by omega)]
        rw [e]
        obtain ⟨r1, r2⟩ := ih ((min + max) / 2 + 1) max found (by omega) (by omega) h3 (by omega)
          (fun i hi1 hi2 => by
            have : keyAt map i ≤ keyAt map ((min + max) / 2) := hmono i _ hi1 (by omega) (by omega)
            rw [← hkk] at this
            omega) hR
        refine ⟨?_, r2⟩
        intro ab hab
        rcases List.mem_cons.mp hab with h | h
        · subst h
          exact hhead
        · exact r1 ab h
      · rw [if_neg hgt, if_neg hgt]
        by_cases heq : key = kv.key
        · rw [if_pos heq, if_pos heq]
          refine ⟨?_, _, true, rfl, by omega, by omega, Or.inl ⟨rfl, by omega, by rw [← hkk, heq]⟩⟩
          intro ab hab
          simp only [List.mem_singleton] at hab
          subst hab
          exact hhead
        · rw [if_neg heq, if_neg heq]
          have hlt : key < kv.key := by omega
          have hne : lo < (min + max) / 2 := hhead.2.2.2 (by rw [← hkk]; exact hlt)
          have e : ((min + max) / 2 + (2 ^ 64 - 1)) % 2 ^ 64 = (min + max) / 2 - 1 := by
            have h : (min + max) / 2 + (2 ^ 64 - 1) = ((min + max) / 2 - 1) + 2 ^ 64 := by omega
            rw [h, Nat.add_mod_right, Nat.mod_eq_of_lt (by omega)]
          rw [e]
          obtain ⟨r1, r2⟩ := ih min ((min + max) / 2 - 1) found h1 (by omega) (by omega) (by omega)
            hL (fun i hi1 hi2 => by
              have : keyAt map ((min + max) / 2) ≤ keyAt map i :=
                hmono _ i (by omega) (by omega) hi2
              rw [← hkk] at this
              omega)
          refine ⟨?_, r2⟩
          intro ab hab
          rcases List.mem_cons.mp hab with h | h
          · subst h
            exact hhead
          · exact r1 ab h
    · rw [if_neg hmm, if_neg hmm]
      refine ⟨fun ab hab => absurd hab (by simp), min, found, rfl, h1, by omega,
        Or.inr ⟨rfl, hL, ?_⟩⟩
      intro i hi1 hi2
      exact hR i (by omega) hi2

/-- Claim C31 (binary search stays inside its bracket). For a bracket
`[offset, offset + n)` of `n ≥ 1` pairs of the file, sorted by key, that ends
within the first `2 ^ 63` pairs (as every mapped file of eight-byte pairs
does), and a key not below the first key of the bracket: in every round of the
loop `offset ≤ min ≤ max < offset + n`, so the index `(min + max) >> 1` that
the round reads lies in the bracket and the sum does not overflow; a round
that sets `max = middle - 1` has `middle > offset`, so the bound does not wrap
below zero; and `binary_search` returns, after at most `n + 1` rounds, either
an index of the bracket that holds the key, with `found` set, or,
with `found` as it was, the index `idx` in `[offset, offset + n]` such that
the keys before `idx` are below the key and the keys from `idx` on exceed it:
the first index whose key exceeds the key, and `offset + n` when no key of the
bracket does. -/
theorem binary_search_stays_in_bracket (r : DiskRun) (key : Int) (offset n : Nat) (found : Bool)
    (hn : 1 ≤ n) (hhi : offset + n ≤ r.map.length) (hsmall : offset + n ≤ 2 ^ 63)
    (hsorted : (r.bracket offset n).Pairwise (fun a b => a.key ≤ b.key))
    (hkey : ∀ kv ∈ r.map[offset]?, kv.key ≤ key) :
    (∀ ab ∈ r.searchRounds offset n key,
      offset ≤ ab.1 ∧ ab.1 ≤ ab.2 ∧ ab.2 < offset + n ∧ ab.1 + ab.2 < 2 ^ 64 ∧
        offset ≤ (ab.1 + ab.2) / 2 ∧ (ab.1 + ab.2) / 2 < offset + n ∧
        (key < keyAt r.map ((ab.1 + ab.2) / 2) → 1 ≤ (ab.1 + ab.2) / 2 ∧
          offset ≤ (ab.1 + ab.2) / 2 - 1)) ∧
    r.searchRounds offset n key ≠ [] ∧
    ∃ idx f, r.binary_search offset n key found = some (idx, f) ∧ offset ≤ idx ∧
      idx ≤ offset + n ∧
      ((f = true ∧ idx < offset + n ∧ keyAt r.map idx = key) ∨
        (f = found ∧ (∀ i, offset ≤ i → i < idx → keyAt r.map i < key) ∧
          ∀ i, idx ≤ i → i < offset + n → key < keyAt r.map i)) := by
  have hmono := bracket_sorted r offset n hhi hsorted
  obtain ⟨kv0, hkv0, hk0⟩ := getElem?_of_lt r.map offset (by omega)
  have hkey2 : keyAt r.map offset ≤ key := by
    rw [← hk0]
    exact hkey kv0 (Option.mem_def.mpr hkv0)
  have e : (offset + n + (2 ^ 64 - 1)) % 2 ^ 64 = offset + n - 1 := by
    have h : offset + n + (2 ^ 64 - 1) = (offset + n - 1) + 2 ^ 64 := by omega
    rw [h, Nat.add_mod_right, Nat.mod_eq_of_lt (by omega)]
  obtain ⟨r1, r2⟩ := binarySearchLoop_sorted r.map key offset (offset + n) hhi hsmall hmono hkey2
    (n + 1) offset (offset + n - 1) found (le_refl _) (by omega) (by omega) (by omega)
    (fun i h1 h2 => by omega) (fun i h1 h2 => by omega)
  unfold searchRounds binary_search
  rw [if_neg (by omega), if_neg (by omega), e]
  refine ⟨?_, ?_, r2⟩
  · intro ab hab
    obtain ⟨a1, a2, a3, a4⟩ := r1 ab hab
    refine ⟨a1, a2, a3, by omega, by omega, by omega, fun h => ?_⟩
    have := a4 h
    omega
  · simp only [binarySearchRounds]
    rw [if_pos (by omega)]
    exact List.cons_ne_nil _ _

set_option maxRecDepth 100000 in
/-- Claim C31 on the run `[(1, 10), (3, 30), (5, 50)]`: the search for key `4`
in the whole run reads indices `1` and `2` and returns index `2` with `found`
as it was; the search for key `9` in the bracket of the first two pairs
returns `2`, the end of the bracket. -/
theorem binary_search_stays_in_bracket_witness :
    1 ≤ 3 ∧ 0 + 3 ≤ sampleRun.map.length ∧ 0 + 3 ≤ 2 ^ 63 ∧
      (sampleRun.bracket 0 3).Pairwise (fun a b => a.key ≤ b.key) ∧
      (∀ kv ∈ sampleRun.map[0]?, kv.key ≤ 4) ∧
      sampleRun.searchRounds 0 3 4 = [(0, 2), (2, 2)] ∧
      sampleRun.binary_search 0 3 4 false = some (2, false) ∧
      sampleRun.searchRounds 0 2 9 = [(0, 1), (1, 1)] ∧
      sampleRun.binary_search 0 2 9 false = some (2, false) ∧
      ((∀ ab ∈ sampleRun.searchRounds 0 3 4,
        0 ≤ ab.1 ∧ ab.1 ≤ ab.2 ∧ ab.2 < 0 + 3 ∧ ab.1 + ab.2 < 2 ^ 64 ∧
          0 ≤ (ab.1 + ab.2) / 2 ∧ (ab.1 + ab.2) / 2 < 0 + 3 ∧
          (4 < keyAt sampleRun.map ((ab.1 + ab.2) / 2) → 1 ≤ (ab.1 + ab.2) / 2 ∧
            0 ≤ (ab.1 + ab.2) / 2 - 1)) ∧
      sampleRun.searchRounds 0 3 4 ≠ [] ∧
      ∃ idx f, sampleRun.binary_search 0 3 4 false = some (idx, f) ∧ 0 ≤ idx ∧
        idx ≤ 0 + 3 ∧
        ((f = true ∧ idx < 0 + 3 ∧ keyAt sampleRun.map idx = 4) ∨
          (f = false ∧ (∀ i, 0 ≤ i → i < idx → keyAt sampleRun.map i < 4) ∧
            ∀ i, idx ≤ i → i < 0 + 3 → 4 < keyAt sampleRun.map i))) :=
  ⟨by decide, by decide, by decide, by unfold DiskRun.bracket; decide, by decide, by decide,
    by decide, by decide, by decide,
    binary_search_stays_in_bracket sampleRun 4 0 3 false (by decide) (by decide) (by decide)
      (by unfold DiskRun.bracket; decide) (by decide)⟩

end DiskRun

namespace SkipList

theorem rank_eq_length (key : Int) : ∀ nodes : List SkipList_Node,
    (∀ nd ∈ nodes, nd.key < key) → rank key nodes = nodes.length := by
  intro nodes
  induction nodes with
  | nil => intro _; rfl
  | cons a rest ih =>
    intro h
    simp only [rank, List.length_cons]
    rw [if_pos (h a (List.mem_cons_self _ _)), ih (fun nd hnd => h nd (List.mem_cons_of_mem _ hnd))]

theorem rank_of_keys (key : Int) : ∀ l1 l2 : List SkipList_Node,
    l1.map (fun nd => nd.key) = l2.map (fun nd => nd.key) → rank key l1 = rank key l2 := by
  intro l1
  induction l1 with
  | nil =>
    intro l2 h
    cases l2 with
    | nil => rfl
    | cons b r2 => simp at h
  | cons a r1 ih =>
    intro l2 h
    cases l2 with
    | nil => simp at h
    | cons b r2 =>
      simp only [List.map_cons, List.cons.injEq] at h
      simp only [rank, h.1, ih r2 h.2]

theorem keys_of_get_all (s1 s2 : SkipList) (h : s1.get_all = s2.get_all) :
    s1.nodes.map (fun nd => nd.key) = s2.nodes.map (fun nd => nd.key) := by
  have := congrArg (List.map (fun kv : KVPair => kv.key)) h
  simpa [get_all, List.map_map, Function.comp_def] using this

/-- The call `insert_key` with the key of the tail writes the value of the tail
and leaves the nodes as they are, whatever level is drawn. -/
theorem insert_key_at_tail (s : SkipList) (hwf : s.WF) (value lvl : Int) :
    s.insert_key s._maxKey value lvl =
      some { s.noteKey s._maxKey with tailValue := some value } := by
  unfold insert_key
  rw [findPred_rank s hwf s._maxKey (le_refl _), rank_eq_length s._maxKey s.nodes hwf.below]
  simp only [List.getElem?_eq_none (le_refl _), if_true]

/-- The fields of a list that `insert_key` leaves or sets, whatever it does to
the nodes. -/
theorem insert_key_fields (s s2 : SkipList) (key value lvl : Int)
    (h : s.insert_key key value lvl = some s2) :
    s2._maxKey = s._maxKey ∧ s2.min = (s.noteKey key).min ∧ s2.max = (s.noteKey key).max ∧
      (s2.tailValue = s.tailValue ∨ (key = s._maxKey ∧ s2.tailValue = some value)) := by
  unfold insert_key at h
  split at h
  · exact absurd h (by simp)
  · split at h
    · split at h
      · simp only [Option.some.injEq] at h
        subst h
        exact ⟨noteKey_maxKey s key, rfl, rfl, Or.inl (noteKey_tailValue s key)⟩
      · simp only [Option.some.injEq] at h
        subst h
        exact ⟨noteKey_maxKey s key, rfl, rfl, Or.inl (noteKey_tailValue s key)⟩
    · split at h
      · rename_i hk
        simp only [Option.some.injEq] at h
        subst h
        exact ⟨noteKey_maxKey s key, rfl, rfl, Or.inr ⟨hk.symm, rfl⟩⟩
      · simp only [Option.some.injEq] at h
        subst h
        exact ⟨noteKey_maxKey s key, rfl, rfl, Or.inl (noteKey_tailValue s key)⟩

/-- The member `insert_key` keeps the key of the tail inside `[min, max]` once
the tail holds a value. -/
theorem insert_key_tailOK (s s2 : SkipList) (key value lvl : Int) (hwf : s.WF) (ht : s.TailOK)
    (h : s.insert_key key value lvl = some s2) : s2.TailOK := by
  obtain ⟨f1, f2, f3, f4⟩ := insert_key_fields s s2 key value lvl h
  obtain ⟨b1, b2, -, b4, b5⟩ := noteKey_bracket s key hwf.bracket
  intro v hv
  rw [f1, f2, f3]
  rcases f4 with f | ⟨f, -⟩
  · rw [f] at hv
    obtain ⟨t1, t2⟩ := ht v hv
    exact ⟨le_trans b4 t1, le_trans t2 b5⟩
  · rw [← f]
    exact ⟨b1, b2⟩

/-- A sequence of `insert_key` calls that returns leaves a well-formed list
whose bracket holds the key of the tail once the tail holds a value. -/
theorem insertAll_bracket : ∀ (ops : List (Int × Int × Int)) (s s2 : SkipList), s.WF →
    s.TailOK → s.insertAll ops = some s2 → s2.WF ∧ s2.TailOK := by
  intro ops
  induction ops with
  | nil =>
    intro s s2 hwf ht h
    simp only [insertAll, Option.some.injEq] at h
    subst h
    exact ⟨hwf, ht⟩
  | cons op rest ih =>
    intro s s2 hwf ht h
    obtain ⟨k, v, l⟩ := op
    simp only [insertAll] at h
    split at h
    · exact absurd h (by simp)
    · rename_i s1 hs1
      exact ih s1 s2 (insert_key_spec s s1 k v l hwf hs1).1
        (insert_key_tailOK s s1 k v l hwf ht hs1) h

/-- A lookup that sets `found` has met the key in a node or in the tail. -/
theorem lookup_found (s : SkipList) (k v : Int) (h : s.lookup k false = some (v, true)) :
    s.Stores k v := by
  unfold lookup at h
  split at h
  · exact absurd h (by simp)
  · rename_i pos hpos
    split at h
    · rename_i nd hnd
      split at h
      · rename_i hk
        simp only [Option.some.injEq, Prod.mk.injEq, and_true] at h
        refine Or.inl ((mem_get_all s k v).mpr ⟨nd, List.getElem?_mem hnd, hk, h⟩)
      · simp at h
    · split at h
      · rename_i hk
        cases ht : s.tailValue with
        | none => rw [ht] at h; simp at h
        | some w =>
          rw [ht] at h
          simp only [Option.map_some', Option.some.injEq, Prod.mk.injEq, and_true] at h
          subst h
          exact Or.inr ⟨hk.symm, ht⟩
      · simp at h

/-- A stored key lies in the bracket `[min, max]` of a well-formed list. -/
theorem Stores.in_bracket {s : SkipList} {k v : Int} (hs : s.Stores k v) (hwf : s.WF)
    (ht : s.TailOK) : s.get_min ≤ k ∧ k ≤ s.get_max := by
  rcases hs with h | ⟨h1, h2⟩
  · obtain ⟨nd, hnd, g1, -⟩ := (mem_get_all s k v).mp h
    rw [← g1]
    exact hwf.within nd hnd
  · rw [h1]
    exact ht v (Option.mem_def.mpr h2)

/-- On well-formed lists with the same content `lookup` returns the same. -/
theorem SameContent.lookup_eq {s1 s2 : SkipList} (hc : s1.SameContent s2) (h1 : s1.WF)
    (h2 : s2.WF) (k : Int) (hk : k ≤ s1._maxKey) (found : Bool) :
    s1.lookup k found = s2.lookup k found := by
  obtain ⟨c1, c2, c3⟩ := hc
  unfold lookup
  rw [findPred_rank s1 h1 k hk, findPred_rank s2 h2 k (by rw [← c3]; exact hk),
    rank_of_keys k s1.nodes s2.nodes (keys_of_get_all s1 s2 c1)]
  simp only
  have hg : s1.nodes[rank k s2.nodes]?.map (fun nd => (⟨nd.key, nd.value⟩ : KVPair)) =
      s2.nodes[rank k s2.nodes]?.map (fun nd => (⟨nd.key, nd.value⟩ : KVPair)) := by
    have := congrArg (fun l : List KVPair => l[rank k s2.nodes]?) c1
    simpa [get_all, List.getElem?_map] using this
  cases ha : s1.nodes[rank k s2.nodes]? with
  | none =>
    rw [ha] at hg
    cases hb : s2.nodes[rank k s2.nodes]? with
    | none => simp only [c2, c3]
    | some b => rw [hb] at hg; simp at hg
  | some a =>
    rw [ha] at hg
    cases hb : s2.nodes[rank k s2.nodes]? with
    | none => rw [hb] at hg; simp at hg
    | some b =>
      rw [hb] at hg
      simp only [Option.map_some', Option.some.injEq, KVPair.mk.injEq] at hg
      simp only [hg.1, hg.2]

theorem map_filter_key (l : List SkipList_Node) (q : Int → Bool) :
    (l.filter (fun a => q a.key)).map (fun nd => (⟨nd.key, nd.value⟩ : KVPair)) =
      (l.map (fun nd => (⟨nd.key, nd.value⟩ : KVPair))).filter (fun kv => q kv.key) := by
  induction l with
  | nil => rfl
  | cons a rest ih =>
    simp only [List.filter_cons, List.map_cons]
    cases q a.key <;> simp [ih]

/-- The same call of `insert_key`, with any two drawn levels, on well-formed
lists with the same content: both calls return, and the lists still have the
same content. -/
theorem SameContent.insert_step {s1 s2 : SkipList} (hc : s1.SameContent s2) (h1 : s1.WF)
    (h2 : s2.WF) (k v l1 l2 : Int) (hk : k ≤ s1._maxKey) :
    ∃ t1 t2, s1.insert_key k v l1 = some t1 ∧ s2.insert_key k v l2 = some t2 ∧
      t1.SameContent t2 ∧ t1.WF ∧ t2.WF ∧ t1._maxKey = s1._maxKey := by
  obtain ⟨c1, c2, c3⟩ := hc
  rcases lt_or_eq_of_le hk with hlt | heq
  · obtain ⟨t1, n1, e1, a1, a2, a3, a4⟩ := insert_key_nodes s1 h1 k v l1 hlt
    obtain ⟨t2, n2, e2, b1, b2, b3, b4⟩ := insert_key_nodes s2 h2 k v l2 (by rw [← c3]; exact hlt)
    refine ⟨t1, t2, e1, e2, ⟨?_, ?_, by rw [a4, b4, c3]⟩, (insert_key_spec s1 t1 k v l1 h1 e1).1,
      (insert_key_spec s2 t2 k v l2 h2 e2).1, a4⟩
    · unfold get_all at c1 ⊢
      rw [a3, b3]
      simp only [List.map_append, List.map_cons, a1, a2, b1, b2]
      have f1 := map_filter_key s1.nodes (fun x => decide (x < k))
      have f2 := map_filter_key s2.nodes (fun x => decide (x < k))
      have g1 := map_filter_key s1.nodes (fun x => decide (k < x))
      have g2 := map_filter_key s2.nodes (fun x => decide (k < x))
      simp only at f1 f2 g1 g2
      rw [f1, f2, g1, g2, c1]
    · obtain ⟨-, -, -, f4⟩ := insert_key_fields s1 t1 k v l1 e1
      obtain ⟨-, -, -, g4⟩ := insert_key_fields s2 t2 k v l2 e2
      rcases f4 with f | ⟨f, -⟩
      · rcases g4 with g | ⟨g, -⟩
        · rw [f, g, c2]
        · omega
      · omega
  · subst heq
    have e1 := insert_key_at_tail s1 h1 v l1
    have e2 := insert_key_at_tail s2 h2 v l2
    rw [← c3] at e2
    refine ⟨_, _, e1, e2, ⟨?_, rfl, ?_⟩, (insert_key_spec s1 _ _ v l1 h1 e1).1,
      (insert_key_spec s2 _ _ v l2 h2 e2).1, noteKey_maxKey s1 _⟩
    · simp only [get_all, noteKey_nodes]
      exact c1
    · simp only [noteKey_maxKey]
      exact c3

/-- Two runs of a sequence of `insert_key` calls that differ in the drawn
levels only, from well-formed lists with the same content: both return, with
lists of the same content. -/
theorem SameContent.insert_seq : ∀ (ops1 ops2 : List (Int × Int × Int)) (s1 s2 : SkipList),
    ops1.map (fun op => (op.1, op.2.1)) = ops2.map (fun op => (op.1, op.2.1)) →
    (∀ op ∈ ops1, op.1 ≤ s1._maxKey) → s1.SameContent s2 → s1.WF → s2.WF →
    ∃ t1 t2, s1.insertAll ops1 = some t1 ∧ s2.insertAll ops2 = some t2 ∧
      t1.SameContent t2 ∧ t1.WF ∧ t2.WF ∧ t1._maxKey = s1._maxKey := by
  intro ops1
  induction ops1 with
  | nil =>
    intro ops2 s1 s2 hsame _ hc h1 h2
    cases ops2 with
    | nil => exact ⟨s1, s2, rfl, rfl, hc, h1, h2, rfl⟩
    | cons b r2 => simp at hsame
  | cons a r1 ih =>
    intro ops2 s1 s2 hsame hkeys hc h1 h2
    cases ops2 with
    | nil => simp at hsame
    | cons b r2 =>
      obtain ⟨k, v, l1⟩ := a
      obtain ⟨k2, v2, l2⟩ := b
      simp only [List.map_cons, List.cons.injEq, Prod.mk.injEq] at hsame
      obtain ⟨⟨rfl, rfl⟩, hrest⟩ := hsame
      obtain ⟨u1, u2, e1, e2, hc1, w1, w2, hm⟩ := hc.insert_step h1 h2 k v l1 l2
        (hkeys (k, v, l1) (List.mem_cons_self _ _))
      obtain ⟨t1, t2, r1a, r2a, r3, r4, r5, r6⟩ := ih r2 u1 u2 hrest
        (fun op hop => by rw [hm]; exact hkeys op (List.mem_cons_of_mem _ hop)) hc1 w1 w2
      exact ⟨t1, t2, by simp only [SkipList.insertAll, e1]; exact r1a,
        by simp only [SkipList.insertAll, e2]; exact r2a, r3, r4, r5, by rw [r6, hm]⟩

end SkipList
namespace LSM

theorem newRun_tailOK (e : Nat) : (newRun e).TailOK := by
  intro v hv
  simp [newRun, SkipList.new, SkipList.set_size] at hv

/-- The member `insert_key` of the store keeps, in every in-memory run, the
key of the tail inside `[min, max]` once the tail holds a value. -/
theorem store_insert_tailOK (E : Env) (s s2 : LSM) (key value lvl : Int) (hok : s.BufOK)
    (ht : ∀ run ∈ s.C_0, run.TailOK) (h : s.insert_key E key value lvl = some s2) :
    ∀ run ∈ s2.C_0, run.TailOK := by
  unfold insert_key at h
  split at h
  · exact absurd h (by simp)
  · rename_i s0 hs0
    have hc0 := advanceRun_C_0 s s0 hs0
    have hok0 : s0.BufOK := by
      intro run hrun; rw [hc0] at hrun; exact hok run hrun
    have ht0 : ∀ run ∈ s0.C_0, run.TailOK := by
      intro run hrun; rw [hc0] at hrun; exact ht run hrun
    split at h
    · exact absurd h (by simp)
    · rename_i s1 hs1
      have hok1 : s1.BufOK := by
        split at hs1
        · exact do_merge_BufOK E s0 s1 hok0 hs1
        · simp only [Option.some.injEq] at hs1; subst hs1; exact hok0
      have ht1 : ∀ run ∈ s1.C_0, run.TailOK := by
        split at hs1
        · unfold do_merge at hs1
          split at hs1
          · simp only [Option.some.injEq] at hs1; subst hs1; exact ht0
          · split at hs1
            · exact absurd hs1 (by simp)
            · split at hs1
              · exact absurd hs1 (by simp)
              · rename_i sm hsm
                obtain ⟨c1, -, -, -, -, -⟩ := merge_runs_sameBuffer E _ _ _ hsm
                simp only [Option.some.injEq] at hs1
                subst hs1
                intro run hrun
                simp only at hrun
                rcases List.mem_append.mp hrun with h1 | h1
                · exact ht0 run (by rw [← c1]; exact List.mem_of_mem_drop h1)
                · rw [List.eq_of_mem_replicate h1]
                  exact newRun_tailOK _
        · simp only [Option.some.injEq] at hs1; subst hs1; exact ht0
      unfold putActive at h
      split at h
      · rename_i run bf hrun hbf
        split at h
        · rename_i run1 bf1 hrun1 hbf1
          simp only [Option.some.injEq] at h
          subst h
          intro x hx
          simp only at hx
          rcases List.mem_or_eq_of_mem_set hx with h1 | h1
          · exact ht1 x h1
          · subst h1
            exact SkipList.insert_key_tailOK run _ key value lvl
              (hok1 run (List.getElem?_mem hrun)) (ht1 run (List.getElem?_mem hrun)) hrun1
        · exact absurd h (by simp)
      · exact absurd h (by simp)

/-- The in-memory runs of a store made by the constructor and a sequence of
`insert_key` calls are well formed, and their brackets hold the key of the
tail once the tail holds a value. -/
theorem insertAll_tailOK (E : Env) : ∀ (ops : List (Int × Int × Int)) (s s2 : LSM), s.BufOK →
    (∀ run ∈ s.C_0, run.TailOK) → s.insertAll E ops = some s2 →
    s2.BufOK ∧ ∀ run ∈ s2.C_0, run.TailOK := by
  intro ops
  induction ops with
  | nil =>
    intro s s2 hok ht h
    simp only [LSM.insertAll, Option.some.injEq] at h
    subst h
    exact ⟨hok, ht⟩
  | cons op rest ih =>
    intro s s2 hok ht h
    obtain ⟨k, v, l⟩ := op
    simp only [LSM.insertAll] at h
    split at h
    · exact absurd h (by simp)
    · rename_i s1 hs1
      exact ih s1 s2 (insert_key_lookup E s s1 k v l hok hs1 0).1
        (store_insert_tailOK E s s1 k v l hok ht hs1) h

theorem new_tailOK (E : Env) (e r m ps d md : Nat) (s : LSM)
    (h : LSM.new E e r m ps d md = some s) : ∀ run ∈ s.C_0, run.TailOK := by
  unfold LSM.new at h
  split at h
  · exact absurd h (by simp)
  · simp only [Option.some.injEq] at h
    subst h
    intro run hrun
    rw [List.eq_of_mem_replicate hrun]
    exact newRun_tailOK e

end LSM

namespace SkipList

/-- Claim C32 (contents do not depend on the drawn levels). Two runs of the
same sequence of `insert_key` calls on a new list, with the same keys, all at
most the key of the tail, and the same values, and any two sequences of values
of `generateNodeLevel()`: both runs return, so that no call follows the null
pointer of the tail; the two lists have the same `get_all()` and the same
`num_elements()`; `lookup` returns the same for every key up to the key of the
tail; and the walk of `lookup` and `insert_key` over the levels ends at a
node for every such key, in both lists. -/
theorem skipList_content_free_of_levels (lo hi : Int) (ops1 ops2 : List (Int × Int × Int))
    (hsame : ops1.map (fun op => (op.1, op.2.1)) = ops2.map (fun op => (op.1, op.2.1)))
    (hkeys : ∀ op ∈ ops1, op.1 ≤ hi) :
    ∃ s1 s2, (SkipList.new lo hi).insertAll ops1 = some s1 ∧
      (SkipList.new lo hi).insertAll ops2 = some s2 ∧
      s1.get_all = s2.get_all ∧ s1.num_elements = s2.num_elements ∧
      (∀ k found, k ≤ hi → s1.lookup k found = s2.lookup k found) ∧
      ∀ k, k ≤ hi →
        (findPred k s1._maxKey s1.nodes s1.cur_max_level 0).isSome = true ∧
          (findPred k s2._maxKey s2.nodes s2.cur_max_level 0).isSome = true := by
  obtain ⟨s1, s2, e1, e2, hc, w1, w2, hm⟩ := SameContent.insert_seq ops1 ops2
    (SkipList.new lo hi) (SkipList.new lo hi) hsame hkeys ⟨rfl, rfl, rfl⟩ (new_WF lo hi)
    (new_WF lo hi)
  have hm1 : s1._maxKey = hi := hm
  have hm2 : s2._maxKey = hi := by rw [← hc.2.2, hm1]
  refine ⟨s1, s2, e1, e2, hc.1, ?_, ?_, ?_⟩
  · have l1 : s1.get_all.length = s1.nodes.length := by simp [get_all]
    have l2 : s2.get_all.length = s2.nodes.length := by simp [get_all]
    show s1._n = s2._n
    rw [w1.count, w2.count, ← l1, ← l2, hc.1]
  · intro k found hk
    exact hc.lookup_eq w1 w2 k (by rw [hm1]; exact hk) found
  · intro k hk
    rw [findPred_rank s1 w1 k (by rw [hm1]; exact hk),
      findPred_rank s2 w2 k (by rw [hm2]; exact hk)]
    exact ⟨rfl, rfl⟩

set_option maxRecDepth 100000 in
/-- Claim C32 at the calls `(3, 30)`, `(1, 10)`, `(3, 31)`, `(INT_MAX, 7)` with
the drawn levels `0, 2, 5, 1` and `4, 1, 0, 9`: the nodes of the two lists
differ in their heights, and both lists hold `(1, 10), (3, 31)` and the value
`7` in the tail. -/
theorem skipList_content_free_of_levels_witness :
    [((3 : Int), (30 : Int), (0 : Int)), (1, 10, 2), (3, 31, 5), (INT_MAX, 7, 1)].map
        (fun op => (op.1, op.2.1)) =
      [((3 : Int), (30 : Int), (4 : Int)), (1, 10, 1), (3, 31, 0), (INT_MAX, 7, 9)].map
        (fun op => (op.1, op.2.1)) ∧
    (∀ op ∈ [((3 : Int), (30 : Int), (0 : Int)), (1, 10, 2), (3, 31, 5), (INT_MAX, 7, 1)],
      op.1 ≤ INT_MAX) ∧
    ((SkipList.new INT_MIN INT_MAX).insertAll [(3, 30, 0), (1, 10, 2), (3, 31, 5), (INT_MAX, 7, 1)]).map
        (fun s => (s.get_all, s.nodes.map (fun nd => nd.top), s.lookup INT_MAX false))
      = some ([⟨1, 10⟩, ⟨3, 31⟩], [2, 1], some (7, true)) ∧
    ((SkipList.new INT_MIN INT_MAX).insertAll [(3, 30, 4), (1, 10, 1), (3, 31, 0), (INT_MAX, 7, 9)]).map
        (fun s => (s.get_all, s.nodes.map (fun nd => nd.top), s.lookup INT_MAX false))
      = some ([⟨1, 10⟩, ⟨3, 31⟩], [4, 4], some (7, true)) ∧
    ∃ s1 s2, (SkipList.new INT_MIN INT_MAX).insertAll
          [(3, 30, 0), (1, 10, 2), (3, 31, 5), (INT_MAX, 7, 1)] = some s1 ∧
      (SkipList.new INT_MIN INT_MAX).insertAll
          [(3, 30, 4), (1, 10, 1), (3, 31, 0), (INT_MAX, 7, 9)] = some s2 ∧
      s1.get_all = s2.get_all ∧ s1.num_elements = s2.num_elements ∧
      (∀ k found, k ≤ INT_MAX → s1.lookup k found = s2.lookup k found) ∧
      ∀ k, k ≤ INT_MAX →
        (findPred k s1._maxKey s1.nodes s1.cur_max_level 0).isSome = true ∧
          (findPred k s2._maxKey s2.nodes s2.cur_max_level 0).isSome = true :=
  ⟨by decide, by decide, by decide, by decide,
    skipList_content_free_of_levels INT_MIN INT_MAX
      [(3, 30, 0), (1, 10, 2), (3, 31, 5), (INT_MAX, 7, 1)]
      [(3, 30, 4), (1, 10, 1), (3, 31, 0), (INT_MAX, 7, 9)] (by decide) (by decide)⟩

/-- Claim C33 (the bracket never hides a stored key). After every sequence of
`insert_key` calls on a new skip list that returns, every key stored in a
node or in the tail, and so every key that `lookup` finds, lies between
`get_min()` and `get_max()`. In a store made by the constructor and any
sequence of `insert_key` and `delete_key` calls that returns, the test
`key < get_min() || key > get_max()` of `LSM::lookup` is false for every
in-memory run and every key that the `lookup` of the run finds. -/
theorem bracket_never_hides_key (E : Env) (lo hi : Int) (ops : List (Int × Int × Int))
    (run : SkipList) (hrun : (SkipList.new lo hi).insertAll ops = some run)
    (e r m ps d md : Nat) (calls : List (Int × Int × Int)) (st0 st : LSM)
    (hnew : LSM.new E e r m ps d md = some st0) (hst : st0.insertAll E calls = some st) :
    (∀ k v, run.Stores k v → run.get_min ≤ k ∧ k ≤ run.get_max) ∧
    (∀ k v, run.lookup k false = some (v, true) → run.get_min ≤ k ∧ k ≤ run.get_max) ∧
    ∀ c ∈ st.C_0, ∀ k v, c.lookup k false = some (v, true) →
      ¬ (k < c.get_min ∨ k > c.get_max) := by
  have hnewT : (SkipList.new lo hi).TailOK := by
    intro v hv
    simp [SkipList.new] at hv
  obtain ⟨w1, t1⟩ := insertAll_bracket ops _ run (new_WF lo hi) hnewT hrun
  obtain ⟨w2, t2⟩ := LSM.insertAll_tailOK E calls st0 st (LSM.new_BufOK E e r m ps d md st0 hnew)
    (LSM.new_tailOK E e r m ps d md st0 hnew) hst
  refine ⟨fun k v hs => hs.in_bracket w1 t1, fun k v hl => (lookup_found run k v hl).in_bracket w1 t1, ?_⟩
  intro c hc k v hl
  have := (lookup_found c k v hl).in_bracket (w2 c hc) (t2 c hc)
  omega

set_option maxRecDepth 100000 in
/-- Claim C33 at the list after `insert_key(5, 1)`, `insert_key(INT_MAX, 7)`,
whose bracket is `[0, INT_MAX]`, and at the store of two in-memory runs of one
pair after `insert(5, 1)` and `insert(-5, 2)`, whose runs have the brackets
`[0, 5]` and `[-5, 0]`. -/
theorem bracket_never_hides_key_witness :
    ∃ (run : SkipList) (st0 st : LSM),
      (SkipList.new INT_MIN INT_MAX).insertAll [(5, 1, 0), (INT_MAX, 7, 0)] = some run ∧
      LSM.new sampleEnv 1 2 2 1 2 2 = some st0 ∧
      st0.insertAll sampleEnv [(5, 1, 0), (-5, 2, 0)] = some st ∧
      (run.get_all, run.tailValue, run.get_min, run.get_max) = ([⟨5, 1⟩], some 7, 0, INT_MAX) ∧
      st.C_0.map (fun c => (c.get_all, c.get_min, c.get_max)) =
        [([⟨5, 1⟩], 0, 5), ([⟨-5, 2⟩], -5, 0)] ∧
      ((∀ k v, run.Stores k v → run.get_min ≤ k ∧ k ≤ run.get_max) ∧
      (∀ k v, run.lookup k false = some (v, true) → run.get_min ≤ k ∧ k ≤ run.get_max) ∧
      ∀ c ∈ st.C_0, ∀ k v, c.lookup k false = some (v, true) →
        ¬ (k < c.get_min ∨ k > c.get_max)) :=
  ⟨((SkipList.new INT_MIN INT_MAX).insertAll [(5, 1, 0), (INT_MAX, 7, 0)]).get (by decide),
    (LSM.new sampleEnv 1 2 2 1 2 2).get (by decide),
    (((LSM.new sampleEnv 1 2 2 1 2 2).get (by decide)).insertAll sampleEnv
      [(5, 1, 0), (-5, 2, 0)]).get (by decide),
    (Option.some_get _).symm, (Option.some_get _).symm, (Option.some_get _).symm, by decide,
    by decide,
    bracket_never_hides_key sampleEnv INT_MIN INT_MAX [(5, 1, 0), (INT_MAX, 7, 0)] _
      (Option.some_get _).symm 1 2 2 1 2 2 [(5, 1, 0), (-5, 2, 0)] _ _ (Option.some_get _).symm
      (Option.some_get _).symm⟩

end SkipList

/-! ## Stores whose drained runs share a key -/

set_option maxRecDepth 100000 in
/-- Claim C1, evaluated on the code: after `insert(1, 10)`, `insert(1, 20)`,
`insert(2, 5)` the two in-memory runs holding key `1` are drained together, and
`lookup(1)` returns true with the overwritten value `10`, not `20`. -/
theorem lookup_stale_after_joint_drain :
    (sampleStore.bind (fun s => s.insertAll sampleEnv [(1, 10, 0), (1, 20, 0), (2, 5, 0)])).bind
      (fun s => s.lookup sampleEnv 1 0) = some (true, 10) := by
  decide

set_option maxRecDepth 100000 in
/-- Claim C3, evaluated on the code: after `insert(1, 10)`, `delete(1)`,
`insert(2, 5)` the tombstone and the older pair are drained together, and
`lookup(1)` returns true with value `10` although the key was deleted last. -/
theorem lookup_finds_deleted_key :
    (sampleStore.bind (fun s =>
        (s.insert_key sampleEnv 1 10 0).bind (fun s1 =>
          (s1.delete_key sampleEnv 1 0).bind (fun s2 => s2.insert_key sampleEnv 2 5 0)))).bind
      (fun s => s.lookup sampleEnv 1 0) = some (true, 10) := by
  decide

set_option maxRecDepth 100000 in
/-- Claim C4, evaluated on the code: after `insert(1, 10)`, `insert(1, 20)`,
`insert(2, 5)` the call `range(1, 3)` returns the pair `(1, 10)`, whose value
is not the one written last for key `1`. -/
theorem range_stale_after_joint_drain :
    (sampleStore.bind (fun s => s.insertAll sampleEnv [(1, 10, 0), (1, 20, 0), (2, 5, 0)])).bind
      (fun s => s.range 1 3) = some [⟨2, 5⟩, ⟨1, 10⟩] := by
  decide

set_option maxRecDepth 100000 in
/-- Claim C6, evaluated on the code: after `insert(1, 10)`, `insert(1, 20)`,
`insert(2, 5)` the run that `merge_runs` installs at disk level 0 holds key `1` twice. -/
theorem drained_run_holds_key_twice :
    (sampleStore.bind (fun s => s.insertAll sampleEnv [(1, 10, 0), (1, 20, 0), (2, 5, 0)])).map
      LSM.diskContents = some [[[⟨1, 20⟩, ⟨1, 10⟩]]] := by
  decide

/-! ## Tombstones at the terminal level -/

set_option maxRecDepth 100000 in
/-- Claim C5, evaluated on the code: merging the single sorted source
`[(1, tombstone), (2, 5)]` into a fresh level with `lastLevel = true` leaves
the pair `(1, tombstone)` in the run written. -/
theorem addRuns_terminal_keeps_inner_tombstone :
    ((DiskRun.ofPairs sampleEnv [⟨1, V_TOMBSTONE⟩, ⟨2, 5⟩] 1 1 0).bind (fun src =>
        (DiskLevel.new sampleEnv 1 2 2 2 2).bind (fun lvl =>
          lvl.addRuns sampleEnv [src] 2 true))).map
      (fun l => (l.runs.take l._activeRun).map DiskRun.entries)
      = some [[⟨1, V_TOMBSTONE⟩, ⟨2, 5⟩]] := by
  decide

/-! ## The bounds `min` and `max` of a skip list -/

set_option maxRecDepth 100000 in
/-- Claim C20, evaluated on the code: after the single call `insert_key(5, 1)`
on a new skip list `get_min()` returns `0`, not `5`; after the single call
`insert_key(-5, 1)` `get_max()` returns `0`, not `-5`. Both members start as
`(K) NULL` and only a key beyond them moves them. -/
theorem get_min_starts_at_zero :
    ((SkipList.new INT_MIN INT_MAX).insert_key 5 1 0).map (fun s => (s.get_min, s.get_max))
        = some (0, 5) ∧
      ((SkipList.new INT_MIN INT_MAX).insert_key (-5) 1 0).map (fun s => (s.get_min, s.get_max))
        = some (-5, 0) := by
  decide

/-! ## A slot that was written before, and a run left empty -/

set_option maxRecDepth 100000 in
/-- Claim C29, evaluated on the code: the source `[(1, 10), (2, 20)]` is merged
with `lastLevel = true` into a slot of two pairs. Into a fresh slot the merge
writes both pairs. When the file of the slot holds `[(5, tombstone), (0, 0)]`,
what a terminal merge of the single pair `(5, tombstone)` leaves behind, the
test inside the loop reads the old `map[0]` after `++j`, steps `j` back to
`-1`, and the pair `(1, 10)` is stored at `map[-1]`: `addRuns` does not return.
When the file holds `[(0, 0), (9, tombstone)]` the pair `(2, 20)` is written
over `(1, 10)` and the run written is `[(2, 20)]`. -/
theorem addRuns_terminal_loses_pair_on_leftover :
    ((DiskRun.ofPairs sampleEnv [⟨1, 10⟩, ⟨2, 20⟩] 1 1 0).bind (fun src =>
        (DiskLevel.withLeftover [⟨0, 0⟩, ⟨0, 0⟩]).bind (fun lvl =>
          lvl.addRuns sampleEnv [src] 2 true))).map
      (fun l => (l.runs.take l._activeRun).map DiskRun.entries)
      = some [[⟨1, 10⟩, ⟨2, 20⟩]] ∧
    (DiskLevel.withLeftover [⟨0, 0⟩, ⟨0, 0⟩] = DiskLevel.new sampleEnv 1 2 2 1 1) ∧
    DiskLevel.emitPair true
        (⟨[⟨5, V_TOMBSTONE⟩, ⟨0, 0⟩], -1, INT_MAX, toUnsigned INT_MIN⟩ : DiskLevel.EmitState)
        (⟨1, 10⟩, 0) = none ∧
    (DiskRun.ofPairs sampleEnv [⟨1, 10⟩, ⟨2, 20⟩] 1 1 0).bind (fun src =>
        (DiskLevel.withLeftover [⟨5, V_TOMBSTONE⟩, ⟨0, 0⟩]).bind (fun lvl =>
          lvl.addRuns sampleEnv [src] 2 true)) = none ∧
    ((DiskRun.ofPairs sampleEnv [⟨1, 10⟩, ⟨2, 20⟩] 1 1 0).bind (fun src =>
        (DiskLevel.withLeftover [⟨0, 0⟩, ⟨9, V_TOMBSTONE⟩]).bind (fun lvl =>
          lvl.addRuns sampleEnv [src] 2 true))).map
      (fun l => (l.runs.take l._activeRun).map DiskRun.entries)
      = some [[⟨2, 20⟩]] := by
  decide

set_option maxRecDepth 100000 in
/-- Claim C30, evaluated on the code: the single source `[(5, tombstone)]` is
merged into a fresh level of one slot for a run of one pair. With
`lastLevel = false` the run written is `[(5, tombstone)]`. With
`lastLevel = true` the loop leaves `j = 0` and `map[0] = (5, tombstone)`, the
test after the loop makes the capacity `0`, and `constructIndex` reads
`map[_capacity - 1]`, index `2 ^ 64 - 1` of a file of one pair: neither
`constructIndex` nor `addRuns` returns. -/
theorem addRuns_indexes_outside_empty_run :
    ((DiskRun.ofPairs sampleEnv [⟨5, V_TOMBSTONE⟩] 1 1 0).bind (fun src =>
        (DiskLevel.new sampleEnv 1 2 1 1 1).bind (fun lvl =>
          lvl.addRuns sampleEnv [src] 1 false))).map
      (fun l => (l.runs.take l._activeRun).map DiskRun.entries)
      = some [[⟨5, V_TOMBSTONE⟩]] ∧
    DiskLevel.emitPair true
        (⟨[⟨0, 0⟩], -1, INT_MAX, toUnsigned INT_MIN⟩ : DiskLevel.EmitState) (⟨5, V_TOMBSTONE⟩, 0)
      = some (⟨[⟨5, V_TOMBSTONE⟩], 0, 5, 0⟩ : DiskLevel.EmitState) ∧
    ((DiskRun.new sampleEnv 1 1 2 0).map (fun dst =>
        ({ dst with map := [⟨5, V_TOMBSTONE⟩], _capacity := 0 } : DiskRun))).map
      (fun r => (r.map.length, (r._capacity + (2 ^ 64 - 1)) % 2 ^ 64,
        (r.constructIndex sampleEnv).isSome))
      = some (1, 2 ^ 64 - 1, false) ∧
    (DiskRun.ofPairs sampleEnv [⟨5, V_TOMBSTONE⟩] 1 1 0).bind (fun src =>
        (DiskLevel.new sampleEnv 1 2 1 1 1).bind (fun lvl =>
          lvl.addRuns sampleEnv [src] 1 true)) = none := by
  decide

/-! ## The events of a sequence of calls -/

set_option maxRecDepth 100000 in
/-- The events of ten calls on the store of two in-memory runs of one pair:
the third insert starts the first merge thread, the lookup of an absent key
joins it and reads level 0, the fifth insert starts the next thread, the
seventh joins it and starts a third, and `range` joins that one before it
reads the two levels; `printStats` then finds no thread to join. -/
theorem events_of_sample_calls :
    sampleStore.map (fun s => Op.events sampleEnv s false
      [Op.insert_key 1 1 0, Op.insert_key 2 2 0, Op.insert_key 3 3 0, Op.lookup 9 0,
        Op.insert_key 4 4 0, Op.insert_key 5 5 0, Op.insert_key 6 6 0, Op.delete_key 7 0,
        Op.range 0 10, Op.printStats])
      = some [ThreadEvent.spawn, ThreadEvent.join, ThreadEvent.readLevel 0, ThreadEvent.spawn,
        ThreadEvent.join, ThreadEvent.spawn, ThreadEvent.join, ThreadEvent.readLevel 0,
        ThreadEvent.readLevel 1, ThreadEvent.readLevel 0, ThreadEvent.readLevel 1,
        ThreadEvent.readLevel 0, ThreadEvent.readLevel 1, ThreadEvent.readLevel 0,
        ThreadEvent.readLevel 1] := by
  decide

end SLSM
